import Mathlib

/-!
PupilDetectionMethod: coarse pupil localisation and confidence estimators

A shallow embedding of `src/pupil-detection-methods/PupilDetectionMethod.cpp`.

Conventions of the embedding:

* C `int` values are `Int`.  Where a 32-bit `int` of the source can overflow (the counts
  and sums of the scan), the wrapped value is given by the definitions ending in `32` and
  the theorems state the range in which both agree.
* C `float` / `double` values are rationals, or `FVal`: rationals extended with the IEEE
  special values (`+inf`, `-inf`, `NaN`) that a division by zero produces, and with the
  IEEE rule that every ordered comparison with `NaN` is false.  Zero has no sign.
* Rounding to `float` and `double` is `f32` and `f64` (round to nearest, ties to even,
  gradual underflow); `toFloat` is the same rounding to 24 bits without a bound on the
  exponent.  `f32` is applied in `angularSpreadConfidence` and in the coverage thresholds
  of `coarsePupilDetection`, `f64` and `f32` in `ellipse2Points`, `toFloat` in the slope,
  the sampling and the means of `outlineContrastConfidence`; the responses of the scan and
  the quotients returned as confidences are kept exact.
* OpenCV types (`cv::Point`, `cv::Rect`, `cv::Mat`) and the OpenCV operations used by the
  source (`Rect::area`, `|=`, `&=`, `contains`, `integral`, `findNonZero`, `saturate_cast`)
  are embedded after the OpenCV definitions.
* `Pupil.h` is not among the sources; what is taken from it is marked as such.
-/

namespace PupilDetectionMethod

/-! ## Floating-point values -/

/-- Value of a C floating-point expression: a rational, an infinity or NaN. -/
inductive FVal where
  | fin (q : ℚ)
  | pinf
  | ninf
  | nan
deriving DecidableEq

namespace FVal

/-- Infinity with the sign of `s`; NaN when `s = 0` (used for `s / 0` and `s * inf`). -/
def infOfSign (s : ℚ) : FVal :=
  if 0 < s then pinf else if s < 0 then ninf else nan

/-- Conversion of a C integer to a floating-point value. -/
def ofInt (i : Int) : FVal := fin (i : ℚ)

/-- Unary minus. -/
def neg : FVal → FVal
  | fin q => fin (-q)
  | pinf => ninf
  | ninf => pinf
  | nan => nan

/-- IEEE addition. -/
def add : FVal → FVal → FVal
  | fin a, fin b => fin (a + b)
  | fin _, pinf => pinf
  | fin _, ninf => ninf
  | pinf, fin _ => pinf
  | pinf, pinf => pinf
  | ninf, fin _ => ninf
  | ninf, ninf => ninf
  | _, _ => nan

/-- IEEE subtraction. -/
def sub (a b : FVal) : FVal := add a (neg b)

/-- IEEE multiplication. -/
def mul : FVal → FVal → FVal
  | fin a, fin b => fin (a * b)
  | fin a, pinf => infOfSign a
  | fin a, ninf => infOfSign (-a)
  | pinf, fin b => infOfSign b
  | ninf, fin b => infOfSign (-b)
  | pinf, pinf => pinf
  | pinf, ninf => ninf
  | ninf, pinf => ninf
  | ninf, ninf => pinf
  | _, _ => nan

/-- IEEE division (a zero divisor is `+0`). -/
def div : FVal → FVal → FVal
  | fin a, fin b => if b = 0 then infOfSign a else fin (a / b)
  | fin _, pinf => fin 0
  | fin _, ninf => fin 0
  | pinf, fin b => if 0 ≤ b then pinf else ninf
  | ninf, fin b => if 0 ≤ b then ninf else pinf
  | _, _ => nan

instance : Add FVal := ⟨add⟩
instance : Sub FVal := ⟨sub⟩
instance : Mul FVal := ⟨mul⟩
instance : Div FVal := ⟨div⟩

/-- The C comparison `a < b`: false as soon as one side is NaN. -/
def lt : FVal → FVal → Bool
  | fin a, fin b => decide (a < b)
  | fin _, pinf => true
  | ninf, fin _ => true
  | ninf, pinf => true
  | _, _ => false

/-- The C comparison `a > b`. -/
def gt (a b : FVal) : Bool := lt b a

/-- `cv::min<float>(a, b)`, that is `std::min(a, b)`: `b` when `b < a`, otherwise `a`. -/
def min (a b : FVal) : FVal := if lt b a then b else a

end FVal

/-- Rounding to the nearest integer, halfway cases away from zero (`roundf`). -/
def roundHalfAway (q : ℚ) : Int :=
  if 0 ≤ q then ⌊q + 1 / 2⌋ else -⌊-q + 1 / 2⌋

/-- Rounding to the nearest integer, halfway cases to even (`cvRound`, used by
`saturate_cast<int>`). -/
def roundHalfEven (q : ℚ) : Int :=
  let f := ⌊q⌋
  if q - f < 1 / 2 then f
  else if 1 / 2 < q - f then f + 1
  else if f % 2 = 0 then f else f + 1

/-- Conversion of a floating-point value to `int` by a C cast: truncation toward zero. -/
def truncToInt (q : ℚ) : Int :=
  if 0 ≤ q then ⌊q⌋ else -⌊-q⌋

/-! ### Binary floating-point formats -/

/-- The least `j`, counted from `j`, with `n < 2 ^ (2 ^ j)`, found within `fuel` steps. -/
def bitLevel : Nat → Nat → Nat → Nat
  | 0, j, _ => j
  | fuel + 1, j, n => if n / 2 ^ (2 ^ j) = 0 then j else bitLevel fuel (j + 1) n

/-- The number of binary digits of `n < 2 ^ (2 ^ j)`, added to `acc`: the upper half of the
`2 ^ j` digits is tested and shifted out, then the lower half. -/
def bitCount : Nat → Nat → Nat → Nat
  | 0, n, acc => if n = 0 then acc else acc + 1
  | j + 1, n, acc =>
    if n / 2 ^ (2 ^ j) = 0 then bitCount j n acc
    else bitCount j (n / 2 ^ (2 ^ j)) (acc + 2 ^ j)

/-- The number of binary digits of `n`. -/
def bitLength (n : Nat) : Nat := bitCount (bitLevel n 0 n) n 0

/-- The binary exponent of `a ≠ 0`: the `e` with `2^e ≤ |a| < 2^(e+1)` (`binExp_spec`).  With
`n / d` the absolute value of `a` in lowest terms, it is the difference of the bit lengths of
`n` and `d`, or one less. -/
def binExp (a : ℚ) : Int :=
  let n := a.num.natAbs
  let d := a.den
  let ln := bitLength n
  let ld := bitLength d
  if ld ≤ ln then
    if d * 2 ^ (ln - ld) ≤ n then ((ln - ld : Nat) : Int) else ((ln - ld : Nat) : Int) - 1
  else
    if d ≤ n * 2 ^ (ld - ln) then -((ld - ln : Nat) : Int) else -((ld - ln : Nat) : Int) - 1

/-- The integer nearest to `n / d` for `d > 0`, halfway cases to the even integer:
`roundHalfEven (n / d)` from the quotient and remainder of the division
(`roundHalfEven_div`). -/
def divHalfEven (n : Int) (d : Nat) : Int :=
  let f := n / (d : Int)
  let r := n % (d : Int)
  if 2 * r < d then f
  else if (d : Int) < 2 * r then f + 1
  else if f % 2 = 0 then f else f + 1

/-- Rounding to the nearest value of a binary floating-point format with `prec`
significant bits and least normal exponent `emin` (gradual underflow below it), halfway
cases to the even significand: the IEEE 754 default rounding.  With `k` the exponent of the
unit in the last place, the result is `roundHalfEven (q / 2^k) * 2^k` (`roundBin_eq`).
Overflow to infinity is not part of this function. -/
def roundBin (prec : Nat) (emin : Int) (q : ℚ) : ℚ :=
  let e := max (binExp q) emin
  let k := e - ((prec : Int) - 1)
  if 0 ≤ k then
    ((divHalfEven q.num (q.den * 2 ^ k.toNat) * ((2 ^ k.toNat : Nat) : Int) : Int) : ℚ)
  else mkRat (divHalfEven (q.num * ((2 ^ (-k).toNat : Nat) : Int)) q.den) (2 ^ (-k).toNat)

/-- Rounding to `float` (IEEE binary32): conversions to `float` and the result of every
`float` operation. -/
def f32 (q : ℚ) : ℚ := roundBin 24 (-126) q

/-- Rounding to `double` (IEEE binary64). -/
def f64 (q : ℚ) : ℚ := roundBin 53 (-1022) q

/-- Rounding to 24 significant bits, halfway cases to even, with no bound on the exponent:
the rounding to `float` of a value in the normal range of `float` (`toFloat_eq_f32`).  The
sums, products and quotients that `outlineContrastConfidence` forms from `int` values are
zero or in that range. -/
def toFloat (q : ℚ) : ℚ := roundBin 24 (binExp q) q

/-- A value is a `float`: rounding to binary32 leaves it as it is. -/
def IsF32 (q : ℚ) : Prop := f32 q = q

instance (q : ℚ) : Decidable (IsF32 q) := by
  unfold IsF32
  infer_instance

/-- The function `roundf` on floating-point values. -/
def FVal.roundf : FVal → FVal
  | FVal.fin q => FVal.fin (roundHalfAway q)
  | v => v

/-- The result of a `float` operation: a finite value is rounded to `float`. -/
def FVal.asFloat : FVal → FVal
  | FVal.fin q => FVal.fin (toFloat q)
  | v => v

/-! ## OpenCV data types -/

/-- The type `cv::Point` (integer coordinates). -/
structure Point where
  x : Int
  y : Int
deriving DecidableEq, Repr

/-- The type `cv::Point2f`; the coordinates are finite. -/
structure Point2f where
  x : ℚ
  y : ℚ
deriving DecidableEq

/-- The type `cv::Size2f`; the extents are finite. -/
structure Size2f where
  width : ℚ
  height : ℚ
deriving DecidableEq

/-- The type `cv::RotatedRect`: the ellipse data of a pupil hypothesis. -/
structure RotatedRect where
  center : Point2f
  size : Size2f
  angle : ℚ
deriving DecidableEq

/-- An 8-bit single-channel `cv::Mat`: `rows x cols` samples, read modulo 256. -/
structure Mat where
  rows : Nat
  cols : Nat
  data : Nat → Nat → Nat

/-- The sample `m.ptr<uchar>(row)[col]`.  Outside the image the C read is undefined; the
embedding then reads `data` with a negative index replaced by 0. -/
def Mat.px (m : Mat) (row col : Int) : Nat :=
  m.data row.toNat col.toNat % 256

/-! ## The pupil hypothesis (`Pupil.h`) -/

/-- A pupil hypothesis: `class Pupil : public cv::RotatedRect`. -/
abbrev Pupil := RotatedRect

/-- Modelled from the spec: the macro `NO_CONFIDENCE` of `Pupil.h`, which is not among the
sources.  The spec asks for a sentinel outside `[0, 1]`, for example a negative value. -/
def NO_CONFIDENCE : FVal := FVal.fin (-1)

/-- Modelled from the spec: `Pupil::hasOutline()` of `Pupil.h`, which is not among the
sources: the hypothesis carries a non-degenerate outline (both extents positive). -/
def Pupil.hasOutline (p : Pupil) : Bool :=
  decide (0 < p.size.width) && decide (0 < p.size.height)

/-- Modelled from the spec: `Pupil::minorAxis()` of `Pupil.h`, which is not among the
sources: `minorAxis = min(width, height)`. -/
def Pupil.minorAxis (p : Pupil) : ℚ := min p.size.width p.size.height

/-- Modelled from the spec: `Pupil::majorAxis()` of `Pupil.h`, which is not among the
sources: `majorAxis = max(width, height)`. -/
def Pupil.majorAxis (p : Pupil) : ℚ := max p.size.width p.size.height

/-! ## angularSpreadConfidence -/

/-- The type `std::bitset<4>`. -/
abbrev Bitset4 := Fin 4 → Bool

/-- The call `bitset.reset()`: all bits cleared. -/
def Bitset4.reset : Bitset4 := fun _ => false

/-- The call `bitset.set(pos)`. -/
def Bitset4.set (b : Bitset4) (pos : Fin 4) : Bitset4 :=
  fun i => if i = pos then true else b i

/-- The call `bitset.count()`: number of bits set. -/
def Bitset4.count (b : Bitset4) : Nat :=
  (if b 0 then 1 else 0) + (if b 1 then 1 else 0) + (if b 2 then 1 else 0) +
    (if b 3 then 1 else 0)

/-- The call `bitset.size()`. -/
def Bitset4.size (_b : Bitset4) : Nat := 4

/-- The enumerators `Q0 .. Q3`. -/
def Q0 : Fin 4 := 0
/-- The enumerator `Q1`. -/
def Q1 : Fin 4 := 1
/-- The enumerator `Q2`. -/
def Q2 : Fin 4 := 2
/-- The enumerator `Q3`. -/
def Q3 : Fin 4 := 3

/-- The offset `p->x - center.x` (or `p->y - center.y`) of lines 466 to 476: the `int`
coordinate is converted to `float`, and the difference is a `float`. -/
def offsetOf (coordinate : Int) (c : ℚ) : ℚ := f32 (f32 (coordinate : ℚ) - c)

/-- Body of the loop of `angularSpreadConfidence` for one point. -/
def angularSpreadStep (center : Point2f) (anchorPointSlices : Bitset4) (p : Point) :
    Bitset4 :=
  if offsetOf p.x center.x < 0 then
    if offsetOf p.y center.y < 0 then anchorPointSlices.set Q0
    else anchorPointSlices.set Q3
  else
    if offsetOf p.y center.y < 0 then anchorPointSlices.set Q1
    else anchorPointSlices.set Q2

/-- The function `PupilDetectionMethod::angularSpreadConfidence`. -/
def angularSpreadConfidence (points : List Point) (center : Point2f) : FVal :=
  let anchorPointSlices := points.foldl (angularSpreadStep center) Bitset4.reset
  FVal.ofInt anchorPointSlices.count / FVal.ofInt anchorPointSlices.size

/-- The four quadrants relative to `center`, by the sign of the offsets: quadrant 0 has
x-offset and y-offset negative, quadrant 1 only the y-offset, quadrant 2 neither,
quadrant 3 only the x-offset. -/
def inQuadrant (center : Point2f) (q : Fin 4) (p : Point) : Prop :=
  if q = 0 then (p.x : ℚ) - center.x < 0 ∧ (p.y : ℚ) - center.y < 0
  else if q = 1 then ¬ ((p.x : ℚ) - center.x < 0) ∧ (p.y : ℚ) - center.y < 0
  else if q = 2 then ¬ ((p.x : ℚ) - center.x < 0) ∧ ¬ ((p.y : ℚ) - center.y < 0)
  else (p.x : ℚ) - center.x < 0 ∧ ¬ ((p.y : ℚ) - center.y < 0)

instance (center : Point2f) (q : Fin 4) (p : Point) : Decidable (inQuadrant center q p) := by
  unfold inQuadrant
  infer_instance

/-- The slice of a point by the sign of its offsets as the loop computes them (in
`float`): slice 0 has both offsets negative, slice 1 only the y-offset, slice 2 neither,
slice 3 only the x-offset. -/
def inSlice (center : Point2f) (q : Fin 4) (p : Point) : Prop :=
  if q = 0 then offsetOf p.x center.x < 0 ∧ offsetOf p.y center.y < 0
  else if q = 1 then ¬ (offsetOf p.x center.x < 0) ∧ offsetOf p.y center.y < 0
  else if q = 2 then ¬ (offsetOf p.x center.x < 0) ∧ ¬ (offsetOf p.y center.y < 0)
  else offsetOf p.x center.x < 0 ∧ ¬ (offsetOf p.y center.y < 0)

instance (center : Point2f) (q : Fin 4) (p : Point) : Decidable (inSlice center q p) := by
  unfold inSlice
  infer_instance

/-- The slices that contain at least one of the points. -/
def occupiedSlices (points : List Point) (center : Point2f) : Finset (Fin 4) :=
  Finset.univ.filter (fun q => ∃ p ∈ points, inSlice center q p)

/-- The quadrants that contain at least one of the points. -/
def occupiedQuadrants (points : List Point) (center : Point2f) : Finset (Fin 4) :=
  Finset.univ.filter (fun q => ∃ p ∈ points, inQuadrant center q p)

/-- A point strictly inside a quadrant: both offsets are non-zero. -/
def strictlyInQuadrant (center : Point2f) (q : Fin 4) (p : Point) : Prop :=
  inQuadrant center q p ∧ (p.x : ℚ) - center.x ≠ 0 ∧ (p.y : ℚ) - center.y ≠ 0

instance (center : Point2f) (q : Fin 4) (p : Point) :
    Decidable (strictlyInQuadrant center q p) := by
  unfold strictlyInQuadrant
  infer_instance

/-! ## aspectRatioConfidence -/

/-- The function `PupilDetectionMethod::aspectRatioConfidence`:
`pupil.minorAxis() / (float)pupil.majorAxis()`. -/
def aspectRatioConfidence (pupil : Pupil) : FVal :=
  FVal.fin pupil.minorAxis / FVal.fin pupil.majorAxis

/-! ## edgeRatioConfidence -/

/-- The call `cv::findNonZero(m, points)`: the positions of the non-zero samples, row by
row; a `cv::Point` holds the column in `x` and the row in `y`. -/
def findNonZero (m : Mat) : List Point :=
  (List.range m.rows).flatMap (fun (y : Nat) =>
    (List.range m.cols).filterMap (fun (x : Nat) =>
      if m.px y x ≠ 0 then some ⟨(x : Int), (y : Int)⟩ else none))

/-- The mask drawn by `cv::ellipse(outlineMask, pupil, cv::Scalar(255), band)` on a zero
image: 255 on the rasterised band `inBand`, 0 elsewhere. -/
def outlineMaskOf (rows cols : Nat) (inBand : Nat → Nat → Bool) : Mat :=
  ⟨rows, cols, fun y x => if inBand y x then 255 else 0⟩

/-- The statements `inBandEdges = edgeImage.clone(); inBandEdges.setTo(0, 255 - outlineMask)`:
the samples where `255 - outlineMask` is non-zero are cleared. -/
def inBandEdgesOf (edgeImage outlineMask : Mat) : Mat :=
  ⟨edgeImage.rows, edgeImage.cols,
    fun y x => if 255 - outlineMask.px y x ≠ 0 then 0 else edgeImage.px y x⟩

/-- The function `PupilDetectionMethod::edgeRatioConfidence`.  The results of
`pupil.valid()` and `pupil.circumference()` (`Pupil.h`) and the band rasterised by
`cv::ellipse` are parameters.  Returns the confidence and the output `edgePoints`;
when the hypothesis is not valid, `edgePoints` is left as it was passed. -/
def edgeRatioConfidence (edgeImage : Mat) (valid : Bool) (circumference : FVal)
    (inBand : Nat → Nat → Bool) (edgePoints : List Point) : FVal × List Point :=
  if !valid then (NO_CONFIDENCE, edgePoints)
  else
    let outlineMask := outlineMaskOf edgeImage.rows edgeImage.cols inBand
    let inBandEdges := inBandEdgesOf edgeImage outlineMask
    let edgePoints := findNonZero inBandEdges
    (FVal.min (FVal.ofInt edgePoints.length / circumference) (FVal.fin 1), edgePoints)

/-- The non-zero edge-map pixels inside the rasterised band, row by row. -/
def bandEdgePixels (edgeImage : Mat) (inBand : Nat → Nat → Bool) : List Point :=
  (List.range edgeImage.rows).flatMap (fun (y : Nat) =>
    (List.range edgeImage.cols).filterMap (fun (x : Nat) =>
      if edgeImage.px y x ≠ 0 ∧ inBand y x = true then some ⟨(x : Int), (y : Int)⟩ else none))

/-! ## cv::Rect -/

/-- The type `cv::Rect` (integer coordinates). -/
structure Rect where
  x : Int
  y : Int
  width : Int
  height : Int
deriving DecidableEq, Repr

/-- The default constructor `cv::Rect()`. -/
def Rect.zero : Rect := ⟨0, 0, 0, 0⟩

/-- The method `Rect::area()`. -/
def Rect.area (a : Rect) : Int := a.width * a.height

/-- The method `Rect::empty()`. -/
def Rect.empty (a : Rect) : Bool := decide (a.width ≤ 0) || decide (a.height ≤ 0)

/-- The method `Rect::contains(pt)`. -/
def Rect.contains (a : Rect) (pt : Point) : Bool :=
  decide (a.x ≤ pt.x) && decide (pt.x < a.x + a.width) &&
    decide (a.y ≤ pt.y) && decide (pt.y < a.y + a.height)

/-- The constructor `cv::Rect(pt1, pt2)`. -/
def Rect.ofPoints (pt1 pt2 : Point) : Rect :=
  let x := min pt1.x pt2.x
  let y := min pt1.y pt2.y
  ⟨x, y, max pt1.x pt2.x - x, max pt1.y pt2.y - y⟩

/-- The operator `a |= b` of `cv::Rect`: smallest rectangle enclosing both. -/
def Rect.unionAssign (a b : Rect) : Rect :=
  if a.empty then b
  else if !b.empty then
    let x1 := min a.x b.x
    let y1 := min a.y b.y
    ⟨x1, y1, max (a.x + a.width) (b.x + b.width) - x1,
      max (a.y + a.height) (b.y + b.height) - y1⟩
  else a

/-- The operator `a &= b` of `cv::Rect`: intersection, `Rect()` when it is empty. -/
def Rect.interAssign (a b : Rect) : Rect :=
  let x1 := max a.x b.x
  let y1 := max a.y b.y
  let width := min (a.x + a.width) (b.x + b.width) - x1
  let height := min (a.y + a.height) (b.y + b.height) - y1
  if width ≤ 0 ∨ height ≤ 0 then Rect.zero else ⟨x1, y1, width, height⟩

/-- The operator `+` of `cv::Point`. -/
def Point.add (a b : Point) : Point := ⟨a.x + b.x, a.y + b.y⟩

/-- The product `0.5 * pt` of a `double` and a `cv::Point`: each coordinate goes through
`saturate_cast<int>`, which rounds to nearest, halfway cases to even. -/
def Point.half (a : Point) : Point :=
  ⟨roundHalfEven ((1 / 2 : ℚ) * a.x), roundHalfEven ((1 / 2 : ℚ) * a.y)⟩

/-- Conversion of a floating-point value to `int`.  For a value that is not finite the C
conversion is undefined; the x86 result (`INT_MIN`) is used. -/
def FVal.toInt : FVal → Int
  | FVal.fin q => truncToInt q
  | _ => -2147483648

/-- `cv::max(a, b)` on floats, that is `std::max(a, b)`: `b` when `a < b`, otherwise `a`. -/
def FVal.max (a b : FVal) : FVal := if FVal.lt a b then b else a

/-! ## Loops -/

/-- The values of `i` for which the body of `for (; i < hi; i += step)` runs, within
`fuel` iterations. -/
def forRange : Nat → Int → Int → Int → List Int
  | 0, _, _, _ => []
  | fuel + 1, i, hi, step => if i < hi then i :: forRange fuel (i + step) hi step else []

/-- The values of `i` visited by `for (int i = lo; i < hi; i += step)`; for `step ≥ 1`
the loop ends within `hi - lo` iterations. -/
def forLoop (lo hi step : Int) : List Int := forRange (hi - lo).toNat lo hi step

/-! ## coarsePupilDetection -/

/-- The call `cv::integral(m, itg, CV_32S)`: `itg[i][j]` is the sum of the samples of `m`
in the rows below `i` and the columns below `j`. -/
def integral (m : Mat) (i j : Int) : Int :=
  ((List.range i.toNat).map (fun (y : Nat) =>
    ((List.range j.toNat).map (fun (x : Nat) => (m.px y x : Int))).sum)).sum

/-- The value `(int)(c * sqrt(n))` for `c ≥ 0`, in exact arithmetic: the integer square
root of the integer part of `c^2 * n`. -/
def truncMulSqrt (c : ℚ) (n : Nat) : Int := (Nat.sqrt (⌊c ^ 2 * n⌋).toNat : Int)

/-- The value `std::numeric_limits<float>::min()`, the least positive normal `float`. -/
def FLT_MIN : ℚ := 1 / 2 ^ 126

/-- The scan parameters of `coarsePupilDetection`, from the size of the downscaled image. -/
structure ScanParams where
  ystep : Int
  xstep : Int
  min_r : Int
  max_r : Int
  r_step : Int
deriving DecidableEq, Repr

/-- Lines 42 to 50 of the source: strides and radius range. -/
def scanParams (downscaled : Mat) : ScanParams :=
  let ystep := truncToInt (max ((1 / 100 : ℚ) * downscaled.rows) 1)
  let xstep := truncToInt (max ((1 / 100 : ℚ) * downscaled.cols) 1)
  let n := downscaled.rows ^ 2 + downscaled.cols ^ 2
  let min_r := truncMulSqrt ((1 / 2 : ℚ) * (7 / 100)) n
  let max_r := truncMulSqrt ((1 / 2 : ℚ) * (29 / 100)) n
  let r_step := truncToInt (max ((1 / 5 : ℚ) * ((max_r + min_r : Int) : ℚ)) 1)
  ⟨ystep, xstep, min_r, max_r, r_step⟩

/-- The state of the scan: best response, per-pixel maxima, recorded candidates. -/
structure ScanState where
  best_response : FVal
  res : Int → Int → FVal
  candidates : List (Rect × FVal)

/-- The state before the scan (lines 63 to 66). -/
def ScanState.init : ScanState :=
  ⟨FVal.fin FLT_MIN, fun _ _ => FVal.fin 0, []⟩

/-- Four corner points `a, b, c, d` of a window. -/
structure Corners where
  a : Point
  b : Point
  c : Point
  d : Point

/-- The corners `ia, ib, ic, id` (half-width `r`) or `oa, ob, oc, od` (half-width `step`)
around `(x, y)`. -/
def corners (h y x : Int) : Corners :=
  ⟨⟨x - h, y - h⟩, ⟨x + h, y - h⟩, ⟨x + h, y + h⟩, ⟨x - h, y + h⟩⟩

/-- The eight integral-image lookups at `(x, y)` for radius `r`, in source order. -/
def integralLookups (r y x : Int) : List Point :=
  let i := corners r y x
  let o := corners (3 * r) y x
  [i.c, i.a, i.b, i.d, o.c, o.a, o.b, o.d]

/-- The response `outer_mean - inner_mean` at `(x, y)` for radius `r` (lines 70 to 108). -/
def response (itg : Int → Int → Int) (r y x : Int) : FVal :=
  let step := 3 * r
  let inner_count := (2 * r) * (2 * r)
  let outer_count := (2 * step) * (2 * step) - inner_count
  let inner_norm := FVal.fin 1 / FVal.ofInt (255 * inner_count)
  let outer_norm := FVal.fin 1 / FVal.ofInt (255 * outer_count)
  let i := corners r y x
  let o := corners step y x
  let inner := itg i.c.y i.c.x + itg i.a.y i.a.x - itg i.b.y i.b.x - itg i.d.y i.d.x
  let outer := itg o.c.y o.c.x + itg o.a.y o.a.x - itg o.b.y o.b.x - itg o.d.y o.d.x - inner
  let inner_mean := inner_norm * FVal.ofInt inner
  let outer_mean := outer_norm * FVal.ofInt outer
  outer_mean - inner_mean

/-- The candidate rectangle `cv::Rect(0.5 * (ia + oa), 0.5 * (ic + oc))`. -/
def candidateRect (r y x : Int) : Rect :=
  let i := corners r y x
  let o := corners (3 * r) y x
  Rect.ofPoints (i.a.add o.a).half (i.c.add o.c).half

/-- Body of the innermost loop (lines 93 to 124) at `(x, y)` for radius `r`. -/
def scanBody (itg : Int → Int → Int) (r y : Int) (s : ScanState) (x : Int) : ScanState :=
  let response := response itg r y x
  if FVal.lt response (FVal.fin (1 / 2) * s.best_response) then s
  else if FVal.lt response (FVal.fin (1 / 2) * s.best_response) then s
  else
    let best_response :=
      if FVal.gt response s.best_response then response else s.best_response
    if FVal.gt response (s.res y x) then
      ⟨best_response, fun y2 x2 => if y2 = y ∧ x2 = x then response else s.res y2 x2,
        s.candidates ++ [(candidateRect r y x, response)]⟩
    else ⟨best_response, s.res, s.candidates⟩

/-- The radii visited by the outer loop (line 68). -/
def scanRadii (p : ScanParams) : List Int := forLoop p.min_r (p.max_r + 1) p.r_step

/-- The rows visited for radius `r` (line 81). -/
def scanRows (p : ScanParams) (rows : Nat) (r : Int) : List Int :=
  forLoop (3 * r) ((rows : Int) - 3 * r) p.ystep

/-- The columns visited for radius `r` (line 91). -/
def scanCols (p : ScanParams) (cols : Nat) (r : Int) : List Int :=
  forLoop (3 * r) ((cols : Int) - 3 * r) p.xstep

/-- The three nested scan loops (lines 68 to 127). -/
def scan (downscaled : Mat) : ScanState :=
  let p := scanParams downscaled
  let itg := integral downscaled
  (scanRadii p).foldl (fun s r =>
    (scanRows p downscaled.rows r).foldl (fun s y =>
      (scanCols p downscaled.cols r).foldl (scanBody itg r y) s) s) ScanState.init

/-- The call `sort(candidates.begin(), candidates.end(), compare)` with
`compare(a, b) = a.second > b.second`: descending response.  The standard leaves the order
of candidates with equal responses open; they are kept in the order of insertion, as by
the insertion sort that `std::sort` runs on short sequences (`a` is placed before `b`
unless `compare(b, a)`). -/
def sortCandidates (candidates : List (Rect × FVal)) : List (Rect × FVal) :=
  candidates.insertionSort (fun a b => FVal.gt b.2 a.2 = false)

/-- The aggregation loop (lines 144 to 156). -/
def aggregate (minWidth minHeight : Int) : Rect → List (Rect × FVal) → Rect
  | coarse, [] => coarse
  | coarse, c :: cs =>
    let coarse := if coarse.area = 0 then c.1 else coarse.unionAssign c.1
    if coarse.width > minWidth ∧ coarse.height > minHeight then coarse
    else aggregate minWidth minHeight coarse cs

/-- The statements `coarse.x *= fr; ...` (lines 165 to 168). -/
def upscale (coarse : Rect) (fr : FVal) : Rect :=
  ⟨(FVal.ofInt coarse.x * fr).toInt, (FVal.ofInt coarse.y * fr).toInt,
    (FVal.ofInt coarse.width * fr).toInt, (FVal.ofInt coarse.height * fr).toInt⟩

/-- The sanity test (lines 171 to 176). -/
def sanityTest (frame : Mat) (coarse : Rect) : Rect :=
  let imRoi : Rect := ⟨0, 0, frame.cols, frame.rows⟩
  let coarse := coarse.interAssign imRoi
  if coarse.area = 0 then imRoi else coarse

/-- The value `static_cast<int>(minCoverage * n)` of lines 142 and 143 for the `int`
extent `n`: `n` is converted to `float`, the product is a `float`, the cast truncates. -/
def coverageThreshold (minCoverage : ℚ) (n : Nat) : Int :=
  truncToInt (f32 (minCoverage * f32 (n : ℚ)))

/-- The rectangle accumulated on the downscaled image, before upscaling. -/
def accumulated (downscaled : Mat) (minCoverage : ℚ) : Rect :=
  let candidates := sortCandidates (scan downscaled).candidates
  let minWidth := coverageThreshold minCoverage downscaled.cols
  let minHeight := coverageThreshold minCoverage downscaled.rows
  aggregate minWidth minHeight Rect.zero candidates

/-- The function `PupilDetectionMethod::coarsePupilDetection`.  The image `downscaled` is
the result of `cv::resize(frame, downscaled, cv::Size(), 1 / fr, 1 / fr, cv::INTER_LINEAR)`;
the resampling is done by OpenCV and is a parameter here. -/
def coarsePupilDetection (frame downscaled : Mat) (minCoverage : ℚ)
    (workingWidth workingHeight : Int) : Rect :=
  let xr := FVal.ofInt frame.cols / FVal.ofInt workingWidth
  let yr := FVal.ofInt frame.rows / FVal.ofInt workingHeight
  let fr := FVal.max xr yr
  sanityTest frame (upscale (accumulated downscaled minCoverage) fr)

/-! ## The sine table and ellipse2Points -/

/-- The table `sinTable` (451 entries, the sine of 0 to 450 degrees), its literals read as
exact decimals. -/
def sinTable : List ℚ := [
    0.0000000, 0.0174524, 0.0348995, 0.0523360, 0.0697565, 0.0871557,
    0.1045285, 0.1218693, 0.1391731, 0.1564345, 0.1736482, 0.1908090,
    0.2079117, 0.2249511, 0.2419219, 0.2588190, 0.2756374, 0.2923717,
    0.3090170, 0.3255682, 0.3420201, 0.3583679, 0.3746066, 0.3907311,
    0.4067366, 0.4226183, 0.4383711, 0.4539905, 0.4694716, 0.4848096,
    0.5000000, 0.5150381, 0.5299193, 0.5446390, 0.5591929, 0.5735764,
    0.5877853, 0.6018150, 0.6156615, 0.6293204, 0.6427876, 0.6560590,
    0.6691306, 0.6819984, 0.6946584, 0.7071068, 0.7193398, 0.7313537,
    0.7431448, 0.7547096, 0.7660444, 0.7771460, 0.7880108, 0.7986355,
    0.8090170, 0.8191520, 0.8290376, 0.8386706, 0.8480481, 0.8571673,
    0.8660254, 0.8746197, 0.8829476, 0.8910065, 0.8987940, 0.9063078,
    0.9135455, 0.9205049, 0.9271839, 0.9335804, 0.9396926, 0.9455186,
    0.9510565, 0.9563048, 0.9612617, 0.9659258, 0.9702957, 0.9743701,
    0.9781476, 0.9816272, 0.9848078, 0.9876883, 0.9902681, 0.9925462,
    0.9945219, 0.9961947, 0.9975641, 0.9986295, 0.9993908, 0.9998477,
    1.0000000, 0.9998477, 0.9993908, 0.9986295, 0.9975641, 0.9961947,
    0.9945219, 0.9925462, 0.9902681, 0.9876883, 0.9848078, 0.9816272,
    0.9781476, 0.9743701, 0.9702957, 0.9659258, 0.9612617, 0.9563048,
    0.9510565, 0.9455186, 0.9396926, 0.9335804, 0.9271839, 0.9205049,
    0.9135455, 0.9063078, 0.8987940, 0.8910065, 0.8829476, 0.8746197,
    0.8660254, 0.8571673, 0.8480481, 0.8386706, 0.8290376, 0.8191520,
    0.8090170, 0.7986355, 0.7880108, 0.7771460, 0.7660444, 0.7547096,
    0.7431448, 0.7313537, 0.7193398, 0.7071068, 0.6946584, 0.6819984,
    0.6691306, 0.6560590, 0.6427876, 0.6293204, 0.6156615, 0.6018150,
    0.5877853, 0.5735764, 0.5591929, 0.5446390, 0.5299193, 0.5150381,
    0.5000000, 0.4848096, 0.4694716, 0.4539905, 0.4383711, 0.4226183,
    0.4067366, 0.3907311, 0.3746066, 0.3583679, 0.3420201, 0.3255682,
    0.3090170, 0.2923717, 0.2756374, 0.2588190, 0.2419219, 0.2249511,
    0.2079117, 0.1908090, 0.1736482, 0.1564345, 0.1391731, 0.1218693,
    0.1045285, 0.0871557, 0.0697565, 0.0523360, 0.0348995, 0.0174524,
    0.0000000, -0.0174524, -0.0348995, -0.0523360, -0.0697565, -0.0871557,
    -0.1045285, -0.1218693, -0.1391731, -0.1564345, -0.1736482, -0.1908090,
    -0.2079117, -0.2249511, -0.2419219, -0.2588190, -0.2756374, -0.2923717,
    -0.3090170, -0.3255682, -0.3420201, -0.3583679, -0.3746066, -0.3907311,
    -0.4067366, -0.4226183, -0.4383711, -0.4539905, -0.4694716, -0.4848096,
    -0.5000000, -0.5150381, -0.5299193, -0.5446390, -0.5591929, -0.5735764,
    -0.5877853, -0.6018150, -0.6156615, -0.6293204, -0.6427876, -0.6560590,
    -0.6691306, -0.6819984, -0.6946584, -0.7071068, -0.7193398, -0.7313537,
    -0.7431448, -0.7547096, -0.7660444, -0.7771460, -0.7880108, -0.7986355,
    -0.8090170, -0.8191520, -0.8290376, -0.8386706, -0.8480481, -0.8571673,
    -0.8660254, -0.8746197, -0.8829476, -0.8910065, -0.8987940, -0.9063078,
    -0.9135455, -0.9205049, -0.9271839, -0.9335804, -0.9396926, -0.9455186,
    -0.9510565, -0.9563048, -0.9612617, -0.9659258, -0.9702957, -0.9743701,
    -0.9781476, -0.9816272, -0.9848078, -0.9876883, -0.9902681, -0.9925462,
    -0.9945219, -0.9961947, -0.9975641, -0.9986295, -0.9993908, -0.9998477,
    -1.0000000, -0.9998477, -0.9993908, -0.9986295, -0.9975641, -0.9961947,
    -0.9945219, -0.9925462, -0.9902681, -0.9876883, -0.9848078, -0.9816272,
    -0.9781476, -0.9743701, -0.9702957, -0.9659258, -0.9612617, -0.9563048,
    -0.9510565, -0.9455186, -0.9396926, -0.9335804, -0.9271839, -0.9205049,
    -0.9135455, -0.9063078, -0.8987940, -0.8910065, -0.8829476, -0.8746197,
    -0.8660254, -0.8571673, -0.8480481, -0.8386706, -0.8290376, -0.8191520,
    -0.8090170, -0.7986355, -0.7880108, -0.7771460, -0.7660444, -0.7547096,
    -0.7431448, -0.7313537, -0.7193398, -0.7071068, -0.6946584, -0.6819984,
    -0.6691306, -0.6560590, -0.6427876, -0.6293204, -0.6156615, -0.6018150,
    -0.5877853, -0.5735764, -0.5591929, -0.5446390, -0.5299193, -0.5150381,
    -0.5000000, -0.4848096, -0.4694716, -0.4539905, -0.4383711, -0.4226183,
    -0.4067366, -0.3907311, -0.3746066, -0.3583679, -0.3420201, -0.3255682,
    -0.3090170, -0.2923717, -0.2756374, -0.2588190, -0.2419219, -0.2249511,
    -0.2079117, -0.1908090, -0.1736482, -0.1564345, -0.1391731, -0.1218693,
    -0.1045285, -0.0871557, -0.0697565, -0.0523360, -0.0348995, -0.0174524,
    -0.0000000, 0.0174524, 0.0348995, 0.0523360, 0.0697565, 0.0871557,
    0.1045285, 0.1218693, 0.1391731, 0.1564345, 0.1736482, 0.1908090,
    0.2079117, 0.2249511, 0.2419219, 0.2588190, 0.2756374, 0.2923717,
    0.3090170, 0.3255682, 0.3420201, 0.3583679, 0.3746066, 0.3907311,
    0.4067366, 0.4226183, 0.4383711, 0.4539905, 0.4694716, 0.4848096,
    0.5000000, 0.5150381, 0.5299193, 0.5446390, 0.5591929, 0.5735764,
    0.5877853, 0.6018150, 0.6156615, 0.6293204, 0.6427876, 0.6560590,
    0.6691306, 0.6819984, 0.6946584, 0.7071068, 0.7193398, 0.7313537,
    0.7431448, 0.7547096, 0.7660444, 0.7771460, 0.7880108, 0.7986355,
    0.8090170, 0.8191520, 0.8290376, 0.8386706, 0.8480481, 0.8571673,
    0.8660254, 0.8746197, 0.8829476, 0.8910065, 0.8987940, 0.9063078,
    0.9135455, 0.9205049, 0.9271839, 0.9335804, 0.9396926, 0.9455186,
    0.9510565, 0.9563048, 0.9612617, 0.9659258, 0.9702957, 0.9743701,
    0.9781476, 0.9816272, 0.9848078, 0.9876883, 0.9902681, 0.9925462,
    0.9945219, 0.9961947, 0.9975641, 0.9986295, 0.9993908, 0.9998477,
    1.0000000]

/-- The lookup `sinTable[i]`. -/
def sinTableAt (i : Int) : ℚ := sinTable.getD i.toNat 0

/-- The function `sincos(angle, cosval, sinval)`: returns `(cosval, sinval)`. -/
def sincos (angle : Int) : ℚ × ℚ :=
  let angle := angle + (if angle < 0 then 360 else 0)
  (sinTableAt (450 - angle), sinTableAt angle)

/-- The loop `while (angle < 0) angle += 360;`, within `fuel` iterations. -/
def normalizeUp : Nat → Int → Int
  | 0, angle => angle
  | fuel + 1, angle => if angle < 0 then normalizeUp fuel (angle + 360) else angle

/-- The loop `while (angle > 360) angle -= 360;`, within `fuel` iterations. -/
def normalizeDown : Nat → Int → Int
  | 0, angle => angle
  | fuel + 1, angle => if angle > 360 then normalizeDown fuel (angle - 360) else angle

/-- Lines 267 to 273: the rotation angle as an `int`, brought into range by the two
loops; `|angle|` iterations are enough for each. -/
def normalizedAngle (ellipse : RotatedRect) : Int :=
  let angle := truncToInt ellipse.angle
  let angle := normalizeUp angle.natAbs angle
  normalizeDown angle.natAbs angle

/-- Body of the loop of `ellipse2Points` for the angle `i` (lines 282 to 286).  `alpha` and
`beta` are passed as the table literals; the `float` variables hold them rounded to
binary32, as do the entries `sinTable[450 - i]` and `sinTable[i]`.  `x`, `y` and the two
sums are computed in `double`, and `roundf` receives each sum converted to `float`.  A
value outside the range of `int` makes the final cast undefined; the embedding returns the
integer itself. -/
def ellipsePoint (ellipse : RotatedRect) (alpha beta : ℚ) (i : Int) : Point :=
  let alpha := f32 alpha
  let beta := f32 beta
  let x := f64 (f64 ((1 / 2 : ℚ) * ellipse.size.width) * f32 (sinTableAt (450 - i)))
  let y := f64 (f64 ((1 / 2 : ℚ) * ellipse.size.height) * f32 (sinTableAt i))
  ⟨roundHalfAway (f32 (f64 (f64 (ellipse.center.x + f64 (x * alpha)) - f64 (y * beta)))),
    roundHalfAway (f32 (f64 (f64 (ellipse.center.y + f64 (x * beta)) + f64 (y * alpha))))⟩

/-- The function `PupilDetectionMethod::ellipse2Points`. -/
def ellipse2Points (ellipse : RotatedRect) (delta : Int) : List Point :=
  let angle := normalizedAngle ellipse
  let (alpha, beta) := sincos angle
  (forLoop 0 360 delta).map (ellipsePoint ellipse alpha beta)

/-! ## outlineContrastConfidence -/

/-- The slope `a` of the line through the centre `c` and the outline point (lines 320
to 325): the `float` quotient `dy / (float)dx`, or 0 when `dx` is 0. -/
def slopeOf (c outlinePoint : Point) : ℚ :=
  let dx := outlinePoint.x - c.x
  let dy := outlinePoint.y - c.y
  if dx ≠ 0 then toFloat (toFloat (dy : ℚ) / toFloat (dx : ℚ)) else 0

/-- The intercept `b = c.y - a * c.x` (line 326), a `float` product and difference. -/
def interceptOf (c : Point) (a : ℚ) : ℚ :=
  toFloat (toFloat (c.y : ℚ) - toFloat (a * toFloat (c.x : ℚ)))

/-- The test `abs(dx) > abs(dy)` (line 331). -/
def horizontallyDominant (c outlinePoint : Point) : Bool :=
  decide (|outlinePoint.x - c.x| > |outlinePoint.y - c.y|)

/-- The `float` value `a * x + b` for an `int` `x`. -/
def lineAt (a b : ℚ) (x : Int) : ℚ := toFloat (toFloat (a * toFloat (x : ℚ)) + b)

/-- The `float` value `(y - b) / a` for an `int` `y`. -/
def lineInvAt (a b : ℚ) (y : Int) : ℚ := toFloat (toFloat (toFloat (y : ℚ) - b) / a)

/-- The pixel read at column `x` in the horizontally dominant branch:
`((int)roundf(a * x + b), x)` as (row, column). -/
def hSample (a b : ℚ) (x : Int) : Int × Int := (roundHalfAway (lineAt a b x), x)

/-- The pixel read at row `y` in the vertically dominant branch:
`(y, (int)roundf((y - b) / a))` as (row, column). -/
def vSample (a b : ℚ) (y : Int) : Int × Int := (y, roundHalfAway (lineInvAt a b y))

/-- Start and end of the sampling segment of an outline point (lines 333 to 338 and 388
to 393). -/
def segmentEnds (c : Point) (delta : Int) (outlinePoint : Point) : Point × Point :=
  let a := slopeOf c outlinePoint
  let b := interceptOf c a
  if horizontallyDominant c outlinePoint then
    let sx := outlinePoint.x - delta
    let ex := outlinePoint.x + delta
    (⟨sx, (hSample a b sx).1⟩, ⟨ex, (hSample a b ex).1⟩)
  else
    let sy := outlinePoint.y - delta
    let ey := outlinePoint.y + delta
    (⟨(vSample a b sy).2, sy⟩, ⟨(vSample a b ey).2, ey⟩)

/-- The pixels read for `m1` (before the outline point) and for `m2` (after it), as (row,
column) pairs in reading order (lines 347 to 355 and 402 to 408). -/
def sampledPixels (c : Point) (delta : Int) (outlinePoint : Point) :
    List (Int × Int) × List (Int × Int) :=
  let a := slopeOf c outlinePoint
  let b := interceptOf c a
  if horizontallyDominant c outlinePoint then
    ((forLoop (outlinePoint.x - delta) outlinePoint.x 1).map (hSample a b),
      (forLoop (outlinePoint.x + 1) (outlinePoint.x + delta + 1) 1).map (hSample a b))
  else
    ((forLoop (outlinePoint.y - delta) outlinePoint.y 1).map (vSample a b),
      (forLoop (outlinePoint.y + 1) (outlinePoint.y + delta + 1) 1).map (vSample a b))

/-- The `float` accumulator after `m += sample` over the given samples, from 0. -/
def floatSum (samples : List Nat) : ℚ :=
  samples.foldl (fun (m : ℚ) (v : Nat) => toFloat (m + (v : ℚ))) 0

/-- The mean `roundf(m / delta)` of the samples of `frame` at the given pixels: `m` is the
`float` accumulator, `m / delta` a `float` quotient. -/
def sideMean (frame : Mat) (delta : Int) (pixels : List (Int × Int)) : FVal :=
  let m := floatSum (pixels.map (fun rc => frame.px rc.1 rc.2))
  (FVal.fin m / FVal.fin (toFloat (delta : ℚ))).asFloat.roundf

/-- The `float` sum `m + bias` of the comparisons `m1 > m2 + bias` and `m2 > m1 + bias`. -/
def plusBias (m : FVal) (bias : Int) : FVal := (m + FVal.fin (toFloat (bias : ℚ))).asFloat

/-- The contrast test of an outline point (lines 361 to 380 and 414 to 433): the side
away from the centre must exceed the side toward the centre by more than `bias`. -/
def contrastTest (frame : Mat) (c : Point) (delta bias : Int) (outlinePoint : Point) : Bool :=
  let m1 := sideMean frame delta (sampledPixels c delta outlinePoint).1
  let m2 := sideMean frame delta (sampledPixels c delta outlinePoint).2
  if horizontallyDominant c outlinePoint then
    if outlinePoint.x < c.x then FVal.gt m1 (plusBias m2 bias)
    else FVal.gt m2 (plusBias m1 bias)
  else
    if outlinePoint.y < c.y then FVal.gt m1 (plusBias m2 bias)
    else FVal.gt m2 (plusBias m1 bias)

/-- The counters `(evaluated, validCount)` of `outlineContrastConfidence`. -/
structure Counters where
  evaluated : Int
  validCount : Int
deriving DecidableEq, Repr

/-- Body of the loop over the outline points (lines 318 to 439).  The slope, the
intercept, the sampled rows and columns, the accumulators `m1` and `m2`, their means and
the sums with `bias` are `float` values. -/
def outlineStep (frame : Mat) (boundaries : Rect) (c : Point) (delta bias : Int)
    (s : Counters) (outlinePoint : Point) : Counters :=
  let dx := outlinePoint.x - c.x
  let dy := outlinePoint.y - c.y
  let a : ℚ := slopeOf c outlinePoint
  let b : ℚ := interceptOf c a
  if a = 0 then s
  else if |dx| > |dy| then
    let sx := outlinePoint.x - delta
    let ex := outlinePoint.x + delta
    let sy := roundHalfAway (toFloat (toFloat (a * toFloat (sx : ℚ)) + b))
    let ey := roundHalfAway (toFloat (toFloat (a * toFloat (ex : ℚ)) + b))
    let start : Point := ⟨sx, sy⟩
    let stop : Point := ⟨ex, ey⟩
    let evaluated := s.evaluated + 1
    if !boundaries.contains start || !boundaries.contains stop then ⟨evaluated, s.validCount⟩
    else
      let m1 := floatSum ((forLoop sx outlinePoint.x 1).map (fun (x : Int) =>
        frame.px (roundHalfAway (toFloat (toFloat (a * toFloat (x : ℚ)) + b))) x))
      let m1 := (FVal.fin m1 / FVal.fin (toFloat (delta : ℚ))).asFloat.roundf
      let m2 := floatSum ((forLoop (outlinePoint.x + 1) (ex + 1) 1).map (fun (x : Int) =>
        frame.px (roundHalfAway (toFloat (toFloat (a * toFloat (x : ℚ)) + b))) x))
      let m2 := (FVal.fin m2 / FVal.fin (toFloat (delta : ℚ))).asFloat.roundf
      if outlinePoint.x < c.x then
        if FVal.gt m1 (m2 + FVal.fin (toFloat (bias : ℚ))).asFloat then
          ⟨evaluated, s.validCount + 1⟩
        else ⟨evaluated, s.validCount⟩
      else
        if FVal.gt m2 (m1 + FVal.fin (toFloat (bias : ℚ))).asFloat then
          ⟨evaluated, s.validCount + 1⟩
        else ⟨evaluated, s.validCount⟩
  else
    let sy := outlinePoint.y - delta
    let ey := outlinePoint.y + delta
    let sx := roundHalfAway (toFloat (toFloat (toFloat (sy : ℚ) - b) / a))
    let ex := roundHalfAway (toFloat (toFloat (toFloat (ey : ℚ) - b) / a))
    let start : Point := ⟨sx, sy⟩
    let stop : Point := ⟨ex, ey⟩
    let evaluated := s.evaluated + 1
    if !boundaries.contains start || !boundaries.contains stop then ⟨evaluated, s.validCount⟩
    else
      let m1 := floatSum ((forLoop sy outlinePoint.y 1).map (fun (y : Int) =>
        frame.px y (roundHalfAway (toFloat (toFloat (toFloat (y : ℚ) - b) / a)))))
      let m1 := (FVal.fin m1 / FVal.fin (toFloat (delta : ℚ))).asFloat.roundf
      let m2 := floatSum ((forLoop (outlinePoint.y + 1) (ey + 1) 1).map (fun (y : Int) =>
        frame.px y (roundHalfAway (toFloat (toFloat (toFloat (y : ℚ) - b) / a)))))
      let m2 := (FVal.fin m2 / FVal.fin (toFloat (delta : ℚ))).asFloat.roundf
      if outlinePoint.y < c.y then
        if FVal.gt m1 (m2 + FVal.fin (toFloat (bias : ℚ))).asFloat then
          ⟨evaluated, s.validCount + 1⟩
        else ⟨evaluated, s.validCount⟩
      else
        if FVal.gt m2 (m1 + FVal.fin (toFloat (bias : ℚ))).asFloat then
          ⟨evaluated, s.validCount + 1⟩
        else ⟨evaluated, s.validCount⟩

/-- An outline point has non-zero slope: it is not skipped by `if (a == 0) continue`. -/
def nonZeroSlope (c outlinePoint : Point) : Bool := decide (slopeOf c outlinePoint ≠ 0)

/-- Both ends of the sampling segment of an outline point are inside the frame. -/
def segmentInside (frame : Mat) (c : Point) (delta : Int) (outlinePoint : Point) : Bool :=
  (Rect.contains ⟨0, 0, frame.cols, frame.rows⟩ (segmentEnds c delta outlinePoint).1) &&
    (Rect.contains ⟨0, 0, frame.cols, frame.rows⟩ (segmentEnds c delta outlinePoint).2)

/-- An outline point is classified valid: non-zero slope, segment inside the frame,
contrast test passed. -/
def classifiedValid (frame : Mat) (c : Point) (delta bias : Int) (outlinePoint : Point) :
    Bool :=
  nonZeroSlope c outlinePoint && segmentInside frame c delta outlinePoint &&
    contrastTest frame c delta bias outlinePoint

/-- An outline point is evaluable: non-zero slope and segment inside the frame. -/
def evaluable (frame : Mat) (c : Point) (delta : Int) (outlinePoint : Point) : Bool :=
  nonZeroSlope c outlinePoint && segmentInside frame c delta outlinePoint

/-- The centre `cv::Point c = pupil.center`: a `saturate_cast<int>` of each coordinate. -/
def centerOf (pupil : Pupil) : Point :=
  ⟨roundHalfEven pupil.center.x, roundHalfEven pupil.center.y⟩

/-- The length `int delta = 0.15 * minorAxis`, with `int minorAxis = pupil.minorAxis()`. -/
def deltaOf (pupil : Pupil) : Int :=
  truncToInt ((15 / 100 : ℚ) * (truncToInt pupil.minorAxis : ℚ))

/-- The counters after the loop over `ellipse2Points(pupil, 10)`. -/
def outlineCounters (frame : Mat) (pupil : Pupil) (bias : Int) : Counters :=
  let boundaries : Rect := ⟨0, 0, frame.cols, frame.rows⟩
  (ellipse2Points pupil 10).foldl
    (outlineStep frame boundaries (centerOf pupil) (deltaOf pupil) bias) ⟨0, 0⟩

/-- The function `PupilDetectionMethod::outlineContrastConfidence`. -/
def outlineContrastConfidence (frame : Mat) (pupil : Pupil) (bias : Int) : FVal :=
  if !pupil.hasOutline then NO_CONFIDENCE
  else
    let s := outlineCounters frame pupil bias
    if s.evaluated = 0 then FVal.fin 0
    else FVal.ofInt s.validCount / FVal.ofInt s.evaluated

/-- The pixels before the outline point (those of `m1`) are on the side away from the
centre: the point is leftwise, or upperwise in the vertically dominant branch. -/
def awayIsFirst (c outlinePoint : Point) : Bool :=
  if horizontallyDominant c outlinePoint then decide (outlinePoint.x < c.x)
  else decide (outlinePoint.y < c.y)

/-- The pixels read on the side of the outline point away from the centre. -/
def outerPixels (c : Point) (delta : Int) (outlinePoint : Point) : List (Int × Int) :=
  if awayIsFirst c outlinePoint then (sampledPixels c delta outlinePoint).1
  else (sampledPixels c delta outlinePoint).2

/-- The pixels read on the side of the outline point toward the centre. -/
def innerPixels (c : Point) (delta : Int) (outlinePoint : Point) : List (Int × Int) :=
  if awayIsFirst c outlinePoint then (sampledPixels c delta outlinePoint).2
  else (sampledPixels c delta outlinePoint).1

/-! ## Synthetic frames -/

/-- A `rows x cols` frame with a dark disc of centre `(cx, cy)` and squared radius `r2` on
a bright background. -/
def discFrame (rows cols : Nat) (cx cy r2 : Int) (dark bright : Nat) : Mat :=
  ⟨rows, cols, fun y x =>
    if ((x : Int) - cx) ^ 2 + ((y : Int) - cy) ^ 2 ≤ r2 then dark else bright⟩

/-- A circular pupil hypothesis of centre `(cx, cy)` and the given diameter, not rotated. -/
def circlePupil (cx cy diameter : ℚ) : Pupil := ⟨⟨cx, cy⟩, ⟨diameter, diameter⟩, 0⟩

/-- A circular pupil hypothesis of integer centre `(cx, cy)`, radius `R` and rotation
`angle`. -/
def circleHypothesis (cx cy : Int) (R angle : ℚ) : Pupil :=
  ⟨⟨(cx : ℚ), (cy : ℚ)⟩, ⟨2 * R, 2 * R⟩, angle⟩

/-! ## Table indices -/

/-- The indices at which `sincos(angle, ...)` reads `sinTable`: the adjusted angle (line
260) and `450 - angle` (line 261). -/
def sincosIndices (angle : Int) : List Int :=
  let angle := angle + (if angle < 0 then 360 else 0)
  [angle, 450 - angle]

/-- The indices at which `ellipse2Points` reads `sinTable`, in reading order: those of
`sincos` for the normalised angle, then `450 - i` and `i` for every loop angle `i` (lines
282 and 283). -/
def ellipse2PointsIndices (ellipse : RotatedRect) (delta : Int) : List Int :=
  sincosIndices (normalizedAngle ellipse) ++
    (forLoop 0 360 delta).flatMap (fun i => [450 - i, i])

/-! ## Window sums -/

/-- The value `inner_count` (line 75). -/
def innerCount (r : Int) : Int := (2 * r) * (2 * r)

/-- The value `outer_count` (line 76), with `step = 3 * r`. -/
def outerCount (r : Int) : Int := (2 * (3 * r)) * (2 * (3 * r)) - innerCount r

/-- The value `inner` (lines 101 and 102). -/
def innerSum (itg : Int → Int → Int) (r y x : Int) : Int :=
  let i := corners r y x
  itg i.c.y i.c.x + itg i.a.y i.a.x - itg i.b.y i.b.x - itg i.d.y i.d.x

/-- The value `outer` (lines 103 and 104). -/
def outerSum (itg : Int → Int → Int) (r y x : Int) : Int :=
  let o := corners (3 * r) y x
  itg o.c.y o.c.x + itg o.a.y o.a.x - itg o.b.y o.b.x - itg o.d.y o.d.x - innerSum itg r y x

/-- The value `inner_mean` (lines 78 and 106). -/
def innerMean (itg : Int → Int → Int) (r y x : Int) : FVal :=
  FVal.fin 1 / FVal.ofInt (255 * innerCount r) * FVal.ofInt (innerSum itg r y x)

/-- The value `outer_mean` (lines 79 and 107). -/
def outerMean (itg : Int → Int → Int) (r y x : Int) : FVal :=
  FVal.fin 1 / FVal.ofInt (255 * outerCount r) * FVal.ofInt (outerSum itg r y x)

/-! ## The response in 32-bit `int` arithmetic -/

/-- The value of an `int` computation whose exact result is `n` when `int` is 32 bits wide
and overflow wraps around (two's complement).  In C++ the overflow of a signed `int` is
undefined; this is what the usual targets compute. -/
def wrapInt32 (n : Int) : Int := (n + 2147483648) % 4294967296 - 2147483648

/-- The value `inner_count` (line 75) in 32-bit `int`. -/
def innerCount32 (r : Int) : Int := wrapInt32 ((2 * r) * (2 * r))

/-- The value `outer_count` (line 76) in 32-bit `int`. -/
def outerCount32 (r : Int) : Int :=
  wrapInt32 (wrapInt32 ((2 * (3 * r)) * (2 * (3 * r))) - innerCount32 r)

/-- The value `inner` (lines 101 and 102) in 32-bit `int`.  Wrapping the entries of the
integral image or the partial sums as well leaves the result as it is. -/
def innerSum32 (itg : Int → Int → Int) (r y x : Int) : Int :=
  let i := corners r y x
  wrapInt32 (itg i.c.y i.c.x + itg i.a.y i.a.x - itg i.b.y i.b.x - itg i.d.y i.d.x)

/-- The value `outer` (lines 103 and 104) in 32-bit `int`. -/
def outerSum32 (itg : Int → Int → Int) (r y x : Int) : Int :=
  let o := corners (3 * r) y x
  wrapInt32 (itg o.c.y o.c.x + itg o.a.y o.a.x - itg o.b.y o.b.x - itg o.d.y o.d.x -
    innerSum32 itg r y x)

/-- The value `inner_mean` (lines 78 and 106), the product `255 * inner_count` taken in
32-bit `int`. -/
def innerMean32 (itg : Int → Int → Int) (r y x : Int) : FVal :=
  FVal.fin 1 / FVal.ofInt (wrapInt32 (255 * innerCount32 r)) * FVal.ofInt (innerSum32 itg r y x)

/-- The value `outer_mean` (lines 79 and 107), the product `255 * outer_count` taken in
32-bit `int`. -/
def outerMean32 (itg : Int → Int → Int) (r y x : Int) : FVal :=
  FVal.fin 1 / FVal.ofInt (wrapInt32 (255 * outerCount32 r)) * FVal.ofInt (outerSum32 itg r y x)

/-- The response `outer_mean - inner_mean` (line 108) with the `int` values of lines 75
to 104 taken in 32-bit `int`. -/
def response32 (itg : Int → Int → Int) (r y x : Int) : FVal :=
  outerMean32 itg r y x - innerMean32 itg r y x

/-- The naive sum of the samples of `m` over the rows `[y0, y1)` and the columns
`[x0, x1)`, one sample after the other. -/
def windowSum (m : Mat) (y0 y1 x0 x1 : Int) : Int :=
  ((forLoop y0 y1 1).map (fun (y : Int) =>
    ((forLoop x0 x1 1).map (fun (x : Int) => (m.px y x : Int))).sum)).sum

/-! ## The scan, step by step -/

/-- The positions `(r, y, x)` at which the innermost loop body runs, in scan order. -/
def scanPositions (downscaled : Mat) : List (Int × Int × Int) :=
  let p := scanParams downscaled
  (scanRadii p).flatMap (fun r =>
    (scanRows p downscaled.rows r).flatMap (fun y =>
      (scanCols p downscaled.cols r).map (fun x => (r, y, x))))

/-- One run of the innermost loop body, at the position `pos = (r, y, x)`. -/
def scanStep (itg : Int → Int → Int) (s : ScanState) (pos : Int × Int × Int) : ScanState :=
  scanBody itg pos.1 pos.2.1 s pos.2.2

/-- The scan state after the first `n` runs of the innermost loop body. -/
def scanAfter (downscaled : Mat) (n : Nat) : ScanState :=
  ((scanPositions downscaled).take n).foldl (scanStep (integral downscaled)) ScanState.init

/-- The finite value of a floating-point value (0 for an infinity or NaN). -/
def FVal.toRat : FVal → ℚ
  | FVal.fin q => q
  | _ => 0

/-- The position `(row, column)` at the centre of a candidate rectangle: that of the scan
step that recorded it. -/
def candidatePosition (c : Rect) : Int × Int := (c.y + c.height / 2, c.x + c.width / 2)

/-- The candidates recorded at the position `(y, x)`, in insertion order. -/
def candidatesAt (candidates : List (Rect × FVal)) (y x : Int) : List (Rect × FVal) :=
  candidates.filter (fun c => decide (candidatePosition c.1 = (y, x)))

/-- The responses of the candidates recorded at the position `(y, x)`, in insertion order. -/
def responsesAt (candidates : List (Rect × FVal)) (y x : Int) : List ℚ :=
  (candidatesAt candidates y x).map (fun c => c.2.toRat)

/-- The maximum response among the candidates recorded at `(y, x)`, 0 if there is none. -/
def maxResponseAt (candidates : List (Rect × FVal)) (y x : Int) : ℚ :=
  (responsesAt candidates y x).foldl max 0

/-- The invariant of the scan: `best_response` is finite and at least its initial value,
`res` holds the per-pixel maxima of the recorded responses, every candidate was recorded
by a step of radius at least 1 and carries the positive, finite response of that step,
and the responses recorded at one position increase strictly. -/
def ScanInv (itg : Int → Int → Int) (s : ScanState) : Prop :=
  (∃ b : ℚ, s.best_response = FVal.fin b ∧ FLT_MIN ≤ b) ∧
    (∀ y x : Int, s.res y x = FVal.fin (maxResponseAt s.candidates y x)) ∧
    (∀ c ∈ s.candidates, ∃ (r y x : Int) (q : ℚ), 1 ≤ r ∧ c.1 = candidateRect r y x ∧
      c.2 = FVal.fin q ∧ response itg r y x = FVal.fin q ∧ 0 < q) ∧
    (∀ y x : Int, (responsesAt s.candidates y x).Pairwise (fun a b => a < b))

/-! ## Enclosing rectangles -/

/-- The rectangle `a` lies inside the rectangle `b`. -/
def Rect.inside (a b : Rect) : Prop :=
  b.x ≤ a.x ∧ b.y ≤ a.y ∧ a.x + a.width ≤ b.x + b.width ∧ a.y + a.height ≤ b.y + b.height

/-- The smallest axis-aligned rectangle enclosing the rectangles `a` and `b`. -/
def Rect.hull (a b : Rect) : Rect :=
  ⟨min a.x b.x, min a.y b.y, max (a.x + a.width) (b.x + b.width) - min a.x b.x,
    max (a.y + a.height) (b.y + b.height) - min a.y b.y⟩

/-- The smallest axis-aligned rectangle enclosing the rectangles of a list (`Rect()` for
the empty list). -/
def enclosure : List Rect → Rect
  | [] => Rect.zero
  | c :: cs => cs.foldl Rect.hull c

/-- The coverage test of line 154: `coarse.width > minWidth && coarse.height > minHeight`. -/
def exceedsCoverage (minCoverage : ℚ) (downscaled : Mat) (a : Rect) : Prop :=
  a.width > coverageThreshold minCoverage downscaled.cols ∧
    a.height > coverageThreshold minCoverage downscaled.rows

instance (minCoverage : ℚ) (downscaled : Mat) (a : Rect) :
    Decidable (exceedsCoverage minCoverage downscaled a) := by
  unfold exceedsCoverage
  infer_instance

/-- The coverage test with the thresholds `floor(minCoverage * cols)` and
`floor(minCoverage * rows)` of the exact products. -/
def exceedsFloorCoverage (minCoverage : ℚ) (downscaled : Mat) (a : Rect) : Prop :=
  a.width > ⌊minCoverage * downscaled.cols⌋ ∧ a.height > ⌊minCoverage * downscaled.rows⌋

instance (minCoverage : ℚ) (downscaled : Mat) (a : Rect) :
    Decidable (exceedsFloorCoverage minCoverage downscaled a) := by
  unfold exceedsFloorCoverage
  infer_instance

/-- A 12 x 20 frame of intensity 200 with three dark blocks of 2 x 2 pixels: intensity 0
at the columns 2, 3 of the rows 2, 3; intensity 50 at the columns 12, 13 of the rows 7, 8;
intensity 80 at the columns 15, 16 of the rows 4, 5. -/
def threeBlocksFrame : Mat :=
  ⟨12, 20, fun y x =>
    if (y = 2 ∨ y = 3) ∧ (x = 2 ∨ x = 3) then 0
    else if (y = 7 ∨ y = 8) ∧ (x = 12 ∨ x = 13) then 50
    else if (y = 4 ∨ y = 5) ∧ (x = 15 ∨ x = 16) then 80
    else 200⟩

/-! ## Theorems -/

/-! ### Binary rounding -/

theorem bitLevel_spec : ∀ (fuel j n : Nat), n ≤ fuel + j →
    n < 2 ^ (2 ^ (bitLevel fuel j n)) := by
  intro fuel
  induction fuel with
  | zero =>
    intro j n h
    unfold bitLevel
    have h1 : n < 2 ^ n := Nat.lt_two_pow n
    have h2 : n ≤ 2 ^ j := le_trans (by omega) (Nat.lt_two_pow j).le
    exact lt_of_lt_of_le h1 (Nat.pow_le_pow_right (by norm_num) h2)
  | succ f ih =>
    intro j n h
    unfold bitLevel
    by_cases hc : n / 2 ^ (2 ^ j) = 0
    · rw [if_pos hc]
      exact (Nat.div_eq_zero_iff (by positivity)).mp hc
    · rw [if_neg hc]
      exact ih (j + 1) n (by omega)

theorem bitCount_spec : ∀ (j n acc : Nat), n < 2 ^ (2 ^ j) → n ≠ 0 →
    ∃ k : Nat, bitCount j n acc = acc + k + 1 ∧ 2 ^ k ≤ n ∧ n < 2 ^ (k + 1) := by
  intro j
  induction j with
  | zero =>
    intro n acc h h0
    have : n = 1 := by
      norm_num at h
      omega
    refine ⟨0, ?_, by omega, by omega⟩
    unfold bitCount
    rw [if_neg h0]
  | succ j ih =>
    intro n acc h h0
    unfold bitCount
    have hB : 0 < 2 ^ (2 ^ j) := by positivity
    by_cases hc : n / 2 ^ (2 ^ j) = 0
    · rw [if_pos hc]
      exact ih n acc ((Nat.div_eq_zero_iff hB).mp hc) h0
    · rw [if_neg hc]
      have hsq : 2 ^ (2 ^ (j + 1)) = 2 ^ (2 ^ j) * 2 ^ (2 ^ j) := by
        rw [← pow_add]
        congr 1
        rw [pow_succ]
        omega
      have hlt : n / 2 ^ (2 ^ j) < 2 ^ (2 ^ j) := by
        rw [Nat.div_lt_iff_lt_mul hB]
        rw [hsq] at h
        exact h
      obtain ⟨k, hk, h1, h2⟩ := ih (n / 2 ^ (2 ^ j)) (acc + 2 ^ j) hlt hc
      refine ⟨2 ^ j + k, by rw [hk]; ring, ?_, ?_⟩
      · rw [pow_add]
        calc 2 ^ (2 ^ j) * 2 ^ k ≤ 2 ^ (2 ^ j) * (n / 2 ^ (2 ^ j)) :=
              Nat.mul_le_mul_left _ h1
          _ ≤ n := Nat.mul_div_le n _
      · have h3 : n < 2 ^ (2 ^ j) * (n / 2 ^ (2 ^ j) + 1) := Nat.lt_mul_div_succ n hB
        have h4 : n / 2 ^ (2 ^ j) + 1 ≤ 2 ^ (k + 1) := h2
        calc n < 2 ^ (2 ^ j) * (n / 2 ^ (2 ^ j) + 1) := h3
          _ ≤ 2 ^ (2 ^ j) * 2 ^ (k + 1) := Nat.mul_le_mul_left _ h4
          _ = 2 ^ (2 ^ j + k + 1) := by rw [← pow_add]; rfl

theorem bitLength_spec (n : Nat) (h0 : n ≠ 0) :
    ∃ k : Nat, bitLength n = k + 1 ∧ 2 ^ k ≤ n ∧ n < 2 ^ (k + 1) := by
  obtain ⟨k, hk, h1, h2⟩ := bitCount_spec (bitLevel n 0 n) n 0
    (bitLevel_spec n 0 n (by omega)) h0
  exact ⟨k, by unfold bitLength; rw [hk]; omega, h1, h2⟩

theorem binExp_abs (q : ℚ) : binExp |q| = binExp q := by
  by_cases h : 0 ≤ q
  · rw [abs_of_nonneg h]
  · rw [abs_of_neg (not_le.mp h)]
    unfold binExp
    simp only [Rat.neg_num, Rat.neg_den, Int.natAbs_neg]

/-- The comparison of `binExp`, on the numerator and the denominator, is the comparison of
the value with the power of two. -/
theorem binExp_eq (a : ℚ) (h0 : 0 < a) :
    binExp a =
      if (2 : ℚ) ^ ((bitLength a.num.natAbs : Int) - (bitLength a.den : Int)) ≤ a
      then (bitLength a.num.natAbs : Int) - (bitLength a.den : Int)
      else (bitLength a.num.natAbs : Int) - (bitLength a.den : Int) - 1 := by
  have hnum : 0 < a.num := Rat.num_pos.mpr h0
  have hden : (0 : ℚ) < a.den := by exact_mod_cast a.den_pos
  have hcast : ((a.num.natAbs : ℚ)) = (a.num : ℚ) := by
    rw [Nat.cast_natAbs, abs_of_pos hnum]
  have ha : a = (a.num.natAbs : ℚ) / a.den := by
    rw [hcast]
    exact (Rat.num_div_den a).symm
  obtain ⟨n, hn⟩ : ∃ n : Nat, n = a.num.natAbs := ⟨_, rfl⟩
  obtain ⟨d, hd⟩ : ∃ d : Nat, d = a.den := ⟨_, rfl⟩
  obtain ⟨ln, hln⟩ : ∃ l : Nat, l = bitLength a.num.natAbs := ⟨_, rfl⟩
  obtain ⟨ld, hld⟩ : ∃ l : Nat, l = bitLength a.den := ⟨_, rfl⟩
  unfold binExp
  simp only
  rw [← hn, ← hd] at ha
  rw [← hd] at hden
  rw [← hln, ← hld, ← hn, ← hd]
  by_cases hl : ld ≤ ln
  · rw [if_pos hl]
    have e1 : (ln : Int) - (ld : Int) = ((ln - ld : Nat) : Int) := by omega
    have hiff : d * 2 ^ (ln - ld) ≤ n ↔ (2 : ℚ) ^ ((ln : Int) - (ld : Int)) ≤ a := by
      rw [e1, zpow_natCast, ha, le_div_iff₀ hden]
      constructor
      · intro h
        have : ((d * 2 ^ (ln - ld) : Nat) : ℚ) ≤ (n : ℚ) := by exact_mod_cast h
        push_cast at this
        linarith
      · intro h
        have : ((d * 2 ^ (ln - ld) : Nat) : ℚ) ≤ (n : ℚ) := by
          push_cast
          linarith
        exact_mod_cast this
    by_cases hc : d * 2 ^ (ln - ld) ≤ n
    · rw [if_pos hc, if_pos (hiff.mp hc), e1]
    · rw [if_neg hc, if_neg (fun h => hc (hiff.mpr h)), e1]
  · rw [if_neg hl]
    have e1 : (ln : Int) - (ld : Int) = -((ld - ln : Nat) : Int) := by omega
    have hiff : d ≤ n * 2 ^ (ld - ln) ↔ (2 : ℚ) ^ ((ln : Int) - (ld : Int)) ≤ a := by
      rw [e1, zpow_neg, zpow_natCast, ha, le_div_iff₀ hden,
        inv_mul_le_iff₀ (by positivity : (0 : ℚ) < 2 ^ (ld - ln))]
      constructor
      · intro h
        have : ((d : Nat) : ℚ) ≤ ((n * 2 ^ (ld - ln) : Nat) : ℚ) := by exact_mod_cast h
        push_cast at this
        linarith
      · intro h
        have : ((d : Nat) : ℚ) ≤ ((n * 2 ^ (ld - ln) : Nat) : ℚ) := by
          push_cast
          linarith
        exact_mod_cast this
    by_cases hc : d ≤ n * 2 ^ (ld - ln)
    · rw [if_pos hc, if_pos (hiff.mp hc), e1]
    · rw [if_neg hc, if_neg (fun h => hc (hiff.mpr h)), e1]

theorem binExp_spec (a : ℚ) (h0 : 0 < a) :
    (2 : ℚ) ^ (binExp a) ≤ a ∧ a < (2 : ℚ) ^ (binExp a + 1) := by
  have hnum : 0 < a.num := Rat.num_pos.mpr h0
  have hn0 : a.num.natAbs ≠ 0 := by
    intro h
    have := Int.natAbs_eq_zero.mp h
    omega
  have hd0 : a.den ≠ 0 := a.den_pos.ne.symm
  obtain ⟨ln, hln, hn1', hn2'⟩ := bitLength_spec _ hn0
  obtain ⟨ld, hld, hd1', hd2'⟩ := bitLength_spec _ hd0
  have hn1 : ((2 ^ ln : Nat) : ℚ) ≤ (a.num.natAbs : ℚ) := by exact_mod_cast hn1'
  have hn2 : (a.num.natAbs : ℚ) < ((2 ^ (ln + 1) : Nat) : ℚ) := by exact_mod_cast hn2'
  have hd1 : ((2 ^ ld : Nat) : ℚ) ≤ (a.den : ℚ) := by exact_mod_cast hd1'
  have hd2 : (a.den : ℚ) < ((2 ^ (ld + 1) : Nat) : ℚ) := by exact_mod_cast hd2'
  have hcast : ((a.num.natAbs : ℚ)) = (a.num : ℚ) := by
    rw [Nat.cast_natAbs, abs_of_pos hnum]
  have hden : (0 : ℚ) < a.den := by exact_mod_cast a.den_pos
  have ha : a = (a.num.natAbs : ℚ) / a.den := by
    rw [hcast]
    exact (Rat.num_div_den a).symm
  obtain ⟨n, hn⟩ : ∃ n : ℚ, n = (a.num.natAbs : ℚ) := ⟨_, rfl⟩
  obtain ⟨d, hd⟩ : ∃ d : ℚ, d = (a.den : ℚ) := ⟨_, rfl⟩
  rw [← hn] at hn1 hn2
  rw [← hd] at hd1 hd2
  rw [← hn, ← hd] at ha
  rw [← hd] at hden
  push_cast at hn1 hn2 hd1 hd2
  have hn0q : 0 ≤ n := by rw [hn]; positivity
  have hupper : a < (2 : ℚ) ^ ((ln : Int) - (ld : Int) + 1) := by
    have e : (2 : ℚ) ^ ((ln : Int) - (ld : Int) + 1) = 2 ^ (ln + 1) / 2 ^ ld := by
      rw [show (ln : Int) - (ld : Int) + 1 = ((ln + 1 : Nat) : Int) - (ld : Int) by push_cast; ring,
        zpow_sub₀ (by norm_num : (2 : ℚ) ≠ 0), zpow_natCast, zpow_natCast]
    rw [e, ha, div_lt_div_iff₀ hden (by positivity)]
    calc n * 2 ^ ld ≤ n * d := mul_le_mul_of_nonneg_left hd1 hn0q
      _ < 2 ^ (ln + 1) * d := mul_lt_mul_of_pos_right hn2 hden
  have hlower : (2 : ℚ) ^ ((ln : Int) - (ld : Int) - 1) ≤ a := by
    have e : (2 : ℚ) ^ ((ln : Int) - (ld : Int) - 1) = 2 ^ ln / 2 ^ (ld + 1) := by
      rw [show (ln : Int) - (ld : Int) - 1 = (ln : Int) - ((ld + 1 : Nat) : Int) by push_cast; ring,
        zpow_sub₀ (by norm_num : (2 : ℚ) ≠ 0), zpow_natCast, zpow_natCast]
    rw [e, ha, div_le_div_iff₀ (by positivity) hden]
    calc (2 : ℚ) ^ ln * d ≤ n * d := mul_le_mul_of_nonneg_right hn1 hden.le
      _ ≤ n * 2 ^ (ld + 1) := mul_le_mul_of_nonneg_left hd2.le hn0q
  have he0 : ((bitLength a.num.natAbs : Nat) : Int) -
      ((bitLength a.den : Nat) : Int) = (ln : Int) - (ld : Int) := by
    rw [hln, hld]; push_cast; ring
  rw [binExp_eq a h0]
  simp only [he0]
  by_cases hc : (2 : ℚ) ^ ((ln : Int) - (ld : Int)) ≤ a
  · rw [if_pos hc]
    exact ⟨hc, hupper⟩
  · rw [if_neg hc]
    refine ⟨hlower, ?_⟩
    rw [sub_add_cancel]
    exact not_le.mp hc

theorem roundHalfEven_div (n : Int) (d : Nat) (hd : 0 < d) :
    roundHalfEven ((n : ℚ) / (d : ℚ)) = divHalfEven n d := by
  have hdq : (0 : ℚ) < (d : ℚ) := by exact_mod_cast hd
  have hfl : ⌊(n : ℚ) / (d : ℚ)⌋ = n / (d : Int) := Rat.floor_intCast_div_natCast n d
  have hfrac : (n : ℚ) / (d : ℚ) - ((n / (d : Int) : Int) : ℚ) = ((n % (d : Int) : Int) : ℚ) / d := by
    have h := Int.emod_add_ediv n (d : Int)
    have hq : ((n % (d : Int) : Int) : ℚ) + (d : ℚ) * ((n / (d : Int) : Int) : ℚ) = (n : ℚ) := by
      exact_mod_cast h
    field_simp
    linarith
  have hlt : (n : ℚ) / (d : ℚ) - ((n / (d : Int) : Int) : ℚ) < 1 / 2 ↔ 2 * (n % (d : Int)) < d := by
    rw [hfrac, div_lt_div_iff₀ hdq (by norm_num)]
    constructor
    · intro h
      have : ((2 * (n % (d : Int)) : Int) : ℚ) < ((d : Int) : ℚ) := by
        push_cast
        linarith
      exact_mod_cast this
    · intro h
      have : ((2 * (n % (d : Int)) : Int) : ℚ) < ((d : Int) : ℚ) := by exact_mod_cast h
      push_cast at this
      linarith
  have hgt : 1 / 2 < (n : ℚ) / (d : ℚ) - ((n / (d : Int) : Int) : ℚ) ↔ (d : Int) < 2 * (n % (d : Int)) := by
    rw [hfrac, div_lt_div_iff₀ (by norm_num) hdq]
    constructor
    · intro h
      have : ((d : Int) : ℚ) < ((2 * (n % (d : Int)) : Int) : ℚ) := by
        push_cast
        linarith
      exact_mod_cast this
    · intro h
      have : ((d : Int) : ℚ) < ((2 * (n % (d : Int)) : Int) : ℚ) := by exact_mod_cast h
      push_cast at this
      linarith
  unfold roundHalfEven divHalfEven
  simp only [hfl]
  by_cases h1 : 2 * (n % (d : Int)) < d
  · rw [if_pos h1, if_pos (hlt.mpr h1)]
  · rw [if_neg h1, if_neg (fun h => h1 (hlt.mp h))]
    by_cases h2 : (d : Int) < 2 * (n % (d : Int))
    · rw [if_pos h2, if_pos (hgt.mpr h2)]
    · rw [if_neg h2, if_neg (fun h => h2 (hgt.mp h))]

theorem roundBin_eq (prec : Nat) (emin : Int) (q : ℚ) :
    roundBin prec emin q =
      (roundHalfEven (q / (2 : ℚ) ^ (max (binExp |q|) emin - ((prec : Int) - 1))) : ℚ) *
        (2 : ℚ) ^ (max (binExp |q|) emin - ((prec : Int) - 1)) := by
  rw [binExp_abs]
  unfold roundBin
  simp only
  obtain ⟨k, hk⟩ : ∃ k : Int, k = max (binExp q) emin - ((prec : Int) - 1) := ⟨_, rfl⟩
  rw [← hk]
  have hden : (0 : ℚ) < q.den := by exact_mod_cast q.den_pos
  by_cases h : 0 ≤ k
  · rw [if_pos h]
    obtain ⟨j, hj⟩ := Int.eq_ofNat_of_zero_le h
    rw [hj, Int.toNat_natCast, zpow_natCast]
    have e : q / (2 : ℚ) ^ j = (q.num : ℚ) / ((q.den * 2 ^ j : Nat) : ℚ) := by
      push_cast
      rw [← div_div, Rat.num_div_den]
    rw [e, roundHalfEven_div _ _ (by positivity)]
    push_cast
    ring
  · rw [if_neg h]
    obtain ⟨j, hj⟩ := Int.eq_ofNat_of_zero_le (by omega : 0 ≤ -k)
    have hk2 : k = -(j : Int) := by omega
    rw [hj, hk2, Int.toNat_natCast, zpow_neg, zpow_natCast]
    have e : q / ((2 : ℚ) ^ j)⁻¹ = ((q.num * ((2 ^ j : Nat) : Int) : Int) : ℚ) / (q.den : ℚ) := by
      push_cast
      rw [div_inv_eq_mul, mul_div_right_comm, Rat.num_div_den]
    rw [e, roundHalfEven_div _ _ q.den_pos, Rat.mkRat_eq_div]
    push_cast
    rw [div_eq_mul_inv]

theorem toFloat_def (q : ℚ) : toFloat q = roundBin 24 (binExp |q|) q := by
  unfold toFloat
  rw [binExp_abs]

/-- Known values of the roundings: `0.1f` and `0.1`, the integers next to `2^24`, the least
subnormal `float`, a value that underflows to zero and a tie between two subnormal values. -/
theorem rounding_values :
    f32 (1 / 10) = 13421773 / 134217728 ∧
      f64 (1 / 10) = 3602879701896397 / 36028797018963968 ∧
      f32 16777217 = 16777216 ∧ f32 16777219 = 16777220 ∧
      f32 (1 / 2 ^ 149) = 1 / 2 ^ 149 ∧ f32 (1 / 2 ^ 150) = 0 ∧
      f32 (3 / 2 ^ 150) = 1 / 2 ^ 148 ∧
      toFloat (-7 / 10) = -11744051 / 16777216 := by
  decide!

theorem roundHalfEven_err (x : ℚ) : |(roundHalfEven x : ℚ) - x| ≤ 1 / 2 := by
  unfold roundHalfEven
  simp only
  have h1 := Int.floor_le x
  have h2 := Int.lt_floor_add_one x
  rw [abs_le]
  split_ifs with g1 g2 g3
  · constructor <;> linarith
  · push_cast
    constructor <;> linarith
  · have : x - ⌊x⌋ = 1 / 2 := le_antisymm (not_lt.mp g2) (not_lt.mp g1)
    constructor <;> linarith
  · have : x - ⌊x⌋ = 1 / 2 := le_antisymm (not_lt.mp g2) (not_lt.mp g1)
    push_cast
    constructor <;> linarith

theorem roundHalfEven_intCast (n : Int) : roundHalfEven (n : ℚ) = n := by
  unfold roundHalfEven
  simp

theorem roundHalfEven_mono {x y : ℚ} (h : x ≤ y) : roundHalfEven x ≤ roundHalfEven y := by
  by_contra hc
  push_neg at hc
  have hx := roundHalfEven_err x
  have hy := roundHalfEven_err y
  rw [abs_le] at hx hy
  have h1 : (roundHalfEven y : ℚ) + 1 ≤ roundHalfEven x := by exact_mod_cast hc
  -- both at distance exactly 1/2: x = y, contradiction with the values being different
  have hxy : x = y := by linarith
  rw [hxy] at hc
  exact lt_irrefl _ hc

theorem roundBin_zero (prec : Nat) (emin : Int) : roundBin prec emin 0 = 0 := by
  simp only [roundBin_eq]
  simp [roundHalfEven]

theorem roundBin_err (prec : Nat) (emin : Int) (q : ℚ) :
    |roundBin prec emin q - q| ≤
      (2 : ℚ) ^ (max (binExp |q|) emin - ((prec : Int) - 1)) / 2 := by
  simp only [roundBin_eq]
  set u : ℚ := (2 : ℚ) ^ (max (binExp |q|) emin - ((prec : Int) - 1)) with hu
  have hu0 : 0 < u := by positivity
  have h := roundHalfEven_err (q / u)
  have : (roundHalfEven (q / u) : ℚ) * u - q = ((roundHalfEven (q / u) : ℚ) - q / u) * u := by
    field_simp
  rw [this, abs_mul, abs_of_pos hu0]
  calc |(roundHalfEven (q / u) : ℚ) - q / u| * u ≤ 1 / 2 * u :=
        mul_le_mul_of_nonneg_right h hu0.le
    _ = u / 2 := by ring

theorem roundBin_rel (prec : Nat) (emin : Int) (q : ℚ) :
    |roundBin prec emin q - q| ≤
      |q| * (2 : ℚ) ^ (-(prec : Int)) + (2 : ℚ) ^ (emin - (prec : Int)) := by
  have h := roundBin_err prec emin q
  have hsplit : ∀ e : Int, (2 : ℚ) ^ (e - ((prec : Int) - 1)) / 2 = 2 ^ (e - (prec : Int)) := by
    intro e
    have : e - ((prec : Int) - 1) = (e - (prec : Int)) + 1 := by ring
    rw [this, zpow_add_one₀ (by norm_num)]
    ring
  rw [hsplit] at h
  have hq0 : 0 ≤ |q| * (2 : ℚ) ^ (-(prec : Int)) := by positivity
  have he0 : 0 ≤ (2 : ℚ) ^ (emin - (prec : Int)) := by positivity
  rcases le_total (binExp |q|) emin with hle | hle
  · rw [max_eq_right hle] at h
    linarith
  · rw [max_eq_left hle] at h
    by_cases hz : q = 0
    · subst hz
      rw [roundBin_zero]
      simp only [sub_zero, abs_zero, zero_mul, zero_add]
      positivity
    · have hpos : 0 < |q| := abs_pos.mpr hz
      have hs := (binExp_spec |q| hpos).1
      have : (2 : ℚ) ^ (binExp |q| - (prec : Int)) = 2 ^ (binExp |q|) * 2 ^ (-(prec : Int)) := by
        rw [← zpow_add₀ (by norm_num)]
        congr 1
      rw [this] at h
      have h2 : (2 : ℚ) ^ (binExp |q|) * 2 ^ (-(prec : Int)) ≤ |q| * 2 ^ (-(prec : Int)) :=
        mul_le_mul_of_nonneg_right hs (by positivity)
      linarith

theorem roundBin_exact (prec : Nat) (emin : Int) (q : ℚ) (m : Int)
    (hm : q = (m : ℚ) * (2 : ℚ) ^ (max (binExp |q|) emin - ((prec : Int) - 1))) :
    roundBin prec emin q = q := by
  simp only [roundBin_eq]
  have hu0 : (2 : ℚ) ^ (max (binExp |q|) emin - ((prec : Int) - 1)) ≠ 0 := by positivity
  have hdiv : q / (2 : ℚ) ^ (max (binExp |q|) emin - ((prec : Int) - 1)) = (m : ℚ) := by
    rw [div_eq_iff hu0]
    exact hm
  rw [hdiv, roundHalfEven_intCast]
  exact hm.symm

theorem roundBin_intCast (prec : Nat) (emin : Int) (hp1 : 1 ≤ prec) (he : emin ≤ 0) (n : Int)
    (h : |n| ≤ 2 ^ prec) : roundBin prec emin (n : ℚ) = n := by
  by_cases hn : n = 0
  · subst hn
    simpa using roundBin_zero prec emin
  have hpos : (0 : ℚ) < |(n : ℚ)| := abs_pos.mpr (by exact_mod_cast hn)
  obtain ⟨h1, h2⟩ := binExp_spec |(n : ℚ)| hpos
  have hone : (1 : ℚ) ≤ |(n : ℚ)| := by
    have : (1 : Int) ≤ |n| := Int.one_le_abs hn
    exact_mod_cast this
  have hle : |(n : ℚ)| ≤ 2 ^ prec := by exact_mod_cast h
  set e := binExp |(n : ℚ)| with he_def
  have he0 : 0 ≤ e := by
    by_contra hc
    push_neg at hc
    have : (2 : ℚ) ^ (e + 1) ≤ 2 ^ (0 : Int) := zpow_le_zpow_right₀ (by norm_num) (by omega)
    simp at this
    linarith
  have hep : e ≤ prec := by
    by_contra hc
    push_neg at hc
    have : (2 : ℚ) ^ ((prec : Int) + 1) ≤ 2 ^ e := zpow_le_zpow_right₀ (by norm_num) (by omega)
    have h3 : (2 : ℚ) ^ ((prec : Int) + 1) = 2 ^ prec * 2 := by
      rw [zpow_add_one₀ (by norm_num)]
      norm_cast
    have h4 : (0 : ℚ) < 2 ^ prec := by positivity
    linarith
  have hmax : max e emin = e := max_eq_left (by omega)
  rcases Int.lt_or_le e prec with hlt | hge
  · -- the unit in the last place is 1 / 2 ^ k
    obtain ⟨k, hk⟩ : ∃ k : Nat, (k : Int) = (prec : Int) - 1 - e := ⟨((prec : Int) - 1 - e).toNat, by omega⟩
    apply roundBin_exact prec emin (n : ℚ) (n * 2 ^ k)
    rw [← he_def, hmax]
    have : e - ((prec : Int) - 1) = -(k : Int) := by omega
    rw [this, zpow_neg, zpow_natCast]
    push_cast
    field_simp
  · have hee : e = prec := by omega
    have habs : |(n : ℚ)| = 2 ^ prec := by
      apply le_antisymm hle
      rw [hee] at h1
      exact_mod_cast h1
    obtain ⟨j, hj⟩ : ∃ j : Nat, prec = j + 1 := ⟨prec - 1, by omega⟩
    rcases abs_choice (n : ℚ) with hc | hc
    · apply roundBin_exact prec emin (n : ℚ) (2 ^ j)
      rw [← he_def, hmax, hee]
      have : (prec : Int) - ((prec : Int) - 1) = 1 := by ring
      rw [this]
      rw [hc] at habs
      rw [habs, hj]
      push_cast
      ring
    · apply roundBin_exact prec emin (n : ℚ) (-(2 ^ j))
      rw [← he_def, hmax, hee]
      have : (prec : Int) - ((prec : Int) - 1) = 1 := by ring
      rw [this]
      rw [hc] at habs
      have : (n : ℚ) = -(2 ^ prec) := by linarith
      rw [this, hj]
      push_cast
      ring

theorem f32_intCast (n : Int) (h : |n| ≤ 16777216) : f32 (n : ℚ) = n :=
  roundBin_intCast 24 (-126) (by norm_num) (by norm_num) n (by simpa using h)

theorem roundBin_nonneg (prec : Nat) (emin : Int) {q : ℚ} (h : 0 ≤ q) :
    0 ≤ roundBin prec emin q := by
  simp only [roundBin_eq]
  have hu : (0 : ℚ) < (2 : ℚ) ^ (max (binExp |q|) emin - ((prec : Int) - 1)) := by positivity
  have h0 : roundHalfEven (0 : ℚ) ≤ roundHalfEven (q / _) :=
    roundHalfEven_mono (div_nonneg h hu.le)
  have hz : roundHalfEven (0 : ℚ) = 0 := by simpa using roundHalfEven_intCast 0
  rw [hz] at h0
  have : (0 : ℚ) ≤ (roundHalfEven (q / (2 : ℚ) ^ (max (binExp |q|) emin - ((prec : Int) - 1))) : ℚ) := by
    exact_mod_cast h0
  positivity

theorem roundBin_nonpos (prec : Nat) (emin : Int) {q : ℚ} (h : q ≤ 0) :
    roundBin prec emin q ≤ 0 := by
  simp only [roundBin_eq]
  have hu : (0 : ℚ) < (2 : ℚ) ^ (max (binExp |q|) emin - ((prec : Int) - 1)) := by positivity
  have h0 : roundHalfEven (q / _) ≤ roundHalfEven (0 : ℚ) :=
    roundHalfEven_mono (div_nonpos_of_nonpos_of_nonneg h hu.le)
  have hz : roundHalfEven (0 : ℚ) = 0 := by simpa using roundHalfEven_intCast 0
  rw [hz] at h0
  have : (roundHalfEven (q / (2 : ℚ) ^ (max (binExp |q|) emin - ((prec : Int) - 1))) : ℚ) ≤ 0 := by
    exact_mod_cast h0
  exact mul_nonpos_of_nonpos_of_nonneg this hu.le

theorem binExp_mono_abs {a b : ℚ} (ha : 0 < a) (hab : a ≤ b) : binExp a ≤ binExp b := by
  obtain ⟨a1, a2⟩ := binExp_spec a ha
  obtain ⟨b1, b2⟩ := binExp_spec b (lt_of_lt_of_le ha hab)
  by_contra hc
  push_neg at hc
  have : (2 : ℚ) ^ (binExp b + 1) ≤ 2 ^ (binExp a) := zpow_le_zpow_right₀ (by norm_num) (by omega)
  linarith

theorem roundBin_abs_le (prec : Nat) (emin : Int) (q : ℚ) (hq : q ≠ 0) :
    -(2 : ℚ) ^ (max (binExp |q|) emin + 1) ≤ roundBin prec emin q ∧
      roundBin prec emin q ≤ (2 : ℚ) ^ (max (binExp |q|) emin + 1) := by
  have hpos : 0 < |q| := abs_pos.mpr hq
  obtain ⟨-, s2⟩ := binExp_spec |q| hpos
  set E := max (binExp |q|) emin with hE
  have hlt : |q| < (2 : ℚ) ^ (E + 1) :=
    lt_of_lt_of_le s2 (zpow_le_zpow_right₀ (by norm_num) (by rw [hE]; have := le_max_left (binExp |q|) emin; omega))
  simp only [roundBin_eq]
  rw [← hE]
  set u : ℚ := (2 : ℚ) ^ (E - ((prec : Int) - 1)) with hu
  have hu0 : 0 < u := by positivity
  have hprod : ((2 ^ prec : Int) : ℚ) * u = (2 : ℚ) ^ (E + 1) := by
    rw [hu]
    push_cast
    rw [← zpow_natCast, ← zpow_add₀ (by norm_num)]
    congr 1
    ring
  obtain ⟨q1, q2⟩ := abs_lt.mp hlt
  have hdu : q / u ≤ ((2 ^ prec : Int) : ℚ) := by
    rw [div_le_iff₀ hu0, hprod]
    exact q2.le
  have hdl : ((-(2 ^ prec) : Int) : ℚ) ≤ q / u := by
    rw [le_div_iff₀ hu0]
    push_cast
    push_cast at hprod
    rw [neg_mul, hprod]
    exact q1.le
  have r1 := roundHalfEven_mono hdu
  have r2 := roundHalfEven_mono hdl
  rw [roundHalfEven_intCast] at r1 r2
  have r1q : (roundHalfEven (q / u) : ℚ) ≤ ((2 ^ prec : Int) : ℚ) := by exact_mod_cast r1
  have r2q : ((-(2 ^ prec) : Int) : ℚ) ≤ (roundHalfEven (q / u) : ℚ) := by exact_mod_cast r2
  constructor
  · have := mul_le_mul_of_nonneg_right r2q hu0.le
    push_cast at this hprod
    rw [neg_mul, hprod] at this
    exact this
  · have := mul_le_mul_of_nonneg_right r1q hu0.le
    rw [hprod] at this
    exact this

theorem roundBin_ge_pow (prec : Nat) (emin : Int) (hp : 1 ≤ prec) (q : ℚ) (hq : q ≠ 0)
    (hE : emin < max (binExp |q|) emin) :
    (0 < q → (2 : ℚ) ^ (max (binExp |q|) emin) ≤ roundBin prec emin q) ∧
      (q < 0 → roundBin prec emin q ≤ -(2 : ℚ) ^ (max (binExp |q|) emin)) := by
  have hpos : 0 < |q| := abs_pos.mpr hq
  obtain ⟨s1, -⟩ := binExp_spec |q| hpos
  have hmax : max (binExp |q|) emin = binExp |q| := by
    rcases le_total (binExp |q|) emin with h | h
    · rw [max_eq_right h] at hE
      omega
    · exact max_eq_left h
  rw [hmax]
  simp only [roundBin_eq]
  rw [hmax]
  set E := binExp |q| with hEdef
  set u : ℚ := (2 : ℚ) ^ (E - ((prec : Int) - 1)) with hu
  have hu0 : 0 < u := by positivity
  obtain ⟨j, hj⟩ : ∃ j : Nat, prec = j + 1 := ⟨prec - 1, by omega⟩
  have hprod : ((2 ^ j : Int) : ℚ) * u = (2 : ℚ) ^ E := by
    rw [hu, hj]
    push_cast
    rw [← zpow_natCast, ← zpow_add₀ (by norm_num)]
    congr 1
    ring
  constructor
  · intro h0
    rw [abs_of_pos h0] at s1
    have hd : ((2 ^ j : Int) : ℚ) ≤ q / u := by
      rw [le_div_iff₀ hu0, hprod]
      exact s1
    have r := roundHalfEven_mono hd
    rw [roundHalfEven_intCast] at r
    have rq : ((2 ^ j : Int) : ℚ) ≤ (roundHalfEven (q / u) : ℚ) := by exact_mod_cast r
    have := mul_le_mul_of_nonneg_right rq hu0.le
    rw [hprod] at this
    exact this
  · intro h0
    rw [abs_of_neg h0] at s1
    have hd : q / u ≤ ((-(2 ^ j) : Int) : ℚ) := by
      rw [div_le_iff₀ hu0]
      push_cast
      push_cast at hprod
      rw [neg_mul, hprod]
      linarith
    have r := roundHalfEven_mono hd
    rw [roundHalfEven_intCast] at r
    have rq : (roundHalfEven (q / u) : ℚ) ≤ ((-(2 ^ j) : Int) : ℚ) := by exact_mod_cast r
    have := mul_le_mul_of_nonneg_right rq hu0.le
    push_cast at this hprod
    rw [neg_mul, hprod] at this
    exact this

theorem roundBin_mono_same (prec : Nat) (emin : Int) {q1 q2 : ℚ} (h : q1 ≤ q2)
    (hE : max (binExp |q1|) emin = max (binExp |q2|) emin) :
    roundBin prec emin q1 ≤ roundBin prec emin q2 := by
  simp only [roundBin_eq]
  rw [hE]
  have hu0 : (0 : ℚ) < (2 : ℚ) ^ (max (binExp |q2|) emin - ((prec : Int) - 1)) := by positivity
  have r := roundHalfEven_mono (div_le_div_of_nonneg_right h hu0.le)
  have rq : (roundHalfEven (q1 / (2 : ℚ) ^ (max (binExp |q2|) emin - ((prec : Int) - 1))) : ℚ) ≤
      (roundHalfEven (q2 / (2 : ℚ) ^ (max (binExp |q2|) emin - ((prec : Int) - 1))) : ℚ) := by
    exact_mod_cast r
  exact mul_le_mul_of_nonneg_right rq hu0.le

theorem roundBin_mono (prec : Nat) (emin : Int) (hp : 1 ≤ prec) {q1 q2 : ℚ} (h : q1 ≤ q2) :
    roundBin prec emin q1 ≤ roundBin prec emin q2 := by
  rcases lt_trichotomy q1 0 with n1 | z1 | p1
  · rcases lt_or_le q2 0 with n2 | p2
    · -- both negative
      have habs : |q2| ≤ |q1| := by
        rw [abs_of_neg n1, abs_of_neg n2]
        linarith
      have hE : max (binExp |q2|) emin ≤ max (binExp |q1|) emin :=
        max_le_max (binExp_mono_abs (abs_pos.mpr n2.ne) habs) (le_refl _)
      rcases eq_or_lt_of_le hE with heq | hlt
      · exact roundBin_mono_same prec emin h heq.symm
      · have hgt : emin < max (binExp |q1|) emin :=
          lt_of_le_of_lt (le_max_right _ _) hlt
        have a := (roundBin_ge_pow prec emin hp q1 n1.ne hgt).2 n1
        have b := (roundBin_abs_le prec emin q2 n2.ne).1
        have c : (2 : ℚ) ^ (max (binExp |q2|) emin + 1) ≤ 2 ^ (max (binExp |q1|) emin) :=
          zpow_le_zpow_right₀ (by norm_num) (by omega)
        linarith
    · exact le_trans (roundBin_nonpos prec emin n1.le) (roundBin_nonneg prec emin p2)
  · subst z1
    rw [roundBin_zero]
    exact roundBin_nonneg prec emin h
  · have p2 : 0 < q2 := lt_of_lt_of_le p1 h
    have habs : |q1| ≤ |q2| := by
      rw [abs_of_pos p1, abs_of_pos p2]
      exact h
    have hE : max (binExp |q1|) emin ≤ max (binExp |q2|) emin :=
      max_le_max (binExp_mono_abs (abs_pos.mpr p1.ne') habs) (le_refl _)
    rcases eq_or_lt_of_le hE with heq | hlt
    · exact roundBin_mono_same prec emin h heq
    · have hgt : emin < max (binExp |q2|) emin :=
        lt_of_le_of_lt (le_max_right _ _) hlt
      have a := (roundBin_ge_pow prec emin hp q2 p2.ne' hgt).1 p2
      have b := (roundBin_abs_le prec emin q1 p1.ne').2
      have c : (2 : ℚ) ^ (max (binExp |q1|) emin + 1) ≤ 2 ^ (max (binExp |q2|) emin) :=
        zpow_le_zpow_right₀ (by norm_num) (by omega)
      linarith

theorem roundBin_grid (prec : Nat) (emin : Int) (q : ℚ) :
    ∃ m : Int, roundBin prec emin q = (m : ℚ) * (2 : ℚ) ^ (emin - ((prec : Int) - 1)) := by
  simp only [roundBin_eq]
  obtain ⟨k, hk⟩ : ∃ k : Nat, (k : Int) = max (binExp |q|) emin - emin :=
    ⟨(max (binExp |q|) emin - emin).toNat, by have := le_max_right (binExp |q|) emin; omega⟩
  refine ⟨roundHalfEven (q / (2 : ℚ) ^ (max (binExp |q|) emin - ((prec : Int) - 1))) * 2 ^ k, ?_⟩
  have : max (binExp |q|) emin - ((prec : Int) - 1) = (k : Int) + (emin - ((prec : Int) - 1)) := by
    omega
  rw [this, zpow_add₀ (by norm_num), zpow_natCast]
  push_cast
  ring

theorem roundBin_neg_of_le (prec : Nat) (emin : Int) (hp : 1 ≤ prec) {q : ℚ}
    (hq : q ≤ -(2 : ℚ) ^ (emin - ((prec : Int) - 1))) : roundBin prec emin q < 0 := by
  have hg0 : (0 : ℚ) < (2 : ℚ) ^ (emin - ((prec : Int) - 1)) := by positivity
  have hneg : q < 0 := by linarith
  have hpos : 0 < |q| := abs_pos.mpr hneg.ne
  obtain ⟨s1, -⟩ := binExp_spec |q| hpos
  have hu_le : (2 : ℚ) ^ (max (binExp |q|) emin - ((prec : Int) - 1)) ≤ |q| := by
    rcases le_total (binExp |q|) emin with h | h
    · rw [max_eq_right h, abs_of_neg hneg]
      linarith
    · rw [max_eq_left h]
      refine le_trans (zpow_le_zpow_right₀ (by norm_num) ?_) s1
      omega
  simp only [roundBin_eq]
  set u : ℚ := (2 : ℚ) ^ (max (binExp |q|) emin - ((prec : Int) - 1)) with hu
  have hu0 : 0 < u := by positivity
  have hd : q / u ≤ ((-1 : Int) : ℚ) := by
    rw [div_le_iff₀ hu0]
    rw [abs_of_neg hneg] at hu_le
    push_cast
    linarith
  have r := roundHalfEven_mono hd
  rw [roundHalfEven_intCast] at r
  have rq : (roundHalfEven (q / u) : ℚ) ≤ -1 := by exact_mod_cast r
  have := mul_le_mul_of_nonneg_right rq hu0.le
  linarith

theorem f32_sub_neg_iff (a : Int) (c : ℚ) (ha : |a| ≤ 16777216) (hc : f32 c = c) :
    f32 (f32 (a : ℚ) - c) < 0 ↔ (a : ℚ) - c < 0 := by
  rw [f32_intCast a ha]
  constructor
  · intro h
    by_contra hn
    push_neg at hn
    have := roundBin_nonneg 24 (-126) hn
    unfold f32 at h
    linarith
  · intro h
    obtain ⟨m, hm⟩ := roundBin_grid 24 (-126) c
    have hc2 : c = (m : ℚ) * (2 : ℚ) ^ ((-126 : Int) - (((24 : Nat) : Int) - 1)) := by
      rw [← hm]
      exact hc.symm
    have hexp : ((-126 : Int) - (((24 : Nat) : Int) - 1)) = -149 := by norm_num
    rw [hexp] at hc2
    have hg : (2 : ℚ) ^ (-149 : Int) * 2 ^ (149 : Nat) = 1 := by
      rw [zpow_neg]
      norm_num
    -- the difference is a multiple of 2 ^ (-149)
    have hdiff : (a : ℚ) - c = ((a * 2 ^ 149 - m : Int) : ℚ) * (2 : ℚ) ^ (-149 : Int) := by
      rw [hc2]
      push_cast
      have : (a : ℚ) = (a : ℚ) * (2 ^ (149 : Nat) * (2 : ℚ) ^ (-149 : Int)) := by
        rw [mul_comm ((2 : ℚ) ^ (149 : Nat)), hg, mul_one]
      nth_rewrite 1 [this]
      ring
    have hg0 : (0 : ℚ) < (2 : ℚ) ^ (-149 : Int) := by positivity
    have hM : (a * 2 ^ 149 - m : Int) < 0 := by
      by_contra hn
      push_neg at hn
      have : (0 : ℚ) ≤ ((a * 2 ^ 149 - m : Int) : ℚ) := by exact_mod_cast hn
      have : 0 ≤ (a : ℚ) - c := by
        rw [hdiff]
        positivity
      linarith
    have hM1 : ((a * 2 ^ 149 - m : Int) : ℚ) ≤ -1 := by
      have : (a * 2 ^ 149 - m : Int) ≤ -1 := by omega
      exact_mod_cast this
    have hle : (a : ℚ) - c ≤ -(2 : ℚ) ^ ((-126 : Int) - (((24 : Nat) : Int) - 1)) := by
      rw [hexp, hdiff]
      have := mul_le_mul_of_nonneg_right hM1 hg0.le
      linarith
    exact roundBin_neg_of_le 24 (-126) (by norm_num) hle

theorem toFloat_eq_roundBin (q : ℚ) (emin : Int) (h : emin ≤ binExp |q|) :
    toFloat q = roundBin 24 emin q := by
  rw [toFloat_def]
  simp only [roundBin_eq]
  simp only [max_self, max_eq_left h]

theorem toFloat_zero : toFloat 0 = 0 := roundBin_zero _ _

theorem toFloat_mono {q1 q2 : ℚ} (h : q1 ≤ q2) : toFloat q1 ≤ toFloat q2 := by
  rw [toFloat_eq_roundBin q1 (min (binExp |q1|) (binExp |q2|)) (min_le_left _ _),
    toFloat_eq_roundBin q2 (min (binExp |q1|) (binExp |q2|)) (min_le_right _ _)]
  exact roundBin_mono 24 _ (by norm_num) h

theorem toFloat_err (q : ℚ) : |toFloat q - q| ≤ |q| * (1 / 2 ^ 24) := by
  by_cases hq : q = 0
  · rw [hq, toFloat_zero]; simp
  have h0 : 0 < |q| := abs_pos.mpr hq
  have h := roundBin_err 24 (binExp |q|) q
  rw [max_self] at h
  have hs := (binExp_spec |q| h0).1
  rw [toFloat_def]
  have e : (2 : ℚ) ^ (binExp |q| - (((24 : Nat) : Int) - 1)) / 2 =
      (2 : ℚ) ^ (binExp |q|) * (1 / 2 ^ 24) := by
    rw [zpow_sub₀ (by norm_num : (2 : ℚ) ≠ 0)]
    norm_num
    ring
  rw [e] at h
  have h2 : (2 : ℚ) ^ (binExp |q|) * (1 / 2 ^ 24) ≤ |q| * (1 / 2 ^ 24) :=
    mul_le_mul_of_nonneg_right hs (by norm_num)
  exact le_trans h h2

theorem toFloat_intCast (n : Int) (h : |n| ≤ 16777216) : toFloat (n : ℚ) = n := by
  by_cases hn : n = 0
  · rw [hn]; simpa using toFloat_zero
  have h1 : (1 : ℚ) ≤ |(n : ℚ)| := by
    have : (1 : Int) ≤ |n| := Int.one_le_abs hn
    exact_mod_cast this
  have hb : (0 : Int) ≤ binExp |(n : ℚ)| := by
    have hs := (binExp_spec |(n : ℚ)| (by linarith)).2
    by_contra hneg
    push_neg at hneg
    have : (2 : ℚ) ^ (binExp |(n : ℚ)| + 1) ≤ 2 ^ (0 : Int) :=
      zpow_le_zpow_right₀ (by norm_num) (by omega)
    simp only [zpow_zero] at this
    linarith
  rw [toFloat_eq_roundBin _ 0 hb]
  exact roundBin_intCast 24 0 (by norm_num) (le_refl _) n (by simpa using h)

theorem toFloat_eq_zero_iff (q : ℚ) : toFloat q = 0 ↔ q = 0 := by
  constructor
  · intro h
    by_contra hq
    have h0 : 0 < |q| := abs_pos.mpr hq
    have he := toFloat_err q
    rw [h, zero_sub, abs_neg] at he
    have : |q| * (1 / 2 ^ 24) < |q| * 1 := by
      apply mul_lt_mul_of_pos_left _ h0
      norm_num
    linarith
  · intro h
    rw [h, toFloat_zero]

theorem toFloat_nonneg {q : ℚ} (h : 0 ≤ q) : 0 ≤ toFloat q := by
  have := toFloat_mono h
  rwa [toFloat_zero] at this

theorem toFloat_nonpos {q : ℚ} (h : q ≤ 0) : toFloat q ≤ 0 := by
  have := toFloat_mono h
  rwa [toFloat_zero] at this

theorem toFloat_pos {q : ℚ} (h : 0 < q) : 0 < toFloat q :=
  lt_of_le_of_ne (toFloat_nonneg h.le) (fun e => h.ne.symm ((toFloat_eq_zero_iff q).mp e.symm))

theorem toFloat_neg {q : ℚ} (h : q < 0) : toFloat q < 0 :=
  lt_of_le_of_ne (toFloat_nonpos h.le) (fun e => h.ne ((toFloat_eq_zero_iff q).mp e))

theorem toFloat_eq_f32 (q : ℚ) (h : 1 / 2 ^ 126 ≤ |q|) : toFloat q = f32 q := by
  have h0 : 0 < |q| := lt_of_lt_of_le (by positivity) h
  have hs := (binExp_spec |q| h0).2
  apply toFloat_eq_roundBin
  by_contra hneg
  push_neg at hneg
  have : (2 : ℚ) ^ (binExp |q| + 1) ≤ 2 ^ (-126 : Int) :=
    zpow_le_zpow_right₀ (by norm_num) (by omega)
  have e : (2 : ℚ) ^ (-126 : Int) = 1 / 2 ^ 126 := by
    rw [zpow_neg]; norm_num
  rw [e] at this
  linarith

theorem f64_err (q : ℚ) (h : |q| ≤ 4194304) : |f64 q - q| ≤ 1 / 2 ^ 30 := by
  have h1 := roundBin_rel 53 (-1022) q
  have e1 : (2 : ℚ) ^ (-((53 : Nat) : Int)) = 1 / 2 ^ 53 := by
    rw [zpow_neg, zpow_natCast]
    norm_num
  have e2 : (2 : ℚ) ^ ((-1022 : Int) - ((53 : Nat) : Int)) ≤ 1 / 2 ^ 31 := by
    have : ((-1022 : Int) - ((53 : Nat) : Int)) ≤ -((31 : Nat) : Int) := by norm_num
    calc (2 : ℚ) ^ ((-1022 : Int) - ((53 : Nat) : Int)) ≤ 2 ^ (-((31 : Nat) : Int)) :=
          zpow_le_zpow_right₀ (by norm_num) this
      _ = 1 / 2 ^ 31 := by rw [zpow_neg, zpow_natCast]; norm_num
  rw [e1] at h1
  have h3 : |q| * (1 / 2 ^ 53) ≤ 4194304 * (1 / 2 ^ 53) :=
    mul_le_mul_of_nonneg_right h (by positivity)
  have e3 : (4194304 : ℚ) * (1 / 2 ^ 53) = 1 / 2 ^ 31 := by norm_num
  have e4 : (1 : ℚ) / 2 ^ 31 + 1 / 2 ^ 31 = 1 / 2 ^ 30 := by norm_num
  unfold f64
  linarith only [h1, e2, h3, e3, e4]

theorem f32_err (q : ℚ) : |f32 q - q| ≤ |q| * (1 / 2 ^ 24) + 1 / 2 ^ 150 := by
  have h1 := roundBin_rel 24 (-126) q
  have e1 : (2 : ℚ) ^ (-((24 : Nat) : Int)) = 1 / 2 ^ 24 := by
    rw [zpow_neg, zpow_natCast]
    norm_num
  have e2 : (2 : ℚ) ^ ((-126 : Int) - ((24 : Nat) : Int)) = 1 / 2 ^ 150 := by
    have : ((-126 : Int) - ((24 : Nat) : Int)) = -((150 : Nat) : Int) := by norm_num
    rw [this, zpow_neg, zpow_natCast]
    norm_num
  rw [e1, e2] at h1
  exact h1

theorem f64_mul_err (a b a0 B e : ℚ) (ha : |a - a0| ≤ e) (ha0 : |a0| ≤ B) (hb : |b| ≤ 1)
    (hB : B + e ≤ 4194304) :
    |f64 (a * b) - a0 * b| ≤ e + 1 / 2 ^ 30 ∧ |a0 * b| ≤ B := by
  have hb0 : 0 ≤ |b| := abs_nonneg b
  have habs : |a| ≤ B + e := by
    have := abs_sub_abs_le_abs_sub a a0
    linarith only [this, ha, ha0]
  have h1 : |a * b| ≤ 4194304 := by
    rw [abs_mul]
    calc |a| * |b| ≤ |a| * 1 := mul_le_mul_of_nonneg_left hb (abs_nonneg a)
      _ ≤ 4194304 := by linarith only [habs, hB]
  have h2 := f64_err (a * b) h1
  have h3 : |a * b - a0 * b| ≤ e := by
    have : a * b - a0 * b = (a - a0) * b := by ring
    rw [this, abs_mul]
    calc |a - a0| * |b| ≤ |a - a0| * 1 := mul_le_mul_of_nonneg_left hb (abs_nonneg _)
      _ ≤ e := by linarith only [ha]
  constructor
  · have : f64 (a * b) - a0 * b = (f64 (a * b) - a * b) + (a * b - a0 * b) := by ring
    rw [this]
    have := abs_add (f64 (a * b) - a * b) (a * b - a0 * b)
    linarith only [this, h2, h3]
  · rw [abs_mul]
    calc |a0| * |b| ≤ |a0| * 1 := mul_le_mul_of_nonneg_left hb (abs_nonneg _)
      _ ≤ B := by linarith only [ha0]

/-- The error of the two coordinates of a point of `ellipse2Points` before the conversion to
`float`: centre `(C1, C2)`, half axes `R`. -/
theorem coordinate_err_at (C1 C2 R c s al be : ℚ) (hC1 : |C1| ≤ 1000000)
    (hC2 : |C2| ≤ 1000000) (hR0 : 0 ≤ R) (hR : R ≤ 1000000)
    (hc : |c| ≤ 1) (hs : |s| ≤ 1) (hal : |al| ≤ 1) (hbe : |be| ≤ 1) :
    |f64 (f64 (C1 + f64 (f64 (f64 (1 / 2 * (2 * R)) * c) * al)) -
        f64 (f64 (f64 (1 / 2 * (2 * R)) * s) * be)) - (C1 + R * (c * al - s * be))| ≤
        8 / 2 ^ 30 ∧
      |f64 (f64 (C2 + f64 (f64 (f64 (1 / 2 * (2 * R)) * c) * be)) +
        f64 (f64 (f64 (1 / 2 * (2 * R)) * s) * al)) - (C2 + R * (c * be + s * al))| ≤
        8 / 2 ^ 30 := by
  have hRR : (1 / 2 : ℚ) * (2 * R) = R := by ring
  rw [hRR]
  have hRabs : |R| ≤ 1000000 := by rw [abs_of_nonneg hR0]; exact hR
  have hw : |f64 R - R| ≤ 1 / 2 ^ 30 := f64_err R (by linarith only [hRabs])
  have θ0 : (0 : ℚ) ≤ 1 / 2 ^ 30 := by positivity
  have θ1 : (1 : ℚ) / 2 ^ 30 ≤ 1 := by norm_num
  obtain ⟨hx, hxB⟩ := f64_mul_err (f64 R) c R 1000000 (1 / 2 ^ 30) hw hRabs hc
    (by linarith only [θ1])
  obtain ⟨hy, hyB⟩ := f64_mul_err (f64 R) s R 1000000 (1 / 2 ^ 30) hw hRabs hs
    (by linarith only [θ1])
  obtain ⟨hxa, hxaB⟩ := f64_mul_err (f64 (f64 R * c)) al (R * c) 1000000 _ hx hxB hal
    (by linarith only [θ1])
  obtain ⟨hxb, hxbB⟩ := f64_mul_err (f64 (f64 R * c)) be (R * c) 1000000 _ hx hxB hbe
    (by linarith only [θ1])
  obtain ⟨hya, hyaB⟩ := f64_mul_err (f64 (f64 R * s)) al (R * s) 1000000 _ hy hyB hal
    (by linarith only [θ1])
  obtain ⟨hyb, hybB⟩ := f64_mul_err (f64 (f64 R * s)) be (R * s) 1000000 _ hy hyB hbe
    (by linarith only [θ1])
  have key : ∀ (C X Y X0 Y0 sg : ℚ), |C| ≤ 1000000 →
      |X - X0| ≤ 1 / 2 ^ 30 + 1 / 2 ^ 30 + 1 / 2 ^ 30 →
      |Y - Y0| ≤ 1 / 2 ^ 30 + 1 / 2 ^ 30 + 1 / 2 ^ 30 → |X0| ≤ 1000000 → |Y0| ≤ 1000000 →
      (sg = 1 ∨ sg = -1) →
      |f64 (f64 (C + X) + sg * Y) - (C + (X0 + sg * Y0))| ≤ 8 / 2 ^ 30 := by
    intro C X Y X0 Y0 sg hC h1 h2 h3 h4 hsg
    have hXabs : |X| ≤ 1000000 + 3 / 2 ^ 30 := by
      have := abs_sub_abs_le_abs_sub X X0
      linarith only [this, h1, h3]
    have hYabs : |Y| ≤ 1000000 + 3 / 2 ^ 30 := by
      have := abs_sub_abs_le_abs_sub Y Y0
      linarith only [this, h2, h4]
    have hCX : |C + X| ≤ 2000000 + 3 / 2 ^ 30 := by
      have := abs_add C X
      linarith only [this, hC, hXabs]
    have hS := f64_err (C + X) (by linarith only [hCX, θ1])
    have hSabs : |f64 (C + X)| ≤ 2000000 + 4 / 2 ^ 30 := by
      have := abs_sub_abs_le_abs_sub (f64 (C + X)) (C + X)
      linarith only [this, hS, hCX]
    have hsgY : |sg * Y| = |Y| := by
      rcases hsg with h | h <;> rw [h] <;> simp
    have hsgd : |sg * Y - sg * Y0| = |Y - Y0| := by
      have : sg * Y - sg * Y0 = sg * (Y - Y0) := by ring
      rw [this, abs_mul]
      rcases hsg with h | h <;> rw [h] <;> simp
    have hsum : |f64 (C + X) + sg * Y| ≤ 4194304 := by
      have := abs_add (f64 (C + X)) (sg * Y)
      rw [hsgY] at this
      linarith only [this, hSabs, hYabs, θ1]
    have hV := f64_err (f64 (C + X) + sg * Y) hsum
    have e : f64 (f64 (C + X) + sg * Y) - (C + (X0 + sg * Y0)) =
        (f64 (f64 (C + X) + sg * Y) - (f64 (C + X) + sg * Y)) +
          ((f64 (C + X) - (C + X)) + ((X - X0) + (sg * Y - sg * Y0))) := by ring
    rw [e]
    have t1 := abs_add (f64 (f64 (C + X) + sg * Y) - (f64 (C + X) + sg * Y))
      ((f64 (C + X) - (C + X)) + ((X - X0) + (sg * Y - sg * Y0)))
    have t2 := abs_add (f64 (C + X) - (C + X)) ((X - X0) + (sg * Y - sg * Y0))
    have t3 := abs_add (X - X0) (sg * Y - sg * Y0)
    rw [hsgd] at t3
    linarith only [t1, t2, t3, hV, hS, h1, h2]
  constructor
  · have h := key C1 _ _ (R * c * al) (R * s * be) (-1) hC1 hxa hyb hxaB hybB (Or.inr rfl)
    have e1 : f64 (C1 + f64 (f64 (f64 R * c) * al)) + -1 * f64 (f64 (f64 R * s) * be) =
        f64 (C1 + f64 (f64 (f64 R * c) * al)) - f64 (f64 (f64 R * s) * be) := by ring
    have e2 : C1 + (R * c * al + -1 * (R * s * be)) = C1 + R * (c * al - s * be) := by ring
    rw [e1, e2] at h
    exact h
  · have h := key C2 _ _ (R * c * be) (R * s * al) 1 hC2 hxb hya hxbB hyaB (Or.inl rfl)
    have e1 : f64 (C2 + f64 (f64 (f64 R * c) * be)) + 1 * f64 (f64 (f64 R * s) * al) =
        f64 (C2 + f64 (f64 (f64 R * c) * be)) + f64 (f64 (f64 R * s) * al) := by ring
    have e2 : C2 + (R * c * be + 1 * (R * s * al)) = C2 + R * (c * be + s * al) := by ring
    rw [e1, e2] at h
    exact h

theorem coordinate_err (R c s al be : ℚ) (hR0 : 0 ≤ R) (hR : R ≤ 1000000)
    (hc : |c| ≤ 1) (hs : |s| ≤ 1) (hal : |al| ≤ 1) (hbe : |be| ≤ 1) :
    |f64 (f64 (0 + f64 (f64 (f64 (1 / 2 * (2 * R)) * c) * al)) -
        f64 (f64 (f64 (1 / 2 * (2 * R)) * s) * be)) - R * (c * al - s * be)| ≤ 8 / 2 ^ 30 ∧
      |f64 (f64 (0 + f64 (f64 (f64 (1 / 2 * (2 * R)) * c) * be)) +
        f64 (f64 (f64 (1 / 2 * (2 * R)) * s) * al)) - R * (c * be + s * al)| ≤ 8 / 2 ^ 30 := by
  obtain ⟨h1, h2⟩ := coordinate_err_at 0 0 R c s al be (by norm_num) (by norm_num) hR0 hR
    hc hs hal hbe
  simp only [zero_add] at h1 h2 ⊢
  exact ⟨h1, h2⟩

theorem rounded_coordinate_err (R V u0 : ℚ) (hR0 : 0 ≤ R)
    (hV : |V - u0| ≤ 8 / 2 ^ 30) (hu : |u0| ≤ R * (1 + 31 / 100000000)) :
    |f32 V - u0| ≤ 2 / 100000000 + 6 / 100000000 * R := by
  have h1 := f32_err V
  have hVabs : |V| ≤ R * (1 + 31 / 100000000) + 8 / 2 ^ 30 := by
    have := abs_sub_abs_le_abs_sub V u0
    linarith only [this, hV, hu]
  have h2 : |V| * (1 / 2 ^ 24) ≤ (R * (1 + 31 / 100000000) + 8 / 2 ^ 30) * (1 / 2 ^ 24) :=
    mul_le_mul_of_nonneg_right hVabs (by positivity)
  have e : f32 V - u0 = (f32 V - V) + (V - u0) := by ring
  rw [e]
  have t := abs_add (f32 V - V) (V - u0)
  have c1 : (R * (1 + 31 / 100000000) + 8 / 2 ^ 30) * (1 / 2 ^ 24) =
      (1 + 31 / 100000000) / 2 ^ 24 * R + 8 / 2 ^ 30 * (1 / 2 ^ 24) := by ring
  have c2 : ((1 : ℚ) + 31 / 100000000) / 2 ^ 24 ≤ 6 / 100000000 := by norm_num
  have c3 : (8 : ℚ) / 2 ^ 30 * (1 / 2 ^ 24) + 1 / 2 ^ 150 + 8 / 2 ^ 30 ≤ 2 / 100000000 := by
    norm_num
  have c4 : (1 + 31 / 100000000) / 2 ^ 24 * R ≤ 6 / 100000000 * R :=
    mul_le_mul_of_nonneg_right c2 hR0
  linarith only [t, h1, h2, hV, c1, c3, c4]

/-! ### angularSpreadConfidence -/

theorem angularSpreadStep_bit (c : Point2f) (b : Bitset4) (p : Point) (q : Fin 4) :
    angularSpreadStep c b p q = (b q || decide (inSlice c q p)) := by
  unfold angularSpreadStep inSlice
  by_cases hx : offsetOf p.x c.x < 0 <;> by_cases hy : offsetOf p.y c.y < 0 <;>
    fin_cases q <;> simp [hx, hy, Bitset4.set, Q0, Q1, Q2, Q3]

theorem angularSpread_fold_bit (c : Point2f) (points : List Point) (b : Bitset4) (q : Fin 4) :
    points.foldl (angularSpreadStep c) b q = true ↔
      b q = true ∨ ∃ p ∈ points, inSlice c q p := by
  induction points generalizing b with
  | nil => simp
  | cons p ps ih =>
    rw [List.foldl_cons, ih, angularSpreadStep_bit]
    simp only [Bool.or_eq_true, decide_eq_true_eq, List.mem_cons, exists_eq_or_imp]
    exact or_assoc

theorem Bitset4.count_eq_card (b : Bitset4) :
    b.count = (Finset.univ.filter (fun i => b i = true)).card := by
  unfold Bitset4.count
  rw [Finset.card_filter, Fin.sum_univ_four]

theorem angularSpread_count (points : List Point) (c : Point2f) :
    (points.foldl (angularSpreadStep c) Bitset4.reset).count =
      (occupiedSlices points c).card := by
  rw [Bitset4.count_eq_card]
  congr 1
  ext q
  simp [occupiedSlices, angularSpread_fold_bit, Bitset4.reset]

theorem angularSpreadConfidence_eq (points : List Point) (c : Point2f) :
    angularSpreadConfidence points c =
      FVal.fin (((occupiedSlices points c).card : ℚ) / 4) := by
  unfold angularSpreadConfidence
  simp only [angularSpread_count, Bitset4.size]
  show FVal.div _ _ = _
  simp [FVal.div, FVal.ofInt]

theorem inSlice_existsUnique (c : Point2f) (p : Point) : ∃! q, inSlice c q p := by
  by_cases hx : offsetOf p.x c.x < 0 <;> by_cases hy : offsetOf p.y c.y < 0
  · refine ⟨0, by simp [inSlice, hx, hy], ?_⟩
    intro q hq; fin_cases q <;> simp [inSlice, hx, hy] at hq ⊢
  · refine ⟨3, by simp [inSlice, hx, hy], ?_⟩
    intro q hq; fin_cases q <;> simp [inSlice, hx, hy] at hq ⊢
  · refine ⟨1, by simp [inSlice, hx, hy], ?_⟩
    intro q hq; fin_cases q <;> simp [inSlice, hx, hy] at hq ⊢
  · refine ⟨2, by simp [inSlice, hx, hy], ?_⟩
    intro q hq; fin_cases q <;> simp [inSlice, hx, hy] at hq ⊢

theorem inQuadrant_existsUnique (c : Point2f) (p : Point) : ∃! q, inQuadrant c q p := by
  by_cases hx : (p.x : ℚ) - c.x < 0 <;> by_cases hy : (p.y : ℚ) - c.y < 0
  · refine ⟨0, by simp [inQuadrant, hx, hy], ?_⟩
    intro q hq; fin_cases q <;> simp [inQuadrant, hx, hy] at hq ⊢
  · refine ⟨3, by simp [inQuadrant, hx, hy], ?_⟩
    intro q hq; fin_cases q <;> simp [inQuadrant, hx, hy] at hq ⊢
  · refine ⟨1, by simp [inQuadrant, hx, hy], ?_⟩
    intro q hq; fin_cases q <;> simp [inQuadrant, hx, hy] at hq ⊢
  · refine ⟨2, by simp [inQuadrant, hx, hy], ?_⟩
    intro q hq; fin_cases q <;> simp [inQuadrant, hx, hy] at hq ⊢

theorem occupiedSlices_card_le (points : List Point) (c : Point2f) :
    (occupiedSlices points c).card ≤ 4 := by
  have h := Finset.card_le_univ (occupiedSlices points c)
  simpa using h

theorem occupiedSlices_card_eq_zero (points : List Point) (c : Point2f) :
    (occupiedSlices points c).card = 0 ↔ points = [] := by
  rw [Finset.card_eq_zero]
  constructor
  · intro h
    cases points with
    | nil => rfl
    | cons p ps =>
      exfalso
      obtain ⟨q, hq, -⟩ := inSlice_existsUnique c p
      have hmem : q ∈ occupiedSlices (p :: ps) c := by
        simp only [occupiedSlices, Finset.mem_filter, Finset.mem_univ, true_and]
        exact ⟨p, List.mem_cons_self _ _, hq⟩
      rw [h] at hmem
      exact absurd hmem (Finset.not_mem_empty q)
  · intro h
    subst h
    simp [occupiedSlices]

theorem offsetOf_neg_iff (a : Int) (c : ℚ) (ha : |a| ≤ 16777216) (hc : IsF32 c) :
    offsetOf a c < 0 ↔ (a : ℚ) - c < 0 :=
  f32_sub_neg_iff a c ha hc

theorem inSlice_iff_inQuadrant (c : Point2f) (hc : IsF32 c.x ∧ IsF32 c.y) (p : Point)
    (hp : |p.x| ≤ 16777216 ∧ |p.y| ≤ 16777216) (q : Fin 4) :
    inSlice c q p ↔ inQuadrant c q p := by
  unfold inSlice inQuadrant
  rw [offsetOf_neg_iff p.x c.x hp.1 hc.1, offsetOf_neg_iff p.y c.y hp.2 hc.2]

theorem occupiedSlices_eq (points : List Point) (c : Point2f) (hc : IsF32 c.x ∧ IsF32 c.y)
    (hp : ∀ p ∈ points, |p.x| ≤ 16777216 ∧ |p.y| ≤ 16777216) :
    occupiedSlices points c = occupiedQuadrants points c := by
  ext q
  simp only [occupiedSlices, occupiedQuadrants, Finset.mem_filter, Finset.mem_univ, true_and]
  constructor
  · rintro ⟨p, hmem, h⟩
    exact ⟨p, hmem, (inSlice_iff_inQuadrant c hc p (hp p hmem) q).mp h⟩
  · rintro ⟨p, hmem, h⟩
    exact ⟨p, hmem, (inSlice_iff_inQuadrant c hc p (hp p hmem) q).mpr h⟩

theorem occupiedQuadrants_mem (points : List Point) (c : Point2f) (q : Fin 4) :
    q ∈ occupiedQuadrants points c ↔ ∃ p ∈ points, inQuadrant c q p := by
  simp [occupiedQuadrants]

/-- C8 (as stated, refuted): with the centre at `(16777220, 0)` the points
`(16777219, 5)` and `(16777221, 5)` lie in two quadrants, one on each side of the centre,
but both x-coordinates become `16777220` when converted to `float`: one slice is set and
the result is 0.25, not 2/4. -/
theorem angularSpreadConfidence_large_coordinates :
    (occupiedQuadrants [⟨16777219, 5⟩, ⟨16777221, 5⟩] ⟨16777220, 0⟩).card = 2 ∧
      angularSpreadConfidence [⟨16777219, 5⟩, ⟨16777221, 5⟩] ⟨16777220, 0⟩ =
        FVal.fin (1 / 4) ∧
      angularSpreadConfidence [⟨16777219, 5⟩, ⟨16777221, 5⟩] ⟨16777220, 0⟩ ≠
        FVal.fin (((occupiedQuadrants [⟨16777219, 5⟩, ⟨16777221, 5⟩]
          ⟨16777220, 0⟩).card : ℚ) / 4) := by
  have h1 : (occupiedQuadrants [⟨16777219, 5⟩, ⟨16777221, 5⟩] ⟨16777220, 0⟩).card = 2 := by
    decide!
  have h2 : angularSpreadConfidence [⟨16777219, 5⟩, ⟨16777221, 5⟩] ⟨16777220, 0⟩ =
      FVal.fin (1 / 4) := by
    decide!
  refine ⟨h1, h2, ?_⟩
  rw [h1, h2]
  intro hc
  injection hc with hc
  norm_num at hc

/-- C8 (amended): for a centre with `float` coordinates and points whose coordinates are
at most `2^24` in absolute value, `angularSpreadConfidence` returns `k / 4`, where `k`
counts the quadrants (by the sign of the x- and y-offset from the centre) that hold at
least one point; for every list of points the result is one of 0, 0.25, 0.5, 0.75, 1,
every point lies in exactly one quadrant, and the result is 0 only for the empty list. -/
theorem angularSpreadConfidence_quadrant_fraction (points : List Point) (center : Point2f) :
    (IsF32 center.x ∧ IsF32 center.y →
        (∀ p ∈ points, |p.x| ≤ 16777216 ∧ |p.y| ≤ 16777216) →
        angularSpreadConfidence points center =
          FVal.fin (((occupiedQuadrants points center).card : ℚ) / 4)) ∧
      angularSpreadConfidence points center ∈
        [FVal.fin 0, FVal.fin (1 / 4), FVal.fin (1 / 2), FVal.fin (3 / 4), FVal.fin 1] ∧
      (∀ p : Point, ∃! q, inQuadrant center q p) ∧
      (angularSpreadConfidence points center = FVal.fin 0 ↔ points = []) := by
  refine ⟨?_, ?_, inQuadrant_existsUnique center, ?_⟩
  · intro hc hp
    rw [angularSpreadConfidence_eq, occupiedSlices_eq points center hc hp]
  · rw [angularSpreadConfidence_eq]
    have h := occupiedSlices_card_le points center
    generalize (occupiedSlices points center).card = k at h
    interval_cases k <;> norm_num
  · rw [angularSpreadConfidence_eq, ← occupiedSlices_card_eq_zero points center]
    constructor
    · intro h
      have h2 : ((occupiedSlices points center).card : ℚ) / 4 = 0 := by
        injection h
      have h3 : ((occupiedSlices points center).card : ℚ) = 0 := by linarith
      exact_mod_cast h3
    · intro h
      rw [h]
      norm_num

/-- Witness of C8 (amended): three points around the centre `(1/2, 1/2)`, in three
quadrants. -/
theorem angularSpreadConfidence_quadrant_fraction_witness :
    (IsF32 (1 / 2) ∧ IsF32 (1 / 2)) ∧
      (∀ p ∈ [(⟨0, 0⟩ : Point), ⟨1, 0⟩, ⟨7, 9⟩], |p.x| ≤ 16777216 ∧ |p.y| ≤ 16777216) ∧
      angularSpreadConfidence [⟨0, 0⟩, ⟨1, 0⟩, ⟨7, 9⟩] ⟨1 / 2, 1 / 2⟩ =
        FVal.fin (((occupiedQuadrants [⟨0, 0⟩, ⟨1, 0⟩, ⟨7, 9⟩] ⟨1 / 2, 1 / 2⟩).card : ℚ) / 4) :=
  ⟨by decide!, by decide!,
    (angularSpreadConfidence_quadrant_fraction [⟨0, 0⟩, ⟨1, 0⟩, ⟨7, 9⟩] ⟨1 / 2, 1 / 2⟩).1
      (by decide!) (by decide!)⟩

/-- C9 (as stated, refuted): with the centre at `(16777220, 0)`, four points that lie
strictly in the four quadrants give 0.5, since the x-coordinates `16777219` and `16777221`
both become `16777220` as `float`; and two points of one quadrant (x-offsets -3 and -1,
y-offset 1) give 0.5 as well, since only the second x-coordinate becomes that of the
centre. -/
theorem angularSpreadConfidence_split_quadrants :
    ((∀ q, ∃ p ∈ [(⟨16777219, -1⟩ : Point), ⟨16777221, -1⟩, ⟨16777221, 1⟩, ⟨16777219, 1⟩],
          strictlyInQuadrant ⟨16777220, 0⟩ q p) ∧
        angularSpreadConfidence
            [⟨16777219, -1⟩, ⟨16777221, -1⟩, ⟨16777221, 1⟩, ⟨16777219, 1⟩] ⟨16777220, 0⟩ =
          FVal.fin (1 / 2)) ∧
      ((∀ p ∈ [(⟨16777217, 1⟩ : Point), ⟨16777219, 1⟩], inQuadrant ⟨16777220, 0⟩ Q3 p) ∧
        angularSpreadConfidence [⟨16777217, 1⟩, ⟨16777219, 1⟩] ⟨16777220, 0⟩ =
          FVal.fin (1 / 2)) := by
  refine ⟨⟨by decide!, by decide!⟩, ⟨by decide!, by decide!⟩⟩

/-- C9 (amended): for a centre with `float` coordinates and points whose coordinates are
at most `2^24` in absolute value, `angularSpreadConfidence` returns 1 for four points with
one strictly in each quadrant, and 0.25 for every non-empty list whose points all lie in
one quadrant. -/
theorem angularSpreadConfidence_four_and_single (center : Point2f)
    (hc : IsF32 center.x ∧ IsF32 center.y) :
    (∀ points : List Point, points.length = 4 →
        (∀ p ∈ points, |p.x| ≤ 16777216 ∧ |p.y| ≤ 16777216) →
        (∀ q, ∃ p ∈ points, strictlyInQuadrant center q p) →
        angularSpreadConfidence points center = FVal.fin 1) ∧
      (∀ (points : List Point) (q : Fin 4), points ≠ [] →
        (∀ p ∈ points, |p.x| ≤ 16777216 ∧ |p.y| ≤ 16777216) →
        (∀ p ∈ points, inQuadrant center q p) →
        angularSpreadConfidence points center = FVal.fin (1 / 4)) := by
  constructor
  · intro points _ hp hall
    have huniv : occupiedQuadrants points center = Finset.univ := by
      ext q
      simp only [occupiedQuadrants_mem, Finset.mem_univ, iff_true]
      obtain ⟨p, hp, hq, -⟩ := hall q
      exact ⟨p, hp, hq⟩
    rw [angularSpreadConfidence_eq, occupiedSlices_eq points center hc hp, huniv]
    norm_num
  · intro points q hne hp hall
    have hsingle : occupiedQuadrants points center = {q} := by
      ext q2
      simp only [occupiedQuadrants_mem, Finset.mem_singleton]
      constructor
      · rintro ⟨p, hp, hq2⟩
        exact (inQuadrant_existsUnique center p).unique hq2 (hall p hp)
      · rintro rfl
        obtain ⟨p, hp⟩ := List.exists_mem_of_ne_nil points hne
        exact ⟨p, hp, hall p hp⟩
    rw [angularSpreadConfidence_eq, occupiedSlices_eq points center hc hp, hsingle]
    norm_num

/-- Witness of C9 (amended): four points around the origin, and two points of quadrant 2. -/
theorem angularSpreadConfidence_four_and_single_witness :
    (IsF32 0 ∧ IsF32 0) ∧
      angularSpreadConfidence [⟨-1, -1⟩, ⟨1, -1⟩, ⟨1, 1⟩, ⟨-1, 1⟩] ⟨0, 0⟩ = FVal.fin 1 ∧
      angularSpreadConfidence [⟨3, 4⟩, ⟨5, 6⟩] ⟨0, 0⟩ = FVal.fin (1 / 4) :=
  ⟨by decide!,
    (angularSpreadConfidence_four_and_single ⟨0, 0⟩ (by decide!)).1 _ rfl (by decide!)
      (by decide!),
    (angularSpreadConfidence_four_and_single ⟨0, 0⟩ (by decide!)).2 _ 2 (by simp) (by decide!)
      (by decide!)⟩

/-! ### aspectRatioConfidence -/

/-- C10: for positive width and height `aspectRatioConfidence` returns
`min(width, height) / max(width, height)`, a value in `(0, 1]` that is 1 when the two are
equal, below 1 when they differ, and unchanged when they are swapped. -/
theorem aspectRatioConfidence_ratio (pupil : Pupil)
    (hw : 0 < pupil.size.width) (hh : 0 < pupil.size.height) :
    aspectRatioConfidence pupil =
        FVal.fin (min pupil.size.width pupil.size.height /
          max pupil.size.width pupil.size.height) ∧
      0 < min pupil.size.width pupil.size.height / max pupil.size.width pupil.size.height ∧
      min pupil.size.width pupil.size.height / max pupil.size.width pupil.size.height ≤ 1 ∧
      (pupil.size.width = pupil.size.height → aspectRatioConfidence pupil = FVal.fin 1) ∧
      (pupil.size.width ≠ pupil.size.height →
        min pupil.size.width pupil.size.height /
          max pupil.size.width pupil.size.height < 1) ∧
      aspectRatioConfidence
          ⟨pupil.center, ⟨pupil.size.height, pupil.size.width⟩, pupil.angle⟩ =
        aspectRatioConfidence pupil := by
  have hmax : 0 < max pupil.size.width pupil.size.height := lt_max_of_lt_left hw
  have hmin : 0 < min pupil.size.width pupil.size.height := lt_min hw hh
  have heq : aspectRatioConfidence pupil =
      FVal.fin (min pupil.size.width pupil.size.height /
        max pupil.size.width pupil.size.height) := by
    unfold aspectRatioConfidence Pupil.minorAxis Pupil.majorAxis
    show FVal.div _ _ = _
    simp [FVal.div, hmax.ne.symm]
  refine ⟨heq, div_pos hmin hmax, ?_, ?_, ?_, ?_⟩
  · rw [div_le_one hmax]
    exact min_le_max
  · intro h
    rw [heq, h, min_self, max_self, div_self hh.ne.symm]
  · intro h
    rw [div_lt_one hmax]
    rcases lt_or_gt_of_ne h with h1 | h1
    · rw [min_eq_left h1.le, max_eq_right h1.le]; exact h1
    · rw [min_eq_right h1.le, max_eq_left h1.le]; exact h1
  · unfold aspectRatioConfidence Pupil.minorAxis Pupil.majorAxis
    simp only [min_comm, max_comm]

/-- Witness of C10: a 3 x 4 hypothesis. -/
theorem aspectRatioConfidence_ratio_witness :
    aspectRatioConfidence ⟨⟨10, 10⟩, ⟨3, 4⟩, 0⟩ = FVal.fin (min 3 4 / max 3 4) ∧
      (min 3 4 / max 3 4 : ℚ) < 1 :=
  have h := aspectRatioConfidence_ratio ⟨⟨10, 10⟩, ⟨3, 4⟩, 0⟩ (by norm_num) (by norm_num)
  ⟨h.1, h.2.2.2.2.1 (by norm_num)⟩

/-! ### edgeRatioConfidence -/

theorem outlineMaskOf_px (rows cols : Nat) (inBand : Nat → Nat → Bool) (y x : Nat) :
    (outlineMaskOf rows cols inBand).px y x = if inBand y x then 255 else 0 := by
  unfold Mat.px outlineMaskOf
  simp only [Int.toNat_ofNat]
  split <;> rfl

theorem findNonZero_inBandEdges (edgeImage : Mat) (inBand : Nat → Nat → Bool) :
    findNonZero (inBandEdgesOf edgeImage
        (outlineMaskOf edgeImage.rows edgeImage.cols inBand)) =
      bandEdgePixels edgeImage inBand := by
  unfold findNonZero bandEdgePixels
  have hpx : ∀ y x : Nat,
      (inBandEdgesOf edgeImage (outlineMaskOf edgeImage.rows edgeImage.cols inBand)).px y x =
        if inBand y x then edgeImage.px y x else 0 := by
    intro y x
    have hm := outlineMaskOf_px edgeImage.rows edgeImage.cols inBand y x
    unfold inBandEdgesOf
    unfold Mat.px at hm ⊢
    simp only [Int.toNat_ofNat] at hm ⊢
    rw [hm]
    cases inBand y x
    · simp
    · simp
  have hrows : (inBandEdgesOf edgeImage
      (outlineMaskOf edgeImage.rows edgeImage.cols inBand)).rows = edgeImage.rows := rfl
  have hcols : (inBandEdgesOf edgeImage
      (outlineMaskOf edgeImage.rows edgeImage.cols inBand)).cols = edgeImage.cols := rfl
  rw [hrows, hcols]
  congr 1
  funext y
  congr 1
  funext x
  rw [hpx]
  cases inBand y x <;> simp

/-- C7: `edgeRatioConfidence` returns `NO_CONFIDENCE` for a hypothesis that is not valid;
for a valid one with positive circumference it writes to `edgePoints` the non-zero
edge-map pixels inside the rasterised band and returns `min(n / circumference, 1)` with
`n` their number, a value in `[0, 1]`. -/
theorem edgeRatioConfidence_capped (edgeImage : Mat) (inBand : Nat → Nat → Bool)
    (edgePoints : List Point) (circumference : FVal) :
    (edgeRatioConfidence edgeImage false circumference inBand edgePoints).1 = NO_CONFIDENCE ∧
      ∀ c : ℚ, 0 < c →
        (edgeRatioConfidence edgeImage true (FVal.fin c) inBand edgePoints).2 =
            bandEdgePixels edgeImage inBand ∧
          (edgeRatioConfidence edgeImage true (FVal.fin c) inBand edgePoints).1 =
            FVal.fin (min (((bandEdgePixels edgeImage inBand).length : ℚ) / c) 1) ∧
          0 ≤ min (((bandEdgePixels edgeImage inBand).length : ℚ) / c) 1 ∧
          min (((bandEdgePixels edgeImage inBand).length : ℚ) / c) 1 ≤ 1 := by
  refine ⟨rfl, ?_⟩
  intro c hc
  have hpts : (edgeRatioConfidence edgeImage true (FVal.fin c) inBand edgePoints).2 =
      bandEdgePixels edgeImage inBand := by
    unfold edgeRatioConfidence
    simp only [Bool.not_true, Bool.false_eq_true, if_false]
    exact findNonZero_inBandEdges edgeImage inBand
  refine ⟨hpts, ?_, ?_, min_le_right _ _⟩
  · unfold edgeRatioConfidence
    simp only [Bool.not_true, Bool.false_eq_true, if_false]
    rw [findNonZero_inBandEdges]
    show FVal.min (FVal.div _ _) _ = _
    simp only [FVal.div, FVal.ofInt, hc.ne.symm, if_false, FVal.min, FVal.lt]
    by_cases h : (1 : ℚ) < ((bandEdgePixels edgeImage inBand).length : ℚ) / c
    · simp [h, min_eq_right h.le]
    · simp [h, min_eq_left (not_lt.mp h)]
  · exact le_min (div_nonneg (Nat.cast_nonneg _) hc.le) zero_le_one

/-- Witness of C7: a 2 x 2 edge map that is all edge, a band that covers it, and a
circumference of 3, so that the cap at 1 applies. -/
theorem edgeRatioConfidence_capped_witness :
    (0 : ℚ) < 3 ∧
      (edgeRatioConfidence ⟨2, 2, fun _ _ => 255⟩ true (FVal.fin 3) (fun _ _ => true) []).1 =
        FVal.fin (min (((bandEdgePixels ⟨2, 2, fun _ _ => 255⟩
          (fun _ _ => true)).length : ℚ) / 3) 1) :=
  ⟨by norm_num,
    ((edgeRatioConfidence_capped ⟨2, 2, fun _ _ => 255⟩ (fun _ _ => true) [] FVal.nan).2 3
      (by norm_num)).2.1⟩

/-! ### Floating-point arithmetic on finite values -/

theorem FVal.fin_mul_fin (a b : ℚ) : FVal.fin a * FVal.fin b = FVal.fin (a * b) := rfl

theorem FVal.fin_add_fin (a b : ℚ) : FVal.fin a + FVal.fin b = FVal.fin (a + b) := rfl

theorem FVal.fin_sub_fin (a b : ℚ) : FVal.fin a - FVal.fin b = FVal.fin (a - b) := by
  show FVal.add (FVal.fin a) (FVal.neg (FVal.fin b)) = _
  simp [FVal.add, FVal.neg, sub_eq_add_neg]

theorem FVal.fin_div_fin (a b : ℚ) (hb : b ≠ 0) :
    FVal.fin a / FVal.fin b = FVal.fin (a / b) := by
  show FVal.div _ _ = _
  simp [FVal.div, hb]

/-! ### Loops -/

theorem forRange_mem (fuel : Nat) (i hi step v : Int) (hstep : 0 ≤ step)
    (hv : v ∈ forRange fuel i hi step) : i ≤ v ∧ v < hi := by
  induction fuel generalizing i with
  | zero => simp [forRange] at hv
  | succ n ih =>
    unfold forRange at hv
    split at hv
    · rcases List.mem_cons.mp hv with h | h
      · subst h
        exact ⟨le_refl _, by assumption⟩
      · have := ih (i + step) h
        exact ⟨by linarith [this.1], this.2⟩
    · simp at hv

theorem forLoop_mem (lo hi step v : Int) (hstep : 0 ≤ step) (hv : v ∈ forLoop lo hi step) :
    lo ≤ v ∧ v < hi :=
  forRange_mem _ lo hi step v hstep hv

/-! ### coarsePupilDetection: the returned rectangle -/

theorem truncToInt_one_le (q : ℚ) (hq : 1 ≤ q) : 1 ≤ truncToInt q := by
  unfold truncToInt
  rw [if_pos (by linarith)]
  exact Int.le_floor.mpr (by exact_mod_cast hq)

theorem interAssign_frame (a : Rect) (cols rows : Int) :
    a.interAssign ⟨0, 0, cols, rows⟩ = Rect.zero ∨
      (0 < (a.interAssign ⟨0, 0, cols, rows⟩).width ∧
        0 < (a.interAssign ⟨0, 0, cols, rows⟩).height ∧
        0 ≤ (a.interAssign ⟨0, 0, cols, rows⟩).x ∧
        0 ≤ (a.interAssign ⟨0, 0, cols, rows⟩).y ∧
        (a.interAssign ⟨0, 0, cols, rows⟩).x + (a.interAssign ⟨0, 0, cols, rows⟩).width ≤ cols ∧
        (a.interAssign ⟨0, 0, cols, rows⟩).y + (a.interAssign ⟨0, 0, cols, rows⟩).height ≤
          rows) := by
  unfold Rect.interAssign
  simp only
  split
  · left; rfl
  · rename_i h
    right
    push_neg at h
    simp only [zero_add] at h ⊢
    refine ⟨h.1, h.2, le_max_right _ _, le_max_right _ _, ?_, ?_⟩
    · have := min_le_right (a.x + a.width) cols
      linarith
    · have := min_le_right (a.y + a.height) rows
      linarith

theorem sanityTest_inside (frame : Mat) (coarse : Rect)
    (hc : 1 ≤ frame.cols) (hr : 1 ≤ frame.rows) :
    0 < (sanityTest frame coarse).width ∧ 0 < (sanityTest frame coarse).height ∧
      0 ≤ (sanityTest frame coarse).x ∧ 0 ≤ (sanityTest frame coarse).y ∧
      (sanityTest frame coarse).x + (sanityTest frame coarse).width ≤ frame.cols ∧
      (sanityTest frame coarse).y + (sanityTest frame coarse).height ≤ frame.rows := by
  have hc2 : (0 : Int) < frame.cols := by exact_mod_cast hc
  have hr2 : (0 : Int) < frame.rows := by exact_mod_cast hr
  unfold sanityTest
  simp only
  split
  · simp [hc2, hr2]
  · rename_i harea
    rcases interAssign_frame coarse frame.cols frame.rows with h | h
    · rw [h] at harea
      exact absurd rfl harea
    · exact h

/-- C1: for a frame with at least one row and one column, whatever the coverage and the
working size, the rectangle returned by `coarsePupilDetection` has positive width and
height and lies inside `Rect(0, 0, frame.cols, frame.rows)`; it is the intersection of the
upscaled accumulated rectangle with the frame rectangle, or the frame rectangle when that
intersection has zero area. -/
theorem coarsePupilDetection_inside_frame (frame downscaled : Mat) (minCoverage : ℚ)
    (workingWidth workingHeight : Int) (hc : 1 ≤ frame.cols) (hr : 1 ≤ frame.rows) :
    0 < (coarsePupilDetection frame downscaled minCoverage workingWidth workingHeight).width ∧
      0 < (coarsePupilDetection frame downscaled minCoverage workingWidth
        workingHeight).height ∧
      0 ≤ (coarsePupilDetection frame downscaled minCoverage workingWidth workingHeight).x ∧
      0 ≤ (coarsePupilDetection frame downscaled minCoverage workingWidth workingHeight).y ∧
      (coarsePupilDetection frame downscaled minCoverage workingWidth workingHeight).x +
          (coarsePupilDetection frame downscaled minCoverage workingWidth
            workingHeight).width ≤ frame.cols ∧
      (coarsePupilDetection frame downscaled minCoverage workingWidth workingHeight).y +
          (coarsePupilDetection frame downscaled minCoverage workingWidth
            workingHeight).height ≤ frame.rows ∧
      ∃ upscaled : Rect,
        upscaled = upscale (accumulated downscaled minCoverage)
          (FVal.max (FVal.ofInt frame.cols / FVal.ofInt workingWidth)
            (FVal.ofInt frame.rows / FVal.ofInt workingHeight)) ∧
        coarsePupilDetection frame downscaled minCoverage workingWidth workingHeight =
          if (upscaled.interAssign ⟨0, 0, frame.cols, frame.rows⟩).area = 0 then
            ⟨0, 0, frame.cols, frame.rows⟩
          else upscaled.interAssign ⟨0, 0, frame.cols, frame.rows⟩ := by
  obtain ⟨h1, h2, h3, h4, h5, h6⟩ := sanityTest_inside frame
    (upscale (accumulated downscaled minCoverage)
      (FVal.max (FVal.ofInt frame.cols / FVal.ofInt workingWidth)
        (FVal.ofInt frame.rows / FVal.ofInt workingHeight))) hc hr
  exact ⟨h1, h2, h3, h4, h5, h6, _, rfl, rfl⟩

/-- Witness of C1: a 4 x 6 frame, its 2 x 3 downscaled image, working size 3 x 2. -/
theorem coarsePupilDetection_inside_frame_witness :
    1 ≤ (Mat.mk 4 6 (fun _ _ => 9)).cols ∧ 1 ≤ (Mat.mk 4 6 (fun _ _ => 9)).rows ∧
      0 < (coarsePupilDetection ⟨4, 6, fun _ _ => 9⟩ ⟨2, 3, fun _ _ => 9⟩ (1 / 10) 3 2).width :=
  ⟨by decide, by decide,
    (coarsePupilDetection_inside_frame ⟨4, 6, fun _ _ => 9⟩ ⟨2, 3, fun _ _ => 9⟩ (1 / 10) 3 2
      (by decide) (by decide)).1⟩

/-! ### coarsePupilDetection: the scan stays inside the integral image -/

theorem scanParams_ystep (m : Mat) : 1 ≤ (scanParams m).ystep :=
  truncToInt_one_le _ (le_max_right _ _)

theorem scanParams_xstep (m : Mat) : 1 ≤ (scanParams m).xstep :=
  truncToInt_one_le _ (le_max_right _ _)

theorem scanParams_r_step (m : Mat) : 1 ≤ (scanParams m).r_step :=
  truncToInt_one_le _ (le_max_right _ _)

theorem scanParams_min_r (m : Mat) : 0 ≤ (scanParams m).min_r := by
  unfold scanParams truncMulSqrt
  exact Int.natCast_nonneg _

theorem scanRadii_nonneg (m : Mat) (r : Int) (hr : r ∈ scanRadii (scanParams m)) : 0 ≤ r := by
  have h := forLoop_mem _ _ _ _ (by linarith [scanParams_r_step m]) hr
  linarith [h.1, scanParams_min_r m]

/-- C2: for every radius, row and column visited by the three scan loops, the eight
integral-image lookups have a row index in `[0, rows]` and a column index in `[0, cols]`,
and the position `(y, x)` written in `res` is inside the `rows x cols` response map. -/
theorem scan_lookups_in_bounds (downscaled : Mat) (r y x : Int)
    (hr : r ∈ scanRadii (scanParams downscaled))
    (hy : y ∈ scanRows (scanParams downscaled) downscaled.rows r)
    (hx : x ∈ scanCols (scanParams downscaled) downscaled.cols r) :
    (∀ pt ∈ integralLookups r y x,
        0 ≤ pt.y ∧ pt.y ≤ downscaled.rows ∧ 0 ≤ pt.x ∧ pt.x ≤ downscaled.cols) ∧
      0 ≤ y ∧ y < downscaled.rows ∧ 0 ≤ x ∧ x < downscaled.cols := by
  have hr0 := scanRadii_nonneg downscaled r hr
  have hy2 := forLoop_mem _ _ _ _ (by linarith [scanParams_ystep downscaled]) hy
  have hx2 := forLoop_mem _ _ _ _ (by linarith [scanParams_xstep downscaled]) hx
  obtain ⟨hy1, hy3⟩ := hy2
  obtain ⟨hx1, hx3⟩ := hx2
  refine ⟨?_, by linarith, by linarith, by linarith, by linarith⟩
  intro pt hpt
  simp only [integralLookups, corners, List.mem_cons, List.mem_singleton, List.not_mem_nil,
    or_false] at hpt
  rcases hpt with h | h | h | h | h | h | h | h <;> subst h <;>
    refine ⟨?_, ?_, ?_, ?_⟩ <;> simp only <;> linarith

/-- Witness of C2: radius 1 at row 3 and column 4 of a 10 x 12 image. -/
theorem scan_lookups_in_bounds_witness :
    (1 : Int) ∈ scanRadii (scanParams ⟨10, 12, fun _ _ => 0⟩) ∧
      (3 : Int) ∈ scanRows (scanParams ⟨10, 12, fun _ _ => 0⟩) 10 1 ∧
      (4 : Int) ∈ scanCols (scanParams ⟨10, 12, fun _ _ => 0⟩) 12 1 ∧
      ∀ pt ∈ integralLookups 1 3 4, 0 ≤ pt.y ∧ pt.y ≤ (10 : Nat) ∧ 0 ≤ pt.x ∧ pt.x ≤ (12 : Nat) :=
  ⟨by decide!, by decide!, by decide!,
    (scan_lookups_in_bounds ⟨10, 12, fun _ _ => 0⟩ 1 3 4 (by decide!) (by decide!)
      (by decide!)).1⟩

/-! ### coarsePupilDetection: uniform images -/

theorem foldl_fixed {α β : Type} (f : β → α → β) (s : β) (l : List α)
    (h : ∀ a ∈ l, f s a = s) : l.foldl f s = s := by
  induction l with
  | nil => rfl
  | cons a as ih =>
    rw [List.foldl_cons, h a (List.mem_cons_self _ _)]
    exact ih (fun b hb => h b (List.mem_cons_of_mem _ hb))

theorem integral_uniform (m : Mat) (v : Nat) (hm : ∀ y x : Int, m.px y x = v) (i j : Int) :
    integral m i j = (i.toNat : Int) * (j.toNat : Int) * (v : Int) := by
  unfold integral
  have hrow : ∀ y : Nat, ((List.range j.toNat).map (fun (x : Nat) => (m.px y x : Int))).sum =
      (j.toNat : Int) * (v : Int) := by
    intro y
    have : (List.range j.toNat).map (fun (x : Nat) => (m.px y x : Int)) =
        List.replicate j.toNat (v : Int) := by
      apply List.ext_getElem
      · simp
      · intro n h1 h2
        simp [hm]
    rw [this, List.sum_replicate]
    simp
  have : (List.range i.toNat).map (fun (y : Nat) =>
      ((List.range j.toNat).map (fun (x : Nat) => (m.px y x : Int))).sum) =
        List.replicate i.toNat ((j.toNat : Int) * (v : Int)) := by
    apply List.ext_getElem
    · simp
    · intro n h1 h2
      simp [hrow]
  rw [this, List.sum_replicate]
  simp [mul_assoc]

theorem response_uniform (m : Mat) (v : Nat) (hm : ∀ y x : Int, m.px y x = v) (r y x : Int)
    (hr : 0 < r) (hy : 3 * r ≤ y) (hx : 3 * r ≤ x) :
    response (integral m) r y x = FVal.fin 0 := by
  have e : ∀ t : Int, 0 ≤ t → ((t.toNat : Int)) = t := fun t ht => Int.toNat_of_nonneg ht
  have hr2 : (r : ℚ) ≠ 0 := by exact_mod_cast hr.ne.symm
  unfold response
  simp only [corners, integral_uniform m v hm]
  rw [e (y + r) (by linarith), e (x + r) (by linarith), e (y - r) (by linarith),
    e (x - r) (by linarith), e (y + 3 * r) (by linarith), e (x + 3 * r) (by linarith),
    e (y - 3 * r) (by linarith), e (x - 3 * r) (by linarith)]
  simp only [FVal.ofInt]
  rw [FVal.fin_div_fin, FVal.fin_div_fin, FVal.fin_mul_fin, FVal.fin_mul_fin, FVal.fin_sub_fin]
  · congr 1
    push_cast
    have h32 : (2 * (3 * (r : ℚ))) * (2 * (3 * (r : ℚ))) - (2 * (r : ℚ)) * (2 * (r : ℚ)) =
        32 * ((r : ℚ) * (r : ℚ)) := by ring
    have hrr : (r : ℚ) * r ≠ 0 := mul_ne_zero hr2 hr2
    rw [h32]
    field_simp
    ring
  · push_cast
    have : (r : ℚ) * r ≠ 0 := mul_ne_zero hr2 hr2
    intro h
    apply this
    linarith
  · push_cast
    have : (r : ℚ) * r ≠ 0 := mul_ne_zero hr2 hr2
    intro h
    apply this
    linarith

theorem response_zero_radius (itg : Int → Int → Int) (y x : Int) :
    response itg 0 y x = FVal.nan := by
  unfold response
  simp only [corners, FVal.ofInt]
  norm_num
  show FVal.sub (FVal.mul (FVal.div _ _) _) (FVal.mul (FVal.div _ _) _) = _
  simp [FVal.div, FVal.infOfSign, FVal.mul, FVal.sub, FVal.add, FVal.neg]

theorem scanBody_init_uniform (m : Mat) (v : Nat) (hm : ∀ y x : Int, m.px y x = v)
    (r y x : Int) (hr : 0 ≤ r) (hy : 3 * r ≤ y) (hx : 3 * r ≤ x) :
    scanBody (integral m) r y ScanState.init x = ScanState.init := by
  rcases hr.eq_or_lt with h0 | hpos
  · subst h0
    unfold scanBody
    simp only [response_zero_radius]
    simp [FVal.lt, FVal.gt, ScanState.init]
  · unfold scanBody
    simp only [response_uniform m v hm r y x hpos hy hx]
    have : FVal.lt (FVal.fin 0) (FVal.fin (1 / 2) * ScanState.init.best_response) = true := by
      simp only [ScanState.init, FVal.fin_mul_fin, FVal.lt, FLT_MIN]
      norm_num
    rw [if_pos this]

theorem scan_uniform (m : Mat) (v : Nat) (hm : ∀ y x : Int, m.px y x = v) :
    scan m = ScanState.init := by
  unfold scan
  simp only
  apply foldl_fixed
  intro r hr
  have hr0 := scanRadii_nonneg m r hr
  apply foldl_fixed
  intro y hy
  have hy2 := (forLoop_mem _ _ _ _ (by linarith [scanParams_ystep m]) hy).1
  apply foldl_fixed
  intro x hx
  have hx2 := (forLoop_mem _ _ _ _ (by linarith [scanParams_xstep m]) hx).1
  exact scanBody_init_uniform m v hm r y x hr0 hy2 hx2

theorem upscale_zero_nonpos (fr : FVal) : (FVal.ofInt 0 * fr).toInt ≤ 0 := by
  show (FVal.mul (FVal.ofInt 0) fr).toInt ≤ 0
  cases fr <;> simp [FVal.mul, FVal.ofInt, FVal.toInt, FVal.infOfSign, truncToInt]

theorem sanityTest_nonpos (frame : Mat) (t : Int) (ht : t ≤ 0) :
    sanityTest frame ⟨t, t, t, t⟩ = ⟨0, 0, frame.cols, frame.rows⟩ := by
  have hw : min (t + t) (0 + (frame.cols : Int)) - max t 0 ≤ 0 := by
    have h1 := min_le_left (t + t) (0 + (frame.cols : Int))
    have h2 := le_max_right t 0
    linarith
  unfold sanityTest Rect.interAssign
  simp only
  rw [if_pos (Or.inl hw)]
  simp [Rect.zero, Rect.area]

/-! ### outlineContrastConfidence: the counters -/

theorem counters_cases (e v : Int) (cs ce g1 g2 : Bool) (hlt : Prop) [Decidable hlt] :
    (if (!cs || !ce) = true then (⟨e + 1, v⟩ : Counters)
      else if hlt then (if g1 = true then ⟨e + 1, v + 1⟩ else ⟨e + 1, v⟩)
      else (if g2 = true then ⟨e + 1, v + 1⟩ else ⟨e + 1, v⟩)) =
      ⟨e + 1, v + (if (true && (cs && ce) && (if hlt then g1 else g2)) = true then 1 else 0)⟩ := by
  by_cases h : hlt <;> cases cs <;> cases ce <;> cases g1 <;> cases g2 <;> simp [h]

theorem outlineStep_eq (frame : Mat) (c : Point) (delta bias : Int) (s : Counters)
    (p : Point) :
    outlineStep frame ⟨0, 0, frame.cols, frame.rows⟩ c delta bias s p =
      if nonZeroSlope c p = true then
        ⟨s.evaluated + 1,
          s.validCount + (if classifiedValid frame c delta bias p = true then 1 else 0)⟩
      else s := by
  unfold outlineStep
  dsimp only
  by_cases ha : slopeOf c p = 0
  · rw [if_pos ha]
    simp [nonZeroSlope, ha]
  · rw [if_neg ha]
    have hnz : nonZeroSlope c p = true := by simp [nonZeroSlope, ha]
    rw [if_pos hnz]
    unfold classifiedValid
    rw [hnz]
    by_cases hd : |p.x - c.x| > |p.y - c.y|
    · rw [if_pos hd]
      have hh : horizontallyDominant c p = true := by simp [horizontallyDominant, hd]
      simp only [segmentInside, segmentEnds, contrastTest, sampledPixels, sideMean, hh,
        if_true, List.map_map, Function.comp_def, hSample]
      exact counters_cases _ _ _ _ _ _ _
    · rw [if_neg hd]
      have hh : horizontallyDominant c p = false := by simp [horizontallyDominant, hd]
      simp only [segmentInside, segmentEnds, contrastTest, sampledPixels, sideMean, hh,
        if_false, List.map_map, Function.comp_def, vSample, Bool.false_eq_true]
      exact counters_cases _ _ _ _ _ _ _

theorem outlineFold_eq (frame : Mat) (c : Point) (delta bias : Int) (pts : List Point)
    (s : Counters) :
    pts.foldl (outlineStep frame ⟨0, 0, frame.cols, frame.rows⟩ c delta bias) s =
      ⟨s.evaluated + (pts.countP (nonZeroSlope c) : Int),
        s.validCount + (pts.countP (classifiedValid frame c delta bias) : Int)⟩ := by
  induction pts generalizing s with
  | nil => simp
  | cons p ps ih =>
    rw [List.foldl_cons, ih, outlineStep_eq]
    by_cases hnz : nonZeroSlope c p = true
    · by_cases hv : classifiedValid frame c delta bias p = true
      · simp [hnz, hv, List.countP_cons]
        constructor <;> ring
      · simp [hnz, hv, List.countP_cons]
        ring
    · have hv : ¬ classifiedValid frame c delta bias p = true := by
        simp only [classifiedValid, Bool.and_eq_true, not_and]
        intro h
        exact absurd h.1 hnz
      simp [hnz, hv, List.countP_cons]

theorem outlineCounters_eq (frame : Mat) (pupil : Pupil) (bias : Int) :
    outlineCounters frame pupil bias =
      ⟨((ellipse2Points pupil 10).countP (nonZeroSlope (centerOf pupil)) : Int),
        ((ellipse2Points pupil 10).countP
          (classifiedValid frame (centerOf pupil) (deltaOf pupil) bias) : Int)⟩ := by
  unfold outlineCounters
  simp only [outlineFold_eq, zero_add]

theorem classifiedValid_le (frame : Mat) (c : Point) (delta bias : Int) (pts : List Point) :
    pts.countP (classifiedValid frame c delta bias) ≤ pts.countP (nonZeroSlope c) := by
  apply List.countP_mono_left
  intro p _ hv
  simp only [classifiedValid, Bool.and_eq_true] at hv
  exact hv.1.1

/-- C4: `outlineContrastConfidence` returns `NO_CONFIDENCE` exactly when the hypothesis
has no outline; `validCount` never exceeds `evaluated`, so with an outline the result is a
score in `[0, 1]`, and it is 0 when `evaluated` is 0. -/
theorem outlineContrastConfidence_range (frame : Mat) (pupil : Pupil) (bias : Int) :
    (outlineContrastConfidence frame pupil bias = NO_CONFIDENCE ↔
        pupil.hasOutline = false) ∧
      0 ≤ (outlineCounters frame pupil bias).validCount ∧
      (outlineCounters frame pupil bias).validCount ≤
        (outlineCounters frame pupil bias).evaluated ∧
      (pupil.hasOutline = true →
        ∃ q : ℚ, outlineContrastConfidence frame pupil bias = FVal.fin q ∧ 0 ≤ q ∧ q ≤ 1 ∧
          ((outlineCounters frame pupil bias).evaluated = 0 → q = 0)) := by
  have hv0 : 0 ≤ (outlineCounters frame pupil bias).validCount := by
    rw [outlineCounters_eq]
    exact Int.natCast_nonneg _
  have hve : (outlineCounters frame pupil bias).validCount ≤
      (outlineCounters frame pupil bias).evaluated := by
    rw [outlineCounters_eq]
    show ((_ : Nat) : Int) ≤ ((_ : Nat) : Int)
    exact Int.ofNat_le.mpr (classifiedValid_le frame _ _ bias _)
  have hscore : pupil.hasOutline = true →
      ∃ q : ℚ, outlineContrastConfidence frame pupil bias = FVal.fin q ∧ 0 ≤ q ∧ q ≤ 1 ∧
        ((outlineCounters frame pupil bias).evaluated = 0 → q = 0) := by
    intro ho
    unfold outlineContrastConfidence
    simp only [ho, Bool.not_true, Bool.false_eq_true, if_false]
    by_cases he : (outlineCounters frame pupil bias).evaluated = 0
    · rw [if_pos he]
      exact ⟨0, rfl, le_refl _, zero_le_one, fun _ => rfl⟩
    · rw [if_neg he]
      have hepos : 0 < (outlineCounters frame pupil bias).evaluated :=
        lt_of_le_of_ne (le_trans hv0 hve) (Ne.symm he)
      have heq : ((outlineCounters frame pupil bias).evaluated : ℚ) ≠ 0 := by
        exact_mod_cast he
      have hepq : (0 : ℚ) < ((outlineCounters frame pupil bias).evaluated : ℚ) := by
        exact_mod_cast hepos
      refine ⟨((outlineCounters frame pupil bias).validCount : ℚ) /
        ((outlineCounters frame pupil bias).evaluated : ℚ), ?_, ?_, ?_, ?_⟩
      · simp only [FVal.ofInt]
        exact FVal.fin_div_fin _ _ heq
      · exact div_nonneg (by exact_mod_cast hv0) hepq.le
      · rw [div_le_one hepq]
        exact_mod_cast hve
      · intro h
        exact absurd h he
  refine ⟨?_, hv0, hve, hscore⟩
  constructor
  · intro h
    by_contra ho
    have ho2 : pupil.hasOutline = true := by simpa using ho
    obtain ⟨q, hq, hq0, -, -⟩ := hscore ho2
    rw [hq, NO_CONFIDENCE] at h
    injection h with h
    linarith
  · intro h
    unfold outlineContrastConfidence
    simp [h]

/-- Witness of C4: a dark disc of radius 7 in a 20 x 20 frame and the matching hypothesis. -/
theorem outlineContrastConfidence_range_witness :
    (circlePupil 10 10 14).hasOutline = true ∧
      ∃ q : ℚ, outlineContrastConfidence (discFrame 20 20 10 10 49 0 255)
        (circlePupil 10 10 14) 0 = FVal.fin q ∧ 0 ≤ q ∧ q ≤ 1 ∧
        ((outlineCounters (discFrame 20 20 10 10 49 0 255)
          (circlePupil 10 10 14) 0).evaluated = 0 → q = 0) :=
  ⟨by decide!,
    (outlineContrastConfidence_range (discFrame 20 20 10 10 49 0 255)
      (circlePupil 10 10 14) 0).2.2.2 (by decide!)⟩

/-! ### outlineContrastConfidence: the score as a fraction -/

theorem outlineContrastConfidence_eq (frame : Mat) (pupil : Pupil) (bias : Int)
    (ho : pupil.hasOutline = true) :
    outlineContrastConfidence frame pupil bias =
      if (ellipse2Points pupil 10).countP (nonZeroSlope (centerOf pupil)) = 0 then FVal.fin 0
      else FVal.fin
        (((ellipse2Points pupil 10).countP
            (classifiedValid frame (centerOf pupil) (deltaOf pupil) bias) : ℚ) /
          ((ellipse2Points pupil 10).countP (nonZeroSlope (centerOf pupil)) : ℚ)) := by
  unfold outlineContrastConfidence
  simp only [ho, Bool.not_true, Bool.false_eq_true, if_false, outlineCounters_eq]
  by_cases he : (ellipse2Points pupil 10).countP (nonZeroSlope (centerOf pupil)) = 0
  · simp [he]
  · have he2 : (((ellipse2Points pupil 10).countP (nonZeroSlope (centerOf pupil)) : Int)) ≠ 0 := by
      exact_mod_cast he
    have he3 : (((ellipse2Points pupil 10).countP (nonZeroSlope (centerOf pupil)) : ℚ)) ≠ 0 := by
      exact_mod_cast he
    rw [if_neg he2, if_neg he]
    simp only [FVal.ofInt]
    rw [FVal.fin_div_fin _ _ (by exact_mod_cast he)]
    simp

set_option maxHeartbeats 1000000 in
/-- C5 (as stated, refuted): for a dark disc of radius 18 at the centre of a 40 x 40 frame
and the matching hypothesis, 8 outline points are evaluable and all 8 are classified valid,
24 more have non-zero slope and a segment that leaves the frame; the result is
8 / 32 = 0.25, not 8 / 8. -/
theorem outlineContrastConfidence_counts_skipped_points :
    (ellipse2Points (circlePupil 20 20 36) 10).countP
        (classifiedValid (discFrame 40 40 20 20 324 10 200) (centerOf (circlePupil 20 20 36))
          (deltaOf (circlePupil 20 20 36)) 5) = 8 ∧
      (ellipse2Points (circlePupil 20 20 36) 10).countP
        (evaluable (discFrame 40 40 20 20 324 10 200) (centerOf (circlePupil 20 20 36))
          (deltaOf (circlePupil 20 20 36))) = 8 ∧
      outlineContrastConfidence (discFrame 40 40 20 20 324 10 200) (circlePupil 20 20 36) 5 =
        FVal.fin (1 / 4) ∧
      outlineContrastConfidence (discFrame 40 40 20 20 324 10 200) (circlePupil 20 20 36) 5 ≠
        FVal.fin
          (((ellipse2Points (circlePupil 20 20 36) 10).countP
              (classifiedValid (discFrame 40 40 20 20 324 10 200)
                (centerOf (circlePupil 20 20 36)) (deltaOf (circlePupil 20 20 36)) 5) : ℚ) /
            ((ellipse2Points (circlePupil 20 20 36) 10).countP
              (evaluable (discFrame 40 40 20 20 324 10 200)
                (centerOf (circlePupil 20 20 36)) (deltaOf (circlePupil 20 20 36))) : ℚ)) := by
  have h : (ellipse2Points (circlePupil 20 20 36) 10).countP
      (classifiedValid (discFrame 40 40 20 20 324 10 200) (centerOf (circlePupil 20 20 36))
        (deltaOf (circlePupil 20 20 36)) 5) = 8 ∧
      (ellipse2Points (circlePupil 20 20 36) 10).countP
        (evaluable (discFrame 40 40 20 20 324 10 200) (centerOf (circlePupil 20 20 36))
          (deltaOf (circlePupil 20 20 36))) = 8 ∧
      outlineContrastConfidence (discFrame 40 40 20 20 324 10 200)
        (circlePupil 20 20 36) 5 = FVal.fin (1 / 4) := by decide!
  obtain ⟨h1, h2, h3⟩ := h
  refine ⟨h1, h2, h3, ?_⟩
  rw [h3, h1, h2]
  decide!

/-- C5 (amended): with an outline, the result is the number of points classified valid
over the number of sampled points with non-zero slope (0 when there is none); a point
whose segment leaves the frame is never classified valid but counts in the denominator;
and the result is 0 when no point is evaluable. -/
theorem outlineContrastConfidence_fraction (frame : Mat) (pupil : Pupil) (bias : Int)
    (ho : pupil.hasOutline = true) :
    (outlineContrastConfidence frame pupil bias =
        if (ellipse2Points pupil 10).countP (nonZeroSlope (centerOf pupil)) = 0 then FVal.fin 0
        else FVal.fin
          (((ellipse2Points pupil 10).countP
              (classifiedValid frame (centerOf pupil) (deltaOf pupil) bias) : ℚ) /
            ((ellipse2Points pupil 10).countP (nonZeroSlope (centerOf pupil)) : ℚ))) ∧
      (∀ p : Point, segmentInside frame (centerOf pupil) (deltaOf pupil) p = false →
        classifiedValid frame (centerOf pupil) (deltaOf pupil) bias p = false) ∧
      ((ellipse2Points pupil 10).countP
          (evaluable frame (centerOf pupil) (deltaOf pupil)) = 0 →
        outlineContrastConfidence frame pupil bias = FVal.fin 0) := by
  refine ⟨outlineContrastConfidence_eq frame pupil bias ho, ?_, ?_⟩
  · intro p hp
    simp [classifiedValid, hp]
  · intro h0
    have hv : (ellipse2Points pupil 10).countP
        (classifiedValid frame (centerOf pupil) (deltaOf pupil) bias) = 0 := by
      apply Nat.eq_zero_of_le_zero
      rw [← h0]
      apply List.countP_mono_left
      intro p _ hv
      simp only [classifiedValid, evaluable, Bool.and_eq_true] at hv ⊢
      exact hv.1
    rw [outlineContrastConfidence_eq frame pupil bias ho, hv]
    split <;> simp

/-- Witness of C5 (amended): the disc of radius 7 in a 20 x 20 frame. -/
theorem outlineContrastConfidence_fraction_witness :
    (circlePupil 10 10 14).hasOutline = true ∧
      ∀ p : Point,
        segmentInside (discFrame 20 20 10 10 49 0 255) (centerOf (circlePupil 10 10 14))
          (deltaOf (circlePupil 10 10 14)) p = false →
        classifiedValid (discFrame 20 20 10 10 49 0 255) (centerOf (circlePupil 10 10 14))
          (deltaOf (circlePupil 10 10 14)) 0 p = false :=
  ⟨by decide!,
    (outlineContrastConfidence_fraction (discFrame 20 20 10 10 49 0 255)
      (circlePupil 10 10 14) 0 (by decide!)).2.1⟩

/-! ### outlineContrastConfidence: full contrast -/

theorem forRange_length_one (hi : Int) (fuel : Nat) (i : Int) (h : fuel = (hi - i).toNat) :
    (forRange fuel i hi 1).length = fuel := by
  induction fuel generalizing i with
  | zero => rfl
  | succ n ih =>
    have hlt : i < hi := by
      by_contra hc
      have : (hi - i).toNat = 0 := Int.toNat_eq_zero.mpr (by linarith)
      omega
    unfold forRange
    rw [if_pos hlt, List.length_cons, ih (i + 1) (by omega)]

theorem forLoop_length_one (lo hi : Int) : (forLoop lo hi 1).length = (hi - lo).toNat :=
  forRange_length_one hi _ lo rfl

theorem roundHalfAway_intCast (n : Int) : roundHalfAway (n : ℚ) = n := by
  unfold roundHalfAway
  split
  · rw [Int.floor_eq_iff]
    constructor <;> norm_num
  · have : ⌊-(n : ℚ) + 1 / 2⌋ = -n := by
      rw [Int.floor_eq_iff]
      constructor <;> push_cast <;> norm_num
    rw [this, neg_neg]

theorem sampledPixels_length (c : Point) (delta : Int) (p : Point) (hdelta : 0 ≤ delta) :
    ((sampledPixels c delta p).1.length : Int) = delta ∧
      ((sampledPixels c delta p).2.length : Int) = delta := by
  unfold sampledPixels
  simp only
  split <;> simp only [List.length_map, forLoop_length_one] <;> constructor <;> omega

theorem floatSum_replicate_aux (v : Nat) : ∀ (k j : Nat), (j + k) * v ≤ 16777216 →
    (List.replicate k v).foldl (fun (m : ℚ) (w : Nat) => toFloat (m + (w : ℚ)))
      ((j * v : Nat) : ℚ) = (((j + k) * v : Nat) : ℚ) := by
  intro k
  induction k with
  | zero => intro j _; simp
  | succ n ih =>
    intro j h
    rw [List.replicate_succ, List.foldl_cons]
    have e : ((j * v : Nat) : ℚ) + (v : ℚ) = (((j + 1) * v : Nat) : Int) := by
      push_cast; ring
    have hle : (j + 1) * v ≤ 16777216 :=
      le_trans (Nat.mul_le_mul_right v (by omega)) h
    rw [e, toFloat_intCast _ (by rw [abs_of_nonneg (by positivity)]; exact_mod_cast hle)]
    have := ih (j + 1) (by rw [show j + 1 + n = j + (n + 1) by ring]; exact h)
    rw [show j + 1 + n = j + (n + 1) by ring] at this
    rw [← this]
    congr 1

theorem floatSum_replicate (k v : Nat) (h : k * v ≤ 16777216) :
    floatSum (List.replicate k v) = ((k * v : Nat) : ℚ) := by
  have := floatSum_replicate_aux v k 0 (by simpa using h)
  simpa [floatSum] using this

theorem sideMean_const (frame : Mat) (delta : Int) (pixels : List (Int × Int)) (v : Nat)
    (hdelta : 1 ≤ delta) (hd24 : delta ≤ 65536) (hv8 : v ≤ 255)
    (hlen : (pixels.length : Int) = delta)
    (hv : ∀ rc ∈ pixels, frame.px rc.1 rc.2 = v) :
    sideMean frame delta pixels = FVal.fin (v : ℚ) := by
  unfold sideMean
  have hmap : pixels.map (fun rc => frame.px rc.1 rc.2) =
      List.replicate pixels.length v := by
    apply List.ext_getElem
    · simp
    · intro n h1 h2
      simp only [List.getElem_map, List.getElem_replicate]
      rw [hv _ (List.getElem_mem _)]
  have hlenN : pixels.length ≤ 65536 := by omega
  have hprod : pixels.length * v ≤ 16777216 := by
    calc pixels.length * v ≤ 65536 * 255 := Nat.mul_le_mul hlenN hv8
      _ ≤ 16777216 := by norm_num
  have hd : (delta : ℚ) ≠ 0 := by
    have : (0 : ℚ) < (delta : ℚ) := by exact_mod_cast hdelta
    exact this.ne.symm
  have hfd : toFloat (delta : ℚ) = (delta : ℚ) :=
    toFloat_intCast delta (by rw [abs_of_nonneg (by omega)]; omega)
  simp only [hmap]
  rw [floatSum_replicate _ _ hprod, hfd, FVal.fin_div_fin _ _ hd]
  have hq : ((pixels.length : ℚ)) = (delta : ℚ) := by exact_mod_cast hlen
  have hval : ((pixels.length * v : Nat) : ℚ) / (delta : ℚ) = (v : ℚ) := by
    push_cast
    rw [hq, mul_div_cancel_left₀ _ hd]
  rw [hval]
  show FVal.fin (roundHalfAway (toFloat (v : ℚ)) : ℚ) = _
  have hfv : toFloat (v : ℚ) = (v : ℚ) := by
    have := toFloat_intCast (v : Int) (by rw [abs_of_nonneg (by positivity)]; omega)
    simpa using this
  rw [hfv]
  congr 1
  have h2 : roundHalfAway (v : ℚ) = (v : Int) := by
    simpa using roundHalfAway_intCast (v : Int)
  rw [h2]
  simp

theorem contrastTest_eq (frame : Mat) (c : Point) (delta bias : Int) (p : Point) :
    contrastTest frame c delta bias p =
      FVal.gt (sideMean frame delta (outerPixels c delta p))
        (plusBias (sideMean frame delta (innerPixels c delta p)) bias) := by
  unfold contrastTest outerPixels innerPixels awayIsFirst
  by_cases hh : horizontallyDominant c p = true
  · by_cases hlt : p.x < c.x <;> simp [hh, hlt]
  · by_cases hlt : p.y < c.y <;> simp [hh, hlt]

theorem plusBias_lt (dark bright : Nat) (bias : Int) (hd8 : dark ≤ 255) (hb8 : bright ≤ 255)
    (hcontrast : (dark : Int) + bias < (bright : Int)) :
    FVal.gt (FVal.fin (bright : ℚ)) (plusBias (FVal.fin (dark : ℚ)) bias) = true := by
  have h1 : (bias : ℚ) ≤ (((bright : Int) - dark - 1 : Int) : ℚ) := by
    exact_mod_cast (by omega : bias ≤ (bright : Int) - dark - 1)
  have h2 := toFloat_mono h1
  have e2 := toFloat_intCast ((bright : Int) - dark - 1) (by rw [abs_le]; constructor <;> omega)
  rw [e2] at h2
  have h3 : (dark : ℚ) + toFloat (bias : ℚ) ≤ (((bright : Int) - 1 : Int) : ℚ) := by
    push_cast at h2 ⊢
    linarith
  have h4 := toFloat_mono h3
  have e4 := toFloat_intCast ((bright : Int) - 1) (by rw [abs_le]; constructor <;> omega)
  rw [e4] at h4
  show FVal.lt (FVal.fin (toFloat ((dark : ℚ) + toFloat (bias : ℚ)))) (FVal.fin (bright : ℚ)) = true
  simp only [FVal.lt, decide_eq_true_eq]
  push_cast at h4
  linarith

set_option maxHeartbeats 4000000 in
/-- C6 (as stated, refuted): four matching dark discs on a bright background that do not
score 1.  A disc of radius 13 at the centre of a 30 x 30 frame (200 against 10, bias 5):
twelve sampling segments leave the frame and the result is 20 / 32.  A disc of radius 3
(21 against 10, bias 10): the sampling length `delta` is 0, the means are 0 / 0 and the
result is 0.  A disc of radius 7/2 centred at column 16777216 of a frame with 16777236
columns, every segment inside the frame: `float` coordinates of that size are spaced by 2
and the result is 28 / 30.  A disc of radius 7 centred at (20, 20): the first outline
point (27, 20) has zero slope, is skipped and is not classified valid. -/
theorem outlineContrastConfidence_disc_near_border :
    ((circlePupil 15 15 26).hasOutline = true ∧
      outlineContrastConfidence (discFrame 30 30 15 15 169 10 200) (circlePupil 15 15 26) 5 =
        FVal.fin (5 / 8) ∧
      outlineContrastConfidence (discFrame 30 30 15 15 169 10 200) (circlePupil 15 15 26) 5 ≠
        FVal.fin 1) ∧
    ((circleHypothesis 10 10 3 0).hasOutline = true ∧
      deltaOf (circleHypothesis 10 10 3 0) = 0 ∧
      outlineContrastConfidence (discFrame 20 20 10 10 ⌊(3 : ℚ) ^ 2⌋ 10 21)
        (circleHypothesis 10 10 3 0) 10 = FVal.fin 0) ∧
    ((circleHypothesis 16777216 10 (7 / 2) 0).hasOutline = true ∧
      (∀ p ∈ ellipse2Points (circleHypothesis 16777216 10 (7 / 2) 0) 10,
        nonZeroSlope (centerOf (circleHypothesis 16777216 10 (7 / 2) 0)) p = true →
        segmentInside (discFrame 20 16777236 16777216 10 ⌊(7 / 2 : ℚ) ^ 2⌋ 10 21)
          (centerOf (circleHypothesis 16777216 10 (7 / 2) 0))
          (deltaOf (circleHypothesis 16777216 10 (7 / 2) 0)) p = true) ∧
      outlineContrastConfidence (discFrame 20 16777236 16777216 10 ⌊(7 / 2 : ℚ) ^ 2⌋ 10 21)
        (circleHypothesis 16777216 10 (7 / 2) 0) 10 = FVal.fin (14 / 15)) ∧
    ((ellipse2Points (circleHypothesis 20 20 7 0) 10)[0]? = some (⟨27, 20⟩ : Point) ∧
      classifiedValid (discFrame 40 40 20 20 ⌊(7 : ℚ) ^ 2⌋ 10 21)
        (centerOf (circleHypothesis 20 20 7 0)) (deltaOf (circleHypothesis 20 20 7 0)) 10
        ⟨27, 20⟩ = false) := by
  have h : outlineContrastConfidence (discFrame 30 30 15 15 169 10 200)
      (circlePupil 15 15 26) 5 = FVal.fin (5 / 8) := by decide!
  refine ⟨⟨by decide!, h, ?_⟩, by decide!, by decide!, by decide!⟩
  rw [h]
  decide!

/-- With a sampling length `delta` between 1 and 65536, some sampled outline point of
non-zero slope, every such point with its segment inside the frame, every pixel read on
the side away from the centre `bright` and every pixel read on the side toward the centre
`dark`, 8-bit values with `bright > dark + bias`, `outlineContrastConfidence` returns 1 and
every sampled outline point of non-zero slope is classified valid. -/
theorem outlineContrastConfidence_of_contrast (frame : Mat) (pupil : Pupil) (bias : Int)
    (dark bright : Nat) (ho : pupil.hasOutline = true) (hdelta : 1 ≤ deltaOf pupil)
    (hd24 : deltaOf pupil ≤ 65536) (hb8 : bright ≤ 255)
    (hsome : ∃ p ∈ ellipse2Points pupil 10, nonZeroSlope (centerOf pupil) p = true)
    (hinside : ∀ p ∈ ellipse2Points pupil 10, nonZeroSlope (centerOf pupil) p = true →
      segmentInside frame (centerOf pupil) (deltaOf pupil) p = true)
    (hout : ∀ p ∈ ellipse2Points pupil 10, nonZeroSlope (centerOf pupil) p = true →
      ∀ rc ∈ outerPixels (centerOf pupil) (deltaOf pupil) p, frame.px rc.1 rc.2 = bright)
    (hin : ∀ p ∈ ellipse2Points pupil 10, nonZeroSlope (centerOf pupil) p = true →
      ∀ rc ∈ innerPixels (centerOf pupil) (deltaOf pupil) p, frame.px rc.1 rc.2 = dark)
    (hcontrast : (dark : Int) + bias < (bright : Int)) :
    outlineContrastConfidence frame pupil bias = FVal.fin 1 ∧
      ∀ p ∈ ellipse2Points pupil 10, nonZeroSlope (centerOf pupil) p = true →
        classifiedValid frame (centerOf pupil) (deltaOf pupil) bias p = true := by
  have hlen := fun p => sampledPixels_length (centerOf pupil) (deltaOf pupil) p
    (by linarith)
  have hlenOut : ∀ p, ((outerPixels (centerOf pupil) (deltaOf pupil) p).length : Int) =
      deltaOf pupil := by
    intro p
    unfold outerPixels
    split
    · exact (hlen p).1
    · exact (hlen p).2
  have hlenIn : ∀ p, ((innerPixels (centerOf pupil) (deltaOf pupil) p).length : Int) =
      deltaOf pupil := by
    intro p
    unfold innerPixels
    split
    · exact (hlen p).2
    · exact (hlen p).1
  have hd8 : dark ≤ 255 := by
    by_contra hneg
    push_neg at hneg
    obtain ⟨p, hp, hnz⟩ := hsome
    have hl := hlenIn p
    have hne : innerPixels (centerOf pupil) (deltaOf pupil) p ≠ [] := by
      intro he
      rw [he] at hl
      simp at hl
      omega
    obtain ⟨rc, hrc⟩ := List.exists_mem_of_ne_nil _ hne
    have := hin p hp hnz rc hrc
    have hlt : frame.px rc.1 rc.2 < 256 := Nat.mod_lt _ (by norm_num)
    omega
  have hvalid : ∀ p ∈ ellipse2Points pupil 10,
      classifiedValid frame (centerOf pupil) (deltaOf pupil) bias p =
        nonZeroSlope (centerOf pupil) p := by
    intro p hp
    by_cases hnz : nonZeroSlope (centerOf pupil) p = true
    · have hc : contrastTest frame (centerOf pupil) (deltaOf pupil) bias p = true := by
        rw [contrastTest_eq,
          sideMean_const frame _ _ bright hdelta hd24 hb8 (hlenOut p) (hout p hp hnz),
          sideMean_const frame _ _ dark hdelta hd24 hd8 (hlenIn p) (hin p hp hnz)]
        exact plusBias_lt dark bright bias hd8 hb8 hcontrast
      simp [classifiedValid, hnz, hinside p hp hnz, hc]
    · have hnz2 : nonZeroSlope (centerOf pupil) p = false := by simpa using hnz
      simp [classifiedValid, hnz2]
  have hcount : (ellipse2Points pupil 10).countP
      (classifiedValid frame (centerOf pupil) (deltaOf pupil) bias) =
        (ellipse2Points pupil 10).countP (nonZeroSlope (centerOf pupil)) :=
    List.countP_congr (fun p hp => by rw [hvalid p hp])
  have hpos : (ellipse2Points pupil 10).countP (nonZeroSlope (centerOf pupil)) ≠ 0 := by
    obtain ⟨p, hp, hnz⟩ := hsome
    exact (List.countP_pos_iff.mpr ⟨p, hp, hnz⟩).ne.symm
  refine ⟨?_, fun p hp hnz => by rw [hvalid p hp, hnz]⟩
  rw [outlineContrastConfidence_eq frame pupil bias ho, if_neg hpos, hcount]
  congr 1
  exact div_self (by exact_mod_cast hpos)

/-! ### The radius range -/

/-- `truncMulSqrt c n` is the C value `(int)(c * sqrt(n))` in exact arithmetic. -/
theorem truncMulSqrt_eq_floor (c : ℚ) (n : Nat) (hc : 0 ≤ c) :
    truncMulSqrt c n = ⌊(c : ℝ) * Real.sqrt (n : ℝ)⌋ := by
  have hx0 : (0 : ℚ) ≤ c ^ 2 * n := by positivity
  have hm : ((⌊c ^ 2 * (n : ℚ)⌋.toNat : ℕ) : ℤ) = ⌊c ^ 2 * (n : ℚ)⌋ :=
    Int.toNat_of_nonneg (Int.floor_nonneg.mpr hx0)
  have hmq : ((⌊c ^ 2 * (n : ℚ)⌋.toNat : ℕ) : ℝ) = ((⌊c ^ 2 * (n : ℚ)⌋ : ℤ) : ℝ) := by
    exact_mod_cast hm
  have hlo : ((⌊c ^ 2 * (n : ℚ)⌋ : ℤ) : ℝ) ≤ (c : ℝ) ^ 2 * (n : ℝ) := by
    have := Int.floor_le (c ^ 2 * (n : ℚ))
    exact_mod_cast this
  have hhi : (c : ℝ) ^ 2 * (n : ℝ) < ((⌊c ^ 2 * (n : ℚ)⌋ : ℤ) : ℝ) + 1 := by
    have := Int.lt_floor_add_one (c ^ 2 * (n : ℚ))
    exact_mod_cast this
  have hsq : (c : ℝ) * Real.sqrt (n : ℝ) = Real.sqrt ((c : ℝ) ^ 2 * (n : ℝ)) := by
    rw [Real.sqrt_mul (by positivity), Real.sqrt_sq (by exact_mod_cast hc)]
  unfold truncMulSqrt
  symm
  rw [hsq, Int.floor_eq_iff]
  set m := ⌊c ^ 2 * (n : ℚ)⌋.toNat with hmdef
  have h1 : ((Nat.sqrt m : ℕ) : ℝ) ^ 2 ≤ (m : ℝ) := by exact_mod_cast Nat.sqrt_le' m
  have h2 : (m : ℝ) + 1 ≤ ((Nat.sqrt m : ℕ) + 1 : ℝ) ^ 2 := by
    have := Nat.lt_succ_sqrt' m
    have h3 : m + 1 ≤ (Nat.sqrt m + 1) ^ 2 := this
    exact_mod_cast h3
  constructor
  · push_cast
    apply Real.le_sqrt_of_sq_le
    linarith
  · push_cast
    rw [Real.sqrt_lt' (by positivity)]
    linarith

/-! ### Loops run to completion -/

/-- For a step of at least 1 the loop `for (; i < hi; i += step)` ends within `hi - i`
iterations: more fuel does not change the values visited. -/
theorem forRange_fuel_enough (hi step : Int) (hstep : 1 ≤ step) (fuel : Nat) (i : Int)
    (fuel2 : Nat) (h : (hi - i).toNat ≤ fuel) (h2 : fuel ≤ fuel2) :
    forRange fuel2 i hi step = forRange fuel i hi step := by
  induction fuel generalizing i fuel2 with
  | zero =>
    have hle : hi ≤ i := by omega
    cases fuel2 with
    | zero => rfl
    | succ n =>
      unfold forRange
      rw [if_neg (by omega)]
  | succ n ih =>
    cases fuel2 with
    | zero => omega
    | succ n2 =>
      unfold forRange
      by_cases hlt : i < hi
      · rw [if_pos hlt, if_pos hlt, ih (i + step) n2 (by omega) (by omega)]
      · rw [if_neg hlt, if_neg hlt]

theorem forRange_mem_iff (hi step v : Int) (hstep : 1 ≤ step) (fuel : Nat) (i : Int)
    (h : (hi - i).toNat ≤ fuel) :
    v ∈ forRange fuel i hi step ↔ ∃ k : Nat, v = i + k * step ∧ v < hi := by
  have hnone : ∀ j : Int, hi ≤ j → ¬ ∃ k : Nat, v = j + k * step ∧ v < hi := by
    rintro j hle ⟨k, hk, hv⟩
    have : (0 : Int) ≤ k * step := by positivity
    linarith
  induction fuel generalizing i with
  | zero =>
    have hle : hi ≤ i := by omega
    simp only [forRange, List.not_mem_nil, false_iff]
    exact hnone i hle
  | succ n ih =>
    unfold forRange
    by_cases hlt : i < hi
    · have hfuel : (hi - (i + step)).toNat ≤ n := by omega
      have hrec : v ∈ forRange n (i + step) hi step ↔
          ∃ k : Nat, v = i + step + k * step ∧ v < hi := ih (i + step) hfuel
      rw [if_pos hlt, List.mem_cons, hrec]
      constructor
      · rintro (h | ⟨k, hk, hv⟩)
        · exact ⟨0, by simp [h], by rw [h]; exact hlt⟩
        · exact ⟨k + 1, by push_cast; linarith, hv⟩
      · rintro ⟨k, hk, hv⟩
        cases k with
        | zero => left; simpa using hk
        | succ k => right; exact ⟨k, by push_cast at hk; linarith, hv⟩
    · rw [if_neg hlt]
      simp only [List.not_mem_nil, false_iff]
      exact hnone i (by linarith)

/-- The values visited by `for (i = lo; i < hi; i += step)` with a step of at least 1 are
exactly the values `lo + k * step` below `hi`. -/
theorem forLoop_mem_iff (lo hi step v : Int) (hstep : 1 ≤ step) :
    v ∈ forLoop lo hi step ↔ ∃ k : Nat, v = lo + k * step ∧ v < hi :=
  forRange_mem_iff hi step v hstep _ lo (le_refl _)

/-! ### ellipse2Points: the angle normalisation -/

theorem normalizeUp_spec (fuel : Nat) (a : Int) (h : -a ≤ (fuel : Int) * 360) :
    0 ≤ normalizeUp fuel a ∧ (a < 0 → normalizeUp fuel a < 360) ∧
      (0 ≤ a → normalizeUp fuel a = a) ∧ (normalizeUp fuel a - a) % 360 = 0 := by
  induction fuel generalizing a with
  | zero =>
    have ha : 0 ≤ a := by simpa using h
    refine ⟨by simpa [normalizeUp] using ha, fun hlt => by omega, fun _ => rfl, by simp [normalizeUp]⟩
  | succ n ih =>
    unfold normalizeUp
    by_cases hlt : a < 0
    · rw [if_pos hlt]
      have hfuel : -(a + 360) ≤ (n : Int) * 360 := by push_cast at h; linarith
      obtain ⟨h1, h2, h3, h4⟩ := ih (a + 360) hfuel
      refine ⟨h1, fun _ => ?_, fun h0 => by omega, by omega⟩
      by_cases hneg : a + 360 < 0
      · exact h2 hneg
      · rw [h3 (by omega)]; omega
    · rw [if_neg hlt]
      exact ⟨by omega, fun h0 => absurd h0 hlt, fun _ => rfl, by simp⟩

theorem normalizeDown_spec (fuel : Nat) (a : Int) (h : a ≤ ((fuel : Int) + 1) * 360) :
    normalizeDown fuel a ≤ 360 ∧ (360 < a → 0 < normalizeDown fuel a) ∧
      (a ≤ 360 → normalizeDown fuel a = a) ∧ (normalizeDown fuel a - a) % 360 = 0 := by
  induction fuel generalizing a with
  | zero =>
    have ha : a ≤ 360 := by simpa using h
    refine ⟨by simpa [normalizeDown] using ha, fun hlt => by omega, fun _ => rfl,
      by simp [normalizeDown]⟩
  | succ n ih =>
    unfold normalizeDown
    by_cases hgt : a > 360
    · rw [if_pos hgt]
      have hfuel : a - 360 ≤ ((n : Int) + 1) * 360 := by push_cast at h; linarith
      obtain ⟨h1, h2, h3, h4⟩ := ih (a - 360) hfuel
      refine ⟨h1, fun _ => ?_, fun h0 => by omega, by omega⟩
      by_cases hbig : 360 < a - 360
      · exact h2 hbig
      · rw [h3 (by omega)]; omega
    · rw [if_neg hgt]
      exact ⟨by omega, fun h0 => absurd h0 hgt, fun _ => rfl, by simp⟩

theorem normalizeUp_fuel (fuel : Nat) (a : Int) (h : a.natAbs ≤ fuel) :
    normalizeUp fuel a = normalizeUp a.natAbs a := by
  obtain ⟨h1, h2, h3, h4⟩ := normalizeUp_spec fuel a (by omega)
  obtain ⟨g1, g2, g3, g4⟩ := normalizeUp_spec a.natAbs a (by omega)
  by_cases hlt : a < 0
  · have := h2 hlt
    have := g2 hlt
    omega
  · rw [h3 (by omega), g3 (by omega)]

theorem normalizeDown_fuel (fuel : Nat) (a : Int) (h : a.natAbs ≤ fuel) :
    normalizeDown fuel a = normalizeDown a.natAbs a := by
  obtain ⟨h1, h2, h3, h4⟩ := normalizeDown_spec fuel a (by omega)
  obtain ⟨g1, g2, g3, g4⟩ := normalizeDown_spec a.natAbs a (by omega)
  by_cases hgt : 360 < a
  · have := h2 hgt
    have := g2 hgt
    omega
  · rw [h3 (by omega), g3 (by omega)]

theorem normalizedAngle_spec (ellipse : RotatedRect) :
    0 ≤ normalizedAngle ellipse ∧ normalizedAngle ellipse ≤ 360 ∧
      (normalizedAngle ellipse - truncToInt ellipse.angle) % 360 = 0 ∧
      (normalizedAngle ellipse = 360 ↔
        0 < truncToInt ellipse.angle ∧ truncToInt ellipse.angle % 360 = 0) := by
  unfold normalizedAngle
  simp only
  generalize truncToInt ellipse.angle = a
  obtain ⟨h1, h2, h3, h4⟩ := normalizeUp_spec a.natAbs a (by omega)
  generalize normalizeUp a.natAbs a = b at h1 h2 h3 h4
  obtain ⟨g1, g2, g3, g4⟩ := normalizeDown_spec b.natAbs b (by omega)
  generalize normalizeDown b.natAbs b = c at g1 g2 g3 g4
  have hc0 : 0 ≤ c := by
    by_cases hb : 360 < b
    · exact (g2 hb).le
    · rw [g3 (by omega)]; exact h1
  refine ⟨hc0, g1, by omega, ?_⟩
  constructor
  · intro hc
    by_cases ha : a < 0
    · have := h2 ha
      have := g3 (by omega)
      omega
    · have := h3 (by omega)
      omega
  · rintro ⟨ha, hmod⟩
    have := h3 (by omega)
    by_cases hb : 360 < b
    · have := g2 hb
      omega
    · have := g3 (by omega)
      omega

/-! ### ellipse2Points: the sampled angles -/

theorem forRange_eq_map (hi step : Int) (hstep : 1 ≤ step) (n : Nat) (i : Int) (fuel : Nat)
    (hfuel : n ≤ fuel) (hhi : hi - i ≤ (n : Int) * step)
    (hlo : 0 < n → ((n : Int) - 1) * step < hi - i) :
    forRange fuel i hi step = (List.range n).map (fun k : Nat => i + (k : Int) * step) := by
  induction n generalizing i fuel with
  | zero =>
    have hle : ¬ i < hi := by simp at hhi; omega
    cases fuel with
    | zero => rfl
    | succ f => unfold forRange; rw [if_neg hle]; rfl
  | succ n ih =>
    have hlt : i < hi := by
      have h1 := hlo (Nat.succ_pos n)
      have h2 : (0 : Int) ≤ (n : Int) * step := by positivity
      push_cast at h1
      linarith
    cases fuel with
    | zero => omega
    | succ f =>
      unfold forRange
      rw [if_pos hlt, ih (i + step) f (by omega) (by push_cast at hhi; linarith)
        (by intro hn; have := hlo (Nat.succ_pos n); push_cast at this; linarith)]
      rw [List.range_succ_eq_map, List.map_cons, List.map_map]
      simp only [Nat.cast_zero, zero_mul, add_zero, List.cons.injEq, true_and]
      apply List.map_congr_left
      intro k _
      simp only [Function.comp, Nat.cast_succ]
      ring

theorem ceil_steps (hi step : Int) (hstep : 1 ≤ step) (hhi : 0 ≤ hi) :
    hi ≤ ((⌈(hi : ℚ) / (step : ℚ)⌉.toNat : Nat) : Int) * step ∧
      (0 < ⌈(hi : ℚ) / (step : ℚ)⌉.toNat →
        (((⌈(hi : ℚ) / (step : ℚ)⌉.toNat : Nat) : Int) - 1) * step < hi) := by
  have hs : (0 : ℚ) < (step : ℚ) := by exact_mod_cast (by linarith : (0 : Int) < step)
  have hq : (0 : ℚ) ≤ (hi : ℚ) / (step : ℚ) := div_nonneg (by exact_mod_cast hhi) hs.le
  have hc0 : 0 ≤ ⌈(hi : ℚ) / (step : ℚ)⌉ := Int.ceil_nonneg hq
  rw [Int.toNat_of_nonneg hc0]
  constructor
  · have h := Int.le_ceil ((hi : ℚ) / (step : ℚ))
    rw [div_le_iff₀ hs] at h
    exact_mod_cast h
  · intro _
    have h := Int.ceil_lt_add_one ((hi : ℚ) / (step : ℚ))
    have h2 : ((⌈(hi : ℚ) / (step : ℚ)⌉ : ℚ) - 1) * (step : ℚ) < (hi : ℚ) := by
      have h3 : (⌈(hi : ℚ) / (step : ℚ)⌉ : ℚ) - 1 < (hi : ℚ) / (step : ℚ) := by linarith
      calc ((⌈(hi : ℚ) / (step : ℚ)⌉ : ℚ) - 1) * (step : ℚ)
          < (hi : ℚ) / (step : ℚ) * (step : ℚ) := mul_lt_mul_of_pos_right h3 hs
        _ = (hi : ℚ) := div_mul_cancel₀ _ hs.ne.symm
    exact_mod_cast h2

theorem forLoop_eq_map (hi step : Int) (hstep : 1 ≤ step) (hhi : 0 ≤ hi) (fuel : Nat)
    (hfuel : hi.toNat ≤ fuel) :
    forRange fuel 0 hi step =
      (List.range ⌈(hi : ℚ) / (step : ℚ)⌉.toNat).map (fun k : Nat => (k : Int) * step) := by
  obtain ⟨h1, h2⟩ := ceil_steps hi step hstep hhi
  have hn : ⌈(hi : ℚ) / (step : ℚ)⌉.toNat ≤ hi.toNat := by
    by_contra hc
    push_neg at hc
    have hpos : 0 < ⌈(hi : ℚ) / (step : ℚ)⌉.toNat := by omega
    have h3 := h2 hpos
    have h4 : ((hi.toNat : Nat) : Int) = hi := Int.toNat_of_nonneg hhi
    have h5 : (hi : Int) ≤ ((⌈(hi : ℚ) / (step : ℚ)⌉.toNat : Nat) : Int) - 1 := by omega
    nlinarith
  have := forRange_eq_map hi step hstep _ 0 fuel (le_trans hn hfuel) (by simpa using h1)
    (by simpa using h2)
  simpa using this

/-- C11: for a step `delta` of at least 1, `ellipse2Points` terminates (each of its three
loops ends within the fuel given, and more fuel changes nothing) and returns exactly
`ceil(360 / delta)` points, the points of the angles `0, delta, 2 * delta, ...` below 360
in that order: 360 points for `delta = 1` and 36 for `delta = 10`. -/
theorem ellipse2Points_count (ellipse : RotatedRect) (delta : Int) (hdelta : 1 ≤ delta) :
    ellipse2Points ellipse delta =
        (List.range ⌈(360 : ℚ) / (delta : ℚ)⌉.toNat).map (fun k : Nat =>
          ellipsePoint ellipse (sincos (normalizedAngle ellipse)).1
            (sincos (normalizedAngle ellipse)).2 ((k : Int) * delta)) ∧
      (ellipse2Points ellipse delta).length = ⌈(360 : ℚ) / (delta : ℚ)⌉.toNat ∧
      (∀ i ∈ forLoop 0 360 delta, 0 ≤ i ∧ i < 360) ∧
      (∀ fuel : Nat, 360 ≤ fuel → forRange fuel 0 360 delta = forLoop 0 360 delta) ∧
      (∀ fuel1 fuel2 : Nat, (truncToInt ellipse.angle).natAbs ≤ fuel1 →
        (normalizeUp fuel1 (truncToInt ellipse.angle)).natAbs ≤ fuel2 →
        normalizeDown fuel2 (normalizeUp fuel1 (truncToInt ellipse.angle)) =
          normalizedAngle ellipse) ∧
      (ellipse2Points ellipse 1).length = 360 ∧ (ellipse2Points ellipse 10).length = 36 := by
  have hloop : ∀ d : Int, 1 ≤ d → forLoop 0 360 d =
      (List.range ⌈(360 : ℚ) / (d : ℚ)⌉.toNat).map (fun k : Nat => (k : Int) * d) := by
    intro d hd
    have := forLoop_eq_map 360 d hd (by norm_num) (360 - 0 : Int).toNat (by simp)
    simpa [forLoop] using this
  have hpts : ∀ d : Int, 1 ≤ d → ellipse2Points ellipse d =
      (List.range ⌈(360 : ℚ) / (d : ℚ)⌉.toNat).map (fun k : Nat =>
        ellipsePoint ellipse (sincos (normalizedAngle ellipse)).1
          (sincos (normalizedAngle ellipse)).2 ((k : Int) * d)) := by
    intro d hd
    unfold ellipse2Points
    simp only [hloop d hd, List.map_map]
    rfl
  have hlen : ∀ d : Int, 1 ≤ d →
      (ellipse2Points ellipse d).length = ⌈(360 : ℚ) / (d : ℚ)⌉.toNat := by
    intro d hd
    rw [hpts d hd]
    simp
  refine ⟨hpts delta hdelta, hlen delta hdelta, ?_, ?_, ?_, ?_, ?_⟩
  · intro i hi
    have := forLoop_mem 0 360 delta i (by linarith) hi
    exact this
  · intro fuel hfuel
    exact forRange_fuel_enough 360 delta hdelta _ 0 fuel (le_refl _) (by simpa using hfuel)
  · intro fuel1 fuel2 h1 h2
    unfold normalizedAngle
    simp only
    rw [normalizeUp_fuel fuel1 _ h1] at h2 ⊢
    rw [normalizeDown_fuel fuel2 _ h2]
  · rw [hlen 1 (le_refl _)]
    norm_num
    rfl
  · rw [hlen 10 (by norm_num)]
    have : ⌈(360 : ℚ) / ((10 : Int) : ℚ)⌉ = 36 := by
      rw [Int.ceil_eq_iff]
      constructor <;> norm_num
    rw [this]
    rfl

/-- Witness of C11: a circle of diameter 14 sampled every 7 degrees, 52 points. -/
theorem ellipse2Points_count_witness :
    (1 : Int) ≤ 7 ∧
      (ellipse2Points (circlePupil 10 10 14) 7).length = ⌈(360 : ℚ) / ((7 : Int) : ℚ)⌉.toNat :=
  ⟨by decide, (ellipse2Points_count (circlePupil 10 10 14) 7 (by decide)).2.1⟩

/-! ### The sine table: lookups in range -/

theorem sinTable_length : sinTable.length = 451 := by decide!

/-- C13: every index at which `ellipse2Points` and `sincos` read `sinTable` (the normalised
angle, `450 - angle`, the loop angle `i` and `450 - i`) is inside the table, whatever the
rotation angle and for every step of at least 1; and `450 - angle` is inside the table
for every angle in `[0, 360]`. -/
theorem sinTable_lookups_in_range (ellipse : RotatedRect) (delta : Int) (hdelta : 1 ≤ delta) :
    (∀ idx ∈ ellipse2PointsIndices ellipse delta,
        0 ≤ idx ∧ idx < sinTable.length ∧ sinTable[idx.toNat]? = some (sinTableAt idx)) ∧
      (∀ angle : Int, 0 ≤ angle → angle ≤ 360 →
        0 ≤ 450 - angle ∧ 450 - angle < sinTable.length) := by
  have hin : ∀ idx : Int, 0 ≤ idx → idx ≤ 450 →
      0 ≤ idx ∧ idx < sinTable.length ∧ sinTable[idx.toNat]? = some (sinTableAt idx) := by
    intro idx h0 h1
    have hlt : idx.toNat < sinTable.length := by rw [sinTable_length]; omega
    refine ⟨h0, by rw [sinTable_length]; omega, ?_⟩
    unfold sinTableAt
    rw [List.getD_eq_getElem?_getD, List.getElem?_eq_getElem hlt]
    rfl
  obtain ⟨ha0, ha1, -, -⟩ := normalizedAngle_spec ellipse
  constructor
  · intro idx hidx
    unfold ellipse2PointsIndices sincosIndices at hidx
    simp only [List.mem_append, List.mem_cons, List.mem_singleton, List.not_mem_nil, or_false,
      List.mem_flatMap] at hidx
    rw [if_neg (by omega)] at hidx
    rcases hidx with (h | h) | ⟨i, hi, h | h⟩
    · exact hin idx (by omega) (by omega)
    · exact hin idx (by omega) (by omega)
    · have := forLoop_mem 0 360 delta i (by linarith) hi
      exact hin idx (by omega) (by omega)
    · have := forLoop_mem 0 360 delta i (by linarith) hi
      exact hin idx (by omega) (by omega)
  · intro angle h0 h1
    rw [sinTable_length]
    omega

/-- Witness of C13: a hypothesis rotated by -725 degrees, sampled every 10 degrees. -/
theorem sinTable_lookups_in_range_witness :
    (1 : Int) ≤ 10 ∧
      ∀ idx ∈ ellipse2PointsIndices ⟨⟨10, 10⟩, ⟨14, 9⟩, -725⟩ 10,
        0 ≤ idx ∧ idx < sinTable.length ∧ sinTable[idx.toNat]? = some (sinTableAt idx) :=
  ⟨by decide, (sinTable_lookups_in_range ⟨⟨10, 10⟩, ⟨14, 9⟩, -725⟩ 10 (by decide)).1⟩

/-! ### ellipse2Points: the normalised angle -/

/-- C14 (as stated, refuted): a rotation angle of 360 degrees is left at 360, which is not
in `[0, 360)`. -/
theorem normalizedAngle_full_turn :
    normalizedAngle ⟨⟨0, 0⟩, ⟨10, 10⟩, 360⟩ = 360 ∧
      ¬ (normalizedAngle ⟨⟨0, 0⟩, ⟨10, 10⟩, 360⟩ < 360) := by
  refine ⟨by decide!, by decide!⟩

/-- C14 (amended): the two normalisation loops terminate (they end within the fuel given,
and more fuel changes nothing) and leave an angle in `[0, 360]` congruent modulo 360 to
the truncated rotation angle; 360 is left exactly for the positive multiples of 360. -/
theorem normalizedAngle_range (ellipse : RotatedRect) :
    0 ≤ normalizedAngle ellipse ∧ normalizedAngle ellipse ≤ 360 ∧
      (normalizedAngle ellipse - truncToInt ellipse.angle) % 360 = 0 ∧
      (normalizedAngle ellipse = 360 ↔
        0 < truncToInt ellipse.angle ∧ truncToInt ellipse.angle % 360 = 0) ∧
      (∀ fuel1 fuel2 : Nat, (truncToInt ellipse.angle).natAbs ≤ fuel1 →
        (normalizeUp fuel1 (truncToInt ellipse.angle)).natAbs ≤ fuel2 →
        normalizeDown fuel2 (normalizeUp fuel1 (truncToInt ellipse.angle)) =
          normalizedAngle ellipse) := by
  obtain ⟨h1, h2, h3, h4⟩ := normalizedAngle_spec ellipse
  refine ⟨h1, h2, h3, h4, ?_⟩
  intro fuel1 fuel2 g1 g2
  unfold normalizedAngle
  simp only
  rw [normalizeUp_fuel fuel1 _ g1] at g2 ⊢
  rw [normalizeDown_fuel fuel2 _ g2]

/-- Witness of C14 (amended): a rotation of -725 degrees with 1000 iterations allowed. -/
theorem normalizedAngle_range_witness :
    (truncToInt (-725 : ℚ)).natAbs ≤ 1000 ∧
      (normalizeUp 1000 (truncToInt (-725 : ℚ))).natAbs ≤ 1000 ∧
      normalizeDown 1000 (normalizeUp 1000 (truncToInt (-725 : ℚ))) =
        normalizedAngle ⟨⟨0, 0⟩, ⟨10, 10⟩, -725⟩ :=
  ⟨by decide!, by decide!,
    (normalizedAngle_range ⟨⟨0, 0⟩, ⟨10, 10⟩, -725⟩).2.2.2.2 1000 1000 (by decide!)
      (by decide!)⟩

/-! ### coarsePupilDetection: the scan loops terminate -/

theorem truncMulSqrt_mono (c1 c2 : ℚ) (n : Nat) (h0 : 0 ≤ c1) (h : c1 ≤ c2) :
    truncMulSqrt c1 n ≤ truncMulSqrt c2 n := by
  unfold truncMulSqrt
  have hsq : c1 ^ 2 * (n : ℚ) ≤ c2 ^ 2 * (n : ℚ) := by
    apply mul_le_mul_of_nonneg_right _ (Nat.cast_nonneg n)
    exact pow_le_pow_left₀ h0 h 2
  exact Int.ofNat_le.mpr (Nat.sqrt_le_sqrt (Int.toNat_le_toNat (Int.floor_le_floor hsq)))

theorem scanParams_min_le_max (m : Mat) : (scanParams m).min_r ≤ (scanParams m).max_r := by
  unfold scanParams
  exact truncMulSqrt_mono _ _ _ (by norm_num) (by norm_num)

/-- C20: the scan parameters satisfy `ystep ≥ 1`, `xstep ≥ 1`, `r_step ≥ 1` and
`0 ≤ min_r ≤ max_r`; the radius loop runs its body first for `r = min_r`, and the radius,
row and column loops terminate: each ends within the fuel given, and more fuel changes
nothing. -/
theorem scanParams_loops_terminate (downscaled : Mat) :
    1 ≤ (scanParams downscaled).ystep ∧ 1 ≤ (scanParams downscaled).xstep ∧
      1 ≤ (scanParams downscaled).r_step ∧ 0 ≤ (scanParams downscaled).min_r ∧
      (scanParams downscaled).min_r ≤ (scanParams downscaled).max_r ∧
      (scanRadii (scanParams downscaled)).head? = some (scanParams downscaled).min_r ∧
      (∀ fuel : Nat,
        ((scanParams downscaled).max_r + 1 - (scanParams downscaled).min_r).toNat ≤ fuel →
        forRange fuel (scanParams downscaled).min_r ((scanParams downscaled).max_r + 1)
          (scanParams downscaled).r_step = scanRadii (scanParams downscaled)) ∧
      (∀ (r : Int) (fuel : Nat), ((downscaled.rows : Int) - 3 * r - 3 * r).toNat ≤ fuel →
        forRange fuel (3 * r) ((downscaled.rows : Int) - 3 * r) (scanParams downscaled).ystep =
          scanRows (scanParams downscaled) downscaled.rows r) ∧
      (∀ (r : Int) (fuel : Nat), ((downscaled.cols : Int) - 3 * r - 3 * r).toNat ≤ fuel →
        forRange fuel (3 * r) ((downscaled.cols : Int) - 3 * r) (scanParams downscaled).xstep =
          scanCols (scanParams downscaled) downscaled.cols r) := by
  have hmm := scanParams_min_le_max downscaled
  refine ⟨scanParams_ystep downscaled, scanParams_xstep downscaled,
    scanParams_r_step downscaled, scanParams_min_r downscaled, hmm, ?_, ?_, ?_, ?_⟩
  · unfold scanRadii forLoop
    have hpos : ((scanParams downscaled).max_r + 1 - (scanParams downscaled).min_r).toNat =
        (((scanParams downscaled).max_r + 1 - (scanParams downscaled).min_r).toNat - 1) + 1 := by
      omega
    rw [hpos]
    unfold forRange
    rw [if_pos (by omega)]
    rfl
  · intro fuel hfuel
    exact forRange_fuel_enough _ _ (scanParams_r_step downscaled) _ _ fuel (le_refl _) hfuel
  · intro r fuel hfuel
    exact forRange_fuel_enough _ _ (scanParams_ystep downscaled) _ _ fuel (le_refl _) hfuel
  · intro r fuel hfuel
    exact forRange_fuel_enough _ _ (scanParams_xstep downscaled) _ _ fuel (le_refl _) hfuel

/-- Witness of C20: a 40 x 60 image, whose radius loop needs 9 iterations at most;
100 are allowed. -/
theorem scanParams_loops_terminate_witness :
    ((scanParams ⟨40, 60, fun _ _ => 0⟩).max_r + 1 -
        (scanParams ⟨40, 60, fun _ _ => 0⟩).min_r).toNat ≤ 100 ∧
      forRange 100 (scanParams ⟨40, 60, fun _ _ => 0⟩).min_r
          ((scanParams ⟨40, 60, fun _ _ => 0⟩).max_r + 1)
          (scanParams ⟨40, 60, fun _ _ => 0⟩).r_step =
        scanRadii (scanParams ⟨40, 60, fun _ _ => 0⟩) :=
  ⟨by decide!,
    (scanParams_loops_terminate ⟨40, 60, fun _ _ => 0⟩).2.2.2.2.2.2.1 100 (by decide!)⟩

/-! ### outlineContrastConfidence: the pixels read -/

theorem roundHalfAway_mono (q1 q2 : ℚ) (h : q1 ≤ q2) : roundHalfAway q1 ≤ roundHalfAway q2 := by
  unfold roundHalfAway
  by_cases h1 : 0 ≤ q1
  · have h2 : 0 ≤ q2 := le_trans h1 h
    rw [if_pos h1, if_pos h2]
    exact Int.floor_le_floor (by linarith)
  · by_cases h2 : 0 ≤ q2
    · rw [if_neg h1, if_pos h2]
      have a1 : 0 ≤ ⌊-q1 + 1 / 2⌋ := Int.floor_nonneg.mpr (by linarith)
      have a2 : 0 ≤ ⌊q2 + 1 / 2⌋ := Int.floor_nonneg.mpr (by linarith)
      omega
    · rw [if_neg h1, if_neg h2]
      have := Int.floor_le_floor (by linarith : -q2 + 1 / 2 ≤ -q1 + 1 / 2)
      omega

theorem roundHalfAway_between (f : ℚ → ℚ) (lo hi t : ℚ) (hlo : lo ≤ t) (hhi : t ≤ hi)
    (hmono : (∀ u v, u ≤ v → f u ≤ f v) ∨ (∀ u v, u ≤ v → f v ≤ f u)) (n : Int)
    (h1 : 0 ≤ roundHalfAway (f lo) ∧ roundHalfAway (f lo) < n)
    (h2 : 0 ≤ roundHalfAway (f hi) ∧ roundHalfAway (f hi) < n) :
    0 ≤ roundHalfAway (f t) ∧ roundHalfAway (f t) < n := by
  rcases hmono with hm | hm
  · have a := roundHalfAway_mono _ _ (hm lo t hlo)
    have b := roundHalfAway_mono _ _ (hm t hi hhi)
    omega
  · have a := roundHalfAway_mono _ _ (hm lo t hlo)
    have b := roundHalfAway_mono _ _ (hm t hi hhi)
    omega

theorem slopeOf_eq_zero (c p : Point) :
    slopeOf c p = 0 ↔ (p.x - c.x = 0 ∨ p.y - c.y = 0) := by
  unfold slopeOf
  simp only
  by_cases hdx : p.x - c.x = 0
  · simp [hdx]
  · have hq : toFloat ((p.x - c.x : Int) : ℚ) ≠ 0 := by
      rw [ne_eq, toFloat_eq_zero_iff]
      exact_mod_cast hdx
    simp only [ne_eq, hdx, not_false_eq_true, if_true, false_or]
    rw [toFloat_eq_zero_iff, div_eq_zero_iff, toFloat_eq_zero_iff]
    constructor
    · rintro (h | h)
      · exact_mod_cast h
      · exact absurd h hq
    · intro h
      left
      exact_mod_cast h

theorem linear_mono (a b : ℚ) :
    (∀ u v : ℚ, u ≤ v → toFloat (toFloat (a * toFloat u) + b) ≤
        toFloat (toFloat (a * toFloat v) + b)) ∨
      (∀ u v : ℚ, u ≤ v → toFloat (toFloat (a * toFloat v) + b) ≤
        toFloat (toFloat (a * toFloat u) + b)) := by
  by_cases ha : 0 ≤ a
  · left
    intro u v h
    have h1 := mul_le_mul_of_nonneg_left (toFloat_mono h) ha
    have h2 := toFloat_mono h1
    exact toFloat_mono (by linarith)
  · right
    intro u v h
    have h1 := mul_le_mul_of_nonpos_left (toFloat_mono h) (by linarith : a ≤ 0)
    have h2 := toFloat_mono h1
    exact toFloat_mono (by linarith)

theorem inverse_mono (a b : ℚ) :
    (∀ u v : ℚ, u ≤ v → toFloat (toFloat (toFloat u - b) / a) ≤
        toFloat (toFloat (toFloat v - b) / a)) ∨
      (∀ u v : ℚ, u ≤ v → toFloat (toFloat (toFloat v - b) / a) ≤
        toFloat (toFloat (toFloat u - b) / a)) := by
  by_cases ha : 0 ≤ a
  · left
    intro u v h
    have h1 : toFloat (toFloat u - b) ≤ toFloat (toFloat v - b) :=
      toFloat_mono (by linarith [toFloat_mono h])
    exact toFloat_mono (div_le_div_of_nonneg_right h1 ha)
  · right
    intro u v h
    have h1 : toFloat (toFloat u - b) ≤ toFloat (toFloat v - b) :=
      toFloat_mono (by linarith [toFloat_mono h])
    exact toFloat_mono (div_le_div_of_nonpos_of_le (by linarith) h1)

/-- For an outline point whose segment start and end are inside the frame, every pixel
read along the segment is inside the frame. -/
theorem sampledPixels_inside (frame : Mat) (c : Point) (delta : Int) (p : Point)
    (hinside : segmentInside frame c delta p = true) :
    ∀ rc ∈ (sampledPixels c delta p).1 ++ (sampledPixels c delta p).2,
      0 ≤ rc.2 ∧ rc.2 < frame.cols ∧ 0 ≤ rc.1 ∧ rc.1 < frame.rows := by
  intro rc hrc
  unfold segmentInside segmentEnds at hinside
  unfold sampledPixels at hrc
  by_cases hh : horizontallyDominant c p = true
  · simp only [hh, if_true, Rect.contains, Bool.and_eq_true, decide_eq_true_eq, zero_add,
      hSample] at hinside
    simp only [hh, if_true, List.mem_append, List.mem_map] at hrc
    obtain ⟨⟨⟨⟨s1, s2⟩, s3⟩, s4⟩, ⟨⟨e1, e2⟩, e3⟩, e4⟩ := hinside
    have key : ∀ x : Int, p.x - delta ≤ x → x ≤ p.x + delta →
        0 ≤ (hSample (slopeOf c p) (interceptOf c (slopeOf c p)) x).2 ∧
          (hSample (slopeOf c p) (interceptOf c (slopeOf c p)) x).2 < frame.cols ∧
          0 ≤ (hSample (slopeOf c p) (interceptOf c (slopeOf c p)) x).1 ∧
          (hSample (slopeOf c p) (interceptOf c (slopeOf c p)) x).1 < frame.rows := by
      intro x hx1 hx2
      have hrow := roundHalfAway_between
        (fun t => toFloat (toFloat (slopeOf c p * toFloat t) + interceptOf c (slopeOf c p)))
        ((p.x - delta : Int) : ℚ) ((p.x + delta : Int) : ℚ) (x : ℚ)
        (by exact_mod_cast hx1) (by exact_mod_cast hx2) (linear_mono _ _) frame.rows
        ⟨s3, s4⟩ ⟨e3, e4⟩
      exact ⟨by simp only [hSample]; omega, by simp only [hSample]; omega, hrow.1, hrow.2⟩
    rcases hrc with ⟨x, hx, rfl⟩ | ⟨x, hx, rfl⟩
    · have := forLoop_mem _ _ _ _ (by norm_num) hx
      exact key x (by omega) (by omega)
    · have := forLoop_mem _ _ _ _ (by norm_num) hx
      exact key x (by omega) (by omega)
  · simp only [hh, if_false, Rect.contains, Bool.and_eq_true, decide_eq_true_eq, zero_add,
      vSample, Bool.false_eq_true] at hinside
    simp only [hh, if_false, List.mem_append, List.mem_map, Bool.false_eq_true] at hrc
    obtain ⟨⟨⟨⟨s1, s2⟩, s3⟩, s4⟩, ⟨⟨e1, e2⟩, e3⟩, e4⟩ := hinside
    have key : ∀ y : Int, p.y - delta ≤ y → y ≤ p.y + delta →
        0 ≤ (vSample (slopeOf c p) (interceptOf c (slopeOf c p)) y).2 ∧
          (vSample (slopeOf c p) (interceptOf c (slopeOf c p)) y).2 < frame.cols ∧
          0 ≤ (vSample (slopeOf c p) (interceptOf c (slopeOf c p)) y).1 ∧
          (vSample (slopeOf c p) (interceptOf c (slopeOf c p)) y).1 < frame.rows := by
      intro y hy1 hy2
      have hcol := roundHalfAway_between
        (fun t => toFloat (toFloat (toFloat t - interceptOf c (slopeOf c p)) / slopeOf c p))
        ((p.y - delta : Int) : ℚ) ((p.y + delta : Int) : ℚ) (y : ℚ)
        (by exact_mod_cast hy1) (by exact_mod_cast hy2) (inverse_mono _ _) frame.cols
        ⟨s1, s2⟩ ⟨e1, e2⟩
      exact ⟨hcol.1, hcol.2, by simp only [vSample]; omega, by simp only [vSample]; omega⟩
    rcases hrc with ⟨y, hy, rfl⟩ | ⟨y, hy, rfl⟩
    · have := forLoop_mem _ _ _ _ (by norm_num) hy
      exact key y (by omega) (by omega)
    · have := forLoop_mem _ _ _ _ (by norm_num) hy
      exact key y (by omega) (by omega)

/-- C19: an outline point has zero slope exactly when `dx = 0` or `dy = 0`, and is then
skipped; for every other outline point whose segment start and end are inside the frame,
every pixel read along the segment has its column in `[0, frame.cols)` and its row in
`[0, frame.rows)`. -/
theorem outline_reads_inside_frame (frame : Mat) (c : Point) (delta : Int) (p : Point) :
    (slopeOf c p = 0 ↔ (p.x - c.x = 0 ∨ p.y - c.y = 0)) ∧
      (∀ (boundaries : Rect) (bias : Int) (s : Counters), slopeOf c p = 0 →
        outlineStep frame boundaries c delta bias s p = s) ∧
      (nonZeroSlope c p = true → segmentInside frame c delta p = true →
        ∀ rc ∈ (sampledPixels c delta p).1 ++ (sampledPixels c delta p).2,
          0 ≤ rc.2 ∧ rc.2 < frame.cols ∧ 0 ≤ rc.1 ∧ rc.1 < frame.rows) := by
  refine ⟨slopeOf_eq_zero c p, ?_, fun _ hinside => sampledPixels_inside frame c delta p hinside⟩
  intro boundaries bias s h0
  unfold outlineStep
  simp only [h0, if_true]

/-- Witness of C19: the outline point (14, 9) of a circle of radius 7 centred at (7, 7) in
a 20 x 20 frame, sampled over 2 pixels on each side. -/
theorem outline_reads_inside_frame_witness :
    nonZeroSlope ⟨7, 7⟩ ⟨14, 9⟩ = true ∧
      segmentInside (discFrame 20 20 7 7 49 0 255) ⟨7, 7⟩ 2 ⟨14, 9⟩ = true ∧
      ∀ rc ∈ (sampledPixels ⟨7, 7⟩ 2 ⟨14, 9⟩).1 ++ (sampledPixels ⟨7, 7⟩ 2 ⟨14, 9⟩).2,
        0 ≤ rc.2 ∧ rc.2 < (discFrame 20 20 7 7 49 0 255).cols ∧
          0 ≤ rc.1 ∧ rc.1 < (discFrame 20 20 7 7 49 0 255).rows :=
  ⟨by decide!, by decide!,
    (outline_reads_inside_frame (discFrame 20 20 7 7 49 0 255) ⟨7, 7⟩ 2 ⟨14, 9⟩).2.2
      (by decide!) (by decide!)⟩

/-! ### coarsePupilDetection: the integral image gives the window sums -/

theorem response_eq (itg : Int → Int → Int) (r y x : Int) :
    response itg r y x = outerMean itg r y x - innerMean itg r y x := rfl

theorem list_sum_range (g : ℕ → Int) (n : ℕ) :
    ((List.range n).map g).sum = ∑ k in Finset.range n, g k := by
  induction n with
  | zero => simp
  | succ n ih =>
    rw [List.range_succ, List.map_append, List.sum_append, ih, Finset.sum_range_succ]
    simp

theorem integral_eq_sum (m : Mat) (i j : Int) :
    integral m i j =
      ∑ y in Finset.range i.toNat, ∑ x in Finset.range j.toNat, (m.px (y : Int) (x : Int) : Int) := by
  unfold integral
  rw [list_sum_range]
  apply Finset.sum_congr rfl
  intro y _
  rw [list_sum_range]

theorem forLoop_one_eq_map (lo hi : Int) :
    forLoop lo hi 1 = (List.range (hi - lo).toNat).map (fun k : Nat => lo + (k : Int)) := by
  have := forRange_eq_map hi 1 (le_refl _) (hi - lo).toNat lo (hi - lo).toNat (le_refl _)
    (by omega) (by intro h; omega)
  simpa [forLoop] using this

theorem forLoop_sum (g : Int → Int) (lo hi : Int) (hlo : 0 ≤ lo) (hle : lo ≤ hi) :
    ((forLoop lo hi 1).map g).sum = ∑ k in Finset.Ico lo.toNat hi.toNat, g (k : Int) := by
  rw [forLoop_one_eq_map, List.map_map, list_sum_range, Finset.sum_Ico_eq_sum_range]
  have hn : (hi - lo).toNat = hi.toNat - lo.toNat := by omega
  rw [hn]
  apply Finset.sum_congr rfl
  intro k _
  simp only [Function.comp]
  congr 1
  push_cast
  rw [Int.toNat_of_nonneg hlo]

theorem windowSum_eq_sum (m : Mat) (y0 y1 x0 x1 : Int) (hy0 : 0 ≤ y0) (hy : y0 ≤ y1)
    (hx0 : 0 ≤ x0) (hx : x0 ≤ x1) :
    windowSum m y0 y1 x0 x1 =
      ∑ y in Finset.Ico y0.toNat y1.toNat, ∑ x in Finset.Ico x0.toNat x1.toNat,
        (m.px (y : Int) (x : Int) : Int) := by
  unfold windowSum
  rw [forLoop_sum _ y0 y1 hy0 hy]
  apply Finset.sum_congr rfl
  intro y _
  rw [forLoop_sum _ x0 x1 hx0 hx]

theorem four_corners (m : Mat) (y0 y1 x0 x1 : Int) (hy0 : 0 ≤ y0) (hy : y0 ≤ y1)
    (hx0 : 0 ≤ x0) (hx : x0 ≤ x1) :
    integral m y1 x1 + integral m y0 x0 - integral m y0 x1 - integral m y1 x0 =
      windowSum m y0 y1 x0 x1 := by
  rw [windowSum_eq_sum m y0 y1 x0 x1 hy0 hy hx0 hx]
  simp only [integral_eq_sum]
  have hY : y0.toNat ≤ y1.toNat := Int.toNat_le_toNat hy
  have hX : x0.toNat ≤ x1.toNat := Int.toNat_le_toNat hx
  have hrow : ∀ y : ℕ, ∑ x in Finset.Ico x0.toNat x1.toNat, (m.px (y : Int) (x : Int) : Int) =
      ∑ x in Finset.range x1.toNat, (m.px (y : Int) (x : Int) : Int) -
        ∑ x in Finset.range x0.toNat, (m.px (y : Int) (x : Int) : Int) :=
    fun y => Finset.sum_Ico_eq_sub _ hX
  simp only [hrow, Finset.sum_sub_distrib]
  rw [Finset.sum_Ico_eq_sub _ hY, Finset.sum_Ico_eq_sub _ hY]
  ring

theorem px_le (m : Mat) (y x : Int) : (m.px y x : Int) ≤ 255 := by
  unfold Mat.px
  have := Nat.mod_lt (m.data y.toNat x.toNat) (by norm_num : 256 > 0)
  omega

theorem pairSum_bounds (m : Mat) (s : Finset (ℕ × ℕ)) :
    0 ≤ ∑ p in s, (m.px (p.1 : Int) (p.2 : Int) : Int) ∧
      ∑ p in s, (m.px (p.1 : Int) (p.2 : Int) : Int) ≤ 255 * (s.card : Int) := by
  constructor
  · exact Finset.sum_nonneg (fun p _ => Int.natCast_nonneg _)
  · have := Finset.sum_le_card_nsmul s (fun p => (m.px (p.1 : Int) (p.2 : Int) : Int)) 255
      (fun p _ => px_le m _ _)
    simpa [mul_comm] using this

theorem windowSum_eq_pairSum (m : Mat) (y0 y1 x0 x1 : Int) (hy0 : 0 ≤ y0) (hy : y0 ≤ y1)
    (hx0 : 0 ≤ x0) (hx : x0 ≤ x1) :
    windowSum m y0 y1 x0 x1 =
      ∑ p in Finset.Ico y0.toNat y1.toNat ×ˢ Finset.Ico x0.toNat x1.toNat,
        (m.px (p.1 : Int) (p.2 : Int) : Int) := by
  rw [windowSum_eq_sum m y0 y1 x0 x1 hy0 hy hx0 hx, Finset.sum_product]

theorem window_card (y0 y1 x0 x1 : Int) (hy0 : 0 ≤ y0) (hy : y0 ≤ y1)
    (hx0 : 0 ≤ x0) (hx : x0 ≤ x1) :
    (((Finset.Ico y0.toNat y1.toNat ×ˢ Finset.Ico x0.toNat x1.toNat).card : ℕ) : Int) =
      (y1 - y0) * (x1 - x0) := by
  rw [Finset.card_product, Nat.card_Ico, Nat.card_Ico]
  push_cast
  have h1 : ((y1.toNat - y0.toNat : ℕ) : Int) = y1 - y0 := by omega
  have h2 : ((x1.toNat - x0.toNat : ℕ) : Int) = x1 - x0 := by omega
  rw [h1, h2]

theorem windowSum_bounds (m : Mat) (y0 y1 x0 x1 : Int) (hy0 : 0 ≤ y0) (hy : y0 ≤ y1)
    (hx0 : 0 ≤ x0) (hx : x0 ≤ x1) :
    0 ≤ windowSum m y0 y1 x0 x1 ∧ windowSum m y0 y1 x0 x1 ≤ 255 * ((y1 - y0) * (x1 - x0)) := by
  rw [windowSum_eq_pairSum m y0 y1 x0 x1 hy0 hy hx0 hx,
    ← window_card y0 y1 x0 x1 hy0 hy hx0 hx]
  exact pairSum_bounds m _

theorem annulus_bounds (m : Mat) (y0 y1 x0 x1 v0 v1 u0 u1 : Int) (hy0 : 0 ≤ y0)
    (hv0 : y0 ≤ v0) (hv : v0 ≤ v1) (hv1 : v1 ≤ y1) (hx0 : 0 ≤ x0) (hu0 : x0 ≤ u0)
    (hu : u0 ≤ u1) (hu1 : u1 ≤ x1) :
    0 ≤ windowSum m y0 y1 x0 x1 - windowSum m v0 v1 u0 u1 ∧
      windowSum m y0 y1 x0 x1 - windowSum m v0 v1 u0 u1 ≤
        255 * ((y1 - y0) * (x1 - x0) - (v1 - v0) * (u1 - u0)) := by
  have hsub : Finset.Ico v0.toNat v1.toNat ×ˢ Finset.Ico u0.toNat u1.toNat ⊆
      Finset.Ico y0.toNat y1.toNat ×ˢ Finset.Ico x0.toNat x1.toNat := by
    apply Finset.product_subset_product
    · intro k hk
      rw [Finset.mem_Ico] at hk ⊢
      omega
    · intro k hk
      rw [Finset.mem_Ico] at hk ⊢
      omega
  rw [windowSum_eq_pairSum m y0 y1 x0 x1 hy0 (by linarith) hx0 (by linarith),
    windowSum_eq_pairSum m v0 v1 u0 u1 (by linarith) hv (by linarith) hu,
    ← Finset.sum_sdiff hsub, add_sub_cancel_right]
  have hb := pairSum_bounds m
    ((Finset.Ico y0.toNat y1.toNat ×ˢ Finset.Ico x0.toNat x1.toNat) \
      (Finset.Ico v0.toNat v1.toNat ×ˢ Finset.Ico u0.toNat u1.toNat))
  have hcard := Finset.card_sdiff hsub
  have hle := Finset.card_le_card hsub
  have c1 := window_card y0 y1 x0 x1 hy0 (by linarith) hx0 (by linarith)
  have c2 := window_card v0 v1 u0 u1 (by linarith) hv (by linarith) hu
  refine ⟨hb.1, le_trans hb.2 ?_⟩
  rw [hcard]
  have : (((Finset.Ico y0.toNat y1.toNat ×ˢ Finset.Ico x0.toNat x1.toNat).card -
      (Finset.Ico v0.toNat v1.toNat ×ˢ Finset.Ico u0.toNat u1.toNat).card : ℕ) : Int) =
      (y1 - y0) * (x1 - x0) - (v1 - v0) * (u1 - u0) := by
    rw [← c1, ← c2]
    omega
  rw [this]

theorem mean_bounds (count sum : Int) (hc : 0 < count) (h0 : 0 ≤ sum)
    (h1 : sum ≤ 255 * count) :
    FVal.fin 1 / FVal.ofInt (255 * count) * FVal.ofInt sum =
        FVal.fin ((sum : ℚ) / (255 * (count : ℚ))) ∧
      0 ≤ (sum : ℚ) / (255 * (count : ℚ)) ∧ (sum : ℚ) / (255 * (count : ℚ)) ≤ 1 := by
  have hcq : (0 : ℚ) < 255 * (count : ℚ) := by
    have : (0 : ℚ) < (count : ℚ) := by exact_mod_cast hc
    linarith
  refine ⟨?_, div_nonneg (by exact_mod_cast h0) hcq.le, ?_⟩
  · simp only [FVal.ofInt]
    rw [FVal.fin_div_fin _ _ (by push_cast; exact hcq.ne.symm), FVal.fin_mul_fin]
    congr 1
    push_cast
    field_simp
  · rw [div_le_one hcq]
    exact_mod_cast h1

theorem wrapInt32_of_range (n : Int) (h1 : -2147483648 ≤ n) (h2 : n < 2147483648) :
    wrapInt32 n = n := by
  unfold wrapInt32
  omega

theorem counts32_eq (r : Int) (hr1 : 1 ≤ r) (hr2 : r ≤ 513) :
    innerCount32 r = innerCount r ∧ outerCount32 r = outerCount r ∧
      wrapInt32 (255 * innerCount r) = 255 * innerCount r ∧
      wrapInt32 (255 * outerCount r) = 255 * outerCount r ∧
      0 < innerCount r ∧ 0 < outerCount r ∧ 255 * outerCount r < 2147483648 := by
  have hsq : r * r ≤ 263169 := by nlinarith
  have hsq1 : 1 ≤ r * r := by nlinarith
  have hi : innerCount r = 4 * (r * r) := by unfold innerCount; ring
  have ho : outerCount r = 32 * (r * r) := by unfold outerCount innerCount; ring
  have h36 : (2 * (3 * r)) * (2 * (3 * r)) = 36 * (r * r) := by ring
  have hi32 : innerCount32 r = innerCount r := by
    unfold innerCount32
    rw [← innerCount, wrapInt32_of_range _ (by omega) (by omega)]
  have ho32 : outerCount32 r = outerCount r := by
    unfold outerCount32
    rw [hi32, h36, wrapInt32_of_range (36 * (r * r)) (by omega) (by omega)]
    have : 36 * (r * r) - innerCount r = outerCount r := by rw [hi, ho]; ring
    rw [this, wrapInt32_of_range _ (by omega) (by omega)]
  exact ⟨hi32, ho32, wrapInt32_of_range _ (by omega) (by omega),
    wrapInt32_of_range _ (by omega) (by omega), by omega, by omega, by omega⟩

theorem window_sums_of_inside (downscaled : Mat) (r y x : Int) (hr1 : 1 ≤ r) (hr2 : r ≤ 513)
    (hy3 : 3 * r ≤ y) (hx3 : 3 * r ≤ x) :
    innerSum (integral downscaled) r y x =
        windowSum downscaled (y - r) (y + r) (x - r) (x + r) ∧
      outerSum (integral downscaled) r y x =
        windowSum downscaled (y - 3 * r) (y + 3 * r) (x - 3 * r) (x + 3 * r) -
          innerSum (integral downscaled) r y x ∧
      innerCount r = (2 * r) ^ 2 ∧
      innerCount r = ((y + r) - (y - r)) * ((x + r) - (x - r)) ∧
      outerCount r = (6 * r) ^ 2 - (2 * r) ^ 2 ∧
      (innerCount32 r = innerCount r ∧ outerCount32 r = outerCount r ∧
        wrapInt32 (255 * innerCount r) = 255 * innerCount r ∧
        wrapInt32 (255 * outerCount r) = 255 * outerCount r ∧
        innerSum32 (integral downscaled) r y x = innerSum (integral downscaled) r y x ∧
        outerSum32 (integral downscaled) r y x = outerSum (integral downscaled) r y x ∧
        response32 (integral downscaled) r y x = response (integral downscaled) r y x) ∧
      ∃ inner_mean outer_mean : ℚ,
        innerMean (integral downscaled) r y x = FVal.fin inner_mean ∧
        outerMean (integral downscaled) r y x = FVal.fin outer_mean ∧
        0 ≤ inner_mean ∧ inner_mean ≤ 1 ∧ 0 ≤ outer_mean ∧ outer_mean ≤ 1 ∧
        response (integral downscaled) r y x = FVal.fin (outer_mean - inner_mean) ∧
        -1 ≤ outer_mean - inner_mean ∧ outer_mean - inner_mean ≤ 1 := by
  have hinner : innerSum (integral downscaled) r y x =
      windowSum downscaled (y - r) (y + r) (x - r) (x + r) := by
    unfold innerSum corners
    exact four_corners downscaled (y - r) (y + r) (x - r) (x + r) (by linarith) (by linarith)
      (by linarith) (by linarith)
  have houter : outerSum (integral downscaled) r y x =
      windowSum downscaled (y - 3 * r) (y + 3 * r) (x - 3 * r) (x + 3 * r) -
        innerSum (integral downscaled) r y x := by
    unfold outerSum corners
    simp only
    rw [four_corners downscaled (y - 3 * r) (y + 3 * r) (x - 3 * r) (x + 3 * r) (by linarith)
      (by linarith) (by linarith) (by linarith)]
  have hib := windowSum_bounds downscaled (y - r) (y + r) (x - r) (x + r) (by linarith)
    (by linarith) (by linarith) (by linarith)
  have hob := annulus_bounds downscaled (y - 3 * r) (y + 3 * r) (x - 3 * r) (x + 3 * r)
    (y - r) (y + r) (x - r) (x + r) (by linarith) (by linarith) (by linarith) (by linarith)
    (by linarith) (by linarith) (by linarith) (by linarith)
  have hic : innerCount r = ((y + r) - (y - r)) * ((x + r) - (x - r)) := by
    unfold innerCount; ring
  have hoc : outerCount r = ((y + 3 * r) - (y - 3 * r)) * ((x + 3 * r) - (x - 3 * r)) -
      ((y + r) - (y - r)) * ((x + r) - (x - r)) := by
    unfold outerCount innerCount; ring
  obtain ⟨c1, c2, c3, c4, hicpos, hocpos, hfit⟩ := counts32_eq r hr1 hr2
  have hi0 : 0 ≤ innerSum (integral downscaled) r y x := by rw [hinner]; exact hib.1
  have hi1 : innerSum (integral downscaled) r y x ≤ 255 * innerCount r := by
    rw [hinner, hic]; exact hib.2
  have ho0 : 0 ≤ outerSum (integral downscaled) r y x := by rw [houter, hinner]; exact hob.1
  have ho1 : outerSum (integral downscaled) r y x ≤ 255 * outerCount r := by
    rw [houter, hinner, hoc]; exact hob.2
  have hio : 255 * innerCount r ≤ 255 * outerCount r := by
    unfold outerCount innerCount
    nlinarith
  have hs1 : innerSum32 (integral downscaled) r y x = innerSum (integral downscaled) r y x := by
    unfold innerSum32
    simp only
    rw [← innerSum]
    exact wrapInt32_of_range _ (by omega) (by omega)
  have hs2 : outerSum32 (integral downscaled) r y x = outerSum (integral downscaled) r y x := by
    unfold outerSum32
    simp only
    rw [hs1, ← outerSum]
    exact wrapInt32_of_range _ (by omega) (by omega)
  have hresp : response32 (integral downscaled) r y x = response (integral downscaled) r y x := by
    unfold response32 outerMean32 innerMean32
    rw [c1, c2, c3, c4, hs1, hs2]
    rfl
  obtain ⟨hi1m, hi2, hi3⟩ := mean_bounds (innerCount r) (innerSum (integral downscaled) r y x)
    hicpos hi0 hi1
  obtain ⟨ho1m, ho2, ho3⟩ := mean_bounds (outerCount r) (outerSum (integral downscaled) r y x)
    hocpos ho0 ho1
  refine ⟨hinner, houter, by unfold innerCount; ring, hic,
    by unfold outerCount innerCount; ring, ⟨c1, c2, c3, c4, hs1, hs2, hresp⟩,
    _, _, hi1m, ho1m, hi2, hi3, ho2, ho3, ?_, by linarith, by linarith⟩
  have hi1m2 : innerMean (integral downscaled) r y x = FVal.fin _ := hi1m
  have ho1m2 : outerMean (integral downscaled) r y x = FVal.fin _ := ho1m
  rw [response_eq, hi1m2, ho1m2, FVal.fin_sub_fin]

theorem truncMulSqrt_eq (c : ℚ) (n k f : Nat) (hf : (⌊c ^ 2 * n⌋).toNat = f)
    (h1 : k * k ≤ f) (h2 : f < (k + 1) * (k + 1)) : truncMulSqrt c n = (k : Int) := by
  unfold truncMulSqrt
  rw [hf, ← Nat.eq_sqrt.mpr ⟨h1, h2⟩]

theorem scanParams_3600 (data : Nat → Nat → Nat) :
    scanParams ⟨3600, 3600, data⟩ = ⟨36, 36, 178, 738, 183⟩ := by
  have h1 := truncMulSqrt_eq ((1 / 2 : ℚ) * (7 / 100)) (3600 ^ 2 + 3600 ^ 2) 178 31752
    (by decide!) (by norm_num) (by norm_num)
  have h2 := truncMulSqrt_eq ((1 / 2 : ℚ) * (29 / 100)) (3600 ^ 2 + 3600 ^ 2) 738 544968
    (by decide!) (by norm_num) (by norm_num)
  unfold scanParams
  simp only [h1, h2]
  decide!

theorem scanParams_5000 (data : Nat → Nat → Nat) :
    scanParams ⟨5000, 5000, data⟩ = ⟨50, 50, 247, 1025, 254⟩ := by
  have h1 := truncMulSqrt_eq ((1 / 2 : ℚ) * (7 / 100)) (5000 ^ 2 + 5000 ^ 2) 247 61250
    (by decide!) (by norm_num) (by norm_num)
  have h2 := truncMulSqrt_eq ((1 / 2 : ℚ) * (29 / 100)) (5000 ^ 2 + 5000 ^ 2) 1025 1051250
    (by decide!) (by norm_num) (by norm_num)
  unfold scanParams
  simp only [h1, h2]
  decide!

/-- C15 (as stated, refuted): the radius 544 is visited on a 3600 x 3600 working image, at
the row and column 1632 among others; there `255 * outer_count = 2414837760` exceeds
`INT_MAX`, the 32-bit product is -1880129536, and on the image of constant intensity 100
`outer_mean` is negative. -/
theorem outer_norm_overflow :
    (544 : Int) ∈ scanRadii (scanParams ⟨3600, 3600, fun _ _ => 100⟩) ∧
      (1632 : Int) ∈ scanRows (scanParams ⟨3600, 3600, fun _ _ => 100⟩) 3600 544 ∧
      (1632 : Int) ∈ scanCols (scanParams ⟨3600, 3600, fun _ _ => 100⟩) 3600 544 ∧
      255 * outerCount 544 = 2414837760 ∧ (2147483647 : Int) < 255 * outerCount 544 ∧
      wrapInt32 (255 * outerCount32 544) = -1880129536 ∧
      outerMean32 (integral ⟨3600, 3600, fun _ _ => 100⟩) 544 1632 1632 =
        FVal.fin (-(946995200 / 1880129536)) ∧
      ¬ ((0 : ℚ) ≤ -(946995200 / 1880129536)) := by
  have hm : ∀ y x : Int, (Mat.mk 3600 3600 (fun _ _ => 100)).px y x = (100 : Nat) :=
    fun _ _ => rfl
  refine ⟨by rw [scanParams_3600]; decide!, by rw [scanParams_3600]; decide!,
    by rw [scanParams_3600]; decide!, by decide!, by decide!, by decide!, ?_, by norm_num⟩
  unfold outerMean32 outerSum32 innerSum32 corners
  simp only [integral_uniform _ 100 hm]
  decide!

/-- C15 (amended): for every radius from 1 to 513 and every visited position, `inner` is
the naive sum of the samples over the rows `[y - r, y + r)` and columns `[x - r, x + r)`,
a window of `inner_count = (2r)^2` samples, and `outer` is the naive sum over the rows
`[y - 3r, y + 3r)` and columns `[x - 3r, x + 3r)` minus `inner`, for
`outer_count = (6r)^2 - (2r)^2` samples; the counts, their products by 255 and the sums
fit in 32-bit `int`, where they have these same values; so `inner_mean` and `outer_mean`
lie in `[0, 1]` and the response, their difference, in `[-1, 1]`. -/
theorem integral_window_sums (downscaled : Mat) (r y x : Int) (hr1 : 1 ≤ r) (hr2 : r ≤ 513)
    (hy : y ∈ scanRows (scanParams downscaled) downscaled.rows r)
    (hx : x ∈ scanCols (scanParams downscaled) downscaled.cols r) :
    innerSum (integral downscaled) r y x =
        windowSum downscaled (y - r) (y + r) (x - r) (x + r) ∧
      outerSum (integral downscaled) r y x =
        windowSum downscaled (y - 3 * r) (y + 3 * r) (x - 3 * r) (x + 3 * r) -
          innerSum (integral downscaled) r y x ∧
      innerCount r = (2 * r) ^ 2 ∧
      innerCount r = ((y + r) - (y - r)) * ((x + r) - (x - r)) ∧
      outerCount r = (6 * r) ^ 2 - (2 * r) ^ 2 ∧
      (innerCount32 r = innerCount r ∧ outerCount32 r = outerCount r ∧
        wrapInt32 (255 * innerCount r) = 255 * innerCount r ∧
        wrapInt32 (255 * outerCount r) = 255 * outerCount r ∧
        innerSum32 (integral downscaled) r y x = innerSum (integral downscaled) r y x ∧
        outerSum32 (integral downscaled) r y x = outerSum (integral downscaled) r y x ∧
        response32 (integral downscaled) r y x = response (integral downscaled) r y x) ∧
      ∃ inner_mean outer_mean : ℚ,
        innerMean (integral downscaled) r y x = FVal.fin inner_mean ∧
        outerMean (integral downscaled) r y x = FVal.fin outer_mean ∧
        0 ≤ inner_mean ∧ inner_mean ≤ 1 ∧ 0 ≤ outer_mean ∧ outer_mean ≤ 1 ∧
        response (integral downscaled) r y x = FVal.fin (outer_mean - inner_mean) ∧
        -1 ≤ outer_mean - inner_mean ∧ outer_mean - inner_mean ≤ 1 := by
  have hy3 := (forLoop_mem _ _ _ _ (by linarith [scanParams_ystep downscaled]) hy).1
  have hx3 := (forLoop_mem _ _ _ _ (by linarith [scanParams_xstep downscaled]) hx).1
  exact window_sums_of_inside downscaled r y x hr1 hr2 hy3 hx3

/-- Witness of C15 (amended): radius 1 at row 3 and column 4 of a 10 x 12 image with a
dark disc. -/
theorem integral_window_sums_witness :
    (1 : Int) ≤ 1 ∧ (1 : Int) ≤ 513 ∧
      (3 : Int) ∈ scanRows (scanParams (discFrame 10 12 5 5 4 10 200)) 10 1 ∧
      (4 : Int) ∈ scanCols (scanParams (discFrame 10 12 5 5 4 10 200)) 12 1 ∧
      innerSum (integral (discFrame 10 12 5 5 4 10 200)) 1 3 4 =
        windowSum (discFrame 10 12 5 5 4 10 200) (3 - 1) (3 + 1) (4 - 1) (4 + 1) :=
  ⟨by decide, by decide, by decide!, by decide!,
    (integral_window_sums (discFrame 10 12 5 5 4 10 200) 1 3 4 (by decide) (by decide)
      (by decide!) (by decide!)).1⟩

/-! ### coarsePupilDetection on a uniform image -/

/-- C3 (as stated, refuted): on the 10 x 12 image of constant intensity 9 the radius 0 is
visited, and the response there is NaN, which is not pruned by `response < 0.5 *
best_response`; and on the 5000 x 5000 image of constant intensity 10 the radius 755 is
visited, `255 * outer_count` overflows, and the response computed in 32-bit `int` at the
first position of that radius is positive: it is not pruned and passes both `>` tests. -/
theorem uniform_scan_not_pruned :
    ((0 : Int) ∈ scanRadii (scanParams ⟨10, 12, fun _ _ => 9⟩) ∧
        (0 : Int) ∈ scanRows (scanParams ⟨10, 12, fun _ _ => 9⟩) 10 0 ∧
        (0 : Int) ∈ scanCols (scanParams ⟨10, 12, fun _ _ => 9⟩) 12 0 ∧
        response (integral ⟨10, 12, fun _ _ => 9⟩) 0 0 0 = FVal.nan ∧
        FVal.lt (response (integral ⟨10, 12, fun _ _ => 9⟩) 0 0 0)
          (FVal.fin (1 / 2) * ScanState.init.best_response) = false) ∧
      ((755 : Int) ∈ scanRadii (scanParams ⟨5000, 5000, fun _ _ => 10⟩) ∧
        (scanRows (scanParams ⟨5000, 5000, fun _ _ => 10⟩) 5000 755).head? = some 2265 ∧
        (scanCols (scanParams ⟨5000, 5000, fun _ _ => 10⟩) 5000 755).head? = some 2265 ∧
        (2147483647 : Int) < 255 * outerCount 755 ∧
        response32 (integral ⟨5000, 5000, fun _ _ => 10⟩) 755 2265 2265 =
          FVal.fin (182408000 / 356436704 - 22801000 / 581425500) ∧
        FVal.lt (FVal.fin (182408000 / 356436704 - 22801000 / 581425500))
          (FVal.fin (1 / 2) * ScanState.init.best_response) = false ∧
        FVal.gt (FVal.fin (182408000 / 356436704 - 22801000 / 581425500))
          ScanState.init.best_response = true ∧
        FVal.gt (FVal.fin (182408000 / 356436704 - 22801000 / 581425500))
          (ScanState.init.res 2265 2265) = true) := by
  have hm : ∀ y x : Int, (Mat.mk 5000 5000 (fun _ _ => 10)).px y x = (10 : Nat) :=
    fun _ _ => rfl
  refine ⟨⟨by decide!, by decide!, by decide!, response_zero_radius _ _ _, ?_⟩,
    ⟨by rw [scanParams_5000]; decide!, by rw [scanParams_5000]; decide!,
      by rw [scanParams_5000]; decide!, by decide!, ?_, by decide!, by decide!, by decide!⟩⟩
  · rw [response_zero_radius]
    rfl
  · unfold response32 outerMean32 innerMean32 outerSum32 innerSum32 corners
    simp only [integral_uniform _ 10 hm]
    decide!

/-- C3 (amended): when all pixels of the frame have one intensity (and therefore all
pixels of its bilinear downscaling) and the greatest radius of the scan is at most 513, so
that no `int` value of the scan overflows, every response for a radius of at least 1 is 0,
also in 32-bit `int`, and is pruned against the initial `best_response`; a response for
the radius 0 is NaN, which is not pruned but passes none of the `>` tests; no step of the
scan changes the scan state, no candidate is recorded and `best_response` keeps its
initial value, the accumulated rectangle stays `Rect()`, and `coarsePupilDetection`
returns `Rect(0, 0, frame.cols, frame.rows)`. -/
theorem coarsePupilDetection_uniform (frame downscaled : Mat) (minCoverage : ℚ)
    (workingWidth workingHeight : Int) (v : Nat)
    (hframe : ∀ y x : Int, frame.px y x = v)
    (hresize : (∀ y x : Int, frame.px y x = v) → ∀ y x : Int, downscaled.px y x = v)
    (hsize : (scanParams downscaled).max_r ≤ 513) :
    (∀ r ∈ scanRadii (scanParams downscaled),
        ∀ y ∈ scanRows (scanParams downscaled) downscaled.rows r,
        ∀ x ∈ scanCols (scanParams downscaled) downscaled.cols r,
          (0 < r → response32 (integral downscaled) r y x =
              response (integral downscaled) r y x ∧
            response (integral downscaled) r y x = FVal.fin 0 ∧
            FVal.lt (FVal.fin 0) (FVal.fin (1 / 2) * ScanState.init.best_response) = true) ∧
          (r = 0 → response (integral downscaled) r y x = FVal.nan ∧
            FVal.lt FVal.nan (FVal.fin (1 / 2) * ScanState.init.best_response) = false ∧
            FVal.gt FVal.nan ScanState.init.best_response = false ∧
            FVal.gt FVal.nan (ScanState.init.res y x) = false) ∧
          scanBody (integral downscaled) r y ScanState.init x = ScanState.init) ∧
      (scan downscaled).candidates = [] ∧
      (scan downscaled).best_response = FVal.fin FLT_MIN ∧
      accumulated downscaled minCoverage = Rect.zero ∧
      coarsePupilDetection frame downscaled minCoverage workingWidth workingHeight =
        ⟨0, 0, frame.cols, frame.rows⟩ := by
  have hm := hresize hframe
  have hscan := scan_uniform downscaled v hm
  have hacc : accumulated downscaled minCoverage = Rect.zero := by
    unfold accumulated
    simp [hscan, ScanState.init, sortCandidates, aggregate]
  refine ⟨?_, by rw [hscan]; rfl, by rw [hscan]; rfl, hacc, ?_⟩
  · intro r hr y hy x hx
    have hy2 := (forLoop_mem _ _ _ _ (by linarith [scanParams_ystep downscaled]) hy).1
    have hx2 := (forLoop_mem _ _ _ _ (by linarith [scanParams_xstep downscaled]) hx).1
    have hrmax : r ≤ 513 := by
      have := (forLoop_mem _ _ _ _ (by linarith [scanParams_r_step downscaled]) hr).2
      omega
    refine ⟨fun hpos => ⟨?_, response_uniform downscaled v hm r y x hpos hy2 hx2, ?_⟩, ?_,
      scanBody_init_uniform downscaled v hm r y x (scanRadii_nonneg downscaled r hr) hy2 hx2⟩
    · exact (window_sums_of_inside downscaled r y x (by omega) hrmax hy2 hx2).2.2.2.2.2.1.2.2.2.2.2.2
    · simp only [ScanState.init, FVal.fin_mul_fin, FVal.lt, FLT_MIN]
      norm_num
    · intro h0
      subst h0
      exact ⟨response_zero_radius _ _ _, rfl, rfl, rfl⟩
  · unfold coarsePupilDetection
    simp only [hacc, upscale, Rect.zero]
    exact sanityTest_nonpos frame _ (upscale_zero_nonpos _)

/-- Witness of C3 (amended): a 20 x 24 frame of intensity 9 and its 10 x 12 downscaled
image, which is scanned with the radii 0, 1 and 2. -/
theorem coarsePupilDetection_uniform_witness :
    (∀ y x : Int, (Mat.mk 20 24 (fun _ _ => 9)).px y x = 9) ∧
      (∀ y x : Int, (Mat.mk 10 12 (fun _ _ => 9)).px y x = 9) ∧
      (scanParams ⟨10, 12, fun _ _ => 9⟩).max_r ≤ 513 ∧
      coarsePupilDetection ⟨20, 24, fun _ _ => 9⟩ ⟨10, 12, fun _ _ => 9⟩ (1 / 10) 12 10 =
        ⟨0, 0, 24, 20⟩ :=
  ⟨fun _ _ => rfl, fun _ _ => rfl, by decide!,
    (coarsePupilDetection_uniform ⟨20, 24, fun _ _ => 9⟩ ⟨10, 12, fun _ _ => 9⟩ (1 / 10) 12 10
      9 (fun _ _ => rfl) (fun _ _ _ => rfl) (by decide!)).2.2.2.2⟩

/-! ### coarsePupilDetection: the scan invariant -/

theorem foldl_flatMap_eq {α β γ : Type} (f : α → List β) (g : γ → β → γ) (l : List α)
    (init : γ) :
    (l.flatMap f).foldl g init = l.foldl (fun acc a => (f a).foldl g acc) init := by
  induction l generalizing init with
  | nil => rfl
  | cons a as ih => rw [List.flatMap_cons, List.foldl_append, ih, List.foldl_cons]

theorem scan_eq_scanAfter (m : Mat) : scan m = scanAfter m (scanPositions m).length := by
  unfold scan scanAfter scanPositions
  simp only [List.take_length, foldl_flatMap_eq, List.foldl_map]
  rfl

theorem scanPositions_mem (m : Mat) (pos : Int × Int × Int) (h : pos ∈ scanPositions m) :
    pos.1 ∈ scanRadii (scanParams m) ∧ pos.2.1 ∈ scanRows (scanParams m) m.rows pos.1 ∧
      pos.2.2 ∈ scanCols (scanParams m) m.cols pos.1 := by
  unfold scanPositions at h
  simp only [List.mem_flatMap, List.mem_map] at h
  obtain ⟨r, hr, y, hy, x, hx, rfl⟩ := h
  exact ⟨hr, hy, hx⟩

theorem response_finite (itg : Int → Int → Int) (r y x : Int) (hr : r ≠ 0) :
    ∃ q : ℚ, response itg r y x = FVal.fin q := by
  have hrq : (r : ℚ) ≠ 0 := by exact_mod_cast hr
  have h1 : ((255 * ((2 * r) * (2 * r)) : Int) : ℚ) ≠ 0 := by
    push_cast
    have : (r : ℚ) * r ≠ 0 := mul_ne_zero hrq hrq
    intro h; apply this; linarith
  have h2 : ((255 * ((2 * (3 * r)) * (2 * (3 * r)) - (2 * r) * (2 * r)) : Int) : ℚ) ≠ 0 := by
    push_cast
    have : (r : ℚ) * r ≠ 0 := mul_ne_zero hrq hrq
    intro h; apply this; linarith
  unfold response
  simp only [FVal.ofInt]
  rw [FVal.fin_div_fin _ _ h1, FVal.fin_div_fin _ _ h2, FVal.fin_mul_fin, FVal.fin_mul_fin,
    FVal.fin_sub_fin]
  exact ⟨_, rfl⟩

theorem candidateRect_eq (r y x : Int) (hr : 0 ≤ r) :
    candidateRect r y x = ⟨x - 2 * r, y - 2 * r, 4 * r, 4 * r⟩ := by
  have hh : ∀ t : Int, roundHalfEven ((1 / 2 : ℚ) * ((2 * t : Int) : ℚ)) = t := by
    intro t
    have e : (1 / 2 : ℚ) * ((2 * t : Int) : ℚ) = (t : ℚ) := by push_cast; ring
    rw [e]
    unfold roundHalfEven
    simp
  unfold candidateRect corners Point.add Point.half Rect.ofPoints
  simp only
  have e1 : x - r + (x - 3 * r) = 2 * (x - 2 * r) := by ring
  have e2 : y - r + (y - 3 * r) = 2 * (y - 2 * r) := by ring
  have e3 : x + r + (x + 3 * r) = 2 * (x + 2 * r) := by ring
  have e4 : y + r + (y + 3 * r) = 2 * (y + 2 * r) := by ring
  rw [e1, e2, e3, e4, hh, hh, hh, hh]
  have m1 : min (x - 2 * r) (x + 2 * r) = x - 2 * r := min_eq_left (by linarith)
  have m2 : min (y - 2 * r) (y + 2 * r) = y - 2 * r := min_eq_left (by linarith)
  have m3 : max (x - 2 * r) (x + 2 * r) = x + 2 * r := max_eq_right (by linarith)
  have m4 : max (y - 2 * r) (y + 2 * r) = y + 2 * r := max_eq_right (by linarith)
  rw [m1, m2, m3, m4]
  congr 1 <;> ring

theorem candidatePosition_candidateRect (r y x : Int) (hr : 0 ≤ r) :
    candidatePosition (candidateRect r y x) = (y, x) := by
  rw [candidateRect_eq r y x hr]
  unfold candidatePosition
  simp only
  have : 4 * r / 2 = 2 * r := by omega
  rw [this]
  congr 1 <;> ring

theorem candidateRect_injective (r1 y1 x1 r2 y2 x2 : Int) (h1 : 0 ≤ r1) (h2 : 0 ≤ r2)
    (h : candidateRect r1 y1 x1 = candidateRect r2 y2 x2) : r1 = r2 ∧ y1 = y2 ∧ x1 = x2 := by
  rw [candidateRect_eq _ _ _ h1, candidateRect_eq _ _ _ h2] at h
  injection h with ha hb hc hd
  omega

theorem FLT_MIN_pos : 0 < FLT_MIN := by
  unfold FLT_MIN
  positivity

theorem responsesAt_append (cands : List (Rect × FVal)) (c : Rect × FVal) (y x : Int) :
    responsesAt (cands ++ [c]) y x =
      responsesAt cands y x ++ (if candidatePosition c.1 = (y, x) then [c.2.toRat] else []) := by
  unfold responsesAt candidatesAt
  rw [List.filter_append, List.map_append]
  congr 1
  by_cases h : candidatePosition c.1 = (y, x)
  · simp [List.filter_cons, h]
  · simp [List.filter_cons, h]

theorem le_foldl_max (l : List ℚ) (init : ℚ) :
    init ≤ l.foldl max init ∧ ∀ a ∈ l, a ≤ l.foldl max init := by
  induction l generalizing init with
  | nil => simp
  | cons b bs ih =>
    rw [List.foldl_cons]
    obtain ⟨h1, h2⟩ := ih (max init b)
    refine ⟨le_trans (le_max_left _ _) h1, ?_⟩
    intro a ha
    rcases List.mem_cons.mp ha with h | h
    · rw [h]; exact le_trans (le_max_right _ _) h1
    · exact h2 a h

theorem scanBody_cases (itg : Int → Int → Int) (r y x : Int) (s : ScanState) (q b M : ℚ)
    (hq : response itg r y x = FVal.fin q) (hb : s.best_response = FVal.fin b)
    (hM : s.res y x = FVal.fin M) :
    scanBody itg r y s x =
      if q < 1 / 2 * b then s
      else if M < q then
        ⟨FVal.fin (max q b), fun y2 x2 => if y2 = y ∧ x2 = x then FVal.fin q else s.res y2 x2,
          s.candidates ++ [(candidateRect r y x, FVal.fin q)]⟩
      else ⟨FVal.fin (max q b), s.res, s.candidates⟩ := by
  unfold scanBody
  simp only [hq, hb, hM, FVal.fin_mul_fin, FVal.lt, FVal.gt, decide_eq_true_eq]
  have hbest : (if b < q then FVal.fin q else FVal.fin b) = FVal.fin (max q b) := by
    by_cases h : b < q
    · rw [if_pos h, max_eq_left h.le]
    · rw [if_neg h, max_eq_right (not_lt.mp h)]
  rw [hbest]
  by_cases h1 : q < 1 / 2 * b
  · simp only [h1, if_true]
  · simp only [h1, if_false]

theorem scanBody_spec (itg : Int → Int → Int) (s : ScanState) (r y x : Int)
    (hinv : ScanInv itg s) (hr : 0 ≤ r) :
    ScanInv itg (scanBody itg r y s x) ∧
      (∃ b b2 : ℚ, s.best_response = FVal.fin b ∧
        (scanBody itg r y s x).best_response = FVal.fin b2 ∧ b ≤ b2) ∧
      ((scanBody itg r y s x).candidates = s.candidates ∨
        ((scanBody itg r y s x).candidates =
            s.candidates ++ [(candidateRect r y x, response itg r y x)] ∧
          FVal.gt (response itg r y x) (s.res y x) = true ∧
          FVal.lt (response itg r y x) (FVal.fin (1 / 2) * s.best_response) = false)) ∧
      (FVal.lt (response itg r y x) (FVal.fin (1 / 2) * s.best_response) = true →
        scanBody itg r y s x = s) := by
  obtain ⟨⟨b, hb, hbmin⟩, hres, hc, hpw⟩ := hinv
  have hinv0 : ScanInv itg s := ⟨⟨b, hb, hbmin⟩, hres, hc, hpw⟩
  have hbpos : 0 < b := lt_of_lt_of_le FLT_MIN_pos hbmin
  rcases hr.eq_or_lt with h0 | hpos
  · subst h0
    have hsame : scanBody itg 0 y s x = s := by
      unfold scanBody
      simp [response_zero_radius, FVal.lt, FVal.gt]
    rw [hsame]
    exact ⟨hinv0, ⟨b, b, hb, hb, le_refl _⟩, Or.inl rfl, fun _ => rfl⟩
  · obtain ⟨q, hq⟩ := response_finite itg r y x hpos.ne.symm
    have hM := hres y x
    have hcases := scanBody_cases itg r y x s q b _ hq hb hM
    have hlt : FVal.lt (response itg r y x) (FVal.fin (1 / 2) * s.best_response) =
        decide (q < 1 / 2 * b) := by
      rw [hq, hb, FVal.fin_mul_fin]
      rfl
    have hgt : FVal.gt (response itg r y x) (s.res y x) =
        decide (maxResponseAt s.candidates y x < q) := by
      rw [hq, hM]
      rfl
    by_cases h1 : q < 1 / 2 * b
    · rw [if_pos h1] at hcases
      rw [hcases]
      exact ⟨hinv0, ⟨b, b, hb, hb, le_refl _⟩, Or.inl rfl, fun _ => rfl⟩
    · rw [if_neg h1] at hcases
      have hqpos : 0 < q := by linarith
      have hprune : FVal.lt (response itg r y x) (FVal.fin (1 / 2) * s.best_response) = true →
          scanBody itg r y s x = s := by
        intro h
        rw [hlt] at h
        exact absurd (of_decide_eq_true h) h1
      by_cases h2 : maxResponseAt s.candidates y x < q
      · rw [if_pos h2] at hcases
        rw [hcases]
        refine ⟨⟨⟨max q b, rfl, le_trans hbmin (le_max_right _ _)⟩, ?_, ?_, ?_⟩,
          ⟨b, max q b, hb, rfl, le_max_right _ _⟩, Or.inr ⟨by rw [hq], ?_, ?_⟩, ?_⟩
        · intro y2 x2
          simp only
          by_cases hpos2 : y2 = y ∧ x2 = x
          · obtain ⟨rfl, rfl⟩ := hpos2
            simp only [and_self, if_true]
            unfold maxResponseAt
            rw [responsesAt_append, candidatePosition_candidateRect r y2 x2 hpos.le]
            simp only [if_true, List.foldl_append, List.foldl_cons, List.foldl_nil, FVal.toRat]
            unfold maxResponseAt at h2
            rw [max_eq_right h2.le]
          · rw [if_neg hpos2]
            unfold maxResponseAt
            rw [responsesAt_append, candidatePosition_candidateRect r y x hpos.le]
            have hne : ¬ ((y, x) = (y2, x2)) := by
              intro h
              injection h with ha hb2
              exact hpos2 ⟨ha.symm, hb2.symm⟩
            rw [if_neg hne, List.append_nil, hres y2 x2]
            rfl
        · intro c hcm
          rcases List.mem_append.mp hcm with h | h
          · exact hc c h
          · rw [List.mem_singleton] at h
            exact ⟨r, y, x, q, by omega, by rw [h], by rw [h], hq, hqpos⟩
        · intro y2 x2
          simp only
          rw [responsesAt_append, candidatePosition_candidateRect r y x hpos.le]
          by_cases hpos2 : (y, x) = (y2, x2)
          · rw [if_pos hpos2, List.pairwise_append]
            refine ⟨hpw y2 x2, List.pairwise_singleton _ _, ?_⟩
            intro a ha c hcq
            rw [List.mem_singleton] at hcq
            subst hcq
            injection hpos2 with e1 e2
            subst e1 e2
            exact lt_of_le_of_lt ((le_foldl_max _ 0).2 a ha) h2
          · rw [if_neg hpos2, List.append_nil]
            exact hpw y2 x2
        · rw [hgt]
          exact decide_eq_true h2
        · rw [hlt]
          exact decide_eq_false h1
        · rw [← hcases]
          exact hprune
      · rw [if_neg h2] at hcases
        rw [hcases]
        exact ⟨⟨⟨max q b, rfl, le_trans hbmin (le_max_right _ _)⟩, hres, hc, hpw⟩,
          ⟨b, max q b, hb, rfl, le_max_right _ _⟩, Or.inl rfl,
          by rw [← hcases]; exact hprune⟩

theorem scanInv_init (itg : Int → Int → Int) : ScanInv itg ScanState.init := by
  refine ⟨⟨FLT_MIN, rfl, le_refl _⟩, ?_, ?_, ?_⟩
  · intro y x; rfl
  · intro c hc; simp [ScanState.init] at hc
  · intro y x; simp [ScanState.init, responsesAt, candidatesAt]

theorem scanAfter_succ (m : Mat) (n : Nat) (pos : Int × Int × Int)
    (h : (scanPositions m)[n]? = some pos) :
    scanAfter m (n + 1) = scanStep (integral m) (scanAfter m n) pos := by
  unfold scanAfter
  rw [List.take_succ, h, List.foldl_append]
  rfl

theorem scanAfter_succ_of_done (m : Mat) (n : Nat) (h : (scanPositions m)[n]? = none) :
    scanAfter m (n + 1) = scanAfter m n := by
  unfold scanAfter
  rw [List.take_succ, h]
  simp

theorem scanAfter_radius (m : Mat) (n : Nat) (pos : Int × Int × Int)
    (h : (scanPositions m)[n]? = some pos) : 0 ≤ pos.1 := by
  have hmem : pos ∈ scanPositions m := List.mem_iff_getElem?.mpr ⟨n, h⟩
  exact scanRadii_nonneg m pos.1 (scanPositions_mem m pos hmem).1

theorem scanAfter_inv (m : Mat) (n : Nat) : ScanInv (integral m) (scanAfter m n) := by
  induction n with
  | zero => exact scanInv_init _
  | succ n ih =>
    cases h : (scanPositions m)[n]? with
    | none => rw [scanAfter_succ_of_done m n h]; exact ih
    | some pos =>
      rw [scanAfter_succ m n pos h]
      exact (scanBody_spec _ _ _ _ _ ih (scanAfter_radius m n pos h)).1

theorem foldl_max_mem (l : List ℚ) (init : ℚ) :
    l.foldl max init = init ∨ l.foldl max init ∈ l := by
  induction l generalizing init with
  | nil => left; rfl
  | cons b bs ih =>
    rw [List.foldl_cons]
    rcases ih (max init b) with h | h
    · rw [h]
      rcases max_choice init b with h2 | h2
      · left; exact h2
      · right; rw [h2]; exact List.mem_cons_self _ _
    · right; exact List.mem_cons_of_mem _ h

theorem responsesAt_pos (itg : Int → Int → Int) (s : ScanState) (hinv : ScanInv itg s)
    (y x : Int) : ∀ q ∈ responsesAt s.candidates y x, 0 < q := by
  intro q hq
  unfold responsesAt candidatesAt at hq
  rw [List.mem_map] at hq
  obtain ⟨c, hc, rfl⟩ := hq
  obtain ⟨r, y2, x2, q2, -, -, hq2, -, hpos⟩ := hinv.2.2.1 c (List.mem_of_mem_filter hc)
  rw [hq2]
  exact hpos

theorem pairwise_lt_const (l : List ℚ) (v : ℚ) (hp : l.Pairwise (fun a b => a < b))
    (hall : ∀ a ∈ l, a = v) : l.length ≤ 1 := by
  match l, hp, hall with
  | [], _, _ => simp
  | [_], _, _ => simp
  | a :: b :: t, hp, hall =>
    exfalso
    have h1 := hall a (List.mem_cons_self _ _)
    have h2 := hall b (List.mem_cons_of_mem _ (List.mem_cons_self _ _))
    have h3 : a < b := (List.pairwise_cons.mp hp).1 b (List.mem_cons_self _ _)
    rw [h1, h2] at h3
    exact lt_irrefl _ h3

theorem one_candidate_per_rect (itg : Int → Int → Int) (s : ScanState) (hinv : ScanInv itg s)
    (rect : Rect) : (s.candidates.filter (fun c => decide (c.1 = rect))).length ≤ 1 := by
  have hsub : ((s.candidates.filter (fun c => decide (c.1 = rect))).map
      (fun c => c.2.toRat)).Sublist
        (responsesAt s.candidates (candidatePosition rect).1 (candidatePosition rect).2) := by
    unfold responsesAt candidatesAt
    apply List.Sublist.map
    apply List.monotone_filter_right
    intro c hc
    simp only [decide_eq_true_eq] at hc ⊢
    rw [hc]
  have hpw := (hinv.2.2.2 (candidatePosition rect).1 (candidatePosition rect).2).sublist hsub
  cases hne : s.candidates.filter (fun c => decide (c.1 = rect)) with
  | nil => simp
  | cons c0 t =>
    have hc0 : c0 ∈ s.candidates.filter (fun c => decide (c.1 = rect)) := by
      rw [hne]; exact List.mem_cons_self _ _
    have hall : ∀ a ∈ (s.candidates.filter (fun c => decide (c.1 = rect))).map
        (fun c => c.2.toRat), a = c0.2.toRat := by
      intro a ha
      rw [List.mem_map] at ha
      obtain ⟨c, hc, rfl⟩ := ha
      obtain ⟨r1, y1, x1, q1, hr1, hrect1, hq1, hresp1, -⟩ :=
        hinv.2.2.1 c (List.mem_of_mem_filter hc)
      obtain ⟨r0, y0, x0, q0, hr0, hrect0, hq0, hresp0, -⟩ :=
        hinv.2.2.1 c0 (List.mem_of_mem_filter hc0)
      have e1 : c.1 = rect := by simpa using (List.mem_filter.mp hc).2
      have e0 : c0.1 = rect := by simpa using (List.mem_filter.mp hc0).2
      obtain ⟨rfl, rfl, rfl⟩ := candidateRect_injective r1 y1 x1 r0 y0 x0 (by omega) (by omega)
        (by rw [← hrect1, ← hrect0, e1, e0])
      have hqq : q1 = q0 := by
        rw [hresp1] at hresp0
        injection hresp0
      rw [hq1, hq0, hqq]
    have := pairwise_lt_const _ _ hpw hall
    rw [hne] at this
    simpa using this

/-- C18: after every number of scan steps, `res[y][x]` is the maximum response among the
candidates recorded so far at `(y, x)`, and 0 if there is none; a step records a candidate
only when its response strictly exceeds `res[y][x]`, and it then appends it at its own
position; so the responses recorded at one position increase strictly in insertion order,
and no rectangle (position and radius) is recorded twice. -/
theorem scan_per_pixel_maxima (downscaled : Mat) (n : Nat) :
    (∀ y x : Int, (scanAfter downscaled n).res y x =
        FVal.fin (maxResponseAt (scanAfter downscaled n).candidates y x)) ∧
      (∀ y x : Int,
        (∀ q ∈ responsesAt (scanAfter downscaled n).candidates y x,
          q ≤ maxResponseAt (scanAfter downscaled n).candidates y x) ∧
        (responsesAt (scanAfter downscaled n).candidates y x = [] →
          maxResponseAt (scanAfter downscaled n).candidates y x = 0) ∧
        (responsesAt (scanAfter downscaled n).candidates y x ≠ [] →
          maxResponseAt (scanAfter downscaled n).candidates y x ∈
            responsesAt (scanAfter downscaled n).candidates y x)) ∧
      (∀ pos : Int × Int × Int, (scanPositions downscaled)[n]? = some pos →
        (scanAfter downscaled (n + 1)).candidates = (scanAfter downscaled n).candidates ∨
          ((scanAfter downscaled (n + 1)).candidates =
              (scanAfter downscaled n).candidates ++
                [(candidateRect pos.1 pos.2.1 pos.2.2,
                  response (integral downscaled) pos.1 pos.2.1 pos.2.2)] ∧
            FVal.gt (response (integral downscaled) pos.1 pos.2.1 pos.2.2)
              ((scanAfter downscaled n).res pos.2.1 pos.2.2) = true ∧
            candidatePosition (candidateRect pos.1 pos.2.1 pos.2.2) = (pos.2.1, pos.2.2))) ∧
      (∀ y x : Int,
        (responsesAt (scanAfter downscaled n).candidates y x).Pairwise (fun a b => a < b)) ∧
      (∀ rect : Rect,
        ((scanAfter downscaled n).candidates.filter
          (fun c => decide (c.1 = rect))).length ≤ 1) := by
  have hinv := scanAfter_inv downscaled n
  refine ⟨hinv.2.1, ?_, ?_, hinv.2.2.2, one_candidate_per_rect _ _ hinv⟩
  · intro y x
    refine ⟨(le_foldl_max _ 0).2, ?_, ?_⟩
    · intro h
      unfold maxResponseAt
      rw [h]
      rfl
    · intro hne
      rcases foldl_max_mem (responsesAt (scanAfter downscaled n).candidates y x) 0 with h | h
      · exfalso
        obtain ⟨q, hq⟩ := List.exists_mem_of_ne_nil _ hne
        have h1 := (le_foldl_max _ 0).2 q hq
        have h2 := responsesAt_pos _ _ hinv y x q hq
        rw [h] at h1
        linarith
      · exact h
  · intro pos hpos
    have hr := scanAfter_radius downscaled n pos hpos
    rw [scanAfter_succ downscaled n pos hpos]
    rcases (scanBody_spec _ _ pos.1 pos.2.1 pos.2.2 hinv hr).2.2.1 with h | ⟨h1, h2, -⟩
    · left; exact h
    · right
      exact ⟨h1, h2, candidatePosition_candidateRect _ _ _ hr⟩

/-- Witness of C18: step 134 of the scan of a 10 x 12 image with a dark disc records a
candidate at row 5, column 5. -/
theorem scan_per_pixel_maxima_witness :
    (scanPositions (discFrame 10 12 5 5 4 10 200))[134]? = some (1, 5, 5) ∧
      ((scanAfter (discFrame 10 12 5 5 4 10 200) 135).candidates =
          (scanAfter (discFrame 10 12 5 5 4 10 200) 134).candidates ∨
        ((scanAfter (discFrame 10 12 5 5 4 10 200) 135).candidates =
            (scanAfter (discFrame 10 12 5 5 4 10 200) 134).candidates ++
              [(candidateRect 1 5 5, response (integral (discFrame 10 12 5 5 4 10 200)) 1 5 5)] ∧
          FVal.gt (response (integral (discFrame 10 12 5 5 4 10 200)) 1 5 5)
            ((scanAfter (discFrame 10 12 5 5 4 10 200) 134).res 5 5) = true ∧
          candidatePosition (candidateRect 1 5 5) = (5, 5))) :=
  ⟨by decide!,
    (scan_per_pixel_maxima (discFrame 10 12 5 5 4 10 200) 134).2.2.1 (1, 5, 5) (by decide!)⟩

/-! ### coarsePupilDetection: the aggregation -/

theorem Rect.inside_refl (a : Rect) : a.inside a :=
  ⟨le_refl _, le_refl _, le_refl _, le_refl _⟩

theorem Rect.inside_trans (a b c : Rect) (h1 : a.inside b) (h2 : b.inside c) : a.inside c :=
  ⟨le_trans h2.1 h1.1, le_trans h2.2.1 h1.2.1, le_trans h1.2.2.1 h2.2.2.1,
    le_trans h1.2.2.2 h2.2.2.2⟩

theorem Rect.hull_spec (a b : Rect) :
    a.inside (a.hull b) ∧ b.inside (a.hull b) ∧
      ∀ R : Rect, a.inside R → b.inside R → (a.hull b).inside R := by
  unfold Rect.inside Rect.hull
  simp only [add_sub_cancel]
  refine ⟨⟨min_le_left _ _, min_le_left _ _, le_max_left _ _, le_max_left _ _⟩,
    ⟨min_le_right _ _, min_le_right _ _, le_max_right _ _, le_max_right _ _⟩, ?_⟩
  intro R h1 h2
  exact ⟨le_min h1.1 h2.1, le_min h1.2.1 h2.2.1, max_le h1.2.2.1 h2.2.2.1,
    max_le h1.2.2.2 h2.2.2.2⟩

theorem Rect.hull_pos (a b : Rect) (ha : 0 < a.width ∧ 0 < a.height) :
    0 < (a.hull b).width ∧ 0 < (a.hull b).height := by
  unfold Rect.hull
  simp only
  have h1 := min_le_left a.x b.x
  have h2 := le_max_left (a.x + a.width) (b.x + b.width)
  have h3 := min_le_left a.y b.y
  have h4 := le_max_left (a.y + a.height) (b.y + b.height)
  constructor <;> linarith [ha.1, ha.2]

theorem unionAssign_eq_hull (a b : Rect) (ha : 0 < a.width ∧ 0 < a.height)
    (hb : 0 < b.width ∧ 0 < b.height) : a.unionAssign b = a.hull b := by
  have ea : a.empty = false := by
    simp only [Rect.empty, Bool.or_eq_false_iff, decide_eq_false_iff_not, not_le]
    exact ha
  have eb : b.empty = false := by
    simp only [Rect.empty, Bool.or_eq_false_iff, decide_eq_false_iff_not, not_le]
    exact hb
  unfold Rect.unionAssign Rect.hull
  simp [ea, eb]

theorem foldl_hull_spec (l : List Rect) (acc : Rect) :
    acc.inside (l.foldl Rect.hull acc) ∧ (∀ c ∈ l, c.inside (l.foldl Rect.hull acc)) ∧
      (∀ R : Rect, acc.inside R → (∀ c ∈ l, c.inside R) → (l.foldl Rect.hull acc).inside R) ∧
      (0 < acc.width ∧ 0 < acc.height →
        0 < (l.foldl Rect.hull acc).width ∧ 0 < (l.foldl Rect.hull acc).height) := by
  induction l generalizing acc with
  | nil =>
    exact ⟨Rect.inside_refl _, fun c hc => by simp at hc, fun R h _ => h, fun h => h⟩
  | cons b bs ih =>
    rw [List.foldl_cons]
    obtain ⟨h1, h2, h3, h4⟩ := ih (acc.hull b)
    obtain ⟨g1, g2, g3⟩ := Rect.hull_spec acc b
    refine ⟨Rect.inside_trans _ _ _ g1 h1, ?_, ?_, fun hp => h4 (Rect.hull_pos acc b hp)⟩
    · intro c hc
      rcases List.mem_cons.mp hc with h | h
      · rw [h]; exact Rect.inside_trans _ _ _ g2 h1
      · exact h2 c h
    · intro R hR hall
      exact h3 R (g3 R hR (hall b (List.mem_cons_self _ _)))
        (fun c hc => hall c (List.mem_cons_of_mem _ hc))

theorem aggregate_from (minW minH : Int) (cs : List (Rect × FVal)) (acc : Rect)
    (hacc : 0 < acc.width ∧ 0 < acc.height)
    (hcs : ∀ c ∈ cs, 0 < c.1.width ∧ 0 < c.1.height) :
    ∃ k : Nat, k ≤ cs.length ∧ (cs ≠ [] → 1 ≤ k) ∧
      aggregate minW minH acc cs = ((cs.map Prod.fst).take k).foldl Rect.hull acc ∧
      (∀ j : Nat, 1 ≤ j → j < k →
        ¬ ((((cs.map Prod.fst).take j).foldl Rect.hull acc).width > minW ∧
          (((cs.map Prod.fst).take j).foldl Rect.hull acc).height > minH)) ∧
      (k < cs.length →
        (((cs.map Prod.fst).take k).foldl Rect.hull acc).width > minW ∧
          (((cs.map Prod.fst).take k).foldl Rect.hull acc).height > minH) := by
  induction cs generalizing acc with
  | nil =>
    exact ⟨0, le_refl _, fun h => absurd rfl h, rfl, fun j h1 h2 => by omega,
      fun h => by simp at h⟩
  | cons c cs ih =>
    have hc := hcs c (List.mem_cons_self _ _)
    have harea : acc.area ≠ 0 := by
      unfold Rect.area
      exact (mul_pos hacc.1 hacc.2).ne.symm
    have hstep : (if acc.area = 0 then c.1 else acc.unionAssign c.1) = acc.hull c.1 := by
      rw [if_neg harea, unionAssign_eq_hull acc c.1 hacc hc]
    unfold aggregate
    simp only [hstep]
    by_cases hex : (acc.hull c.1).width > minW ∧ (acc.hull c.1).height > minH
    · rw [if_pos hex]
      refine ⟨1, by simp, fun _ => le_refl _, by simp, fun j h1 h2 => by omega, fun _ => ?_⟩
      simpa using hex
    · rw [if_neg hex]
      obtain ⟨k, hk1, hk2, hk3, hk4, hk5⟩ := ih (acc.hull c.1) (Rect.hull_pos acc c.1 hacc)
        (fun d hd => hcs d (List.mem_cons_of_mem _ hd))
      refine ⟨k + 1, by simp; omega, fun _ => by omega, by simpa using hk3, ?_, ?_⟩
      · intro j h1 h2
        cases j with
        | zero => omega
        | succ j =>
          simp only [List.map_cons, List.take_succ_cons, List.foldl_cons]
          by_cases hj : j = 0
          · subst hj
            simpa using hex
          · exact hk4 j (by omega) (by omega)
      · intro hlt
        simp only [List.map_cons, List.take_succ_cons, List.foldl_cons]
        exact hk5 (by simp at hlt; omega)

theorem gt_truncToInt_iff (w : Int) (q : ℚ) (hw : 0 < w) : w > truncToInt q ↔ w > ⌊q⌋ := by
  unfold truncToInt
  by_cases hq : 0 ≤ q
  · rw [if_pos hq]
  · rw [if_neg hq]
    have h1 : 0 ≤ ⌊-q⌋ := Int.floor_nonneg.mpr (by linarith)
    have h2 : ⌊q⌋ < 0 := by
      rw [Int.floor_lt]
      push_cast
      linarith
    constructor <;> intro _ <;> omega

theorem orderedInsert_descending (a : Rect × FVal) (l : List (Rect × FVal))
    (ha : ∃ q, a.2 = FVal.fin q) (hl : ∀ c ∈ l, ∃ q, c.2 = FVal.fin q)
    (hs : l.Pairwise (fun c d => d.2.toRat ≤ c.2.toRat)) :
    (l.orderedInsert (fun c d => FVal.gt d.2 c.2 = false) a).Pairwise
      (fun c d => d.2.toRat ≤ c.2.toRat) := by
  induction l with
  | nil => simp
  | cons b l ih =>
    obtain ⟨qa, hqa⟩ := ha
    obtain ⟨qb, hqb⟩ := hl b (List.mem_cons_self _ _)
    have hgt : FVal.gt b.2 a.2 = false ↔ qb ≤ qa := by
      rw [hqa, hqb]
      simp [FVal.gt, FVal.lt]
    rw [List.pairwise_cons] at hs
    rw [List.orderedInsert]
    by_cases h : FVal.gt b.2 a.2 = false
    · rw [if_pos h]
      have hle := hgt.mp h
      rw [List.pairwise_cons, List.pairwise_cons]
      refine ⟨?_, hs.1, hs.2⟩
      intro d hd
      rcases List.mem_cons.mp hd with e | e
      · rw [e, hqa, hqb]
        exact hle
      · have := hs.1 d e
        rw [hqb] at this
        rw [hqa]
        exact le_trans this hle
    · rw [if_neg h]
      have hlt : qa < qb := not_le.mp (fun hc => h (hgt.mpr hc))
      rw [List.pairwise_cons]
      refine ⟨?_, ih (fun c hc => hl c (List.mem_cons_of_mem _ hc)) hs.2⟩
      intro d hd
      rw [List.mem_orderedInsert] at hd
      rcases hd with e | e
      · rw [e, hqa, hqb]
        exact hlt.le
      · exact hs.1 d e

theorem sortCandidates_spec (l : List (Rect × FVal)) (hl : ∀ c ∈ l, ∃ q, c.2 = FVal.fin q) :
    (sortCandidates l).Perm l ∧
      (sortCandidates l).Pairwise (fun c d => d.2.toRat ≤ c.2.toRat) := by
  refine ⟨List.perm_insertionSort _ _, ?_⟩
  unfold sortCandidates
  induction l with
  | nil => simp
  | cons a l ih =>
    rw [List.insertionSort]
    apply orderedInsert_descending a _ (hl a (List.mem_cons_self _ _))
    · intro c hc
      exact hl c (List.mem_cons_of_mem _ ((List.perm_insertionSort _ _).subset hc))
    · exact ih (fun c hc => hl c (List.mem_cons_of_mem _ hc))

theorem scan_candidates_shape (m : Mat) :
    ∀ c ∈ (scan m).candidates,
      (∃ q, c.2 = FVal.fin q) ∧ 0 < c.1.width ∧ 0 < c.1.height := by
  intro c hc
  rw [scan_eq_scanAfter] at hc
  obtain ⟨r, y, x, q, hr, hrect, hq, -, -⟩ := (scanAfter_inv m _).2.2.1 c hc
  rw [hrect, candidateRect_eq r y x (by omega)]
  exact ⟨⟨q, hq⟩, by simp only; omega, by simp only; omega⟩

/-- C16 (as stated, refuted): on the frame `threeBlocksFrame` with `minCoverage = 0.7f` the
three candidates have different responses; the enclosure of the first two in descending
order is 14 wide and 9 high, which exceeds `floor(0.7f * 20) = 13` and
`floor(0.7f * 12) = 8`, while the first alone does not; but the `float` product
`0.7f * 20` is 14, the loop goes on, and the accumulated rectangle is the enclosure of all
three, 17 wide. -/
theorem aggregation_float_threshold :
    sortCandidates (scan threeBlocksFrame).candidates =
        [(⟨1, 1, 4, 4⟩, FVal.fin (40 / 51)), (⟨11, 6, 4, 4⟩, FVal.fin (39 / 68)),
          (⟨14, 3, 4, 4⟩, FVal.fin (123 / 272))] ∧
      IsF32 (11744051 / 16777216) ∧
      ¬ exceedsFloorCoverage (11744051 / 16777216) threeBlocksFrame
          (enclosure (((sortCandidates (scan threeBlocksFrame).candidates).map Prod.fst).take 1)) ∧
      exceedsFloorCoverage (11744051 / 16777216) threeBlocksFrame
          (enclosure (((sortCandidates (scan threeBlocksFrame).candidates).map Prod.fst).take 2)) ∧
      enclosure (((sortCandidates (scan threeBlocksFrame).candidates).map Prod.fst).take 2) =
        ⟨1, 1, 14, 9⟩ ∧
      accumulated threeBlocksFrame (11744051 / 16777216) = ⟨1, 1, 17, 9⟩ ∧
      accumulated threeBlocksFrame (11744051 / 16777216) ≠
        enclosure (((sortCandidates (scan threeBlocksFrame).candidates).map Prod.fst).take 2) := by
  have hs : sortCandidates (scan threeBlocksFrame).candidates =
      [(⟨1, 1, 4, 4⟩, FVal.fin (40 / 51)), (⟨11, 6, 4, 4⟩, FVal.fin (39 / 68)),
        (⟨14, 3, 4, 4⟩, FVal.fin (123 / 272))] := by
    decide!
  have hacc : accumulated threeBlocksFrame (11744051 / 16777216) = ⟨1, 1, 17, 9⟩ := by
    unfold accumulated
    simp only [hs]
    decide!
  rw [hacc, hs]
  refine ⟨rfl, by decide!, by decide!, by decide!, by decide!, rfl, by decide!⟩

/-- C16 (amended): `sort` leaves the candidates in descending order of response, and for
every such order `c_1 .. c_n` of the candidates (the order among equal responses is not
fixed by `std::sort`) the aggregation loop returns the smallest rectangle enclosing
`c_1 .. c_k`, where `k` is the least index at which that enclosure is wider than
`(int)(minCoverage * cols)` and higher than `(int)(minCoverage * rows)`, the products
taken in `float`, or `n` when there is no such index; so with at least one candidate the
accumulated rectangle contains the highest-response candidate `c_1`, and it is empty only
when there is no candidate. -/
theorem aggregation_greedy (downscaled : Mat) (minCoverage : ℚ) (cs : List (Rect × FVal))
    (hperm : cs.Perm (scan downscaled).candidates)
    (hsorted : cs.Pairwise (fun c d => d.2.toRat ≤ c.2.toRat)) :
    ((sortCandidates (scan downscaled).candidates).Perm (scan downscaled).candidates ∧
        (sortCandidates (scan downscaled).candidates).Pairwise
          (fun c d => d.2.toRat ≤ c.2.toRat) ∧
        accumulated downscaled minCoverage =
          aggregate (coverageThreshold minCoverage downscaled.cols)
            (coverageThreshold minCoverage downscaled.rows) Rect.zero
            (sortCandidates (scan downscaled).candidates)) ∧
      (∃ k : Nat, k ≤ cs.length ∧ (cs ≠ [] → 1 ≤ k) ∧
        aggregate (coverageThreshold minCoverage downscaled.cols)
            (coverageThreshold minCoverage downscaled.rows) Rect.zero cs =
          enclosure ((cs.map Prod.fst).take k) ∧
        (∀ j : Nat, 1 ≤ j → j < k →
          ¬ exceedsCoverage minCoverage downscaled (enclosure ((cs.map Prod.fst).take j))) ∧
        (k < cs.length →
          exceedsCoverage minCoverage downscaled (enclosure ((cs.map Prod.fst).take k))) ∧
        (∀ c ∈ (cs.map Prod.fst).take k,
          c.inside (aggregate (coverageThreshold minCoverage downscaled.cols)
            (coverageThreshold minCoverage downscaled.rows) Rect.zero cs)) ∧
        (1 ≤ k → ∀ R : Rect, (∀ c ∈ (cs.map Prod.fst).take k, c.inside R) →
          (aggregate (coverageThreshold minCoverage downscaled.cols)
            (coverageThreshold minCoverage downscaled.rows) Rect.zero cs).inside R)) ∧
      (∀ c1 ∈ cs.head?,
        c1.1.inside (aggregate (coverageThreshold minCoverage downscaled.cols)
            (coverageThreshold minCoverage downscaled.rows) Rect.zero cs) ∧
          ∀ c ∈ (scan downscaled).candidates, c.2.toRat ≤ c1.2.toRat) ∧
      ((aggregate (coverageThreshold minCoverage downscaled.cols)
            (coverageThreshold minCoverage downscaled.rows) Rect.zero cs).empty = true ↔
        (scan downscaled).candidates = []) := by
  have hshape := scan_candidates_shape downscaled
  obtain ⟨hperm0, hsorted0⟩ := sortCandidates_spec (scan downscaled).candidates
    (fun c hc => (hshape c hc).1)
  have hpos : ∀ c ∈ cs, 0 < c.1.width ∧ 0 < c.1.height :=
    fun c hc => (hshape c (hperm.subset hc)).2
  have hnil : cs = [] ↔ (scan downscaled).candidates = [] := by
    constructor
    · intro h
      rw [h] at hperm
      exact hperm.symm.eq_nil
    · intro h
      rw [h] at hperm
      exact hperm.eq_nil
  refine ⟨⟨hperm0, hsorted0, rfl⟩, ?_⟩
  set minW := coverageThreshold minCoverage downscaled.cols with hminW
  set minH := coverageThreshold minCoverage downscaled.rows with hminH
  have hconv : ∀ a : Rect, 0 < a.width ∧ 0 < a.height →
      ((a.width > minW ∧ a.height > minH) ↔ exceedsCoverage minCoverage downscaled a) := by
    intro a _
    rfl
  cases cs with
  | nil =>
    refine ⟨⟨0, le_refl _, fun h => absurd rfl h, rfl, fun j h1 h2 => by omega,
      fun h => by simp at h, fun c hc => by simp at hc, fun h => by omega⟩,
      fun c1 hc1 => by simp at hc1, ?_⟩
    simp only [aggregate, hnil.mp rfl, iff_true]
    rfl
  | cons c cs =>
    have hc := hpos c (List.mem_cons_self _ _)
    have hagg : aggregate minW minH Rect.zero (c :: cs) =
        if c.1.width > minW ∧ c.1.height > minH then c.1
        else aggregate minW minH c.1 cs := by
      rw [aggregate]
      simp [Rect.zero, Rect.area]
    obtain ⟨k0, hk1, hk2, hk3, hk4, hk5⟩ := aggregate_from minW minH cs c.1 hc
      (fun d hd => hpos d (List.mem_cons_of_mem _ hd))
    have hencl : ∀ j : Nat, enclosure (((c :: cs).map Prod.fst).take (j + 1)) =
        ((cs.map Prod.fst).take j).foldl Rect.hull c.1 := by
      intro j
      simp [enclosure]
    have henclpos : ∀ j : Nat, 0 < (((cs.map Prod.fst).take j).foldl Rect.hull c.1).width ∧
        0 < (((cs.map Prod.fst).take j).foldl Rect.hull c.1).height :=
      fun j => (foldl_hull_spec _ c.1).2.2.2 hc
    have hkey : ∃ k : Nat, k ≤ (c :: cs).length ∧ 1 ≤ k ∧
        aggregate minW minH Rect.zero (c :: cs) = enclosure (((c :: cs).map Prod.fst).take k) ∧
        (∀ j : Nat, 1 ≤ j → j < k →
          ¬ exceedsCoverage minCoverage downscaled
            (enclosure (((c :: cs).map Prod.fst).take j))) ∧
        (k < (c :: cs).length →
          exceedsCoverage minCoverage downscaled
            (enclosure (((c :: cs).map Prod.fst).take k))) := by
      by_cases hex : c.1.width > minW ∧ c.1.height > minH
      · refine ⟨1, by simp, le_refl _, ?_, fun j h1 h2 => by omega, fun _ => ?_⟩
        · rw [hagg, if_pos hex, hencl 0]
          rfl
        · rw [hencl 0]
          exact (hconv _ hc).mp hex
      · refine ⟨k0 + 1, by simp; omega, by omega, ?_, ?_, ?_⟩
        · rw [hagg, if_neg hex, hk3, hencl k0]
        · intro j h1 h2
          obtain ⟨j0, rfl⟩ : ∃ j0, j = j0 + 1 := ⟨j - 1, by omega⟩
          rw [hencl j0, ← hconv _ (henclpos j0)]
          by_cases hj : j0 = 0
          · subst hj
            simpa using hex
          · exact hk4 j0 (by omega) (by omega)
        · intro hlt
          rw [hencl k0, ← hconv _ (henclpos k0)]
          exact hk5 (by simp at hlt; omega)
    obtain ⟨k, g1, g2, g3, g4, g5⟩ := hkey
    obtain ⟨k1, rfl⟩ : ∃ k1, k = k1 + 1 := ⟨k - 1, by omega⟩
    have hspec := foldl_hull_spec ((cs.map Prod.fst).take k1) c.1
    have hinside : ∀ d ∈ ((c :: cs).map Prod.fst).take (k1 + 1),
        d.inside (aggregate minW minH Rect.zero (c :: cs)) := by
      intro d hd
      rw [g3, hencl k1]
      simp only [List.map_cons, List.take_succ_cons, List.mem_cons] at hd
      rcases hd with e | e
      · rw [e]; exact hspec.1
      · exact hspec.2.1 d e
    refine ⟨⟨k1 + 1, g1, fun _ => g2, g3, g4, g5, hinside, ?_⟩, ?_, ?_⟩
    · intro _ R hR
      rw [g3, hencl k1]
      apply hspec.2.2.1 R
      · exact hR c.1 (by simp)
      · intro d hd
        exact hR d (by
          simp only [List.map_cons, List.take_succ_cons]
          exact List.mem_cons_of_mem _ hd)
    · intro c1 hc1
      simp only [List.head?_cons, Option.mem_def, Option.some.injEq] at hc1
      subst hc1
      refine ⟨hinside c.1 (by simp), ?_⟩
      intro d hd
      have hd2 : d ∈ c :: cs := hperm.symm.subset hd
      rcases List.mem_cons.mp hd2 with e | e
      · rw [e]
      · exact (List.pairwise_cons.mp hsorted).1 d e
    · have hne : ¬ (scan downscaled).candidates = [] := by
        intro h
        have := hnil.mpr h
        simp at this
      simp only [hne, iff_false]
      rw [g3, hencl k1]
      have hp := henclpos k1
      simp only [Rect.empty, Bool.or_eq_true, decide_eq_true_eq, not_or, not_le]
      exact hp

/-- Witness of C16 (amended): a 10 x 12 image with a dark disc and a coverage of one half;
the order is the one of the embedded sort, which puts the first of the four rectangles of
greatest response, the 4 x 4 rectangle at (3, 3), first. -/
theorem aggregation_greedy_witness :
    (sortCandidates (scan (discFrame 10 12 5 5 4 10 200)).candidates).Perm
        (scan (discFrame 10 12 5 5 4 10 200)).candidates ∧
      (sortCandidates (scan (discFrame 10 12 5 5 4 10 200)).candidates).Pairwise
        (fun c d => d.2.toRat ≤ c.2.toRat) ∧
      (((⟨3, 3, 4, 4⟩ : Rect), FVal.fin (437 / 816)) ∈
        (sortCandidates (scan (discFrame 10 12 5 5 4 10 200)).candidates).head?) ∧
      (⟨3, 3, 4, 4⟩ : Rect).inside
        (aggregate (coverageThreshold (1 / 2) (discFrame 10 12 5 5 4 10 200).cols)
          (coverageThreshold (1 / 2) (discFrame 10 12 5 5 4 10 200).rows) Rect.zero
          (sortCandidates (scan (discFrame 10 12 5 5 4 10 200)).candidates)) :=
  have hfin : ∀ c ∈ (scan (discFrame 10 12 5 5 4 10 200)).candidates, ∃ q, c.2 = FVal.fin q :=
    fun c hc => (scan_candidates_shape (discFrame 10 12 5 5 4 10 200) c hc).1
  have hs := sortCandidates_spec (scan (discFrame 10 12 5 5 4 10 200)).candidates hfin
  ⟨hs.1, hs.2, by decide!,
    ((aggregation_greedy (discFrame 10 12 5 5 4 10 200) (1 / 2)
      (sortCandidates (scan (discFrame 10 12 5 5 4 10 200)).candidates) hs.1 hs.2).2.2.1
        ((⟨3, 3, 4, 4⟩ : Rect), FVal.fin (437 / 816)) (by decide!)).1⟩

/-! ### ellipse2Points: points of a circle -/

set_option maxHeartbeats 4000000 in
theorem sinTable_facts_nat : ∀ n : Nat, n < 361 →
    (1 - 1 / 8000000 ≤ sinTableAt (n : Int) ^ 2 + sinTableAt (450 - (n : Int)) ^ 2 ∧
      sinTableAt (n : Int) ^ 2 + sinTableAt (450 - (n : Int)) ^ 2 ≤ 1 + 1 / 8000000) ∧
    sinTableAt (450 - (n : Int)) = sinTableAt ((n : Int) + 90) ∧
    (1 - 3 / 20000000 ≤
        f32 (sinTableAt (n : Int)) ^ 2 + f32 (sinTableAt (450 - (n : Int))) ^ 2 ∧
      f32 (sinTableAt (n : Int)) ^ 2 + f32 (sinTableAt (450 - (n : Int))) ^ 2 ≤
        1 + 3 / 20000000) := by
  decide!

theorem sinTable_range : ∀ v ∈ sinTable, -1 ≤ v ∧ v ≤ 1 := by
  decide!

theorem sinTable_unit (t : Int) (h0 : 0 ≤ t) (h1 : t ≤ 360) :
    1 - 1 / 8000000 ≤ sinTableAt t ^ 2 + sinTableAt (450 - t) ^ 2 ∧
      sinTableAt t ^ 2 + sinTableAt (450 - t) ^ 2 ≤ 1 + 1 / 8000000 := by
  have h := (sinTable_facts_nat t.toNat (by omega)).1
  rw [Int.toNat_of_nonneg h0] at h
  exact h

theorem roundHalfAway_err (q : ℚ) : |(roundHalfAway q : ℚ) - q| ≤ 1 / 2 := by
  unfold roundHalfAway
  rw [abs_le]
  by_cases hq : 0 ≤ q
  · rw [if_pos hq]
    have h1 := Int.floor_le (q + 1 / 2)
    have h2 := Int.lt_floor_add_one (q + 1 / 2)
    constructor <;> linarith
  · rw [if_neg hq]
    have h1 := Int.floor_le (-q + 1 / 2)
    have h2 := Int.lt_floor_add_one (-q + 1 / 2)
    push_cast
    constructor <;> linarith

theorem sinTableF_unit (t : Int) (h0 : 0 ≤ t) (h1 : t ≤ 360) :
    1 - 3 / 20000000 ≤ f32 (sinTableAt t) ^ 2 + f32 (sinTableAt (450 - t)) ^ 2 ∧
      f32 (sinTableAt t) ^ 2 + f32 (sinTableAt (450 - t)) ^ 2 ≤ 1 + 3 / 20000000 := by
  have h := (sinTable_facts_nat t.toNat (by omega)).2.2
  rw [Int.toNat_of_nonneg h0] at h
  exact h

theorem sinTableF_abs (t : Int) (_h0 : 0 ≤ t) (_h1 : t ≤ 450) : |f32 (sinTableAt t)| ≤ 1 := by
  have hv : -1 ≤ sinTableAt t ∧ sinTableAt t ≤ 1 := by
    unfold sinTableAt
    rw [List.getD_eq_getElem?_getD]
    by_cases hlt : t.toNat < sinTable.length
    · rw [List.getElem?_eq_getElem hlt]
      exact sinTable_range _ (List.getElem_mem _)
    · rw [List.getElem?_eq_none (not_lt.mp hlt)]
      norm_num
  have e1 : f32 (-1 : ℚ) = -1 := by
    have := f32_intCast (-1) (by norm_num)
    simpa using this
  have e2 : f32 (1 : ℚ) = 1 := by
    have := f32_intCast 1 (by norm_num)
    simpa using this
  have a1 : f32 (-1) ≤ f32 (sinTableAt t) := roundBin_mono 24 _ (by norm_num) hv.1
  have a2 : f32 (sinTableAt t) ≤ f32 1 := roundBin_mono 24 _ (by norm_num) hv.2
  rw [e1] at a1
  rw [e2] at a2
  exact abs_le.mpr ⟨a1, a2⟩

theorem sq_le_of_abs_le (e b : ℚ) (h : |e| ≤ b) : e ^ 2 ≤ b ^ 2 := by
  have hb : 0 ≤ b := le_trans (abs_nonneg e) h
  have := pow_le_pow_left₀ (abs_nonneg e) h 2
  rwa [sq_abs] at this

theorem mixed_term_bound (R u v e1 e2 P δ : ℚ) (hR0 : 0 ≤ R) (hδ0 : 0 ≤ δ)
    (hD : u ^ 2 + v ^ 2 = R ^ 2 * P) (hP2 : P ≤ 1 + 31 / 100000000)
    (he1 : |e1| ≤ 1 / 2 + δ) (he2 : |e2| ≤ 1 / 2 + δ) :
    |u * e1 + v * e2| ≤ R * (70711 / 100000 + 3 / 2 * δ) ∧
      e1 ^ 2 + e2 ^ 2 ≤ 2 * (1 / 2 + δ) ^ 2 := by
  have hR2nn : 0 ≤ R ^ 2 := sq_nonneg R
  have hs1 := sq_le_of_abs_le e1 _ he1
  have hs2 := sq_le_of_abs_le e2 _ he2
  have hee1 : e1 ^ 2 + e2 ^ 2 ≤ 2 * (1 / 2 + δ) ^ 2 := by linarith only [hs1, hs2]
  have hee0 : 0 ≤ e1 ^ 2 + e2 ^ 2 := by positivity
  have hcs : (u * e1 + v * e2) ^ 2 ≤ (u ^ 2 + v ^ 2) * (e1 ^ 2 + e2 ^ 2) := by
    have h := sq_nonneg (u * e2 - v * e1)
    have e : (u ^ 2 + v ^ 2) * (e1 ^ 2 + e2 ^ 2) - (u * e1 + v * e2) ^ 2 =
      (u * e2 - v * e1) ^ 2 := by ring
    linarith only [h, e]
  have hDhi : u ^ 2 + v ^ 2 ≤ R ^ 2 * (1 + 31 / 100000000) := by
    rw [hD]; exact mul_le_mul_of_nonneg_left hP2 hR2nn
  have hk : 2 * (1 / 2 + δ) ^ 2 * (1 + 31 / 100000000) ≤ (70711 / 100000 + 3 / 2 * δ) ^ 2 := by
    have h1 : 0 ≤ δ ^ 2 := sq_nonneg δ
    have e : (70711 / 100000 + 3 / 2 * δ) ^ 2 - 2 * (1 / 2 + δ) ^ 2 * (1 + 31 / 100000000) =
        ((70711 / 100000) ^ 2 - 1 / 2 * (1 + 31 / 100000000)) +
          (3 * (70711 / 100000) - 2 * (1 + 31 / 100000000)) * δ +
          (9 / 4 - 2 * (1 + 31 / 100000000)) * δ ^ 2 := by ring
    have c1 : (0 : ℚ) ≤ (70711 / 100000) ^ 2 - 1 / 2 * (1 + 31 / 100000000) := by norm_num
    have c2 : (0 : ℚ) ≤ (3 * (70711 / 100000) - 2 * (1 + 31 / 100000000)) * δ :=
      mul_nonneg (by norm_num) hδ0
    have c3 : (0 : ℚ) ≤ (9 / 4 - 2 * (1 + 31 / 100000000)) * δ ^ 2 :=
      mul_nonneg (by norm_num) h1
    linarith only [e, c1, c2, c3]
  have ht2 : (u * e1 + v * e2) ^ 2 ≤ (R * (70711 / 100000 + 3 / 2 * δ)) ^ 2 := by
    have h1 : (u ^ 2 + v ^ 2) * (e1 ^ 2 + e2 ^ 2) ≤
        (R ^ 2 * (1 + 31 / 100000000)) * (2 * (1 / 2 + δ) ^ 2) :=
      mul_le_mul hDhi hee1 hee0 (by positivity)
    have h3 : R ^ 2 * (2 * (1 / 2 + δ) ^ 2 * (1 + 31 / 100000000)) ≤
        R ^ 2 * (70711 / 100000 + 3 / 2 * δ) ^ 2 := mul_le_mul_of_nonneg_left hk hR2nn
    calc (u * e1 + v * e2) ^ 2 ≤ (u ^ 2 + v ^ 2) * (e1 ^ 2 + e2 ^ 2) := hcs
      _ ≤ (R ^ 2 * (1 + 31 / 100000000)) * (2 * (1 / 2 + δ) ^ 2) := h1
      _ = R ^ 2 * (2 * (1 / 2 + δ) ^ 2 * (1 + 31 / 100000000)) := by ring
      _ ≤ R ^ 2 * (70711 / 100000 + 3 / 2 * δ) ^ 2 := h3
      _ = (R * (70711 / 100000 + 3 / 2 * δ)) ^ 2 := by ring
  exact ⟨abs_le.mpr (abs_le_of_sq_le_sq' ht2 (by positivity)), hee1⟩

theorem circle_bounds (R u v e1 e2 P : ℚ) (m n : Int) (hR1 : 3 / 4 ≤ R) (hR2 : R ≤ 1000000)
    (hD : u ^ 2 + v ^ 2 = R ^ 2 * P) (hP1 : 1 - 31 / 100000000 ≤ P)
    (hP2 : P ≤ 1 + 31 / 100000000)
    (he1 : |e1| ≤ 1 / 2 + (2 / 100000000 + 6 / 100000000 * R))
    (he2 : |e2| ≤ 1 / 2 + (2 / 100000000 + 6 / 100000000 * R))
    (hm : u + e1 = (m : ℚ)) (hn : v + e2 = (n : ℚ)) :
    (R - 1) ^ 2 ≤ (m : ℚ) ^ 2 + (n : ℚ) ^ 2 ∧ (m : ℚ) ^ 2 + (n : ℚ) ^ 2 ≤ (R + 1) ^ 2 := by
  have hR0 : 0 ≤ R := by linarith only [hR1]
  have hR2nn : 0 ≤ R ^ 2 := sq_nonneg R
  obtain ⟨δ, hδ⟩ : ∃ δ : ℚ, δ = 2 / 100000000 + 6 / 100000000 * R := ⟨_, rfl⟩
  rw [← hδ] at he1 he2
  have hδ0 : 0 ≤ δ := by rw [hδ]; positivity
  have hδ1 : δ ≤ 7 / 100 := by rw [hδ]; linarith only [hR2]
  obtain ⟨ht, hee1⟩ := mixed_term_bound R u v e1 e2 P δ hR0 hδ0 hD hP2 he1 he2
  have hT : R * (70711 / 100000 + 3 / 2 * δ) =
      (70711 / 100000 + 3 / 100000000) * R + 9 / 100000000 * R ^ 2 := by
    rw [hδ]; ring
  rw [hT] at ht
  obtain ⟨ht1, ht3⟩ := abs_le.mp ht
  have hDlo : R ^ 2 * (1 - 31 / 100000000) ≤ u ^ 2 + v ^ 2 := by
    rw [hD]; exact mul_le_mul_of_nonneg_left hP1 hR2nn
  have hDhi : u ^ 2 + v ^ 2 ≤ R ^ 2 * (1 + 31 / 100000000) := by
    rw [hD]; exact mul_le_mul_of_nonneg_left hP2 hR2nn
  have hee0 : 0 ≤ e1 ^ 2 + e2 ^ 2 := by positivity
  have hexp : (m : ℚ) ^ 2 + (n : ℚ) ^ 2 =
      (u ^ 2 + v ^ 2) + 2 * (u * e1 + v * e2) + (e1 ^ 2 + e2 ^ 2) := by
    rw [← hm, ← hn]; ring
  have hRR : R ^ 2 ≤ 1000000 * R := by
    have := mul_le_mul_of_nonneg_right hR2 hR0
    have e : R * R = R ^ 2 := by ring
    linarith only [this, e]
  have hlow : (R - 1) ^ 2 = R ^ 2 - 2 * R + 1 := by ring
  have hupp : (R + 1) ^ 2 = R ^ 2 + 2 * R + 1 := by ring
  have hee2 : 2 * (1 / 2 + δ) ^ 2 ≤ 65 / 100 := by
    have h57 : (1 / 2 + δ) ≤ 57 / 100 := by linarith only [hδ1]
    have : (1 / 2 + δ) ^ 2 ≤ (57 / 100) ^ 2 :=
      pow_le_pow_left₀ (by linarith only [hδ0]) h57 2
    have e : ((57 : ℚ) / 100) ^ 2 = 3249 / 10000 := by norm_num
    linarith only [this, e]
  constructor
  · by_cases hbig : 2 ≤ R
    · have hprod : 0 ≤ (R - 2) * (1000000 - R) :=
        mul_nonneg (sub_nonneg.mpr hbig) (sub_nonneg.mpr hR2)
      have e : (R - 2) * (1000000 - R) = -R ^ 2 + 1000002 * R - 2000000 := by ring
      have hR2le : R ^ 2 ≤ 1000002 * R - 2000000 := by linarith only [hprod, e]
      rw [hexp, hlow]
      linarith only [hDlo, ht1, hee0, hR2le, hbig]
    · have hR2' : R ≤ 2 := le_of_lt (not_le.mp hbig)
      have hone : (R - 1) ^ 2 ≤ 1 := by
        have := mul_nonneg hR0 (sub_nonneg.mpr hR2')
        have e : R * (2 - R) = 1 - (R - 1) ^ 2 := by ring
        linarith only [this, e]
      have hRsq : 9 / 16 ≤ R ^ 2 := by
        have := mul_nonneg (sub_nonneg.mpr hR1) (by linarith only [hR0] : 0 ≤ R + 3 / 4)
        have e : (R - 3 / 4) * (R + 3 / 4) = R ^ 2 - 9 / 16 := by ring
        linarith only [this, e]
      have hδs : δ ≤ 1 / 1000000 := by rw [hδ]; linarith only [hR2']
      have hee3 : 2 * (1 / 2 + δ) ^ 2 ≤ 51 / 100 := by
        have h5 : (1 / 2 + δ) ≤ 501 / 1000 := by linarith only [hδs]
        have : (1 / 2 + δ) ^ 2 ≤ (501 / 1000) ^ 2 :=
          pow_le_pow_left₀ (by linarith only [hδ0]) h5 2
        have e : ((501 : ℚ) / 1000) ^ 2 = 251001 / 1000000 := by norm_num
        linarith only [this, e]
      have hnz : ¬ (m = 0 ∧ n = 0) := by
        rintro ⟨rfl, rfl⟩
        have hu : u = -e1 := by push_cast at hm; linarith only [hm]
        have hv : v = -e2 := by push_cast at hn; linarith only [hn]
        have h3 : u ^ 2 + v ^ 2 = e1 ^ 2 + e2 ^ 2 := by rw [hu, hv]; ring
        linarith only [h3, hDlo, hRsq, hee1, hee3]
      have hint : 1 ≤ m ^ 2 + n ^ 2 := by
        by_contra hc
        push_neg at hc
        have hm2 : 0 ≤ m ^ 2 := sq_nonneg m
        have hn2 : 0 ≤ n ^ 2 := sq_nonneg n
        have hm0 : m ^ 2 = 0 := by omega
        have hn0 : n ^ 2 = 0 := by omega
        exact hnz ⟨pow_eq_zero_iff (two_ne_zero) |>.mp hm0,
          pow_eq_zero_iff (two_ne_zero) |>.mp hn0⟩
      have hintq : (1 : ℚ) ≤ (m : ℚ) ^ 2 + (n : ℚ) ^ 2 := by exact_mod_cast hint
      linarith only [hone, hintq]
  · rw [hexp, hupp]
    linarith only [hDhi, ht3, hee1, hee2, hRR, hR0]

theorem abs_le_of_sq_sum (R u v P : ℚ) (hR0 : 0 ≤ R) (hD : u ^ 2 + v ^ 2 = R ^ 2 * P)
    (hP2 : P ≤ 1 + 31 / 100000000) :
    |u| ≤ R * (1 + 31 / 100000000) ∧ |v| ≤ R * (1 + 31 / 100000000) := by
  have hR2nn : 0 ≤ R ^ 2 := sq_nonneg R
  have h1 : R ^ 2 * P ≤ R ^ 2 * (1 + 31 / 100000000) := mul_le_mul_of_nonneg_left hP2 hR2nn
  have h2 : R ^ 2 * (1 + 31 / 100000000) ≤ (R * (1 + 31 / 100000000)) ^ 2 := by
    have e : (R * (1 + 31 / 100000000)) ^ 2 - R ^ 2 * (1 + 31 / 100000000) =
        R ^ 2 * ((1 + 31 / 100000000) * (31 / 100000000)) := by ring
    have : 0 ≤ R ^ 2 * ((1 + 31 / 100000000 : ℚ) * (31 / 100000000)) := by positivity
    linarith only [e, this]
  have hu : u ^ 2 ≤ (R * (1 + 31 / 100000000)) ^ 2 := by
    linarith only [hD, h1, h2, sq_nonneg v]
  have hv : v ^ 2 ≤ (R * (1 + 31 / 100000000)) ^ 2 := by
    linarith only [hD, h1, h2, sq_nonneg u]
  exact ⟨abs_le.mpr (abs_le_of_sq_le_sq' hu (by positivity)),
    abs_le.mpr (abs_le_of_sq_le_sq' hv (by positivity))⟩

/-- C12 (as stated, refuted): for `R = 11/16` and no rotation the point of the angle 45 is
`(0, 0)`, at squared distance 0 below `(R - 1) ^ 2`; for `R = 1999999` and a rotation of
13 degrees the point of the angle 22 is `(1638304, 1147153)`, more than `R + 1` from the
centre: the value handed to `roundf` is a `float`, which has a spacing of 1/8 there, and
the squares of the table entries do not add up to exactly 1. -/
theorem ellipse2Points_circle_off_radius :
    ((ellipse2Points ⟨⟨0, 0⟩, ⟨2 * (11 / 16), 2 * (11 / 16)⟩, 0⟩ 1)[45]? =
        some (⟨0, 0⟩ : Point) ∧
      ¬ ((11 / 16 - 1 : ℚ) ^ 2 ≤ ((0 : Int) : ℚ) ^ 2 + ((0 : Int) : ℚ) ^ 2)) ∧
    ((ellipse2Points ⟨⟨0, 0⟩, ⟨2 * 1999999, 2 * 1999999⟩, 13⟩ 1)[22]? =
        some (⟨1638304, 1147153⟩ : Point) ∧
      ¬ (((1638304 : Int) : ℚ) ^ 2 + ((1147153 : Int) : ℚ) ^ 2 ≤ (1999999 + 1 : ℚ) ^ 2)) := by
  refine ⟨⟨by decide!, by norm_num⟩, ⟨by decide!, by norm_num⟩⟩

/-- C12 (amended): for every radius `R` with `3/4 ≤ R ≤ 1000000` and every rotation angle,
each point `(px, py)` that `ellipse2Points` returns for the circle of diameter `2 * R`
centred at the origin, sampled with `delta = 1`, satisfies
`(R - 1) ^ 2 ≤ px ^ 2 + py ^ 2 ≤ (R + 1) ^ 2`. -/
theorem ellipse2Points_circle_radius (R angle : ℚ) (hlo : 3 / 4 ≤ R) (hhi : R ≤ 1000000) :
    ∀ p ∈ ellipse2Points ⟨⟨0, 0⟩, ⟨2 * R, 2 * R⟩, angle⟩ 1,
      (R - 1) ^ 2 ≤ (p.x : ℚ) ^ 2 + (p.y : ℚ) ^ 2 ∧
        (p.x : ℚ) ^ 2 + (p.y : ℚ) ^ 2 ≤ (R + 1) ^ 2 := by
  intro p hp
  have hR0 : 0 ≤ R := by linarith only [hlo]
  unfold ellipse2Points at hp
  simp only [List.mem_map] at hp
  obtain ⟨i, hi, rfl⟩ := hp
  obtain ⟨hi0, hi1⟩ := forLoop_mem 0 360 1 i (by norm_num) hi
  obtain ⟨hn0, hn1, -, -⟩ := normalizedAngle_spec ⟨⟨0, 0⟩, ⟨2 * R, 2 * R⟩, angle⟩
  generalize normalizedAngle ⟨⟨0, 0⟩, ⟨2 * R, 2 * R⟩, angle⟩ = t at hn0 hn1
  have hsc : sincos t = (sinTableAt (450 - t), sinTableAt t) := by
    unfold sincos
    simp [not_lt.mpr hn0]
  rw [hsc]
  simp only [ellipsePoint]
  obtain ⟨ha1, ha2⟩ := sinTableF_unit t hn0 hn1
  obtain ⟨hb1, hb2⟩ := sinTableF_unit i hi0 (by omega)
  have hal := sinTableF_abs (450 - t) (by omega) (by omega)
  have hbe := sinTableF_abs t hn0 (by omega)
  have hc := sinTableF_abs (450 - i) (by omega) (by omega)
  have hs := sinTableF_abs i hi0 (by omega)
  generalize f32 (sinTableAt (450 - t)) = al at ha1 ha2 hal
  generalize f32 (sinTableAt t) = be at ha1 ha2 hbe
  generalize f32 (sinTableAt (450 - i)) = c at hb1 hb2 hc
  generalize f32 (sinTableAt i) = s at hb1 hb2 hs
  have hA0 : 0 ≤ be ^ 2 + al ^ 2 := by positivity
  have hB0 : 0 ≤ s ^ 2 + c ^ 2 := by positivity
  have hP1 : 1 - 31 / 100000000 ≤ (s ^ 2 + c ^ 2) * (be ^ 2 + al ^ 2) := by
    have h := mul_le_mul hb1 ha1 (by norm_num) hB0
    have h0 : (1 - 31 / 100000000 : ℚ) ≤ (1 - 3 / 20000000) * (1 - 3 / 20000000) := by
      norm_num
    linarith only [h, h0]
  have hP2 : (s ^ 2 + c ^ 2) * (be ^ 2 + al ^ 2) ≤ 1 + 31 / 100000000 := by
    have h := mul_le_mul hb2 ha2 hA0 (by norm_num)
    have h0 : ((1 + 3 / 20000000) * (1 + 3 / 20000000) : ℚ) ≤ 1 + 31 / 100000000 := by
      norm_num
    linarith only [h, h0]
  have hD : (R * (c * al - s * be)) ^ 2 + (R * (c * be + s * al)) ^ 2 =
      R ^ 2 * ((s ^ 2 + c ^ 2) * (be ^ 2 + al ^ 2)) := by ring
  obtain ⟨hu0, hv0⟩ := abs_le_of_sq_sum R _ _ _ hR0 hD hP2
  obtain ⟨hV1, hV2⟩ := coordinate_err R c s al be hR0 hhi hc hs hal hbe
  have hF1 := rounded_coordinate_err R _ _ hR0 hV1 hu0
  have hF2 := rounded_coordinate_err R _ _ hR0 hV2 hv0
  have herr : ∀ F u0 : ℚ, |F - u0| ≤ 2 / 100000000 + 6 / 100000000 * R →
      |(roundHalfAway F : ℚ) - u0| ≤ 1 / 2 + (2 / 100000000 + 6 / 100000000 * R) := by
    intro F u0 h
    have e : (roundHalfAway F : ℚ) - u0 = ((roundHalfAway F : ℚ) - F) + (F - u0) := by ring
    rw [e]
    have t1 := abs_add ((roundHalfAway F : ℚ) - F) (F - u0)
    have t2 := roundHalfAway_err F
    linarith only [t1, t2, h]
  exact circle_bounds R (R * (c * al - s * be)) (R * (c * be + s * al)) _ _
    ((s ^ 2 + c ^ 2) * (be ^ 2 + al ^ 2)) _ _ hlo hhi hD hP1 hP2
    (herr _ _ hF1) (herr _ _ hF2) (by ring) (by ring)

/-- Witness of C12 (amended): the circle of radius 5 rotated by 30 degrees. -/
theorem ellipse2Points_circle_radius_witness :
    (3 / 4 : ℚ) ≤ 5 ∧ (5 : ℚ) ≤ 1000000 ∧
      ∀ p ∈ ellipse2Points ⟨⟨0, 0⟩, ⟨2 * 5, 2 * 5⟩, 30⟩ 1,
        ((5 : ℚ) - 1) ^ 2 ≤ (p.x : ℚ) ^ 2 + (p.y : ℚ) ^ 2 ∧
          (p.x : ℚ) ^ 2 + (p.y : ℚ) ^ 2 ≤ ((5 : ℚ) + 1) ^ 2 :=
  ⟨by norm_num, by norm_num, ellipse2Points_circle_radius 5 30 (by norm_num) (by norm_num)⟩

/-! ### The sine table: a consistent sine and cosine pair -/

/-- C21: with the table literals read as exact decimals, for every integer angle `t` in
`[0, 360]` the cosine that `sincos` returns, `sinTable[450 - t]`, is the entry
`sinTable[t + 90]` (both indices inside the table), the sine is `sinTable[t]`, and
`sinTable[t]^2 + sinTable[450 - t]^2` differs from 1 by less than `1e-6`. -/
theorem sinTable_sine_cosine_pair (t : Int) (h0 : 0 ≤ t) (h1 : t ≤ 360) :
    sincos t = (sinTableAt (450 - t), sinTableAt t) ∧
      sinTableAt (450 - t) = sinTableAt (t + 90) ∧
      (450 - t).toNat < sinTable.length ∧ (t + 90).toNat < sinTable.length ∧
      |sinTableAt t ^ 2 + sinTableAt (450 - t) ^ 2 - 1| < 1 / 1000000 := by
  have hm := (sinTable_facts_nat t.toNat (by omega)).2.1
  rw [Int.toNat_of_nonneg h0] at hm
  obtain ⟨hu1, hu2⟩ := sinTable_unit t h0 h1
  refine ⟨?_, hm, ?_, ?_, ?_⟩
  · unfold sincos
    simp [not_lt.mpr h0]
  · rw [sinTable_length]; omega
  · rw [sinTable_length]; omega
  · rw [abs_lt]
    constructor <;> linarith

/-- Witness of C21: the angle 37, with cosine entry `sinTable[413] = sinTable[127]`. -/
theorem sinTable_sine_cosine_pair_witness :
    (0 : Int) ≤ 37 ∧ (37 : Int) ≤ 360 ∧ sinTableAt (450 - 37) = sinTableAt (37 + 90) ∧
      |sinTableAt 37 ^ 2 + sinTableAt (450 - 37) ^ 2 - 1| < 1 / 1000000 :=
  ⟨by decide, by decide,
    (sinTable_sine_cosine_pair 37 (by decide) (by decide)).2.1,
    (sinTable_sine_cosine_pair 37 (by decide) (by decide)).2.2.2.2⟩

/-! ### outlineContrastConfidence on a matching disc -/

theorem disc_facts (R P X Y e : ℚ) (D O : Int)
    (hR1 : 7 / 2 ≤ R) (hR2 : R ≤ 256) (hP1 : 1 - 31 / 100000000 ≤ P)
    (hP2 : P ≤ 1 + 31 / 100000000) (he0 : 0 ≤ e) (he : e ≤ 3 / 10000)
    (hX : 0 ≤ X) (hY : 0 ≤ Y) (hS : X ^ 2 + Y ^ 2 = R ^ 2 * P)
    (hD : |(D : ℚ) - X| ≤ 1 / 2 + e) (hO : |(O : ℚ) - Y| ≤ 1 / 2 + e)
    (hOD : O ≤ D) :
    R ^ 2 ≤ X ^ 2 + Y ^ 2 + 21 / 1000 ∧ X ^ 2 + Y ^ 2 ≤ R ^ 2 + 21 / 1000 ∧
      X ≤ 257 ∧ Y ≤ 257 ∧ R / 2 ≤ X ∧ 49 / 4 ≤ R ^ 2 := by
  have hRR : R ^ 2 ≤ 65536 := by
    have := pow_le_pow_left₀ (by linarith : (0 : ℚ) ≤ R) hR2 2
    norm_num at this
    exact this
  have hRlo : (49 / 4 : ℚ) ≤ R ^ 2 := by
    have := pow_le_pow_left₀ (by norm_num : (0 : ℚ) ≤ 7 / 2) hR1 2
    norm_num at this
    exact this
  have hR2nn : (0 : ℚ) ≤ R ^ 2 := sq_nonneg R
  have h1 : R ^ 2 * (1 - 31 / 100000000) ≤ R ^ 2 * P := mul_le_mul_of_nonneg_left hP1 hR2nn
  have h2 : R ^ 2 * P ≤ R ^ 2 * (1 + 31 / 100000000) := mul_le_mul_of_nonneg_left hP2 hR2nn
  have ha : R ^ 2 ≤ X ^ 2 + Y ^ 2 + 21 / 1000 := by linarith only [h1, hS, hRR]
  have hb : X ^ 2 + Y ^ 2 ≤ R ^ 2 + 21 / 1000 := by linarith only [h2, hS, hRR]
  have hX2 : X ≤ 257 := by
    by_contra hc
    push_neg at hc
    have := pow_lt_pow_left₀ hc (by norm_num : (0 : ℚ) ≤ 257) (by norm_num : 2 ≠ 0)
    norm_num at this
    linarith only [this, hb, hRR, sq_nonneg Y]
  have hY2 : Y ≤ 257 := by
    by_contra hc
    push_neg at hc
    have := pow_lt_pow_left₀ hc (by norm_num : (0 : ℚ) ≤ 257) (by norm_num : 2 ≠ 0)
    norm_num at this
    linarith only [this, hb, hRR, sq_nonneg X]
  refine ⟨ha, hb, hX2, hY2, ?_, hRlo⟩
  by_contra hc
  push_neg at hc
  have hOq : (O : ℚ) ≤ D := by exact_mod_cast hOD
  have hY3 : Y < R / 2 + 1 + 2 * e := by
    have := (abs_le.mp hD).2
    have := (abs_le.mp hO).1
    linarith
  have hXX : X ^ 2 < (R / 2) ^ 2 := pow_lt_pow_left₀ hc hX (by norm_num)
  have hYY : Y ^ 2 < (R / 2 + 1 + 2 * e) ^ 2 := pow_lt_pow_left₀ hY3 hY (by norm_num)
  have hYY2 : (R / 2 + 1 + 2 * e) ^ 2 ≤ (R / 2 + 1 + 6 / 10000) ^ 2 :=
    pow_le_pow_left₀ (by linarith) (by linarith) 2
  have key : R ^ 2 - 20012 / 10000 * R - 21 / 10 =
      (R - 7 / 2) ^ 2 + (7 - 20012 / 10000) * (R - 7 / 2) + (49 / 4 - 70042 / 10000 - 21 / 10) := by
    ring
  have k1 : 0 ≤ (R - 7 / 2) ^ 2 := sq_nonneg _
  have k2 : 0 ≤ (7 - 20012 / 10000 : ℚ) * (R - 7 / 2) := mul_nonneg (by norm_num) (by linarith)
  have e1 : (R / 2) ^ 2 + (R / 2 + 1 + 6 / 10000) ^ 2 =
      R ^ 2 / 2 + 10006 / 10000 * R + (10006 / 10000) ^ 2 := by ring
  have : (0 : ℚ) < 49 / 4 - 70042 / 10000 - 21 / 10 := by norm_num
  have e2 : ((10006 / 10000 : ℚ)) ^ 2 ≤ 10013 / 10000 := by norm_num
  linarith only [key, k1, k2, e1, hXX, hYY, hYY2, ha, this, e2]

theorem disc_geometry (R P X Y e : ℚ) (D O : Int)
    (hR1 : 7 / 2 ≤ R) (hR2 : R ≤ 256) (hP1 : 1 - 31 / 100000000 ≤ P)
    (hP2 : P ≤ 1 + 31 / 100000000) (he0 : 0 ≤ e) (he : e ≤ 3 / 10000)
    (hX : 0 ≤ X) (hY : 0 ≤ Y) (hS : X ^ 2 + Y ^ 2 = R ^ 2 * P)
    (hD : |(D : ℚ) - X| ≤ 1 / 2 + e) (hO : |(O : ℚ) - Y| ≤ 1 / 2 + e)
    (hO0 : 0 ≤ O) (hOD : O ≤ D) :
    R ^ 2 < ((D : ℚ) + 1) ^ 2 + (O : ℚ) ^ 2 ∧
      ((D : ℚ) - 1) ^ 2 + (min (O : ℚ) ((D : ℚ) - 1)) ^ 2 ≤ R ^ 2 ∧
      3 * R / 10 ≤ 2 * (D : ℚ) - 1 ∧ 2 ≤ D := by
  obtain ⟨ha, hb, hX2, hY2, hXR, hRlo⟩ :=
    disc_facts R P X Y e D O hR1 hR2 hP1 hP2 he0 he hX hY hS hD hO hOD
  obtain ⟨hD1, hD2⟩ := abs_le.mp hD
  obtain ⟨hO1, hO2⟩ := abs_le.mp hO
  have hOq : (O : ℚ) ≤ D := by exact_mod_cast hOD
  have hO0q : (0 : ℚ) ≤ O := by exact_mod_cast hO0
  have heX : e * X ≤ 3 / 10000 * 257 := mul_le_mul he hX2 hX (by norm_num)
  have heY : e * Y ≤ 3 / 10000 * 257 := mul_le_mul he hY2 hY (by norm_num)
  have heX0 : 0 ≤ e * X := mul_nonneg he0 hX
  have heY0 : 0 ≤ e * Y := mul_nonneg he0 hY
  have hee : 0 ≤ e ^ 2 := sq_nonneg e
  have hee2 : e ^ 2 ≤ 1 / 1000000 := by
    have := pow_le_pow_left₀ he0 he 2
    norm_num at this ⊢
    linarith
  have hDgt : (1 : ℚ) < D := by linarith
  have hD2' : (2 : Int) ≤ D := by
    have : (1 : Int) < D := by exact_mod_cast hDgt
    omega
  have hD2q : (2 : ℚ) ≤ D := by exact_mod_cast hD2'
  refine ⟨?_, ?_, by linarith, hD2'⟩
  · -- outside
    have hsq1 : ∀ Z : ℚ, (Z + 1 / 2 - e) ^ 2 = Z ^ 2 + Z - 2 * (e * Z) + (1 / 4 - e + e ^ 2) := by
      intro Z; ring
    have hsq2 : ∀ Z : ℚ, (Z - (1 / 2 + e)) ^ 2 =
        Z ^ 2 - Z - 2 * (e * Z) + (1 / 4 + e + e ^ 2) := by
      intro Z; ring
    rcases le_or_lt Y X with hYX | hXY
    · have hA : (X + 1 / 2 - e) ^ 2 ≤ ((D : ℚ) + 1) ^ 2 :=
        pow_le_pow_left₀ (by linarith) (by linarith) 2
      rw [hsq1] at hA
      rcases le_or_lt (1 / 2 + e) Y with hYh | hYh
      · have hB : (Y - (1 / 2 + e)) ^ 2 ≤ (O : ℚ) ^ 2 :=
          pow_le_pow_left₀ (by linarith) (by linarith) 2
        rw [hsq2] at hB
        linarith only [hA, hB, ha, heX, heY, hee, hYX, he0, he]
      · have hYY : Y ^ 2 < (1 / 2 + e) ^ 2 := pow_lt_pow_left₀ hYh hY (by norm_num)
        have e3 : (1 / 2 + e) ^ 2 = 1 / 4 + e + e ^ 2 := by ring
        have hX3 : (3 : ℚ) ≤ X := by
          by_contra hc
          push_neg at hc
          have := pow_lt_pow_left₀ hc hX (by norm_num : 2 ≠ 0)
          norm_num at this
          linarith only [this, hYY, e3, ha, hRlo, he, hee2]
        have hOO : (0 : ℚ) ≤ (O : ℚ) ^ 2 := sq_nonneg _
        linarith only [hA, hOO, ha, hYY, e3, hX3, heX, he, he0, hee]
    · have hY2' : (2 : ℚ) ≤ Y := by
        by_contra hc
        push_neg at hc
        have h1 := pow_lt_pow_left₀ hc hY (by norm_num : 2 ≠ 0)
        have h2 := pow_lt_pow_left₀ hXY hX (by norm_num : 2 ≠ 0)
        norm_num at h1
        linarith only [h1, h2, ha, hRlo]
      have hA : (Y + 1 / 2 - e) ^ 2 ≤ ((D : ℚ) + 1) ^ 2 :=
        pow_le_pow_left₀ (by linarith) (by linarith) 2
      rw [hsq1] at hA
      have hB : (Y - (1 / 2 + e)) ^ 2 ≤ (O : ℚ) ^ 2 :=
        pow_le_pow_left₀ (by linarith) (by linarith) 2
      rw [hsq2] at hB
      have h2 := pow_lt_pow_left₀ hXY hX (by norm_num : 2 ≠ 0)
      linarith only [hA, hB, ha, h2, heY, hee]
  · -- inside
    have hM0 : (0 : ℚ) ≤ min (O : ℚ) ((D : ℚ) - 1) := le_min hO0q (by linarith)
    have hsq1 : ∀ Z : ℚ, (Z - 1 / 2 + e) ^ 2 = Z ^ 2 - Z + 2 * (e * Z) + (1 / 4 - e + e ^ 2) := by
      intro Z; ring
    have hsq2 : ∀ Z : ℚ, (Z + (1 / 2 + e)) ^ 2 =
        Z ^ 2 + Z + 2 * (e * Z) + (1 / 4 + e + e ^ 2) := by
      intro Z; ring
    have hA : ((D : ℚ) - 1) ^ 2 ≤ (X - 1 / 2 + e) ^ 2 :=
      pow_le_pow_left₀ (by linarith) (by linarith) 2
    rw [hsq1] at hA
    rcases le_or_lt 1 (X - Y) with hc | hc
    · have hB : (min (O : ℚ) ((D : ℚ) - 1)) ^ 2 ≤ (Y + (1 / 2 + e)) ^ 2 :=
        pow_le_pow_left₀ hM0 (le_trans (min_le_left _ _) (by linarith)) 2
      rw [hsq2] at hB
      linarith only [hA, hB, hb, hc, heX, heY, hee2, he]
    · have hB : (min (O : ℚ) ((D : ℚ) - 1)) ^ 2 ≤ (X - 1 / 2 + e) ^ 2 :=
        pow_le_pow_left₀ hM0 (le_trans (min_le_right _ _) (by linarith)) 2
      rw [hsq1] at hB
      have hX1 : (1 : ℚ) ≤ X := by linarith
      have hYY : (X - 1) ^ 2 < Y ^ 2 := pow_lt_pow_left₀ (by linarith) (by linarith) (by norm_num)
      have e4 : (X - 1) ^ 2 = X ^ 2 - 2 * X + 1 := by ring
      linarith only [hA, hB, hb, hYY, e4, heX, hee2, he, he0]

theorem sample_offsets (o d t J : Int) (hd : d ≠ 0) (hod : |o| ≤ |d|)
    (herr : |(J : ℚ) - (o : ℚ) / (d : ℚ) * (t : ℚ)| ≤ 51 / 100) :
    (|d| + 1 ≤ |t| → |o| ≤ |J|) ∧ (|t| ≤ |d| - 1 → |J| ≤ |o| ∧ |J| ≤ |t|) := by
  have hdq : (0 : ℚ) < |(d : ℚ)| := abs_pos.mpr (by exact_mod_cast hd)
  have hoq : |(o : ℚ)| ≤ |(d : ℚ)| := by exact_mod_cast hod
  have hprod : |(o : ℚ) / (d : ℚ) * (t : ℚ)| = |(o : ℚ)| * |(t : ℚ)| / |(d : ℚ)| := by
    rw [abs_mul, abs_div]
    ring
  have h1 : |(J : ℚ)| ≤ |(o : ℚ) / (d : ℚ) * (t : ℚ)| + 51 / 100 := by
    have := abs_sub_abs_le_abs_sub (J : ℚ) ((o : ℚ) / (d : ℚ) * (t : ℚ))
    linarith
  have h2 : |(o : ℚ) / (d : ℚ) * (t : ℚ)| ≤ |(J : ℚ)| + 51 / 100 := by
    have := abs_sub_abs_le_abs_sub ((o : ℚ) / (d : ℚ) * (t : ℚ)) (J : ℚ)
    rw [abs_sub_comm] at this
    linarith
  have ho0 : (0 : ℚ) ≤ |(o : ℚ)| := abs_nonneg _
  have ht0 : (0 : ℚ) ≤ |(t : ℚ)| := abs_nonneg _
  constructor
  · intro ht
    have htq : |(d : ℚ)| + 1 ≤ |(t : ℚ)| := by exact_mod_cast ht
    have h3 : |(o : ℚ)| ≤ |(o : ℚ)| * |(t : ℚ)| / |(d : ℚ)| := by
      rw [le_div_iff₀ hdq]
      exact mul_le_mul_of_nonneg_left (by linarith) ho0
    have h4 : |(o : ℚ)| - 51 / 100 ≤ |(J : ℚ)| := by
      rw [hprod] at h2
      linarith
    have h5 : ((|o| : Int) : ℚ) - 1 < ((|J| : Int) : ℚ) := by
      push_cast
      linarith
    have h6 : |o| - 1 < |J| := by exact_mod_cast h5
    omega
  · intro ht
    have htq : |(t : ℚ)| ≤ |(d : ℚ)| - 1 := by exact_mod_cast ht
    have h3 : |(o : ℚ)| * |(t : ℚ)| / |(d : ℚ)| ≤ |(o : ℚ)| := by
      rw [div_le_iff₀ hdq]
      exact mul_le_mul_of_nonneg_left (by linarith) ho0
    have h3' : |(o : ℚ)| * |(t : ℚ)| / |(d : ℚ)| ≤ |(t : ℚ)| := by
      rw [div_le_iff₀ hdq, mul_comm]
      exact mul_le_mul_of_nonneg_left hoq ht0
    rw [hprod] at h1
    have h5 : ((|J| : Int) : ℚ) < ((|o| : Int) : ℚ) + 1 := by
      push_cast
      linarith
    have h5' : ((|J| : Int) : ℚ) < ((|t| : Int) : ℚ) + 1 := by
      push_cast
      linarith
    have h6 : |J| < |o| + 1 := by exact_mod_cast h5
    have h6' : |J| < |t| + 1 := by exact_mod_cast h5'
    constructor <;> omega

theorem disc_sample_outside (R : ℚ) (D O t J : Int)
    (hg : R ^ 2 < ((D : ℚ) + 1) ^ 2 + (O : ℚ) ^ 2) (hD : 0 ≤ D) (hO : 0 ≤ O)
    (ht : D + 1 ≤ |t|) (hJ : O ≤ |J|) : ¬ ((t : ℚ) ^ 2 + (J : ℚ) ^ 2 ≤ R ^ 2) := by
  have h1 : ((D : ℚ) + 1) ^ 2 ≤ (t : ℚ) ^ 2 := by
    rw [← sq_abs (t : ℚ)]
    apply pow_le_pow_left₀ (by exact_mod_cast (by omega : (0 : Int) ≤ D + 1))
    exact_mod_cast ht
  have h2 : (O : ℚ) ^ 2 ≤ (J : ℚ) ^ 2 := by
    rw [← sq_abs (J : ℚ)]
    apply pow_le_pow_left₀ (by exact_mod_cast hO)
    exact_mod_cast hJ
  intro h
  linarith

theorem disc_sample_inside (R : ℚ) (D O t J : Int)
    (hg : ((D : ℚ) - 1) ^ 2 + (min (O : ℚ) ((D : ℚ) - 1)) ^ 2 ≤ R ^ 2)
    (ht : |t| ≤ D - 1) (hJ1 : |J| ≤ O) (hJ2 : |J| ≤ |t|) :
    (t : ℚ) ^ 2 + (J : ℚ) ^ 2 ≤ R ^ 2 := by
  have h1 : (t : ℚ) ^ 2 ≤ ((D : ℚ) - 1) ^ 2 := by
    rw [← sq_abs (t : ℚ)]
    apply pow_le_pow_left₀ (abs_nonneg _)
    exact_mod_cast ht
  have h2 : (J : ℚ) ^ 2 ≤ (min (O : ℚ) ((D : ℚ) - 1)) ^ 2 := by
    rw [← sq_abs (J : ℚ)]
    apply pow_le_pow_left₀ (abs_nonneg _)
    apply le_min
    · exact_mod_cast hJ1
    · exact_mod_cast (le_trans hJ2 ht)
  linarith

theorem toFloat_near (q q0 E B : ℚ) (h : |q - q0| ≤ E) (hB : |q0| ≤ B) :
    |toFloat q - q0| ≤ E + (B + E) / 16777216 := by
  have h1 := toFloat_err q
  have h2 : |q| ≤ B + E := by
    have := abs_sub_abs_le_abs_sub q q0
    linarith
  have h3 : |toFloat q - q0| ≤ |toFloat q - q| + |q - q0| := by
    have := abs_add (toFloat q - q) (q - q0)
    rwa [sub_add_sub_cancel] at this
  have h4 : |q| * (1 / 2 ^ 24) ≤ (B + E) / 16777216 := by
    rw [div_eq_mul_one_div (B + E)]
    norm_num
    linarith
  linarith

theorem slopeOf_eq (c p : Point) (hm : p.x - c.x ≠ 0) (hn : |p.y - c.y| ≤ 16777216)
    (hmB : |p.x - c.x| ≤ 16777216) :
    slopeOf c p = toFloat (((p.y - c.y : Int) : ℚ) / ((p.x - c.x : Int) : ℚ)) := by
  unfold slopeOf
  simp only [ne_eq, hm, not_false_eq_true, if_true]
  rw [toFloat_intCast _ hn, toFloat_intCast _ hmB]

theorem toFloat_abs_le_one (r : ℚ) (h : |r| ≤ 1) : |toFloat r| ≤ 1 := by
  obtain ⟨h1, h2⟩ := abs_le.mp h
  have a1 := toFloat_mono h1
  have a2 := toFloat_mono h2
  have e1 : toFloat (-1 : ℚ) = -1 := by
    have := toFloat_intCast (-1) (by norm_num)
    simpa using this
  have e2 : toFloat (1 : ℚ) = 1 := by
    have := toFloat_intCast 1 (by norm_num)
    simpa using this
  rw [e1] at a1
  rw [e2] at a2
  exact abs_le.mpr ⟨a1, a2⟩

theorem lineAt_err (c p : Point) (x : Int) (hm : p.x - c.x ≠ 0)
    (hdom : |p.y - c.y| ≤ |p.x - c.x|) (hmB : |p.x - c.x| ≤ 4096)
    (hcx : |c.x| ≤ 4096) (hcy : |c.y| ≤ 4096) (hx : |x| ≤ 4096) :
    |lineAt (slopeOf c p) (interceptOf c (slopeOf c p)) x -
        ((c.y : ℚ) + ((p.y - c.y : Int) : ℚ) / ((p.x - c.x : Int) : ℚ) * ((x : ℚ) - c.x))| ≤
      1 / 100 := by
  rw [slopeOf_eq c p hm (by omega) (by omega)]
  unfold lineAt interceptOf
  rw [toFloat_intCast c.x (by omega), toFloat_intCast c.y (by omega),
    toFloat_intCast x (by omega)]
  obtain ⟨r, hr⟩ : ∃ r : ℚ, r = ((p.y - c.y : Int) : ℚ) / ((p.x - c.x : Int) : ℚ) := ⟨_, rfl⟩
  rw [← hr]
  have hmq : (0 : ℚ) < |((p.x - c.x : Int) : ℚ)| := abs_pos.mpr (by exact_mod_cast hm)
  have hr1 : |r| ≤ 1 := by
    rw [hr, abs_div, div_le_one hmq]
    exact_mod_cast hdom
  obtain ⟨a, ha⟩ : ∃ a : ℚ, a = toFloat r := ⟨_, rfl⟩
  rw [← ha]
  have ha1 : |a| ≤ 1 := by rw [ha]; exact toFloat_abs_le_one r hr1
  have har : |a - r| ≤ 1 / 16777216 := by
    have := toFloat_err r
    rw [← ha] at this
    have h2 : |r| * (1 / 2 ^ 24) ≤ 1 / 16777216 := by
      norm_num
      linarith
    linarith
  have hcxq : |(c.x : ℚ)| ≤ 4096 := by exact_mod_cast hcx
  have hcyq : |(c.y : ℚ)| ≤ 4096 := by exact_mod_cast hcy
  have hxq : |(x : ℚ)| ≤ 4096 := by exact_mod_cast hx
  -- products with a
  have prod : ∀ z : ℚ, |z| ≤ 4096 → |toFloat (a * z) - r * z| ≤ 1 / 2000 := by
    intro z hz
    have h1 : |a * z - r * z| ≤ 4096 / 16777216 := by
      rw [← sub_mul, abs_mul]
      calc |a - r| * |z| ≤ 1 / 16777216 * 4096 :=
            mul_le_mul har hz (abs_nonneg _) (by norm_num)
        _ = 4096 / 16777216 := by ring
    have h2 : |r * z| ≤ 4096 := by
      rw [abs_mul]
      calc |r| * |z| ≤ 1 * 4096 := mul_le_mul hr1 hz (abs_nonneg _) (by norm_num)
        _ = 4096 := by ring
    have := toFloat_near (a * z) (r * z) _ _ h1 h2
    norm_num at this ⊢
    linarith
  have hT := prod (c.x : ℚ) hcxq
  have hS := prod (x : ℚ) hxq
  obtain ⟨T, hTd⟩ : ∃ T : ℚ, T = toFloat (a * (c.x : ℚ)) := ⟨_, rfl⟩
  obtain ⟨S, hSd⟩ : ∃ S : ℚ, S = toFloat (a * (x : ℚ)) := ⟨_, rfl⟩
  rw [← hTd] at hT ⊢
  rw [← hSd] at hS ⊢
  have hrcx : |r * (c.x : ℚ)| ≤ 4096 := by
    rw [abs_mul]
    calc |r| * |(c.x : ℚ)| ≤ 1 * 4096 := mul_le_mul hr1 hcxq (abs_nonneg _) (by norm_num)
      _ = 4096 := by ring
  have hrx : |r * (x : ℚ)| ≤ 4096 := by
    rw [abs_mul]
    calc |r| * |(x : ℚ)| ≤ 1 * 4096 := mul_le_mul hr1 hxq (abs_nonneg _) (by norm_num)
      _ = 4096 := by ring
  have hb : |toFloat ((c.y : ℚ) - T) - ((c.y : ℚ) - r * (c.x : ℚ))| ≤ 1 / 1000 := by
    have h1 : |((c.y : ℚ) - T) - ((c.y : ℚ) - r * (c.x : ℚ))| ≤ 1 / 2000 := by
      have e : ((c.y : ℚ) - T) - ((c.y : ℚ) - r * (c.x : ℚ)) = -(T - r * (c.x : ℚ)) := by ring
      rw [e, abs_neg]
      exact hT
    have h2 : |(c.y : ℚ) - r * (c.x : ℚ)| ≤ 8192 := by
      have := abs_sub (c.y : ℚ) (r * (c.x : ℚ))
      linarith
    have := toFloat_near _ _ _ _ h1 h2
    norm_num at this ⊢
    linarith
  obtain ⟨b, hbd⟩ : ∃ b : ℚ, b = toFloat ((c.y : ℚ) - T) := ⟨_, rfl⟩
  rw [← hbd] at hb ⊢
  have h1 : |(S + b) - ((c.y : ℚ) + r * ((x : ℚ) - c.x))| ≤ 3 / 2000 := by
    have e : (S + b) - ((c.y : ℚ) + r * ((x : ℚ) - c.x)) =
        (S - r * (x : ℚ)) + (b - ((c.y : ℚ) - r * (c.x : ℚ))) := by ring
    rw [e]
    have := abs_add (S - r * (x : ℚ)) (b - ((c.y : ℚ) - r * (c.x : ℚ)))
    linarith
  have h2 : |(c.y : ℚ) + r * ((x : ℚ) - c.x)| ≤ 12288 := by
    have e : (c.y : ℚ) + r * ((x : ℚ) - c.x) = (c.y : ℚ) + (r * (x : ℚ) - r * (c.x : ℚ)) := by
      ring
    rw [e]
    have t1 := abs_add (c.y : ℚ) (r * (x : ℚ) - r * (c.x : ℚ))
    have t2 := abs_sub (r * (x : ℚ)) (r * (c.x : ℚ))
    linarith
  have := toFloat_near _ _ _ _ h1 h2
  norm_num at this ⊢
  linarith
theorem lineInvAt_err (c p : Point) (y : Int) (hm : p.x - c.x ≠ 0)
    (hdom : |p.x - c.x| ≤ |p.y - c.y|) (hnB : |p.y - c.y| ≤ 4096)
    (hcx : |c.x| ≤ 4096) (hcy : |c.y| ≤ 4096) (hy : |y| ≤ 4096) :
    |lineInvAt (slopeOf c p) (interceptOf c (slopeOf c p)) y -
        ((c.x : ℚ) + ((p.x - c.x : Int) : ℚ) / ((p.y - c.y : Int) : ℚ) * ((y : ℚ) - c.y))| ≤
      1 / 100 := by
  rw [slopeOf_eq c p hm (by omega) (by omega)]
  unfold lineInvAt interceptOf
  rw [toFloat_intCast c.x (by omega), toFloat_intCast c.y (by omega),
    toFloat_intCast y (by omega)]
  have hn : p.y - c.y ≠ 0 := by
    intro h
    rw [h] at hdom
    have : |p.x - c.x| = 0 := le_antisymm hdom (abs_nonneg _)
    exact hm (abs_eq_zero.mp this)
  obtain ⟨n, hnd⟩ : ∃ n : ℚ, n = ((p.y - c.y : Int) : ℚ) := ⟨_, rfl⟩
  obtain ⟨m, hmd⟩ : ∃ m : ℚ, m = ((p.x - c.x : Int) : ℚ) := ⟨_, rfl⟩
  rw [← hnd, ← hmd]
  have hm0 : m ≠ 0 := by rw [hmd]; exact_mod_cast hm
  have hn0 : n ≠ 0 := by rw [hnd]; exact_mod_cast hn
  have hmn : |m| ≤ |n| := by rw [hmd, hnd]; exact_mod_cast hdom
  have hmpos : 0 < |m| := abs_pos.mpr hm0
  have hnpos : 0 < |n| := abs_pos.mpr hn0
  obtain ⟨r, hr⟩ : ∃ r : ℚ, r = n / m := ⟨_, rfl⟩
  rw [← hr]
  obtain ⟨ρ, hρ⟩ : ∃ ρ : ℚ, ρ = |r| := ⟨_, rfl⟩
  have hρ1 : 1 ≤ ρ := by
    rw [hρ, hr, abs_div, one_le_div hmpos]
    exact hmn
  have hr0 : r ≠ 0 := by rw [hr]; exact div_ne_zero hn0 hm0
  have hmr : m / n = 1 / r := by rw [hr]; field_simp
  obtain ⟨a, ha⟩ : ∃ a : ℚ, a = toFloat r := ⟨_, rfl⟩
  rw [← ha]
  have har : |a - r| ≤ ρ / 16777216 := by
    have := toFloat_err r
    rw [← ha, ← hρ] at this
    have h2 : ρ * (1 / 2 ^ 24) = ρ / 16777216 := by norm_num; ring
    linarith
  have halo : ρ * (999 / 1000) ≤ |a| := by
    have := abs_sub_abs_le_abs_sub r a
    rw [abs_sub_comm] at this
    rw [← hρ] at this
    linarith
  have hapos : 0 < |a| := by linarith
  have ha0 : a ≠ 0 := abs_pos.mp hapos
  have hcxq : |(c.x : ℚ)| ≤ 4096 := by exact_mod_cast hcx
  have hcyq : |(c.y : ℚ)| ≤ 4096 := by exact_mod_cast hcy
  have hyq : |(y : ℚ)| ≤ 4096 := by exact_mod_cast hy
  have hρ0 : 0 ≤ ρ := by linarith
  have hrcx : |r * (c.x : ℚ)| ≤ 4096 * ρ := by
    rw [abs_mul, ← hρ, mul_comm]
    exact mul_le_mul_of_nonneg_right hcxq hρ0
  -- T
  have hT : |toFloat (a * (c.x : ℚ)) - r * (c.x : ℚ)| ≤ ρ / 2000 := by
    have h1 : |a * (c.x : ℚ) - r * (c.x : ℚ)| ≤ 4096 * ρ / 16777216 := by
      rw [← sub_mul, abs_mul]
      calc |a - r| * |(c.x : ℚ)| ≤ ρ / 16777216 * 4096 :=
            mul_le_mul har hcxq (abs_nonneg _) (by positivity)
        _ = 4096 * ρ / 16777216 := by ring
    have := toFloat_near _ _ _ _ h1 hrcx
    have e : 4096 * ρ / 16777216 + (4096 * ρ + 4096 * ρ / 16777216) / 16777216 ≤ ρ / 2000 := by
      have : 4096 * ρ / 16777216 + (4096 * ρ + 4096 * ρ / 16777216) / 16777216 =
          ρ * (4096 / 16777216 + (4096 + 4096 / 16777216) / 16777216) := by ring
      rw [this, div_eq_mul_one_div ρ 2000]
      exact mul_le_mul_of_nonneg_left (by norm_num) hρ0
    linarith
  obtain ⟨T, hTd⟩ : ∃ T : ℚ, T = toFloat (a * (c.x : ℚ)) := ⟨_, rfl⟩
  rw [← hTd] at hT ⊢
  -- b
  have hb : |toFloat ((c.y : ℚ) - T) - ((c.y : ℚ) - r * (c.x : ℚ))| ≤ ρ / 1000 := by
    have h1 : |((c.y : ℚ) - T) - ((c.y : ℚ) - r * (c.x : ℚ))| ≤ ρ / 2000 := by
      have e : ((c.y : ℚ) - T) - ((c.y : ℚ) - r * (c.x : ℚ)) = -(T - r * (c.x : ℚ)) := by ring
      rw [e, abs_neg]
      exact hT
    have h2 : |(c.y : ℚ) - r * (c.x : ℚ)| ≤ 8192 * ρ := by
      have := abs_sub (c.y : ℚ) (r * (c.x : ℚ))
      linarith
    have := toFloat_near _ _ _ _ h1 h2
    have e : ρ / 2000 + (8192 * ρ + ρ / 2000) / 16777216 ≤ ρ / 1000 := by
      have : ρ / 2000 + (8192 * ρ + ρ / 2000) / 16777216 =
          ρ * (1 / 2000 + (8192 + 1 / 2000) / 16777216) := by ring
      rw [this, div_eq_mul_one_div ρ 1000]
      exact mul_le_mul_of_nonneg_left (by norm_num) hρ0
    linarith
  obtain ⟨b, hbd⟩ : ∃ b : ℚ, b = toFloat ((c.y : ℚ) - T) := ⟨_, rfl⟩
  rw [← hbd] at hb ⊢
  -- W
  have hW : |toFloat ((y : ℚ) - b) - ((y : ℚ) - ((c.y : ℚ) - r * (c.x : ℚ)))| ≤ ρ / 500 := by
    have h1 : |((y : ℚ) - b) - ((y : ℚ) - ((c.y : ℚ) - r * (c.x : ℚ)))| ≤ ρ / 1000 := by
      have e : ((y : ℚ) - b) - ((y : ℚ) - ((c.y : ℚ) - r * (c.x : ℚ))) =
          -(b - ((c.y : ℚ) - r * (c.x : ℚ))) := by ring
      rw [e, abs_neg]
      exact hb
    have h2 : |(y : ℚ) - ((c.y : ℚ) - r * (c.x : ℚ))| ≤ 12288 * ρ := by
      have t1 := abs_sub (y : ℚ) ((c.y : ℚ) - r * (c.x : ℚ))
      have t2 := abs_sub (c.y : ℚ) (r * (c.x : ℚ))
      linarith
    have := toFloat_near _ _ _ _ h1 h2
    have e : ρ / 1000 + (12288 * ρ + ρ / 1000) / 16777216 ≤ ρ / 500 := by
      have : ρ / 1000 + (12288 * ρ + ρ / 1000) / 16777216 =
          ρ * (1 / 1000 + (12288 + 1 / 1000) / 16777216) := by ring
      rw [this, div_eq_mul_one_div ρ 500]
      exact mul_le_mul_of_nonneg_left (by norm_num) hρ0
    linarith
  obtain ⟨W, hWd⟩ : ∃ W : ℚ, W = toFloat ((y : ℚ) - b) := ⟨_, rfl⟩
  rw [← hWd] at hW ⊢
  -- the exact column
  obtain ⟨E, hE⟩ : ∃ E : ℚ, E = (c.x : ℚ) + m / n * ((y : ℚ) - c.y) := ⟨_, rfl⟩
  rw [← hE]
  have hEB : |E| ≤ 12288 := by
    rw [hE]
    have t1 := abs_add (c.x : ℚ) (m / n * ((y : ℚ) - c.y))
    have t2 : |m / n * ((y : ℚ) - c.y)| ≤ 8192 := by
      rw [abs_mul, abs_div]
      have t3 : |m| / |n| ≤ 1 := (div_le_one hnpos).mpr hmn
      have t4 := abs_sub (y : ℚ) (c.y : ℚ)
      calc |m| / |n| * |(y : ℚ) - c.y| ≤ 1 * 8192 :=
            mul_le_mul t3 (by linarith) (abs_nonneg _) (by norm_num)
        _ = 8192 := by ring
    linarith
  have hW0 : (y : ℚ) - ((c.y : ℚ) - r * (c.x : ℚ)) = r * E := by
    rw [hE, hmr]
    field_simp
    ring
  rw [hW0] at hW
  have hdiv : |W / a - E| ≤ 4 / 1000 := by
    have e : W / a - E = (W - r * E + (r - a) * E) / a := by
      field_simp
      ring
    rw [e, abs_div, div_le_iff₀ hapos]
    have t1 := abs_add (W - r * E) ((r - a) * E)
    have t2 : |(r - a) * E| ≤ ρ / 16777216 * 12288 := by
      rw [abs_mul, abs_sub_comm]
      exact mul_le_mul har hEB (abs_nonneg _) (by positivity)
    have t3 : ρ / 16777216 * 12288 ≤ ρ / 1000 := by
      have : ρ / 16777216 * 12288 = ρ * (12288 / 16777216) := by ring
      rw [this, div_eq_mul_one_div ρ 1000]
      exact mul_le_mul_of_nonneg_left (by norm_num) hρ0
    linarith
  have := toFloat_near _ _ _ _ hdiv hEB
  norm_num at this ⊢
  linarith

theorem rounded_offset_err (C : Int) (V u0 : ℚ) (hC : |C| ≤ 4096)
    (hV : |V - ((C : ℚ) + u0)| ≤ 8 / 2 ^ 30) (hu : |u0| ≤ 512) :
    |((roundHalfAway (f32 V) - C : Int) : ℚ) - u0| ≤ 1 / 2 + 3 / 10000 := by
  have hCq : |(C : ℚ)| ≤ 4096 := by exact_mod_cast hC
  have h1 := f32_err V
  have hU : |(C : ℚ) + u0| ≤ 4608 := by
    have := abs_add (C : ℚ) u0
    linarith only [this, hCq, hu]
  have hVabs : |V| ≤ 4608 + 8 / 2 ^ 30 := by
    have := abs_sub_abs_le_abs_sub V ((C : ℚ) + u0)
    linarith only [this, hV, hU]
  have h2 : |V| * (1 / 2 ^ 24) ≤ (4608 + 8 / 2 ^ 30) * (1 / 2 ^ 24) :=
    mul_le_mul_of_nonneg_right hVabs (by positivity)
  have h3 := roundHalfAway_err (f32 V)
  have e : ((roundHalfAway (f32 V) - C : Int) : ℚ) - u0 =
      ((roundHalfAway (f32 V) : ℚ) - f32 V) + ((f32 V - V) + (V - ((C : ℚ) + u0))) := by
    push_cast
    ring
  rw [e]
  have t1 := abs_add ((roundHalfAway (f32 V) : ℚ) - f32 V) ((f32 V - V) + (V - ((C : ℚ) + u0)))
  have t2 := abs_add (f32 V - V) (V - ((C : ℚ) + u0))
  have c3 : ((4608 : ℚ) + 8 / 2 ^ 30) * (1 / 2 ^ 24) + 1 / 2 ^ 150 + 8 / 2 ^ 30 ≤ 3 / 10000 := by
    norm_num
  linarith only [t1, t2, h1, h2, h3, hV, c3]

/-- The offsets of a point of `ellipse2Points` from an integer centre, for a circle of
radius `R ≤ 256`: each is within `1/2 + 3/10000` of the value `R cos`, `R sin` formed from
the `float` table entries. -/
theorem ellipsePoint_offsets (cx cy : Int) (R angle alpha beta : ℚ) (i : Int)
    (hcx : |cx| ≤ 4096) (hcy : |cy| ≤ 4096) (hR0 : 0 ≤ R) (hR2 : R ≤ 256)
    (hc : |f32 (sinTableAt (450 - i))| ≤ 1) (hs : |f32 (sinTableAt i)| ≤ 1)
    (hal : |f32 alpha| ≤ 1) (hbe : |f32 beta| ≤ 1) :
    |(((ellipsePoint ⟨⟨cx, cy⟩, ⟨2 * R, 2 * R⟩, angle⟩ alpha beta i).x - cx : Int) : ℚ) -
        R * (f32 (sinTableAt (450 - i)) * f32 alpha - f32 (sinTableAt i) * f32 beta)| ≤
        1 / 2 + 3 / 10000 ∧
      |(((ellipsePoint ⟨⟨cx, cy⟩, ⟨2 * R, 2 * R⟩, angle⟩ alpha beta i).y - cy : Int) : ℚ) -
        R * (f32 (sinTableAt (450 - i)) * f32 beta + f32 (sinTableAt i) * f32 alpha)| ≤
        1 / 2 + 3 / 10000 := by
  simp only [ellipsePoint]
  generalize f32 alpha = al at hal
  generalize f32 beta = be at hbe
  generalize f32 (sinTableAt (450 - i)) = c at hc
  generalize f32 (sinTableAt i) = s at hs
  have hcxq : |(cx : ℚ)| ≤ 1000000 := by
    have : |(cx : ℚ)| ≤ 4096 := by exact_mod_cast hcx
    linarith
  have hcyq : |(cy : ℚ)| ≤ 1000000 := by
    have : |(cy : ℚ)| ≤ 4096 := by exact_mod_cast hcy
    linarith
  obtain ⟨hV1, hV2⟩ := coordinate_err_at (cx : ℚ) (cy : ℚ) R c s al be hcxq hcyq hR0
    (by linarith) hc hs hal hbe
  have hprod : ∀ a b c d : ℚ, |a| ≤ 1 → |b| ≤ 1 → |c| ≤ 1 → |d| ≤ 1 →
      |R * (a * b - c * d)| ≤ 512 ∧ |R * (a * b + c * d)| ≤ 512 := by
    intro a b c d ha hb hc hd
    have h1 : |a * b| ≤ 1 := by
      rw [abs_mul]
      calc |a| * |b| ≤ 1 * 1 := mul_le_mul ha hb (abs_nonneg _) (by norm_num)
        _ = 1 := by ring
    have h2 : |c * d| ≤ 1 := by
      rw [abs_mul]
      calc |c| * |d| ≤ 1 * 1 := mul_le_mul hc hd (abs_nonneg _) (by norm_num)
        _ = 1 := by ring
    have hR : |R| ≤ 256 := by rw [abs_of_nonneg hR0]; exact hR2
    constructor
    · rw [abs_mul]
      have := abs_sub (a * b) (c * d)
      calc |R| * |a * b - c * d| ≤ 256 * 2 := mul_le_mul hR (by linarith) (abs_nonneg _) (by norm_num)
        _ = 512 := by norm_num
    · rw [abs_mul]
      have := abs_add (a * b) (c * d)
      calc |R| * |a * b + c * d| ≤ 256 * 2 := mul_le_mul hR (by linarith) (abs_nonneg _) (by norm_num)
        _ = 512 := by norm_num
  exact ⟨rounded_offset_err cx _ _ hcx hV1 (hprod c al s be hc hal hs hbe).1,
    rounded_offset_err cy _ _ hcy hV2 (hprod c be s al hc hbe hs hal).2⟩

theorem disc_sample_classify (R P X0 Y0 : ℚ) (d o t J : Int)
    (hR1 : 7 / 2 ≤ R) (hR2 : R ≤ 256) (hP1 : 1 - 31 / 100000000 ≤ P)
    (hP2 : P ≤ 1 + 31 / 100000000) (hS : X0 ^ 2 + Y0 ^ 2 = R ^ 2 * P)
    (hD : |(d : ℚ) - X0| ≤ 1 / 2 + 3 / 10000) (hO : |(o : ℚ) - Y0| ≤ 1 / 2 + 3 / 10000)
    (hod : |o| ≤ |d|) (hd : d ≠ 0)
    (herr : |(J : ℚ) - (o : ℚ) / (d : ℚ) * (t : ℚ)| ≤ 51 / 100) :
    (|d| + 1 ≤ |t| → ¬ ((t : ℚ) ^ 2 + (J : ℚ) ^ 2 ≤ R ^ 2)) ∧
      (|t| ≤ |d| - 1 → (t : ℚ) ^ 2 + (J : ℚ) ^ 2 ≤ R ^ 2) := by
  have hS' : |X0| ^ 2 + |Y0| ^ 2 = R ^ 2 * P := by rw [sq_abs, sq_abs]; exact hS
  have hD' : abs (((|d| : Int) : ℚ) - |X0|) ≤ 1 / 2 + 3 / 10000 := by
    rw [Int.cast_abs]
    exact le_trans (abs_abs_sub_abs_le_abs_sub _ _) hD
  have hO' : abs (((|o| : Int) : ℚ) - |Y0|) ≤ 1 / 2 + 3 / 10000 := by
    rw [Int.cast_abs]
    exact le_trans (abs_abs_sub_abs_le_abs_sub _ _) hO
  obtain ⟨g1, g2, -, g4⟩ := disc_geometry R P |X0| |Y0| (3 / 10000) |d| |o| hR1 hR2 hP1 hP2
    (by norm_num) (le_refl _) (abs_nonneg _) (abs_nonneg _) hS' hD' hO' (abs_nonneg _) hod
  obtain ⟨s1, s2⟩ := sample_offsets o d t J hd hod herr
  constructor
  · intro ht
    exact disc_sample_outside R |d| |o| t J g1 (abs_nonneg _) (abs_nonneg _) ht (s1 ht)
  · intro ht
    obtain ⟨j1, j2⟩ := s2 ht
    exact disc_sample_inside R |d| |o| t J g2 ht j1 j2

theorem disc_dominant_bounds (R P X0 Y0 : ℚ) (d o : Int)
    (hR1 : 7 / 2 ≤ R) (hR2 : R ≤ 256) (hP1 : 1 - 31 / 100000000 ≤ P)
    (hP2 : P ≤ 1 + 31 / 100000000) (hS : X0 ^ 2 + Y0 ^ 2 = R ^ 2 * P)
    (hD : |(d : ℚ) - X0| ≤ 1 / 2 + 3 / 10000) (hO : |(o : ℚ) - Y0| ≤ 1 / 2 + 3 / 10000)
    (hod : |o| ≤ |d|) :
    3 * R / 10 ≤ 2 * ((|d| : Int) : ℚ) - 1 ∧ |d| ≤ 258 := by
  have hS' : |X0| ^ 2 + |Y0| ^ 2 = R ^ 2 * P := by rw [sq_abs, sq_abs]; exact hS
  have hD' : abs (((|d| : Int) : ℚ) - |X0|) ≤ 1 / 2 + 3 / 10000 := by
    rw [Int.cast_abs]
    exact le_trans (abs_abs_sub_abs_le_abs_sub _ _) hD
  have hO' : abs (((|o| : Int) : ℚ) - |Y0|) ≤ 1 / 2 + 3 / 10000 := by
    rw [Int.cast_abs]
    exact le_trans (abs_abs_sub_abs_le_abs_sub _ _) hO
  obtain ⟨-, -, g3, -⟩ := disc_geometry R P |X0| |Y0| (3 / 10000) |d| |o| hR1 hR2 hP1 hP2
    (by norm_num) (le_refl _) (abs_nonneg _) (abs_nonneg _) hS' hD' hO' (abs_nonneg _) hod
  obtain ⟨-, -, hX, -, -, -⟩ := disc_facts R P |X0| |Y0| (3 / 10000) |d| |o| hR1 hR2 hP1 hP2
    (by norm_num) (le_refl _) (abs_nonneg _) (abs_nonneg _) hS' hD' hO' hod
  refine ⟨g3, ?_⟩
  have h1 := (abs_le.mp hD').2
  have h2 : ((|d| : Int) : ℚ) < 259 := by linarith
  have h3 : |d| < 259 := by exact_mod_cast h2
  omega

theorem discFrame_px (rows cols : Nat) (cx cy r2 : Int) (dark bright : Nat) (row col : Int)
    (hr : 0 ≤ row) (hc : 0 ≤ col) :
    (discFrame rows cols cx cy r2 dark bright).px row col =
      (if (col - cx) ^ 2 + (row - cy) ^ 2 ≤ r2 then dark else bright) % 256 := by
  unfold Mat.px discFrame
  simp only [Int.toNat_of_nonneg hr, Int.toNat_of_nonneg hc]

theorem discFrame_px_of_offsets (rows cols : Nat) (cx cy : Int) (R : ℚ) (dark bright : Nat)
    (row col : Int) (hr : 0 ≤ row) (hc : 0 ≤ col) (hd8 : dark ≤ 255) (hb8 : bright ≤ 255) :
    (¬ (((col - cx : Int) : ℚ) ^ 2 + ((row - cy : Int) : ℚ) ^ 2 ≤ R ^ 2) →
        (discFrame rows cols cx cy ⌊R ^ 2⌋ dark bright).px row col = bright) ∧
      ((((col - cx : Int) : ℚ) ^ 2 + ((row - cy : Int) : ℚ) ^ 2 ≤ R ^ 2) →
        (discFrame rows cols cx cy ⌊R ^ 2⌋ dark bright).px row col = dark) := by
  rw [discFrame_px _ _ _ _ _ _ _ _ _ hr hc]
  have hiff : (col - cx) ^ 2 + (row - cy) ^ 2 ≤ ⌊R ^ 2⌋ ↔
      (((col - cx : Int) : ℚ) ^ 2 + ((row - cy : Int) : ℚ) ^ 2 ≤ R ^ 2) := by
    rw [Int.le_floor]
    push_cast
    rfl
  constructor
  · intro h
    rw [if_neg (fun hc => h (hiff.mp hc))]
    omega
  · intro h
    rw [if_pos (hiff.mpr h)]
    omega

theorem away_offset (m t k : Int) (hk1 : 1 ≤ k)
    (h : (m < 0 ∧ t = m - k) ∨ (0 < m ∧ t = m + k)) : |m| + 1 ≤ |t| := by
  rcases h with ⟨hm, rfl⟩ | ⟨hm, rfl⟩
  · rw [abs_of_neg hm, abs_of_neg (by omega)]; omega
  · rw [abs_of_pos hm, abs_of_pos (by omega)]; omega

theorem toward_offset (m t k : Int) (hk1 : 1 ≤ k) (hk2 : k ≤ 2 * |m| - 1)
    (h : (m < 0 ∧ t = m + k) ∨ (0 < m ∧ t = m - k)) : |t| ≤ |m| - 1 := by
  rcases h with ⟨hm, rfl⟩ | ⟨hm, rfl⟩
  · rw [abs_of_neg hm] at hk2 ⊢
    rw [abs_le]; constructor <;> omega
  · rw [abs_of_pos hm] at hk2 ⊢
    rw [abs_le]; constructor <;> omega

theorem outerPixels_mem_h (c p : Point) (delta : Int) (rc : Int × Int)
    (hh : horizontallyDominant c p = true) (h : rc ∈ outerPixels c delta p) :
    ∃ x k : Int, rc = hSample (slopeOf c p) (interceptOf c (slopeOf c p)) x ∧ 1 ≤ k ∧
      k ≤ delta ∧ ((p.x < c.x ∧ x = p.x - k) ∨ (¬ p.x < c.x ∧ x = p.x + k)) := by
  unfold outerPixels awayIsFirst sampledPixels at h
  simp only [hh, if_true] at h
  by_cases hlt : p.x < c.x
  · simp only [hlt, decide_True, if_true, List.mem_map] at h
    obtain ⟨x, hx, rfl⟩ := h
    have := forLoop_mem _ _ _ _ (by norm_num) hx
    exact ⟨x, p.x - x, rfl, by omega, by omega, Or.inl ⟨hlt, by omega⟩⟩
  · simp only [hlt, decide_False, if_false, List.mem_map, Bool.false_eq_true] at h
    obtain ⟨x, hx, rfl⟩ := h
    have := forLoop_mem _ _ _ _ (by norm_num) hx
    exact ⟨x, x - p.x, rfl, by omega, by omega, Or.inr ⟨hlt, by omega⟩⟩

theorem innerPixels_mem_h (c p : Point) (delta : Int) (rc : Int × Int)
    (hh : horizontallyDominant c p = true) (h : rc ∈ innerPixels c delta p) :
    ∃ x k : Int, rc = hSample (slopeOf c p) (interceptOf c (slopeOf c p)) x ∧ 1 ≤ k ∧
      k ≤ delta ∧ ((p.x < c.x ∧ x = p.x + k) ∨ (¬ p.x < c.x ∧ x = p.x - k)) := by
  unfold innerPixels awayIsFirst sampledPixels at h
  simp only [hh, if_true] at h
  by_cases hlt : p.x < c.x
  · simp only [hlt, decide_True, if_true, List.mem_map] at h
    obtain ⟨x, hx, rfl⟩ := h
    have := forLoop_mem _ _ _ _ (by norm_num) hx
    exact ⟨x, x - p.x, rfl, by omega, by omega, Or.inl ⟨hlt, by omega⟩⟩
  · simp only [hlt, decide_False, if_false, List.mem_map, Bool.false_eq_true] at h
    obtain ⟨x, hx, rfl⟩ := h
    have := forLoop_mem _ _ _ _ (by norm_num) hx
    exact ⟨x, p.x - x, rfl, by omega, by omega, Or.inr ⟨hlt, by omega⟩⟩

theorem outerPixels_mem_v (c p : Point) (delta : Int) (rc : Int × Int)
    (hh : horizontallyDominant c p = false) (h : rc ∈ outerPixels c delta p) :
    ∃ y k : Int, rc = vSample (slopeOf c p) (interceptOf c (slopeOf c p)) y ∧ 1 ≤ k ∧
      k ≤ delta ∧ ((p.y < c.y ∧ y = p.y - k) ∨ (¬ p.y < c.y ∧ y = p.y + k)) := by
  unfold outerPixels awayIsFirst sampledPixels at h
  simp only [hh, if_false, Bool.false_eq_true] at h
  by_cases hlt : p.y < c.y
  · simp only [hlt, decide_True, if_true, List.mem_map] at h
    obtain ⟨y, hy, rfl⟩ := h
    have := forLoop_mem _ _ _ _ (by norm_num) hy
    exact ⟨y, p.y - y, rfl, by omega, by omega, Or.inl ⟨hlt, by omega⟩⟩
  · simp only [hlt, decide_False, if_false, List.mem_map, Bool.false_eq_true] at h
    obtain ⟨y, hy, rfl⟩ := h
    have := forLoop_mem _ _ _ _ (by norm_num) hy
    exact ⟨y, y - p.y, rfl, by omega, by omega, Or.inr ⟨hlt, by omega⟩⟩

theorem innerPixels_mem_v (c p : Point) (delta : Int) (rc : Int × Int)
    (hh : horizontallyDominant c p = false) (h : rc ∈ innerPixels c delta p) :
    ∃ y k : Int, rc = vSample (slopeOf c p) (interceptOf c (slopeOf c p)) y ∧ 1 ≤ k ∧
      k ≤ delta ∧ ((p.y < c.y ∧ y = p.y + k) ∨ (¬ p.y < c.y ∧ y = p.y - k)) := by
  unfold innerPixels awayIsFirst sampledPixels at h
  simp only [hh, if_false, Bool.false_eq_true] at h
  by_cases hlt : p.y < c.y
  · simp only [hlt, decide_True, if_true, List.mem_map] at h
    obtain ⟨y, hy, rfl⟩ := h
    have := forLoop_mem _ _ _ _ (by norm_num) hy
    exact ⟨y, y - p.y, rfl, by omega, by omega, Or.inl ⟨hlt, by omega⟩⟩
  · simp only [hlt, decide_False, if_false, List.mem_map, Bool.false_eq_true] at h
    obtain ⟨y, hy, rfl⟩ := h
    have := forLoop_mem _ _ _ _ (by norm_num) hy
    exact ⟨y, p.y - y, rfl, by omega, by omega, Or.inr ⟨hlt, by omega⟩⟩

theorem pixels_subset (c p : Point) (delta : Int) (rc : Int × Int)
    (h : rc ∈ outerPixels c delta p ∨ rc ∈ innerPixels c delta p) :
    rc ∈ (sampledPixels c delta p).1 ++ (sampledPixels c delta p).2 := by
  unfold outerPixels innerPixels at h
  rw [List.mem_append]
  rcases h with h | h <;> split at h
  · exact Or.inl h
  · exact Or.inr h
  · exact Or.inr h
  · exact Or.inl h

theorem disc_hSample (rows cols : Nat) (cx cy : Int) (R P u0 v0 : ℚ) (dark bright : Nat)
    (p : Point) (hcx : |cx| ≤ 4096) (hcy : |cy| ≤ 4096)
    (hR1 : 7 / 2 ≤ R) (hR2 : R ≤ 256) (hP1 : 1 - 31 / 100000000 ≤ P)
    (hP2 : P ≤ 1 + 31 / 100000000) (hS : u0 ^ 2 + v0 ^ 2 = R ^ 2 * P)
    (hm : |((p.x - cx : Int) : ℚ) - u0| ≤ 1 / 2 + 3 / 10000)
    (hn : |((p.y - cy : Int) : ℚ) - v0| ≤ 1 / 2 + 3 / 10000)
    (hd8 : dark ≤ 255) (hb8 : bright ≤ 255)
    (hdom : |p.y - cy| ≤ |p.x - cx|) (hm0 : p.x - cx ≠ 0) (x : Int) (hx0 : 0 ≤ x)
    (hx1 : x ≤ 4096)
    (hrow : 0 ≤ (hSample (slopeOf ⟨cx, cy⟩ p) (interceptOf ⟨cx, cy⟩ (slopeOf ⟨cx, cy⟩ p)) x).1) :
    (|p.x - cx| + 1 ≤ |x - cx| →
        (discFrame rows cols cx cy ⌊R ^ 2⌋ dark bright).px
          (hSample (slopeOf ⟨cx, cy⟩ p) (interceptOf ⟨cx, cy⟩ (slopeOf ⟨cx, cy⟩ p)) x).1
          (hSample (slopeOf ⟨cx, cy⟩ p) (interceptOf ⟨cx, cy⟩ (slopeOf ⟨cx, cy⟩ p)) x).2 =
            bright) ∧
      (|x - cx| ≤ |p.x - cx| - 1 →
        (discFrame rows cols cx cy ⌊R ^ 2⌋ dark bright).px
          (hSample (slopeOf ⟨cx, cy⟩ p) (interceptOf ⟨cx, cy⟩ (slopeOf ⟨cx, cy⟩ p)) x).1
          (hSample (slopeOf ⟨cx, cy⟩ p) (interceptOf ⟨cx, cy⟩ (slopeOf ⟨cx, cy⟩ p)) x).2 =
            dark) := by
  obtain ⟨-, hmB⟩ := disc_dominant_bounds R P u0 v0 (p.x - cx) (p.y - cy) hR1 hR2 hP1 hP2 hS
    hm hn hdom
  have hmB' : |p.x - cx| ≤ 4096 := by omega
  have hL : |lineAt (slopeOf ⟨cx, cy⟩ p) (interceptOf ⟨cx, cy⟩ (slopeOf ⟨cx, cy⟩ p)) x -
      ((cy : ℚ) + ((p.y - cy : Int) : ℚ) / ((p.x - cx : Int) : ℚ) * ((x : ℚ) - cx))| ≤
      1 / 100 :=
    lineAt_err ⟨cx, cy⟩ p x hm0 hdom hmB' hcx hcy (by rw [abs_of_nonneg hx0]; exact hx1)
  simp only [hSample] at hrow ⊢
  obtain ⟨Q, hQ⟩ : ∃ Q : ℚ, Q = lineAt (slopeOf ⟨cx, cy⟩ p)
    (interceptOf ⟨cx, cy⟩ (slopeOf ⟨cx, cy⟩ p)) x := ⟨_, rfl⟩
  rw [← hQ] at hL hrow ⊢
  have hr := roundHalfAway_err Q
  have herr : |((roundHalfAway Q - cy : Int) : ℚ) -
      ((p.y - cy : Int) : ℚ) / ((p.x - cx : Int) : ℚ) * ((x - cx : Int) : ℚ)| ≤ 51 / 100 := by
    have e : ((roundHalfAway Q - cy : Int) : ℚ) -
        ((p.y - cy : Int) : ℚ) / ((p.x - cx : Int) : ℚ) * ((x - cx : Int) : ℚ) =
        ((roundHalfAway Q : ℚ) - Q) + (Q - ((cy : ℚ) +
          ((p.y - cy : Int) : ℚ) / ((p.x - cx : Int) : ℚ) * ((x : ℚ) - cx))) := by
      push_cast
      ring
    rw [e]
    have := abs_add ((roundHalfAway Q : ℚ) - Q) (Q - ((cy : ℚ) +
          ((p.y - cy : Int) : ℚ) / ((p.x - cx : Int) : ℚ) * ((x : ℚ) - cx)))
    linarith
  obtain ⟨c1, c2⟩ := disc_sample_classify R P u0 v0 (p.x - cx) (p.y - cy) (x - cx)
    (roundHalfAway Q - cy) hR1 hR2 hP1 hP2 hS hm hn hdom hm0 herr
  obtain ⟨f1, f2⟩ := discFrame_px_of_offsets rows cols cx cy R dark bright (roundHalfAway Q) x
    hrow hx0 hd8 hb8
  exact ⟨fun h => f1 (c1 h), fun h => f2 (c2 h)⟩

theorem disc_vSample (rows cols : Nat) (cx cy : Int) (R P u0 v0 : ℚ) (dark bright : Nat)
    (p : Point) (hcx : |cx| ≤ 4096) (hcy : |cy| ≤ 4096)
    (hR1 : 7 / 2 ≤ R) (hR2 : R ≤ 256) (hP1 : 1 - 31 / 100000000 ≤ P)
    (hP2 : P ≤ 1 + 31 / 100000000) (hS : u0 ^ 2 + v0 ^ 2 = R ^ 2 * P)
    (hm : |((p.x - cx : Int) : ℚ) - u0| ≤ 1 / 2 + 3 / 10000)
    (hn : |((p.y - cy : Int) : ℚ) - v0| ≤ 1 / 2 + 3 / 10000)
    (hd8 : dark ≤ 255) (hb8 : bright ≤ 255)
    (hdom : |p.x - cx| ≤ |p.y - cy|) (hm0 : p.x - cx ≠ 0) (y : Int) (hy0 : 0 ≤ y)
    (hy1 : y ≤ 4096)
    (hcol : 0 ≤ (vSample (slopeOf ⟨cx, cy⟩ p) (interceptOf ⟨cx, cy⟩ (slopeOf ⟨cx, cy⟩ p)) y).2) :
    (|p.y - cy| + 1 ≤ |y - cy| →
        (discFrame rows cols cx cy ⌊R ^ 2⌋ dark bright).px
          (vSample (slopeOf ⟨cx, cy⟩ p) (interceptOf ⟨cx, cy⟩ (slopeOf ⟨cx, cy⟩ p)) y).1
          (vSample (slopeOf ⟨cx, cy⟩ p) (interceptOf ⟨cx, cy⟩ (slopeOf ⟨cx, cy⟩ p)) y).2 =
            bright) ∧
      (|y - cy| ≤ |p.y - cy| - 1 →
        (discFrame rows cols cx cy ⌊R ^ 2⌋ dark bright).px
          (vSample (slopeOf ⟨cx, cy⟩ p) (interceptOf ⟨cx, cy⟩ (slopeOf ⟨cx, cy⟩ p)) y).1
          (vSample (slopeOf ⟨cx, cy⟩ p) (interceptOf ⟨cx, cy⟩ (slopeOf ⟨cx, cy⟩ p)) y).2 =
            dark) := by
  have hS' : v0 ^ 2 + u0 ^ 2 = R ^ 2 * P := by rw [add_comm]; exact hS
  have hn0 : p.y - cy ≠ 0 := by
    intro h
    rw [h] at hdom
    have : |p.x - cx| = 0 := le_antisymm hdom (abs_nonneg _)
    exact hm0 (abs_eq_zero.mp this)
  obtain ⟨-, hnB⟩ := disc_dominant_bounds R P v0 u0 (p.y - cy) (p.x - cx) hR1 hR2 hP1 hP2 hS'
    hn hm hdom
  have hnB' : |p.y - cy| ≤ 4096 := by omega
  have hL : |lineInvAt (slopeOf ⟨cx, cy⟩ p) (interceptOf ⟨cx, cy⟩ (slopeOf ⟨cx, cy⟩ p)) y -
      ((cx : ℚ) + ((p.x - cx : Int) : ℚ) / ((p.y - cy : Int) : ℚ) * ((y : ℚ) - cy))| ≤
      1 / 100 :=
    lineInvAt_err ⟨cx, cy⟩ p y hm0 hdom hnB' hcx hcy (by rw [abs_of_nonneg hy0]; exact hy1)
  simp only [vSample] at hcol ⊢
  obtain ⟨Q, hQ⟩ : ∃ Q : ℚ, Q = lineInvAt (slopeOf ⟨cx, cy⟩ p)
    (interceptOf ⟨cx, cy⟩ (slopeOf ⟨cx, cy⟩ p)) y := ⟨_, rfl⟩
  rw [← hQ] at hL hcol ⊢
  have hr := roundHalfAway_err Q
  have herr : |((roundHalfAway Q - cx : Int) : ℚ) -
      ((p.x - cx : Int) : ℚ) / ((p.y - cy : Int) : ℚ) * ((y - cy : Int) : ℚ)| ≤ 51 / 100 := by
    have e : ((roundHalfAway Q - cx : Int) : ℚ) -
        ((p.x - cx : Int) : ℚ) / ((p.y - cy : Int) : ℚ) * ((y - cy : Int) : ℚ) =
        ((roundHalfAway Q : ℚ) - Q) + (Q - ((cx : ℚ) +
          ((p.x - cx : Int) : ℚ) / ((p.y - cy : Int) : ℚ) * ((y : ℚ) - cy))) := by
      push_cast
      ring
    rw [e]
    have := abs_add ((roundHalfAway Q : ℚ) - Q) (Q - ((cx : ℚ) +
          ((p.x - cx : Int) : ℚ) / ((p.y - cy : Int) : ℚ) * ((y : ℚ) - cy)))
    linarith
  obtain ⟨c1, c2⟩ := disc_sample_classify R P v0 u0 (p.y - cy) (p.x - cx) (y - cy)
    (roundHalfAway Q - cx) hR1 hR2 hP1 hP2 hS' hn hm hdom hn0 herr
  obtain ⟨f1, f2⟩ := discFrame_px_of_offsets rows cols cx cy R dark bright y (roundHalfAway Q)
    hy0 hcol hd8 hb8
  constructor
  · intro h
    apply f1
    rw [add_comm]
    exact c1 h
  · intro h
    apply f2
    rw [add_comm]
    exact c2 h

theorem disc_point_pixels (rows cols : Nat) (cx cy : Int) (R P u0 v0 : ℚ) (dark bright : Nat)
    (delta : Int) (p : Point) (hrows : rows ≤ 4096) (hcols : cols ≤ 4096)
    (hcx : |cx| ≤ 4096) (hcy : |cy| ≤ 4096)
    (hR1 : 7 / 2 ≤ R) (hR2 : R ≤ 256) (hP1 : 1 - 31 / 100000000 ≤ P)
    (hP2 : P ≤ 1 + 31 / 100000000) (hS : u0 ^ 2 + v0 ^ 2 = R ^ 2 * P)
    (hm : |((p.x - cx : Int) : ℚ) - u0| ≤ 1 / 2 + 3 / 10000)
    (hn : |((p.y - cy : Int) : ℚ) - v0| ≤ 1 / 2 + 3 / 10000)
    (hd8 : dark ≤ 255) (hb8 : bright ≤ 255) (hdelta2 : (delta : ℚ) ≤ 3 * R / 10)
    (hnz : nonZeroSlope ⟨cx, cy⟩ p = true)
    (hins : segmentInside (discFrame rows cols cx cy ⌊R ^ 2⌋ dark bright) ⟨cx, cy⟩ delta p =
      true) :
    (∀ rc ∈ outerPixels ⟨cx, cy⟩ delta p,
        (discFrame rows cols cx cy ⌊R ^ 2⌋ dark bright).px rc.1 rc.2 = bright) ∧
      (∀ rc ∈ innerPixels ⟨cx, cy⟩ delta p,
        (discFrame rows cols cx cy ⌊R ^ 2⌋ dark bright).px rc.1 rc.2 = dark) := by
  have hslope : ¬ (p.x - cx = 0 ∨ p.y - cy = 0) := by
    intro h
    have := (slopeOf_eq_zero ⟨cx, cy⟩ p).mpr h
    simp [nonZeroSlope, this] at hnz
  push_neg at hslope
  obtain ⟨hm0, hn0⟩ := hslope
  have hin := sampledPixels_inside _ _ _ _ hins
  have hfr : ∀ rc : Int × Int, rc ∈ outerPixels ⟨cx, cy⟩ delta p ∨
      rc ∈ innerPixels ⟨cx, cy⟩ delta p → 0 ≤ rc.2 ∧ rc.2 ≤ 4096 ∧ 0 ≤ rc.1 ∧ rc.1 ≤ 4096 := by
    intro rc h
    obtain ⟨a1, a2, a3, a4⟩ := hin rc (pixels_subset _ _ _ _ h)
    have e1 : ((discFrame rows cols cx cy ⌊R ^ 2⌋ dark bright).cols : Int) = cols := rfl
    have e2 : ((discFrame rows cols cx cy ⌊R ^ 2⌋ dark bright).rows : Int) = rows := rfl
    rw [e1] at a2
    rw [e2] at a4
    omega
  by_cases hh : horizontallyDominant ⟨cx, cy⟩ p = true
  · have hdom : |p.y - cy| ≤ |p.x - cx| := by
      have : |p.x - cx| > |p.y - cy| := by simpa [horizontallyDominant] using hh
      omega
    obtain ⟨hk, -⟩ := disc_dominant_bounds R P u0 v0 (p.x - cx) (p.y - cy) hR1 hR2 hP1 hP2 hS
      hm hn hdom
    have hkI : delta ≤ 2 * |p.x - cx| - 1 := by
      have : (delta : ℚ) ≤ 2 * ((|p.x - cx| : Int) : ℚ) - 1 := le_trans hdelta2 hk
      exact_mod_cast this
    constructor
    · intro rc hrc
      obtain ⟨b1, b2, b3, b4⟩ := hfr rc (Or.inl hrc)
      obtain ⟨x, k, rfl, hk1, hk2, hside⟩ := outerPixels_mem_h _ _ _ _ hh hrc
      refine (disc_hSample rows cols cx cy R P u0 v0 dark bright p hcx hcy hR1 hR2 hP1 hP2 hS
        hm hn hd8 hb8 hdom hm0 x b1 b2 b3).1 ?_
      apply away_offset (p.x - cx) (x - cx) k hk1
      rcases hside with ⟨h1, h2⟩ | ⟨h1, h2⟩
      · left
        have h1' : p.x < cx := h1
        exact ⟨by omega, by omega⟩
      · right
        have h1' : ¬ p.x < cx := h1
        exact ⟨by omega, by omega⟩
    · intro rc hrc
      obtain ⟨b1, b2, b3, b4⟩ := hfr rc (Or.inr hrc)
      obtain ⟨x, k, rfl, hk1, hk2, hside⟩ := innerPixels_mem_h _ _ _ _ hh hrc
      refine (disc_hSample rows cols cx cy R P u0 v0 dark bright p hcx hcy hR1 hR2 hP1 hP2 hS
        hm hn hd8 hb8 hdom hm0 x b1 b2 b3).2 ?_
      apply toward_offset (p.x - cx) (x - cx) k hk1 (by omega)
      rcases hside with ⟨h1, h2⟩ | ⟨h1, h2⟩
      · left
        have h1' : p.x < cx := h1
        exact ⟨by omega, by omega⟩
      · right
        have h1' : ¬ p.x < cx := h1
        exact ⟨by omega, by omega⟩
  · have hh' : horizontallyDominant ⟨cx, cy⟩ p = false := by simpa using hh
    have hdom : |p.x - cx| ≤ |p.y - cy| := by
      have : ¬ |p.x - cx| > |p.y - cy| := by simpa [horizontallyDominant] using hh
      omega
    have hS' : v0 ^ 2 + u0 ^ 2 = R ^ 2 * P := by rw [add_comm]; exact hS
    obtain ⟨hk, -⟩ := disc_dominant_bounds R P v0 u0 (p.y - cy) (p.x - cx) hR1 hR2 hP1 hP2 hS'
      hn hm hdom
    have hkI : delta ≤ 2 * |p.y - cy| - 1 := by
      have : (delta : ℚ) ≤ 2 * ((|p.y - cy| : Int) : ℚ) - 1 := le_trans hdelta2 hk
      exact_mod_cast this
    constructor
    · intro rc hrc
      obtain ⟨b1, b2, b3, b4⟩ := hfr rc (Or.inl hrc)
      obtain ⟨y, k, rfl, hk1, hk2, hside⟩ := outerPixels_mem_v _ _ _ _ hh' hrc
      refine (disc_vSample rows cols cx cy R P u0 v0 dark bright p hcx hcy hR1 hR2 hP1 hP2 hS
        hm hn hd8 hb8 hdom hm0 y b3 b4 b1).1 ?_
      apply away_offset (p.y - cy) (y - cy) k hk1
      rcases hside with ⟨h1, h2⟩ | ⟨h1, h2⟩
      · left
        have h1' : p.y < cy := h1
        exact ⟨by omega, by omega⟩
      · right
        have h1' : ¬ p.y < cy := h1
        exact ⟨by omega, by omega⟩
    · intro rc hrc
      obtain ⟨b1, b2, b3, b4⟩ := hfr rc (Or.inr hrc)
      obtain ⟨y, k, rfl, hk1, hk2, hside⟩ := innerPixels_mem_v _ _ _ _ hh' hrc
      refine (disc_vSample rows cols cx cy R P u0 v0 dark bright p hcx hcy hR1 hR2 hP1 hP2 hS
        hm hn hd8 hb8 hdom hm0 y b3 b4 b1).2 ?_
      apply toward_offset (p.y - cy) (y - cy) k hk1 (by omega)
      rcases hside with ⟨h1, h2⟩ | ⟨h1, h2⟩
      · left
        have h1' : p.y < cy := h1
        exact ⟨by omega, by omega⟩
      · right
        have h1' : ¬ p.y < cy := h1
        exact ⟨by omega, by omega⟩

theorem offset_ne_zero (R w : ℚ) (m : Int) (hR : 7 / 2 ≤ R) (hw : 3 / 20 ≤ |w|)
    (h : |(m : ℚ) - R * w| ≤ 1 / 2 + 3 / 10000) : m ≠ 0 := by
  intro h0
  rw [h0] at h
  simp only [Int.cast_zero, zero_sub, abs_neg, abs_mul] at h
  have hR' : |R| = R := abs_of_nonneg (by linarith)
  rw [hR'] at h
  have := mul_le_mul hR hw (by norm_num) (by linarith : (0 : ℚ) ≤ R)
  norm_num at this
  linarith

theorem rotated_pair (al be c s : ℚ) (hunit : 1 - 3 / 20000000 ≤ be ^ 2 + al ^ 2)
    (hc1 : 766 / 1000 ≤ c) (hc2 : c ≤ 7661 / 10000) (hs1 : 6427 / 10000 ≤ s)
    (hs2 : s ≤ 6428 / 10000) (hsmall : |al| < 3 / 20 ∨ |be| < 3 / 20) :
    3 / 20 ≤ |c * al - s * be| ∧ 3 / 20 ≤ |c * be + s * al| := by
  have hc0 : 0 < c := by linarith
  have hs0 : 0 < s := by linarith
  have big : ∀ z w : ℚ, 1 - 3 / 20000000 ≤ w ^ 2 + z ^ 2 → |w| < 3 / 20 → 98 / 100 ≤ |z| := by
    intro z w h hw
    by_contra hc
    push_neg at hc
    have h1 := pow_lt_pow_left₀ hc (abs_nonneg z) (by norm_num : 2 ≠ 0)
    have h2 := pow_lt_pow_left₀ hw (abs_nonneg w) (by norm_num : 2 ≠ 0)
    rw [sq_abs] at h1 h2
    norm_num at h1 h2
    linarith
  have key : ∀ z w : ℚ, 98 / 100 ≤ |z| → |w| < 3 / 20 →
      3 / 20 ≤ c * |z| - s * |w| ∧ 3 / 20 ≤ s * |z| - c * |w| := by
    intro z w hz hw
    have p1 : 766 / 1000 * (98 / 100) ≤ c * |z| := mul_le_mul hc1 hz (by norm_num) hc0.le
    have p2 : s * |w| ≤ 6428 / 10000 * (3 / 20) := mul_le_mul hs2 hw.le (abs_nonneg _) (by norm_num)
    have p3 : 6427 / 10000 * (98 / 100) ≤ s * |z| := mul_le_mul hs1 hz (by norm_num) hs0.le
    have p4 : c * |w| ≤ 7661 / 10000 * (3 / 20) := mul_le_mul hc2 hw.le (abs_nonneg _) (by norm_num)
    constructor
    · norm_num at p1 p2 ⊢; linarith
    · norm_num at p3 p4 ⊢; linarith
  have ac : ∀ z : ℚ, |c * z| = c * |z| := fun z => by rw [abs_mul, abs_of_pos hc0]
  have as : ∀ z : ℚ, |s * z| = s * |z| := fun z => by rw [abs_mul, abs_of_pos hs0]
  rcases hsmall with h | h
  · -- al small, be big
    have hb := big be al (by linarith) h
    obtain ⟨k1, k2⟩ := key be al hb h
    constructor
    · have := abs_sub_abs_le_abs_sub (s * be) (c * al)
      rw [as, ac, abs_sub_comm] at this
      linarith
    · have := abs_sub_abs_le_abs_sub (c * be) (-(s * al))
      rw [ac, abs_neg, as, sub_neg_eq_add] at this
      linarith
  · have hb := big al be hunit h
    obtain ⟨k1, k2⟩ := key al be hb h
    constructor
    · have := abs_sub_abs_le_abs_sub (c * al) (s * be)
      rw [ac, as] at this
      linarith
    · have := abs_sub_abs_le_abs_sub (s * al) (-(c * be))
      rw [as, abs_neg, ac, sub_neg_eq_add, add_comm] at this
      linarith

theorem sinTableF_samples :
    f32 (sinTableAt 450) = 1 ∧ f32 (sinTableAt 0) = 0 ∧
      766 / 1000 ≤ f32 (sinTableAt 410) ∧ f32 (sinTableAt 410) ≤ 7661 / 10000 ∧
      6427 / 10000 ≤ f32 (sinTableAt 40) ∧ f32 (sinTableAt 40) ≤ 6428 / 10000 := by
  decide!

theorem circleHypothesis_center (cx cy : Int) (R angle : ℚ) :
    centerOf (circleHypothesis cx cy R angle) = ⟨cx, cy⟩ := by
  unfold centerOf circleHypothesis
  simp only [roundHalfEven_intCast]

theorem circleHypothesis_delta (cx cy : Int) (R angle : ℚ) (hR1 : 7 ≤ 2 * R)
    (hR2 : 2 * R ≤ 512) :
    1 ≤ deltaOf (circleHypothesis cx cy R angle) ∧
      deltaOf (circleHypothesis cx cy R angle) ≤ 65536 ∧
      (deltaOf (circleHypothesis cx cy R angle) : ℚ) ≤ 3 * R / 10 := by
  unfold deltaOf circleHypothesis Pupil.minorAxis
  simp only [min_self]
  have h0 : (0 : ℚ) ≤ 2 * R := by linarith
  have hT : truncToInt (2 * R) = ⌊2 * R⌋ := by
    unfold truncToInt
    rw [if_pos h0]
  rw [hT]
  have hT1 : (7 : Int) ≤ ⌊2 * R⌋ := Int.le_floor.mpr (by exact_mod_cast hR1)
  have hT2 : ((⌊2 * R⌋ : Int) : ℚ) ≤ 2 * R := Int.floor_le _
  have hTq : (7 : ℚ) ≤ ((⌊2 * R⌋ : Int) : ℚ) := by exact_mod_cast hT1
  have h1 : (0 : ℚ) ≤ 15 / 100 * ((⌊2 * R⌋ : Int) : ℚ) := by linarith
  have hD : truncToInt (15 / 100 * ((⌊2 * R⌋ : Int) : ℚ)) =
      ⌊(15 / 100 : ℚ) * ((⌊2 * R⌋ : Int) : ℚ)⌋ := by
    unfold truncToInt
    rw [if_pos h1]
  rw [hD]
  have hD1 : (1 : Int) ≤ ⌊(15 / 100 : ℚ) * ((⌊2 * R⌋ : Int) : ℚ)⌋ :=
    Int.le_floor.mpr (by push_cast; linarith)
  have hD2 : ((⌊(15 / 100 : ℚ) * ((⌊2 * R⌋ : Int) : ℚ)⌋ : Int) : ℚ) ≤
      15 / 100 * ((⌊2 * R⌋ : Int) : ℚ) := Int.floor_le _
  refine ⟨hD1, ?_, by linarith⟩
  have : ((⌊(15 / 100 : ℚ) * ((⌊2 * R⌋ : Int) : ℚ)⌋ : Int) : ℚ) ≤ ((65536 : Int) : ℚ) := by
    push_cast
    linarith
  exact_mod_cast this

theorem circleHypothesis_points (cx cy : Int) (R angle : ℚ) (hcx : |cx| ≤ 4096)
    (hcy : |cy| ≤ 4096) (hR1 : 7 / 2 ≤ R) (hR2 : R ≤ 256) :
    ∃ al be : ℚ, |al| ≤ 1 ∧ |be| ≤ 1 ∧ 1 - 3 / 20000000 ≤ be ^ 2 + al ^ 2 ∧
      be ^ 2 + al ^ 2 ≤ 1 + 3 / 20000000 ∧
      (∀ p ∈ ellipse2Points (circleHypothesis cx cy R angle) 10, ∃ i : Int,
        0 ≤ i ∧ i < 360 ∧
        |((p.x - cx : Int) : ℚ) -
          R * (f32 (sinTableAt (450 - i)) * al - f32 (sinTableAt i) * be)| ≤
            1 / 2 + 3 / 10000 ∧
        |((p.y - cy : Int) : ℚ) -
          R * (f32 (sinTableAt (450 - i)) * be + f32 (sinTableAt i) * al)| ≤
            1 / 2 + 3 / 10000) ∧
      (∀ i : Int, i ∈ forLoop 0 360 10 →
        ∃ p ∈ ellipse2Points (circleHypothesis cx cy R angle) 10,
          |((p.x - cx : Int) : ℚ) -
            R * (f32 (sinTableAt (450 - i)) * al - f32 (sinTableAt i) * be)| ≤
              1 / 2 + 3 / 10000 ∧
          |((p.y - cy : Int) : ℚ) -
            R * (f32 (sinTableAt (450 - i)) * be + f32 (sinTableAt i) * al)| ≤
              1 / 2 + 3 / 10000) := by
  obtain ⟨hn0, hn1, -, -⟩ := normalizedAngle_spec (circleHypothesis cx cy R angle)
  obtain ⟨t, ht⟩ : ∃ t : Int, t = normalizedAngle (circleHypothesis cx cy R angle) := ⟨_, rfl⟩
  rw [← ht] at hn0 hn1
  have hsc : sincos t = (sinTableAt (450 - t), sinTableAt t) := by
    unfold sincos
    simp [not_lt.mpr hn0]
  obtain ⟨ha1, ha2⟩ := sinTableF_unit t hn0 hn1
  have hal := sinTableF_abs (450 - t) (by omega) (by omega)
  have hbe := sinTableF_abs t hn0 (by omega)
  have hR0 : (0 : ℚ) ≤ R := by linarith
  have hpt : ∀ i : Int, 0 ≤ i → i < 360 →
      |(((ellipsePoint (circleHypothesis cx cy R angle) (sinTableAt (450 - t))
          (sinTableAt t) i).x - cx : Int) : ℚ) -
        R * (f32 (sinTableAt (450 - i)) * f32 (sinTableAt (450 - t)) -
          f32 (sinTableAt i) * f32 (sinTableAt t))| ≤ 1 / 2 + 3 / 10000 ∧
      |(((ellipsePoint (circleHypothesis cx cy R angle) (sinTableAt (450 - t))
          (sinTableAt t) i).y - cy : Int) : ℚ) -
        R * (f32 (sinTableAt (450 - i)) * f32 (sinTableAt t) +
          f32 (sinTableAt i) * f32 (sinTableAt (450 - t)))| ≤ 1 / 2 + 3 / 10000 := by
    intro i hi0 hi1
    exact ellipsePoint_offsets cx cy R angle _ _ i hcx hcy hR0 hR2
      (sinTableF_abs (450 - i) (by omega) (by omega)) (sinTableF_abs i hi0 (by omega)) hal hbe
  have hlist : ellipse2Points (circleHypothesis cx cy R angle) 10 =
      (forLoop 0 360 10).map (ellipsePoint (circleHypothesis cx cy R angle)
        (sinTableAt (450 - t)) (sinTableAt t)) := by
    unfold ellipse2Points
    simp only [← ht, hsc]
  refine ⟨f32 (sinTableAt (450 - t)), f32 (sinTableAt t), hal, hbe, ha1, ha2, ?_, ?_⟩
  · intro p hp
    rw [hlist, List.mem_map] at hp
    obtain ⟨i, hi, rfl⟩ := hp
    obtain ⟨hi0, hi1⟩ := forLoop_mem 0 360 10 i (by norm_num) hi
    exact ⟨i, hi0, hi1, hpt i hi0 hi1⟩
  · intro i hi
    obtain ⟨hi0, hi1⟩ := forLoop_mem 0 360 10 i (by norm_num) hi
    refine ⟨_, ?_, hpt i hi0 hi1⟩
    rw [hlist]
    exact List.mem_map_of_mem _ hi

theorem circleHypothesis_some (cx cy : Int) (R angle : ℚ) (hcx : |cx| ≤ 4096)
    (hcy : |cy| ≤ 4096) (hR1 : 7 / 2 ≤ R) (hR2 : R ≤ 256) :
    ∃ p ∈ ellipse2Points (circleHypothesis cx cy R angle) 10,
      nonZeroSlope ⟨cx, cy⟩ p = true := by
  obtain ⟨al, be, hal, hbe, hu1, -, -, hex⟩ :=
    circleHypothesis_points cx cy R angle hcx hcy hR1 hR2
  obtain ⟨t1, t2, t3, t4, t5, t6⟩ := sinTableF_samples
  have hnz : ∀ p : Point, p.x - cx ≠ 0 → p.y - cy ≠ 0 → nonZeroSlope ⟨cx, cy⟩ p = true := by
    intro p h1 h2
    unfold nonZeroSlope
    rw [decide_eq_true_eq, ne_eq, slopeOf_eq_zero]
    push_neg
    exact ⟨h1, h2⟩
  by_cases hbig : 3 / 20 ≤ |al| ∧ 3 / 20 ≤ |be|
  · obtain ⟨p, hp, h1, h2⟩ := hex 0 ((forLoop_mem_iff 0 360 10 0 (by norm_num)).mpr
      ⟨0, by norm_num, by norm_num⟩)
    have e450 : (450 : Int) - 0 = 450 := by norm_num
    rw [e450, t1, t2] at h1 h2
    have e1 : R * (1 * al - 0 * be) = R * al := by ring
    have e2 : R * (1 * be + 0 * al) = R * be := by ring
    rw [e1] at h1
    rw [e2] at h2
    exact ⟨p, hp, hnz p (offset_ne_zero R al _ hR1 hbig.1 h1)
      (offset_ne_zero R be _ hR1 hbig.2 h2)⟩
  · have hsmall : |al| < 3 / 20 ∨ |be| < 3 / 20 := by
      by_contra hc
      push_neg at hc
      exact hbig hc
    obtain ⟨p, hp, h1, h2⟩ := hex 40 ((forLoop_mem_iff 0 360 10 40 (by norm_num)).mpr
      ⟨4, by norm_num, by norm_num⟩)
    have e410 : (450 : Int) - 40 = 410 := by norm_num
    rw [e410] at h1 h2
    obtain ⟨r1, r2⟩ := rotated_pair al be _ _ hu1 t3 t4 t5 t6 hsmall
    exact ⟨p, hp, hnz p (offset_ne_zero R _ _ hR1 r1 h1) (offset_ne_zero R _ _ hR1 r2 h2)⟩

/-- C6 (amended): a frame of at most 4096 x 4096 samples holds a dark disc of integer centre
`(cx, cy)` inside the frame and radius `R` (the samples at squared distance at most `R^2`
from the centre are `dark`, all others `bright`, 8-bit values with `bright > dark + bias`);
the hypothesis is the circle of that centre, diameter `2 R` between 7 and 512, and any
rotation angle.  If every sampled outline point of non-zero slope has both ends of its
sampling segment inside the frame, `outlineContrastConfidence` returns 1: every sampled
outline point of non-zero slope is classified valid. -/
theorem outlineContrastConfidence_matching_disc (rows cols : Nat) (cx cy : Int) (R angle : ℚ)
    (dark bright : Nat) (bias : Int) (hrows : rows ≤ 4096) (hcols : cols ≤ 4096)
    (hcx : 0 ≤ cx ∧ cx < cols) (hcy : 0 ≤ cy ∧ cy < rows)
    (hR1 : 7 ≤ 2 * R) (hR2 : 2 * R ≤ 512) (hd8 : dark ≤ 255) (hb8 : bright ≤ 255)
    (hcontrast : (dark : Int) + bias < (bright : Int))
    (hinside : ∀ p ∈ ellipse2Points (circleHypothesis cx cy R angle) 10,
      nonZeroSlope (centerOf (circleHypothesis cx cy R angle)) p = true →
      segmentInside (discFrame rows cols cx cy ⌊R ^ 2⌋ dark bright)
        (centerOf (circleHypothesis cx cy R angle))
        (deltaOf (circleHypothesis cx cy R angle)) p = true) :
    outlineContrastConfidence (discFrame rows cols cx cy ⌊R ^ 2⌋ dark bright)
        (circleHypothesis cx cy R angle) bias = FVal.fin 1 ∧
      ∀ p ∈ ellipse2Points (circleHypothesis cx cy R angle) 10,
        nonZeroSlope (centerOf (circleHypothesis cx cy R angle)) p = true →
        classifiedValid (discFrame rows cols cx cy ⌊R ^ 2⌋ dark bright)
          (centerOf (circleHypothesis cx cy R angle))
          (deltaOf (circleHypothesis cx cy R angle)) bias p = true := by
  have hcx' : |cx| ≤ 4096 := by rw [abs_le]; omega
  have hcy' : |cy| ≤ 4096 := by rw [abs_le]; omega
  have hRa : 7 / 2 ≤ R := by linarith
  have hRb : R ≤ 256 := by linarith
  obtain ⟨hδ1, hδ2, hδ3⟩ := circleHypothesis_delta cx cy R angle hR1 hR2
  have ho : (circleHypothesis cx cy R angle).hasOutline = true := by
    unfold Pupil.hasOutline circleHypothesis
    simp only [Bool.and_eq_true, decide_eq_true_eq, and_self]
    linarith
  have hc := circleHypothesis_center cx cy R angle
  obtain ⟨al, be, hal, hbe, hu1, hu2, hall, -⟩ :=
    circleHypothesis_points cx cy R angle hcx' hcy' hRa hRb
  have hpix : ∀ p ∈ ellipse2Points (circleHypothesis cx cy R angle) 10,
      nonZeroSlope (centerOf (circleHypothesis cx cy R angle)) p = true →
      (∀ rc ∈ outerPixels (centerOf (circleHypothesis cx cy R angle))
          (deltaOf (circleHypothesis cx cy R angle)) p,
        (discFrame rows cols cx cy ⌊R ^ 2⌋ dark bright).px rc.1 rc.2 = bright) ∧
      (∀ rc ∈ innerPixels (centerOf (circleHypothesis cx cy R angle))
          (deltaOf (circleHypothesis cx cy R angle)) p,
        (discFrame rows cols cx cy ⌊R ^ 2⌋ dark bright).px rc.1 rc.2 = dark) := by
    intro p hp hnz
    have hins := hinside p hp hnz
    rw [hc] at hnz hins ⊢
    obtain ⟨i, hi0, hi1, h1, h2⟩ := hall p hp
    obtain ⟨b1, b2⟩ := sinTableF_unit i hi0 (by omega)
    have hD : (R * (f32 (sinTableAt (450 - i)) * al - f32 (sinTableAt i) * be)) ^ 2 +
        (R * (f32 (sinTableAt (450 - i)) * be + f32 (sinTableAt i) * al)) ^ 2 =
        R ^ 2 * ((f32 (sinTableAt i) ^ 2 + f32 (sinTableAt (450 - i)) ^ 2) *
          (be ^ 2 + al ^ 2)) := by ring
    have hA0 : 0 ≤ be ^ 2 + al ^ 2 := by positivity
    have hB0 : 0 ≤ f32 (sinTableAt i) ^ 2 + f32 (sinTableAt (450 - i)) ^ 2 := by positivity
    have hP1 : 1 - 31 / 100000000 ≤ (f32 (sinTableAt i) ^ 2 + f32 (sinTableAt (450 - i)) ^ 2) *
        (be ^ 2 + al ^ 2) := by
      have h := mul_le_mul b1 hu1 (by norm_num) hB0
      have h0 : (1 - 31 / 100000000 : ℚ) ≤ (1 - 3 / 20000000) * (1 - 3 / 20000000) := by
        norm_num
      linarith only [h, h0]
    have hP2 : (f32 (sinTableAt i) ^ 2 + f32 (sinTableAt (450 - i)) ^ 2) *
        (be ^ 2 + al ^ 2) ≤ 1 + 31 / 100000000 := by
      have h := mul_le_mul b2 hu2 hA0 (by norm_num)
      have h0 : ((1 + 3 / 20000000) * (1 + 3 / 20000000) : ℚ) ≤ 1 + 31 / 100000000 := by
        norm_num
      linarith only [h, h0]
    exact disc_point_pixels rows cols cx cy R _ _ _ dark bright _ p hrows hcols hcx' hcy'
      hRa hRb hP1 hP2 hD h1 h2 hd8 hb8 hδ3 hnz hins
  have hsome : ∃ p ∈ ellipse2Points (circleHypothesis cx cy R angle) 10,
      nonZeroSlope (centerOf (circleHypothesis cx cy R angle)) p = true := by
    rw [hc]
    exact circleHypothesis_some cx cy R angle hcx' hcy' hRa hRb
  exact outlineContrastConfidence_of_contrast _ _ bias dark bright ho hδ1 hδ2 hb8 hsome
    hinside (fun p hp hnz => (hpix p hp hnz).1) (fun p hp hnz => (hpix p hp hnz).2) hcontrast

set_option maxHeartbeats 1000000 in
/-- Witness of C6 (amended): a dark disc of radius 7 centred at (20, 20) in a 40 x 40
frame (10 against 21, bias 10) and the matching hypothesis rotated by 25 degrees. -/
theorem outlineContrastConfidence_matching_disc_witness :
    ((7 : ℚ) ≤ 2 * 7 ∧ (2 : ℚ) * 7 ≤ 512 ∧ ((10 : Nat) : Int) + 10 < ((21 : Nat) : Int)) ∧
      (∀ p ∈ ellipse2Points (circleHypothesis 20 20 7 25) 10,
        nonZeroSlope (centerOf (circleHypothesis 20 20 7 25)) p = true →
        segmentInside (discFrame 40 40 20 20 ⌊(7 : ℚ) ^ 2⌋ 10 21)
          (centerOf (circleHypothesis 20 20 7 25))
          (deltaOf (circleHypothesis 20 20 7 25)) p = true) ∧
      outlineContrastConfidence (discFrame 40 40 20 20 ⌊(7 : ℚ) ^ 2⌋ 10 21)
        (circleHypothesis 20 20 7 25) 10 = FVal.fin 1 := by
  have h : ∀ p ∈ ellipse2Points (circleHypothesis 20 20 7 25) 10,
      nonZeroSlope (centerOf (circleHypothesis 20 20 7 25)) p = true →
      segmentInside (discFrame 40 40 20 20 ⌊(7 : ℚ) ^ 2⌋ 10 21)
        (centerOf (circleHypothesis 20 20 7 25))
        (deltaOf (circleHypothesis 20 20 7 25)) p = true := by decide!
  exact ⟨⟨by norm_num, by norm_num, by decide⟩, h,
    (outlineContrastConfidence_matching_disc 40 40 20 20 7 25 10 21 10 (by decide) (by decide)
      (by decide) (by decide) (by norm_num) (by norm_num) (by decide) (by decide) (by decide)
      h).1⟩

end PupilDetectionMethod
